import Mathlib

/-!
# Random layered graph generator: a shallow embedding

Two C++ translation units are embedded:

* `MainCpp`  : `02_knight_and_princess/tevfik_aksoy/main.cpp`, the single-file
  graph model whose edge colours are passed in by the five generation passes;
* `GraphCpp` : `tevfik_aksoy/graph.cpp`, the depth-indexed graph model whose
  edge colours are derived by `calculate_color_for_edge`.

Conventions of the embedding.

* C++ `int` identities, depths and counters are natural numbers; the two
  user-supplied generation parameters stay integers.
* A run that trips an `assert`, indexes a vector outside its bounds or calls a
  library operation outside its domain ends in a `Fault`.  Loops whose bound is
  re-evaluated on the mutated graph are run by `iterate` with a fuel bound on
  the number of iterations; running out of fuel is the fault `out_of_fuel`.
* `probability()` and the `uniform_int_distribution` draws read two streams
  (`Rng`); the state counts how many values of each stream were consumed.
* A `float` value is the rational it denotes.  The rounding arithmetic on
  `float` is a parameter (`FloatOps`), so every theorem holds whatever the
  rounding does.
-/

/-- Ways in which a run of the C++ code stops without returning. -/
inductive Fault where
  | assertion_failed
  | out_of_range
  | out_of_fuel
deriving DecidableEq, Repr

instance instDecidableEqExceptFault {α : Type} [DecidableEq α] :
    DecidableEq (Except Fault α)
  | .ok a, .ok b =>
    if h : a = b then isTrue (by rw [h]) else isFalse (fun h2 => h (by cases h2; rfl))
  | .error a, .error b =>
    if h : a = b then isTrue (by rw [h]) else isFalse (fun h2 => h (by cases h2; rfl))
  | .ok _, .error _ => isFalse (fun h => by cases h)
  | .error _, .ok _ => isFalse (fun h => by cases h)

/-- The arithmetic on `float` used by the generator (conversion from `int`,
addition, subtraction, multiplication, division). -/
structure FloatOps where
  ofInt : Int → Rat
  add : Rat → Rat → Rat
  sub : Rat → Rat → Rat
  mul : Rat → Rat → Rat
  div : Rat → Rat → Rat

/-- Rational arithmetic without rounding, one instance of `FloatOps`. -/
def exactOps : FloatOps where
  ofInt := fun n => mkRat n 1
  add := fun a b => mkRat (a.num * b.den + b.num * a.den) (a.den * b.den)
  sub := fun a b => mkRat (a.num * b.den - b.num * a.den) (a.den * b.den)
  mul := fun a b => mkRat (a.num * b.num) (a.den * b.den)
  div := fun a b => Rat.divInt (a.num * b.den) (b.num * a.den)

/-- The two random sources: `prob n` is the value of the `n`-th call of
`probability()`, `pick n` the raw value behind the `n`-th draw of a
`uniform_int_distribution`. -/
structure Rng where
  prob : Nat → Rat
  pick : Nat → Nat

/-- A `while (cond) body` loop, at most `fuel` iterations. -/
def iterate {σ : Type} (fuel : Nat) (cond : σ → Bool) (body : σ → Except Fault σ)
    (s : σ) : Except Fault σ :=
  match fuel with
  | 0 => if cond s then .error .out_of_fuel else .ok s
  | n + 1 =>
    if cond s then
      match body s with
      | .error e => .error e
      | .ok s1 => iterate n cond body s1
    else .ok s

/-- The run did not trip an assertion and did not leave the domain of an
operation: it returned, or it ran out of fuel. -/
def Safe {α : Type} (r : Except Fault α) : Prop :=
  ∀ e, r = .error e → e = Fault.out_of_fuel

/-- `std::to_string` on the non-negative `int` values a graph stores: the
decimal digits of the number. -/
def to_string (n : Nat) : String := Nat.repr n

namespace MainCpp

/-- `Edge::Color` of main.cpp. -/
inductive Color where
  | GRAY
  | GREEN
  | BLUE
  | YELLOW
  | RED
deriving DecidableEq, Repr

/-- `struct Vertex` of main.cpp. -/
structure Vertex where
  edge_ids : List Nat
  source_id : Nat
  id : Nat
  depth : Nat
deriving DecidableEq, Repr

/-- `struct Edge` of main.cpp. -/
structure Edge where
  id : Nat
  color : Color
  source : Nat
  destination : Nat
deriving DecidableEq, Repr

/-- `class Graph` of main.cpp. -/
structure Graph where
  edges : List Edge
  vertices : List Vertex
  max_depth : Int
  new_vertices_num : Int
deriving DecidableEq, Repr

def edge_exists_in_graph (id : Nat) (edges : List Edge) : Bool :=
  edges.any (fun edge => edge.id == id)

def vertex_exists_in_graph (id : Nat) (vertices : List Vertex) : Bool :=
  vertices.any (fun vertex => vertex.id == id)

def edge_id_exists_in_vertex (edge_id : Nat) (edge_ids : List Nat) : Bool :=
  edge_ids.any (fun edge => edge_id == edge)

def is_vertex_id_valid (id : Int) : Bool :=
  if id < 0 then false else true

def is_edge_id_valid (id : Int) : Bool :=
  if id < 0 then false else true

/-- `Vertex::add_edge`. -/
def Vertex.add_edge (v : Vertex) (id : Nat) : Except Fault Vertex :=
  if edge_id_exists_in_vertex id v.edge_ids then .error .assertion_failed
  else .ok { v with edge_ids := v.edge_ids ++ [id] }

/-- The statement `vertices_[k].add_edge(id)`. -/
def Graph.vertex_add_edge (g : Graph) (k id : Nat) : Except Fault Graph :=
  match g.vertices[k]? with
  | none => .error .out_of_range
  | some v =>
    match v.add_edge id with
    | .error e => .error e
    | .ok v1 => .ok { g with vertices := g.vertices.set k v1 }

/-- `Graph::source_of_vertex`. -/
def Graph.source_of_vertex (g : Graph) (vertex : Nat) : Except Fault Nat :=
  match g.vertices[vertex]? with
  | none => .error .out_of_range
  | some v => .ok v.source_id

/-- `Graph::depth_of`. -/
def Graph.depth_of (g : Graph) (id : Nat) : Except Fault Nat :=
  match g.vertices[id]? with
  | none => .error .out_of_range
  | some v => .ok v.depth

/-- `Graph::insert_vertex`. -/
def Graph.insert_vertex (g : Graph) (source_vertex vertex depth : Nat) :
    Except Fault Graph :=
  if !is_vertex_id_valid vertex then .error .assertion_failed
  else if vertex_exists_in_graph vertex g.vertices then .error .assertion_failed
  else .ok { g with vertices := g.vertices ++ [⟨[], source_vertex, vertex, depth⟩] }

/-- `Graph::are_vertices_connected` of main.cpp: some edge identity of the
first vertex equals some edge identity of the second. -/
def Graph.are_vertices_connected (g : Graph) (source_vertex destination_vertex : Nat) :
    Except Fault Bool :=
  match g.vertices[source_vertex]?, g.vertices[destination_vertex]? with
  | some sv, some dv =>
    .ok (sv.edge_ids.any (fun source => dv.edge_ids.any (fun destination => source == destination)))
  | _, _ => .error .out_of_range

/-- `Graph::insert_edge` of main.cpp. -/
def Graph.insert_edge (g : Graph) (source destination id : Nat) (color : Color) :
    Except Fault Graph :=
  if !is_edge_id_valid id then .error .assertion_failed
  else if edge_exists_in_graph id g.edges then .error .assertion_failed
  else
    let g1 : Graph := { g with edges := g.edges ++ [⟨id, color, source, destination⟩] }
    if color ≠ Color.GREEN then
      match g1.are_vertices_connected source destination with
      | .error e => .error e
      | .ok true => .error .assertion_failed
      | .ok false =>
        match g1.vertex_add_edge source id with
        | .error e => .error e
        | .ok g2 => g2.vertex_add_edge destination id
    else g1.vertex_add_edge source id

def Graph.get_max_depth (g : Graph) : Int := g.max_depth

def Graph.set_max_depth (g : Graph) (max_depth : Int) : Graph :=
  { g with max_depth := max_depth }

def Graph.get_new_vertices_num (g : Graph) : Int := g.new_vertices_num

/-- `Graph::created_by_vertex`. -/
def Graph.created_by_vertex (g : Graph) (id : Nat) : Int :=
  if id = 0 then g.new_vertices_num
  else ((g.vertices.filter (fun vertex => vertex.source_id == id)).length : Int)

/-- `Graph::vertices_count_in_depth`. -/
def Graph.vertices_count_in_depth (g : Graph) (depth : Nat) : Nat :=
  if depth = 0 then 1
  else (g.vertices.filter (fun vertex => depth == vertex.depth)).length

/-- `Graph::vertices_in_depth`. -/
def Graph.vertices_in_depth (g : Graph) (depth : Nat) : List Nat :=
  (g.vertices.filter (fun vertex => vertex.depth == depth)).map (fun vertex => vertex.id)

/-- The graph under construction together with the number of values consumed
from each random stream. -/
structure Gen where
  graph : Graph
  probs : Nat
  picks : Nat
deriving DecidableEq, Repr

/-- A draw of `std::uniform_int_distribution<int>(0, hi)`. -/
def uniform_int_distribution (hi : Int) (raw : Nat) : Except Fault Nat :=
  if hi < 0 then .error .out_of_range else .ok (raw % (hi.toNat + 1))

/-- Local variables of `generate_vertices_and_gray_edges`. -/
structure TreeVars where
  gen : Gen
  condition : Rat
  source_vertex : Nat
  vertex : Nat
  depth : Nat
  i : Nat
  j : Nat

/-- Body of the `j` loop of `generate_vertices_and_gray_edges`: one trial. -/
def tree_j_body (rng : Rng) (s : TreeVars) : Except Fault TreeVars :=
  let p := rng.prob s.gen.probs
  let gen1 : Gen := { s.gen with probs := s.gen.probs + 1 }
  if p ≥ s.condition then
    match gen1.graph.insert_vertex s.source_vertex s.vertex (s.depth + 1) with
    | .error e => .error e
    | .ok g1 =>
      let edge_id := g1.edges.length
      match g1.insert_edge s.source_vertex s.vertex edge_id Color.GRAY with
      | .error e => .error e
      | .ok g2 =>
        .ok { s with gen := { gen1 with graph := g2 }, vertex := s.vertex + 1, j := s.j + 1 }
  else .ok { s with gen := gen1, j := s.j + 1 }

/-- Body of the `i` loop of `generate_vertices_and_gray_edges`: all trials of
one parent. -/
def tree_i_body (rng : Rng) (fuel : Nat) (s : TreeVars) : Except Fault TreeVars :=
  match iterate fuel (fun t => decide ((t.j : Int) < t.gen.graph.get_new_vertices_num))
      (tree_j_body rng) { s with j := 0 } with
  | .error e => .error e
  | .ok s1 => .ok { s1 with source_vertex := s1.source_vertex + 1, i := s1.i + 1 }

/-- Body of the `depth` loop of `generate_vertices_and_gray_edges`. -/
def tree_depth_body (fl : FloatOps) (rng : Rng) (fuel : Nat) (s : TreeVars) :
    Except Fault TreeVars :=
  match iterate fuel (fun t => decide (t.i < t.gen.graph.vertices_count_in_depth t.depth))
      (tree_i_body rng fuel) { s with i := 0 } with
  | .error e => .error e
  | .ok s1 =>
    .ok { s1 with
          condition := fl.add s1.condition (fl.div 100 (fl.ofInt s1.gen.graph.get_max_depth)),
          depth := s1.depth + 1 }

/-- `generate_vertices_and_gray_edges`. -/
def generate_vertices_and_gray_edges (fl : FloatOps) (rng : Rng) (fuel : Nat) (gen : Gen) :
    Except Fault Gen :=
  match gen.graph.insert_vertex 0 0 0 with
  | .error e => .error e
  | .ok g0 =>
    match iterate fuel (fun t => decide ((t.depth : Int) < t.gen.graph.get_max_depth))
        (tree_depth_body fl rng fuel) ⟨{ gen with graph := g0 }, 0, 0, 1, 0, 0, 0⟩ with
    | .error e => .error e
    | .ok s =>
      match s.gen.graph.depth_of (s.vertex - 1) with
      | .error e => .error e
      | .ok d =>
        if s.gen.graph.get_max_depth ≠ (d : Int) then
          .ok { s.gen with graph := s.gen.graph.set_max_depth (d : Int) }
        else .ok s.gen

/-- The range-for loop of `generate_green_edges` over the copy returned by
`get_vertices()`. -/
def green_loop (rng : Rng) : List Vertex → Gen → Except Fault Gen
  | [], gen => .ok gen
  | vertex :: rest, gen =>
    let p := rng.prob gen.probs
    let gen1 : Gen := { gen with probs := gen.probs + 1 }
    if p ≥ 90 then
      let edge_id := gen1.graph.edges.length
      match gen1.graph.insert_edge vertex.source_id vertex.source_id edge_id Color.GREEN with
      | .error e => .error e
      | .ok g1 => green_loop rng rest { gen1 with graph := g1 }
    else green_loop rng rest gen1

/-- `generate_green_edges`. -/
def generate_green_edges (rng : Rng) (gen : Gen) : Except Fault Gen :=
  green_loop rng gen.graph.vertices gen

/-- Local variables of `generate_blue_edges`. -/
structure BlueVars where
  gen : Gen
  i : Nat

/-- Body of the loop of `generate_blue_edges`. -/
def blue_body (rng : Rng) (s : BlueVars) : Except Fault BlueVars :=
  match s.gen.graph.depth_of s.i, s.gen.graph.depth_of (s.i + 1) with
  | .ok d1, .ok d2 =>
    if d1 = d2 then
      let p := rng.prob s.gen.probs
      let gen1 : Gen := { s.gen with probs := s.gen.probs + 1 }
      if p ≥ 75 then
        let edge_id := gen1.graph.edges.length
        match gen1.graph.insert_edge s.i (s.i + 1) edge_id Color.BLUE with
        | .error e => .error e
        | .ok g1 => .ok { gen := { gen1 with graph := g1 }, i := s.i + 1 }
      else .ok { gen := gen1, i := s.i + 1 }
    else .ok { s with i := s.i + 1 }
  | _, _ => .error .out_of_range

/-- `generate_blue_edges`.  The vertex collection is never empty here, so
`size() - 1` does not wrap. -/
def generate_blue_edges (rng : Rng) (fuel : Nat) (gen : Gen) : Except Fault Gen :=
  match iterate fuel (fun t => decide (t.i < t.gen.graph.vertices.length - 1))
      (blue_body rng) ⟨gen, 0⟩ with
  | .error e => .error e
  | .ok s => .ok s.gen

/-- Local variables of `generate_yellow_edges` and `generate_red_edges`;
`stop` records that the innermost loop was left by `break`. -/
structure SkipVars where
  gen : Gen
  i : Nat
  m : Nat
  n : Nat
  stop : Bool

/-- The `do ... while` loop of `generate_yellow_edges`: the chosen destination
(`none` when `break_flag` was set) and the new count of consumed picks. -/
def yellow_pick (rng : Rng) (g : Graph) (i source : Nat) :
    Nat → Nat → Except Fault (Option Nat × Nat)
  | 0, _ => .error .out_of_fuel
  | fuel + 1, picks =>
    if g.created_by_vertex source = (g.vertices_count_in_depth (i + 1) : Int) then
      .ok (none, picks)
    else
      match uniform_int_distribution ((g.vertices_count_in_depth (i + 1) : Int) - 1)
          (rng.pick picks) with
      | .error e => .error e
      | .ok random_vertex =>
        match (g.vertices_in_depth (i + 1))[random_vertex]? with
        | none => .error .out_of_range
        | some destination =>
          match g.source_of_vertex destination with
          | .error e => .error e
          | .ok creator =>
            if source = creator then yellow_pick rng g i source fuel (picks + 1)
            else .ok (some destination, picks + 1)

/-- Body of the `n` loop of `generate_yellow_edges`. -/
def yellow_n_body (rng : Rng) (fuel : Nat) (condition : Rat) (s : SkipVars) :
    Except Fault SkipVars :=
  let p := rng.prob s.gen.probs
  let gen1 : Gen := { s.gen with probs := s.gen.probs + 1 }
  if p ≥ condition then
    match (gen1.graph.vertices_in_depth s.i)[s.m]? with
    | none => .error .out_of_range
    | some source =>
      match yellow_pick rng gen1.graph s.i source fuel gen1.picks with
      | .error e => .error e
      | .ok (none, picks) => .ok { s with gen := { gen1 with picks := picks }, stop := true }
      | .ok (some destination, picks) =>
        let edge_id := gen1.graph.edges.length
        match gen1.graph.insert_edge source destination edge_id Color.YELLOW with
        | .error e => .error e
        | .ok g1 => .ok { s with gen := ⟨g1, gen1.probs, picks⟩, stop := true }
  else .ok { s with gen := gen1, n := s.n + 1 }

/-- Body of the `m` loop of `generate_yellow_edges`. -/
def yellow_m_body (rng : Rng) (fuel : Nat) (condition : Rat) (s : SkipVars) :
    Except Fault SkipVars :=
  match iterate fuel
      (fun t => !t.stop && decide (t.n < (t.gen.graph.vertices_in_depth (t.i + 1)).length))
      (yellow_n_body rng fuel condition) { s with stop := false } with
  | .error e => .error e
  | .ok s1 => .ok { s1 with n := 0, m := s1.m + 1 }

/-- Body of the `i` loop of `generate_yellow_edges`. -/
def yellow_i_body (fl : FloatOps) (rng : Rng) (fuel : Nat) (s : SkipVars) :
    Except Fault SkipVars :=
  let condition : Rat :=
    fl.sub 100 (fl.mul (fl.ofInt s.i) (fl.div 100 (fl.ofInt (s.gen.graph.get_max_depth - 1))))
  match iterate fuel (fun t => decide (t.m < (t.gen.graph.vertices_in_depth t.i).length))
      (yellow_m_body rng fuel condition) s with
  | .error e => .error e
  | .ok s1 => .ok { s1 with m := 0, i := s1.i + 1 }

/-- `generate_yellow_edges`. -/
def generate_yellow_edges (fl : FloatOps) (rng : Rng) (fuel : Nat) (gen : Gen) :
    Except Fault Gen :=
  match iterate fuel (fun t => decide ((t.i : Int) < t.gen.graph.get_max_depth))
      (yellow_i_body fl rng fuel) ⟨gen, 1, 0, 0, false⟩ with
  | .error e => .error e
  | .ok s => .ok s.gen

/-- Body of the `n` loop of `generate_red_edges`. -/
def red_n_body (rng : Rng) (s : SkipVars) : Except Fault SkipVars :=
  let p := rng.prob s.gen.probs
  let gen1 : Gen := { s.gen with probs := s.gen.probs + 1 }
  if p ≥ 67 then
    match uniform_int_distribution ((gen1.graph.vertices_count_in_depth (s.i + 2) : Int) - 1)
        (rng.pick gen1.picks) with
    | .error e => .error e
    | .ok random_vertex =>
      match (gen1.graph.vertices_in_depth s.i)[s.m]? with
      | none => .error .out_of_range
      | some source =>
        match (gen1.graph.vertices_in_depth (s.i + 2))[random_vertex]? with
        | none => .error .out_of_range
        | some destination =>
          let edge_id := gen1.graph.edges.length
          match gen1.graph.insert_edge source destination edge_id Color.RED with
          | .error e => .error e
          | .ok g1 => .ok { s with gen := ⟨g1, gen1.probs, gen1.picks + 1⟩, stop := true }
  else .ok { s with gen := gen1, n := s.n + 1 }

/-- Body of the `m` loop of `generate_red_edges`. -/
def red_m_body (rng : Rng) (fuel : Nat) (s : SkipVars) : Except Fault SkipVars :=
  match iterate fuel
      (fun t => !t.stop && decide (t.n ≠ (t.gen.graph.vertices_in_depth (t.i + 2)).length))
      (red_n_body rng) { s with stop := false } with
  | .error e => .error e
  | .ok s1 => .ok { s1 with n := 0, m := s1.m + 1 }

/-- Body of the `i` loop of `generate_red_edges`. -/
def red_i_body (rng : Rng) (fuel : Nat) (s : SkipVars) : Except Fault SkipVars :=
  match iterate fuel (fun t => decide (t.m ≠ (t.gen.graph.vertices_in_depth t.i).length))
      (red_m_body rng fuel) s with
  | .error e => .error e
  | .ok s1 => .ok { s1 with m := 0, i := s1.i + 1 }

/-- `generate_red_edges`. -/
def generate_red_edges (rng : Rng) (fuel : Nat) (gen : Gen) : Except Fault Gen :=
  match iterate fuel (fun t => decide ((t.i : Int) < t.gen.graph.get_max_depth))
      (red_i_body rng fuel) ⟨gen, 0, 0, 0, false⟩ with
  | .error e => .error e
  | .ok s => .ok s.gen

/-- The five passes of `generateGraph`, with the random-stream counters. -/
def generateGen (fl : FloatOps) (rng : Rng) (fuel : Nat) (max_depth new_vertices_num : Int) :
    Except Fault Gen :=
  let graph : Graph := ⟨[], [], max_depth, new_vertices_num⟩
  match generate_vertices_and_gray_edges fl rng fuel ⟨graph, 0, 0⟩ with
  | .error e => .error e
  | .ok s1 =>
    match generate_green_edges rng s1 with
    | .error e => .error e
    | .ok s2 =>
      match generate_blue_edges rng fuel s2 with
      | .error e => .error e
      | .ok s3 =>
        match generate_yellow_edges fl rng fuel s3 with
        | .error e => .error e
        | .ok s4 => generate_red_edges rng fuel s4

/-- `generateGraph`. -/
def generateGraph (fl : FloatOps) (rng : Rng) (fuel : Nat) (max_depth new_vertices_num : Int) :
    Except Fault Graph :=
  match generateGen fl rng fuel max_depth new_vertices_num with
  | .error e => .error e
  | .ok s => .ok s.graph

/-- The `for` loop of `Vertex::to_JSON` over `edge_ids_`, from the first
identity not rendered yet. -/
def Vertex.edge_ids_loop : List Nat → String → String
  | [], json_string => json_string
  | edge_id :: rest, json_string =>
    let json_string := json_string ++ to_string edge_id
    Vertex.edge_ids_loop rest (if rest.isEmpty then json_string else json_string ++ ", ")

/-- `Vertex::to_JSON` of main.cpp. -/
def Vertex.to_JSON (v : Vertex) : String :=
  let json_string := ""
  let json_string := json_string ++ ("\t\x7b \"id\": " ++ to_string v.id ++ ", \"edge_ids\": [")
  let json_string := Vertex.edge_ids_loop v.edge_ids json_string
  json_string ++ ("], \"depth\": " ++ to_string v.depth ++ "\x7d")

/-- `Edge::color_to_string` of main.cpp. -/
def Edge.color_to_string (color : Color) : String :=
  match color with
  | Color.GRAY => "gray"
  | Color.GREEN => "green"
  | Color.BLUE => "blue"
  | Color.YELLOW => "yellow"
  | Color.RED => "red"

/-- `Edge::to_JSON` of main.cpp. -/
def Edge.to_JSON (e : Edge) : String :=
  let json_string := ""
  json_string ++ ("\t\x7b \"id\": " ++ to_string e.id ++ ", \"vertex_ids\": [" ++
    to_string e.source ++ ", " ++ to_string e.destination ++ "], \"color\": \"" ++
    Edge.color_to_string e.color ++ "\" \x7d")

/-- The first `for` loop of `Graph::to_JSON`, over `vertices_`. -/
def Graph.vertices_loop : List Vertex → String → String
  | [], json_string => json_string
  | vertex :: rest, json_string =>
    let json_string := json_string ++ vertex.to_JSON
    Graph.vertices_loop rest
      (if rest.isEmpty then json_string ++ "\n  ],\n" else json_string ++ ",\n")

/-- The second `for` loop of `Graph::to_JSON`, over `edges_`. -/
def Graph.edges_loop : List Edge → String → String
  | [], json_string => json_string
  | edge :: rest, json_string =>
    let json_string := json_string ++ edge.to_JSON
    Graph.edges_loop rest
      (if rest.isEmpty then json_string ++ "\n" else json_string ++ ",\n")

/-- `Graph::to_JSON` of main.cpp. -/
def Graph.to_JSON (g : Graph) : String :=
  let json_string := ""
  let json_string := json_string ++ "\x7b\n\"vertices\": [\n"
  let json_string := Graph.vertices_loop g.vertices json_string
  let json_string := json_string ++ "\"edges\": [\n"
  let json_string := Graph.edges_loop g.edges json_string
  json_string ++ "  ]\n\x7d\n"

/-! ### Specification vocabulary for main.cpp -/

/-- The vertex `v` after `add_edge(id)`. -/
def Vertex.push (v : Vertex) (id : Nat) : Vertex :=
  { v with edge_ids := v.edge_ids ++ [id] }

/-- What a successful `insert_edge(s, t, id, col)` call does to the graph. -/
structure InsertEdgePost (g g' : Graph) (s t id : Nat) (col : Color) : Prop where
  edges : g'.edges = g.edges ++ [⟨id, col, s, t⟩]
  max_depth : g'.max_depth = g.max_depth
  new_vertices_num : g'.new_vertices_num = g.new_vertices_num
  length : g'.vertices.length = g.vertices.length
  source_lt : s < g.vertices.length
  fresh : ∀ e ∈ g.edges, e.id ≠ id
  not_green : col ≠ Color.GREEN → t < g.vertices.length ∧ s ≠ t ∧
    ∀ vs vt, g.vertices[s]? = some vs → g.vertices[t]? = some vt →
      ∀ k ∈ vs.edge_ids, k ∉ vt.edge_ids
  vertices : ∀ i : Nat, g'.vertices[i]? =
    (g.vertices[i]?).map
      (fun v => if i = s ∨ (col ≠ Color.GREEN ∧ i = t) then v.push id else v)

/-- One successful `insert_edge` call made the way every pass makes it: the
new edge takes the next free identity, and a GREEN edge is a self-loop. -/
def EdgeStep (g g' : Graph) : Prop :=
  ∃ s t col, (col = Color.GREEN → s = t) ∧ g.insert_edge s t g.edges.length col = .ok g'

/-- One successful `insert_vertex` call with the next free identity. -/
def VertexStep (g g' : Graph) : Prop :=
  ∃ c d, g.insert_vertex c g.vertices.length d = .ok g'

/-- One mutation of the graph by the generator. -/
inductive Step : Graph → Graph → Prop where
  | vertex {g g' : Graph} : VertexStep g g' → Step g g'
  | edge {g g' : Graph} : EdgeStep g g' → Step g g'
  | depth {g : Graph} (d : Int) : Step g (g.set_max_depth d)

/-- The graph `g'` is reached from `g` by mutations of the generator. -/
def Steps (g g' : Graph) : Prop := Relation.ReflTransGen Step g g'

/-- The graph `g'` is reached from `g` by successful `insert_edge` calls alone. -/
def EdgeSteps (g g' : Graph) : Prop := Relation.ReflTransGen EdgeStep g g'

/-- Loop invariant of the Tree pass: the graph was reached by generator
mutations and the counter `vertex` is the next free vertex identity. -/
def TreeReach (g0 : Graph) (s : TreeVars) : Prop :=
  Steps g0 s.gen.graph ∧ s.vertex = s.gen.graph.vertices.length

/-- The vertex stored at position `i` has identity `i`, and the edge stored at
position `k` has identity `k`. -/
def IdsContiguous (g : Graph) : Prop :=
  (∀ (i : Nat) (v : Vertex), g.vertices[i]? = some v → v.id = i) ∧
    (∀ (k : Nat) (e : Edge), g.edges[k]? = some e → e.id = k)

/-- Every edge identity listed by a vertex is the identity of a stored edge. -/
def ListedBelow (g : Graph) : Prop :=
  ∀ (i : Nat) (v : Vertex), g.vertices[i]? = some v → ∀ k ∈ v.edge_ids, k < g.edges.length

/-- The edge stored at position `k` has existing endpoints, is GREEN exactly
when its endpoints coincide, and is listed exactly once by each endpoint and by
no other vertex. -/
def Incidence (g : Graph) : Prop :=
  ∀ (k : Nat) (e : Edge), g.edges[k]? = some e →
    e.source < g.vertices.length ∧ e.destination < g.vertices.length ∧
    (e.color = Color.GREEN ↔ e.source = e.destination) ∧
    ∀ (i : Nat) (v : Vertex), g.vertices[i]? = some v →
      v.edge_ids.count k = if i = e.source ∨ i = e.destination then 1 else 0

/-- No two distinct non-GREEN edges join the same unordered pair of vertices. -/
def NoParallel (g : Graph) : Prop :=
  ∀ e1 ∈ g.edges, ∀ e2 ∈ g.edges, e1.color ≠ Color.GREEN → e2.color ≠ Color.GREEN →
    (e1.source = e2.source ∧ e1.destination = e2.destination ∨
      e1.source = e2.destination ∧ e1.destination = e2.source) → e1 = e2

/-- The structural invariants kept by every mutation of the generator. -/
structure WellFormed (g : Graph) : Prop where
  ids : IdsContiguous g
  listed : ListedBelow g
  incidence : Incidence g
  noParallel : NoParallel g

/-- A sample pair of random streams: every third `probability()` value is 95,
the others are 40; the `n`-th raw pick is `n`. -/
def sampleRng : Rng := ⟨fun n => if n % 3 = 0 then 95 else 40, fun n => n⟩

/-- The graph `generateGraph(2, 2)` returns on `sampleRng`. -/
def sampleGraph : Graph :=
  { edges := [⟨0, Color.GRAY, 0, 1⟩, ⟨1, Color.GRAY, 0, 2⟩, ⟨2, Color.GRAY, 1, 3⟩,
              ⟨3, Color.GREEN, 0, 0⟩, ⟨4, Color.GREEN, 1, 1⟩, ⟨5, Color.YELLOW, 2, 3⟩],
    vertices := [⟨[0, 1, 3], 0, 0, 0⟩, ⟨[0, 2, 4], 0, 1, 1⟩, ⟨[1, 5], 0, 2, 1⟩,
                 ⟨[2, 5], 1, 3, 2⟩],
    max_depth := 2,
    new_vertices_num := 2 }

/-- The depth fields of the vertices, in storage order. -/
def Graph.depths (g : Graph) : List Nat := g.vertices.map (fun v => v.depth)

/-- The creators (`source_id_`) of the vertices, in storage order. -/
def Graph.creators (g : Graph) : List Nat := g.vertices.map (fun v => v.source_id)

/-- The creator, identity and depth of every vertex, in storage order: the
part of the vertex collection that `insert_edge` leaves alone. -/
def Graph.profile (g : Graph) : List (Nat × Nat × Nat) :=
  g.vertices.map (fun v => (v.source_id, v.id, v.depth))

/-- The graph `g` has the vertices and parameters of `g0`; only incident-edge
lists and the edge collection may differ. -/
structure Frozen (g0 g : Graph) : Prop where
  profile : g.profile = g0.profile
  max_depth : g.max_depth = g0.max_depth
  new_vertices_num : g.new_vertices_num = g0.new_vertices_num

/-- The colour of an edge agrees with the depths `dp`, `dc` of its source and
destination and with the creator `cc` of its destination. -/
def colorFits (e : Edge) (dp dc cc : Nat) : Prop :=
  match e.color with
  | Color.GRAY => dc = dp + 1 ∧ cc = e.source
  | Color.GREEN => e.source = e.destination
  | Color.BLUE => dp = dc ∧ e.destination = e.source + 1
  | Color.YELLOW => dc = dp + 1 ∧ cc ≠ e.source
  | Color.RED => dc = dp + 2

/-- Every edge joins existing vertices whose depths and creator fit its colour. -/
def Geometry (g : Graph) : Prop :=
  ∀ e ∈ g.edges, ∃ dp dc cc, g.depths[e.source]? = some dp ∧
    g.depths[e.destination]? = some dc ∧ g.creators[e.destination]? = some cc ∧
    colorFits e dp dc cc

/-- The edge joins the vertices `s` and `t`, in either direction. -/
def Joins (e : Edge) (s t : Nat) : Prop :=
  (e.source = s ∧ e.destination = t) ∨ (e.source = t ∧ e.destination = s)

/-- Every edge has one of the listed colours. -/
def OnlyColors (g : Graph) (cs : List Color) : Prop := ∀ e ∈ g.edges, e.color ∈ cs

/-- The shape the Tree pass gives the graph: the root has depth 0 and is its
own creator; every other vertex is one level below its creator and joined to
it by a GRAY edge; depth never decreases along the vertex collection; only the
root has depth 0. -/
structure TreeCore (g : Graph) : Prop where
  root : g.depths[0]? = some 0
  root_creator : g.creators[0]? = some 0
  parent : ∀ (i c : Nat), g.creators[i]? = some c → i ≠ 0 →
    ∃ dp, g.depths[c]? = some dp ∧ g.depths[i]? = some (dp + 1) ∧
      ∃ e ∈ g.edges, e.color = Color.GRAY ∧ e.source = c ∧ e.destination = i
  sorted : g.depths.Pairwise (fun x y => x ≤ y)
  zero_once : g.depths.count 0 = 1

/-- Fuel that suffices for the Tree pass: at least the number of depths, the
number of trials per parent, and the number of vertices a depth can hold. -/
def treeFuel (md bf : Int) : Nat :=
  max md.toNat (max bf.toNat ((max 1 bf.toNat) ^ md.toNat))

/-- Size bounds kept by the `depth` loop of the Tree pass: the parameters are
those of the call and depth `d` holds at most `branchFactor ^ d` vertices. -/
structure TreeLevelBound (md bf : Int) (s : TreeVars) : Prop where
  max_depth : s.gen.graph.max_depth = md
  new_vertices_num : s.gen.graph.new_vertices_num = bf
  level : s.gen.graph.depths.count s.depth ≤ bf.toNat ^ s.depth
  within : (s.depth : Int) ≤ max md 0

/-- Size bounds kept by the `i` loop of the Tree pass. -/
structure TreeParentBound (md bf : Int) (s : TreeVars) : Prop where
  max_depth : s.gen.graph.max_depth = md
  new_vertices_num : s.gen.graph.new_vertices_num = bf
  level : s.gen.graph.depths.count s.depth ≤ bf.toNat ^ s.depth
  within : (s.depth : Int) < md
  next : s.gen.graph.depths.count (s.depth + 1) ≤ s.i * bf.toNat

/-- Size bounds kept by the `j` loop of the Tree pass. -/
structure TreeTrialBound (md bf : Int) (s : TreeVars) : Prop where
  max_depth : s.gen.graph.max_depth = md
  new_vertices_num : s.gen.graph.new_vertices_num = bf
  level : s.gen.graph.depths.count s.depth ≤ bf.toNat ^ s.depth
  within : (s.depth : Int) < md
  next : s.gen.graph.depths.count (s.depth + 1) ≤ s.i * bf.toNat + s.j
  trial : s.j ≤ bf.toNat

/-- Invariant of the passes that follow the Tree pass, `gt` being the graph
the Tree pass left: only edges were added, every edge fits the depths of its
endpoints, and only the colours `cs` occur. -/
structure PassInv (gt g : Graph) (cs : List Color) : Prop where
  tree : TreeCore gt
  base : WellFormed gt
  steps : EdgeSteps gt g
  geometry : Geometry g
  colors : OnlyColors g cs

/-- Invariant of the loop of the Lateral pass: every BLUE edge so far starts
at a position already passed. -/
structure BlueInv (gt : Graph) (s : BlueVars) : Prop where
  pass : PassInv gt s.gen.graph [Color.GRAY, Color.GREEN, Color.BLUE]
  done : ∀ e ∈ s.gen.graph.edges, e.color = Color.BLUE → e.source < s.i

/-- Progress of a Forward-Skip pass that adds edges of colour `col`: every
such edge starts at a vertex of a depth already handled, or at one of the first
`m` vertices of the depth `i` being handled. -/
def Processed (g : Graph) (col : Color) (i m : Nat) : Prop :=
  ∀ e ∈ g.edges, e.color = col → ∃ d, g.depths[e.source]? = some d ∧
    (d < i ∨ (d = i ∧ ∃ k, k < m ∧ (g.vertices_in_depth i)[k]? = some e.source))

/-- Invariant at the head of the `i` and `m` loops of the Forward-Skip-1 pass. -/
structure YellowInv (gt : Graph) (s : SkipVars) : Prop where
  pass : PassInv gt s.gen.graph [Color.GRAY, Color.GREEN, Color.BLUE, Color.YELLOW]
  done : Processed s.gen.graph Color.YELLOW s.i s.m

/-- Invariant at the head of the `n` loop of the Forward-Skip-1 pass. -/
structure YellowTrialInv (gt : Graph) (s : SkipVars) : Prop where
  pass : PassInv gt s.gen.graph [Color.GRAY, Color.GREEN, Color.BLUE, Color.YELLOW]
  source : s.m < (s.gen.graph.vertices_in_depth s.i).length
  done : Processed s.gen.graph Color.YELLOW s.i (if s.stop then s.m + 1 else s.m)

/-- Invariant at the head of the `i` and `m` loops of the Forward-Skip-2 pass. -/
structure RedInv (gt : Graph) (s : SkipVars) : Prop where
  pass : PassInv gt s.gen.graph
    [Color.GRAY, Color.GREEN, Color.BLUE, Color.YELLOW, Color.RED]
  done : Processed s.gen.graph Color.RED s.i s.m
  reset : s.n = 0

/-- Invariant at the head of the `n` loop of the Forward-Skip-2 pass. -/
structure RedTrialInv (gt : Graph) (s : SkipVars) : Prop where
  pass : PassInv gt s.gen.graph
    [Color.GRAY, Color.GREEN, Color.BLUE, Color.YELLOW, Color.RED]
  source : s.m < (s.gen.graph.vertices_in_depth s.i).length
  done : Processed s.gen.graph Color.RED s.i (if s.stop then s.m + 1 else s.m)
  index : s.n ≤ (s.gen.graph.vertices_in_depth (s.i + 2)).length

/-- Invariant at the head of the `depth` loop of the Tree pass. -/
structure TreeDepthInv (s : TreeVars) : Prop where
  core : TreeCore s.gen.graph
  geometry : Geometry s.gen.graph
  colors : OnlyColors s.gen.graph [Color.GRAY]
  bound : ∀ x ∈ s.gen.graph.depths, x ≤ s.depth
  source : s.source_vertex = s.gen.graph.depths.countP (fun x => decide (x < s.depth))

/-- Invariant at the head of the `i` loop of the Tree pass. -/
structure TreeParentInv (s : TreeVars) : Prop where
  core : TreeCore s.gen.graph
  geometry : Geometry s.gen.graph
  colors : OnlyColors s.gen.graph [Color.GRAY]
  bound : ∀ x ∈ s.gen.graph.depths, x ≤ s.depth + 1
  source : s.source_vertex =
    s.gen.graph.depths.countP (fun x => decide (x < s.depth)) + s.i
  index : s.i ≤ s.gen.graph.depths.count s.depth

/-- Invariant at the head of the `j` loop of the Tree pass. -/
structure TreeTrialInv (s : TreeVars) : Prop where
  core : TreeCore s.gen.graph
  geometry : Geometry s.gen.graph
  colors : OnlyColors s.gen.graph [Color.GRAY]
  bound : ∀ x ∈ s.gen.graph.depths, x ≤ s.depth + 1
  source : s.source_vertex =
    s.gen.graph.depths.countP (fun x => decide (x < s.depth)) + s.i
  index : s.i < s.gen.graph.depths.count s.depth

/-- The graph after the Tree pass of `generateGraph(1, 1)`: the root and its
one child, one probability value consumed. -/
def rootAndChild : Gen :=
  { graph := { edges := [⟨0, Color.GRAY, 0, 1⟩],
               vertices := [⟨[0], 0, 0, 0⟩, ⟨[0], 0, 1, 1⟩],
               max_depth := 1, new_vertices_num := 1 },
    probs := 1, picks := 0 }

/-- Random streams whose second `probability()` value is 10 and whose other
values are 95. -/
def lowSecondRng : Rng := ⟨fun n => if n = 1 then 10 else 95, fun n => n⟩

/-- Random streams whose `probability()` values are all 95. -/
def highRng : Rng := ⟨fun _ => 95, fun n => n⟩

/-- The graph `generateGraph` starts from. -/
def emptyGraph (max_depth new_vertices_num : Int) : Graph :=
  ⟨[], [], max_depth, new_vertices_num⟩

/-- The vertices at positions `j` and `j + 1` both exist and have equal depth. -/
def Graph.sameDepth (g : Graph) (j : Nat) : Bool :=
  match g.depths[j]?, g.depths[j + 1]? with
  | some a, some b => a == b
  | _, _ => false

/-- The number of positions below `i` whose vertex has the depth of the next
vertex: the consecutive pairs of equal depth met before position `i`. -/
def Graph.lateralPairsBelow (g : Graph) (i : Nat) : Nat :=
  ((List.range i).filter (fun j => g.sameDepth j)).length

/-- Bookkeeping invariant of the loop of the Lateral pass started on `gen0`:
one draw was consumed for each pair of equal depth below position `i`, no pick
was consumed, and a BLUE edge joins `j` and `j + 1` exactly when `j` is below
`i`, the pair has equal depth and its draw reached 75. -/
structure BlueDraws (rng : Rng) (gen0 : Gen) (s : BlueVars) : Prop where
  depths : s.gen.graph.depths = gen0.graph.depths
  index : s.i ≤ gen0.graph.vertices.length - 1
  probs : s.gen.probs = gen0.probs + gen0.graph.lateralPairsBelow s.i
  picks : s.gen.picks = gen0.picks
  blue : ∀ j : Nat,
    (∃ e ∈ s.gen.graph.edges, e.color = Color.BLUE ∧ e.source = j ∧ e.destination = j + 1) ↔
      (j < s.i ∧ gen0.graph.sameDepth j = true ∧
        rng.prob (gen0.probs + gen0.graph.lateralPairsBelow j) ≥ 75)

/-- The state after the Tree pass of `generateGraph(2, 2)` on `sampleRng`. -/
def sampleTree : Gen :=
  { graph := { edges := [⟨0, Color.GRAY, 0, 1⟩, ⟨1, Color.GRAY, 0, 2⟩, ⟨2, Color.GRAY, 1, 3⟩],
               vertices := [⟨[0, 1], 0, 0, 0⟩, ⟨[0, 2], 0, 1, 1⟩, ⟨[1], 0, 2, 1⟩, ⟨[2], 1, 3, 2⟩],
               max_depth := 2, new_vertices_num := 2 },
    probs := 6, picks := 0 }

/-- The state after the Loop pass of `generateGraph(2, 2)` on `sampleRng`. -/
def sampleGreen : Gen :=
  { graph := { edges := [⟨0, Color.GRAY, 0, 1⟩, ⟨1, Color.GRAY, 0, 2⟩, ⟨2, Color.GRAY, 1, 3⟩,
                         ⟨3, Color.GREEN, 0, 0⟩, ⟨4, Color.GREEN, 1, 1⟩],
               vertices := [⟨[0, 1, 3], 0, 0, 0⟩, ⟨[0, 2, 4], 0, 1, 1⟩, ⟨[1], 0, 2, 1⟩,
                            ⟨[2], 1, 3, 2⟩],
               max_depth := 2, new_vertices_num := 2 },
    probs := 10, picks := 0 }

/-- The state after the Lateral pass of `generateGraph(2, 2)` on `sampleRng`:
one draw for the pair (1, 2), no edge. -/
def sampleBlue : Gen := { sampleGreen with probs := 11 }

/-- The state after the Forward-Skip-1 pass of `generateGraph(2, 2)` on
`sampleRng`. -/
def sampleYellow : Gen := { graph := sampleGraph, probs := 13, picks := 1 }

/-- Random streams whose `probability()` values are 95 at positions 2, 3 and 16
and 10 elsewhere; the `n`-th raw pick is `n`. -/
def retryRng : Rng := ⟨fun n => if n = 2 ∨ n = 3 ∨ n = 16 then 95 else 10, fun n => n⟩

/-- The state after the first four passes of `generateGraph(2, 2)` on
`retryRng`: the root, two children, two grandchildren below vertex 1. -/
def retryYellow : Gen :=
  { graph := { edges := [⟨0, Color.GRAY, 0, 1⟩, ⟨1, Color.GRAY, 0, 2⟩, ⟨2, Color.GRAY, 1, 3⟩,
                         ⟨3, Color.GRAY, 1, 4⟩, ⟨4, Color.YELLOW, 2, 3⟩],
               vertices := [⟨[0, 1], 0, 0, 0⟩, ⟨[0, 2, 3], 0, 1, 1⟩, ⟨[1, 4], 0, 2, 1⟩,
                            ⟨[2, 4], 1, 3, 2⟩, ⟨[3], 1, 4, 2⟩],
               max_depth := 2, new_vertices_num := 2 },
    probs := 15, picks := 1 }

/-- The state `generate_red_edges` returns on `retryYellow` and `retryRng`. -/
def retryRed : Gen :=
  { graph := { edges := [⟨0, Color.GRAY, 0, 1⟩, ⟨1, Color.GRAY, 0, 2⟩, ⟨2, Color.GRAY, 1, 3⟩,
                         ⟨3, Color.GRAY, 1, 4⟩, ⟨4, Color.YELLOW, 2, 3⟩, ⟨5, Color.RED, 0, 4⟩],
               vertices := [⟨[0, 1, 5], 0, 0, 0⟩, ⟨[0, 2, 3], 0, 1, 1⟩, ⟨[1, 4], 0, 2, 1⟩,
                            ⟨[2, 4], 1, 3, 2⟩, ⟨[3, 5], 1, 4, 2⟩],
               max_depth := 2, new_vertices_num := 2 },
    probs := 17, picks := 2 }

/-- What a Forward-Skip pass that adds edges of colour `col` has done to the
edges of the graph `g0` it started on: it appended edges of colour `col`, and
no two edges of that colour leave the same vertex. -/
structure SkipOnce (col : Color) (g0 g : Graph) : Prop where
  added : ∃ new, g.edges = g0.edges ++ new ∧ ∀ e ∈ new, e.color = col
  once : ∀ e1 ∈ g.edges, ∀ e2 ∈ g.edges, e1.color = col → e2.color = col →
    e1.source = e2.source → e1 = e2

/-- The state after the Tree pass of `generateGraph(2, 2)` on `retryRng`. -/
def retryTree : Gen :=
  { graph := { edges := [⟨0, Color.GRAY, 0, 1⟩, ⟨1, Color.GRAY, 0, 2⟩, ⟨2, Color.GRAY, 1, 3⟩,
                         ⟨3, Color.GRAY, 1, 4⟩],
               vertices := [⟨[0, 1], 0, 0, 0⟩, ⟨[0, 2, 3], 0, 1, 1⟩, ⟨[1], 0, 2, 1⟩,
                            ⟨[2], 1, 3, 2⟩, ⟨[3], 1, 4, 2⟩],
               max_depth := 2, new_vertices_num := 2 },
    probs := 6, picks := 0 }

/-- The state after the Loop pass of `generateGraph(2, 2)` on `retryRng`: five
draws, no edge. -/
def retryGreen : Gen := { retryTree with probs := 11 }

/-- The state after the Lateral pass of `generateGraph(2, 2)` on `retryRng`:
two draws, no edge. -/
def retryBlue : Gen := { retryTree with probs := 13 }

/-- The graph `g'` differs from `g` only by added edges: it has as many
vertices; each vertex keeps its identity, depth and creator, and its
incident-edge list in `g` is a prefix of its list in `g'`; the edge collection
of `g` is a prefix of that of `g'`; the two parameters are unchanged. -/
structure OnlyAddsEdges (g g' : Graph) : Prop where
  length : g'.vertices.length = g.vertices.length
  vertices : ∀ (i : Nat) (v : Vertex), g.vertices[i]? = some v →
    ∃ v', g'.vertices[i]? = some v' ∧ v'.id = v.id ∧ v'.depth = v.depth ∧
      v'.source_id = v.source_id ∧ v.edge_ids <+: v'.edge_ids
  edges : g.edges <+: g'.edges
  max_depth : g'.max_depth = g.max_depth
  new_vertices_num : g'.new_vertices_num = g.new_vertices_num

/-- The sources of the Forward-Skip-2 pass in the order of their turns: for
each depth `d` from 0 below `max_depth`, the vertices of the depth `d` bucket in
bucket order, each paired with its depth. -/
def Graph.red_sources (g : Graph) : List (Nat × Nat) :=
  (List.range g.max_depth.toNat).flatMap
    (fun d => (g.vertices_in_depth d).map (fun source => (d, source)))

/-- One turn of the Forward-Skip-2 pass, from state `a` to state `b`, for the
source `source` of depth `d`.  Threshold draws are read one after another from
the draw stream, at most as many as the bucket of depth `d + 2` holds vertices.
`miss`: when all of them are below 67, exactly these draws are consumed and
nothing else changes.  `hit`: when the `k`-th of them is the first that is at
least 67, the draws up to it and one pick are consumed, and `insert_edge` has
appended one RED edge from the source to the picked vertex of that bucket. -/
structure RedTurn (rng : Rng) (d source : Nat) (a b : Gen) : Prop where
  miss : (∀ j < (a.graph.vertices_in_depth (d + 2)).length, rng.prob (a.probs + j) < 67) →
    b = { a with probs := a.probs + (a.graph.vertices_in_depth (d + 2)).length }
  hit : ∀ k < (a.graph.vertices_in_depth (d + 2)).length,
    (∀ j < k, rng.prob (a.probs + j) < 67) → rng.prob (a.probs + k) ≥ 67 →
    ∃ dest, (a.graph.vertices_in_depth (d + 2))[rng.pick a.picks %
        (a.graph.vertices_in_depth (d + 2)).length]? = some dest ∧
      a.graph.insert_edge source dest a.graph.edges.length Color.RED = .ok b.graph ∧
      b.graph.edges = a.graph.edges ++ [⟨a.graph.edges.length, Color.RED, source, dest⟩] ∧
      b.probs = a.probs + k + 1 ∧ b.picks = a.picks + 1

/-- The state `c` is reached from the state `a` by one turn for each listed
source, in the order of the list. -/
inductive RedTurns (rng : Rng) : List (Nat × Nat) → Gen → Gen → Prop where
  | done (a : Gen) : RedTurns rng [] a a
  | turn {d source : Nat} {rest : List (Nat × Nat)} {a b c : Gen} :
      RedTurn rng d source a b → RedTurns rng rest b c →
      RedTurns rng ((d, source) :: rest) a c

end MainCpp


namespace GraphCpp

/-- Modelled from the spec: `Edge::Color` of the absent graph.hpp, with the
enumerators `color_to_string` switches over. -/
inductive Color where
  | Gray
  | Green
  | Blue
  | Yellow
  | Red
  | Unknown
deriving DecidableEq, Repr

/-- Modelled from the spec: `struct Vertex` of the absent graph.hpp, with the
members graph.cpp uses (`id`, `depth`, `edge_ids_`). -/
structure Vertex where
  id : Nat
  depth : Nat
  edge_ids : List Nat
deriving DecidableEq, Repr

/-- Modelled from the spec: `struct Edge` of the absent graph.hpp, fields in
the order of `edges_.emplace_back(source_id, destination_id, edge_id, color)`. -/
structure Edge where
  source : Nat
  destination : Nat
  id : Nat
  color : Color
deriving DecidableEq, Repr

/-- Modelled from the spec: the data members of `class Graph` of the absent
graph.hpp: the vertex and edge collections, the depth index, and the two
counters the identities are taken from ("assigned strictly in creation order
and never reused"). -/
structure Graph where
  vertices : List Vertex
  edges : List Edge
  depth_map : List (List Nat)
  vertex_id_counter : Nat
  edge_id_counter : Nat
deriving DecidableEq, Repr

/-- Modelled from the spec: the depth a vertex holds when `Vertex(id)` has
constructed it (the root is "fixed at depth 0" and `insert_vertex` files it in
bucket 0 without assigning a depth). -/
def Vertex.initial_depth : Nat := 0

/-- Modelled from the spec: the graph before any insertion. -/
def Graph.empty : Graph := ⟨[], [], [], 0, 0⟩

/-- `is_depth_valid` of graph.cpp.  The comparison `depth > depth_map.size()`
converts a negative `depth` to a huge unsigned value. -/
def is_depth_valid (depth : Int) (depth_map : List (List Nat)) : Except Fault Bool :=
  if depth < 0 ∨ depth > (depth_map.length : Int) then .ok false
  else
    match depth_map[depth.toNat]? with
    | none => .error .out_of_range
    | some bucket => if bucket.isEmpty then .ok false else .ok true

/-- Modelled from the spec: `has_edge_id` of the absent graph.hpp ("duplicates
forbidden"): the identity occurs in the list. -/
def has_edge_id (id : Nat) (edge_ids : List Nat) : Bool :=
  edge_ids.any (fun e => e == id)

/-- `Vertex::add_edge_id`. -/
def Vertex.add_edge_id (v : Vertex) (id : Nat) : Except Fault Vertex :=
  if has_edge_id id v.edge_ids then .error .assertion_failed
  else .ok { v with edge_ids := v.edge_ids ++ [id] }

/-- `Vertex::get_edge_ids`. -/
def Vertex.get_edge_ids (v : Vertex) : List Nat := v.edge_ids

/-- `Graph::does_vertex_exist`. -/
def does_vertex_exist (id : Nat) (vertices : List Vertex) : Bool :=
  vertices.any (fun vertex => vertex.id == id)

/-- Modelled from the spec: `get_new_vertex_id_` of the absent graph.hpp, the
next identity in creation order. -/
def Graph.get_new_vertex_id_ (g : Graph) : Nat × Graph :=
  (g.vertex_id_counter, { g with vertex_id_counter := g.vertex_id_counter + 1 })

/-- Modelled from the spec: `get_new_edge_id_` of the absent graph.hpp, the
next identity in creation order. -/
def Graph.get_new_edge_id_ (g : Graph) : Nat × Graph :=
  (g.edge_id_counter, { g with edge_id_counter := g.edge_id_counter + 1 })

/-- The statement `depth_map_[depth].push_back(id)`. -/
def Graph.depth_map_push (g : Graph) (depth id : Nat) : Except Fault Graph :=
  match g.depth_map[depth]? with
  | none => .error .out_of_range
  | some bucket => .ok { g with depth_map := g.depth_map.set depth (bucket ++ [id]) }

/-- `Graph::insert_vertex` of graph.cpp. -/
def Graph.insert_vertex (g : Graph) : Except Fault (Nat × Graph) :=
  let (id, g1) := g.get_new_vertex_id_
  let g2 : Graph := { g1 with vertices := g1.vertices ++ [⟨id, Vertex.initial_depth, []⟩] }
  if id = 0 then
    let depth := 0
    let g3 : Graph := { g2 with depth_map := g2.depth_map ++ [[]] }
    match g3.depth_map_push depth id with
    | .error e => .error e
    | .ok g4 => .ok (id, g4)
  else .ok (id, g2)

/-- The `for` loop of `calculate_color_for_edge` over the consecutive pairs of
one depth bucket: is the pair `a`, `b` among them, in either order. -/
def adjacent_in_bucket (a b : Nat) : List Nat → Bool
  | first :: second :: rest =>
    if (a = first ∧ b = second) ∨ (b = first ∧ a = second) then true
    else adjacent_in_bucket a b (second :: rest)
  | _ => false

/-- `Graph::calculate_color_for_edge`. -/
def Graph.calculate_color_for_edge (g : Graph) (source destination : Vertex) :
    Except Fault Color :=
  if source.get_edge_ids.isEmpty || destination.get_edge_ids.isEmpty then .ok Color.Gray
  else if source.id = destination.id then .ok Color.Green
  else
    let blue : Except Fault Bool :=
      if source.depth = destination.depth then
        match g.depth_map[source.depth]? with
        | none => .error .out_of_range
        | some [] => .error .out_of_range
        | some bucket => .ok (adjacent_in_bucket source.id destination.id bucket)
      else .ok false
    match blue with
    | .error e => .error e
    | .ok true => .ok Color.Blue
    | .ok false =>
      if (source.depth : Int) = (destination.depth : Int) - 1 then .ok Color.Yellow
      else if (source.depth : Int) = (destination.depth : Int) - 2 then .ok Color.Red
      else .ok Color.Unknown

/-- The loop of `are_vertices_connected` over the edges of the source vertex. -/
def connected_loop (edges : List Edge) (source destination : Nat)
    (destination_vertex_edges : List Nat) : List Nat → Except Fault Bool
  | [] => .ok false
  | edge_of_source_vertex :: rest =>
    if source = destination then
      match edges[edge_of_source_vertex]? with
      | none => .error .out_of_range
      | some edge =>
        if edge.source = edge.destination then .ok true
        else connected_loop edges source destination destination_vertex_edges rest
    else
      if destination_vertex_edges.any
          (fun edge_of_destination_vertex => edge_of_source_vertex == edge_of_destination_vertex)
      then .ok true
      else connected_loop edges source destination destination_vertex_edges rest

/-- `Graph::are_vertices_connected` of graph.cpp. -/
def Graph.are_vertices_connected (g : Graph) (source destination : Nat) : Except Fault Bool :=
  if !does_vertex_exist source g.vertices then .error .assertion_failed
  else if !does_vertex_exist destination g.vertices then .error .assertion_failed
  else
    match g.vertices[source]?, g.vertices[destination]? with
    | some sv, some dv =>
      connected_loop g.edges source destination dv.get_edge_ids sv.get_edge_ids
    | _, _ => .error .out_of_range

/-- The statement `vertices_[k].add_edge_id(id)`. -/
def Graph.vertex_add_edge_id (g : Graph) (k id : Nat) : Except Fault Graph :=
  match g.vertices[k]? with
  | none => .error .out_of_range
  | some v =>
    match v.add_edge_id id with
    | .error e => .error e
    | .ok v1 => .ok { g with vertices := g.vertices.set k v1 }

/-- The statement `vertices_[k].depth = depth`. -/
def Graph.vertex_set_depth (g : Graph) (k depth : Nat) : Except Fault Graph :=
  match g.vertices[k]? with
  | none => .error .out_of_range
  | some v => .ok { g with vertices := g.vertices.set k { v with depth := depth } }

/-- The Gray branch of `insert_edge`: the destination takes the depth after
the source's and is filed in the depth index. -/
def Graph.place_destination (g : Graph) (source_id destination_id : Nat) :
    Except Fault Graph :=
  match g.vertices[source_id]? with
  | none => .error .out_of_range
  | some sv =>
    let depth := sv.depth + 1
    match g.vertex_set_depth destination_id depth with
    | .error e => .error e
    | .ok g1 =>
      let g2 : Graph :=
        if g1.depth_map.length = depth then { g1 with depth_map := g1.depth_map ++ [[]] }
        else g1
      g2.depth_map_push depth destination_id

/-- `Graph::insert_edge` of graph.cpp. -/
def Graph.insert_edge (g : Graph) (source_id destination_id : Nat) : Except Fault Graph :=
  match g.are_vertices_connected source_id destination_id with
  | .error e => .error e
  | .ok true => .error .assertion_failed
  | .ok false =>
    match g.vertices[source_id]?, g.vertices[destination_id]? with
    | some sv, some dv =>
      match g.calculate_color_for_edge sv dv with
      | .error e => .error e
      | .ok color =>
        let (edge_id, g0) := g.get_new_edge_id_
        let g1 : Graph :=
          { g0 with edges := g0.edges ++ [⟨source_id, destination_id, edge_id, color⟩] }
        match g1.vertex_add_edge_id source_id edge_id with
        | .error e => .error e
        | .ok g2 =>
          if color ≠ Color.Green then
            match g2.vertex_add_edge_id destination_id edge_id with
            | .error e => .error e
            | .ok g3 =>
              if color = Color.Gray then g3.place_destination source_id destination_id
              else .ok g3
          else .ok g2
    | _, _ => .error .out_of_range

/-- `Graph::depth`. -/
def Graph.depth (g : Graph) : Int := (g.depth_map.length : Int) - 1

/-- `Graph::get_vertices_in_depth`. -/
def Graph.get_vertices_in_depth (g : Graph) (depth : Int) : Except Fault (List Nat) :=
  match is_depth_valid depth g.depth_map with
  | .error e => .error e
  | .ok false => .error .assertion_failed
  | .ok true =>
    match g.depth_map[depth.toNat]? with
    | none => .error .out_of_range
    | some bucket => .ok bucket

/-- `color_to_string` of graph.cpp. -/
def color_to_string (color : Color) : String :=
  match color with
  | Color.Gray => "gray"
  | Color.Green => "green"
  | Color.Blue => "blue"
  | Color.Yellow => "yellow"
  | Color.Red => "red"
  | Color.Unknown => "unknown"

/-- `Edge::to_JSON` of graph.cpp. -/
def Edge.to_JSON (e : Edge) : String :=
  let json_string := ""
  json_string ++ ("\t\x7b \"id\": " ++ to_string e.id ++ ", \"vertex_ids\": [" ++
    to_string e.source ++ ", " ++ to_string e.destination ++ "], \"color\": \"" ++
    color_to_string e.color ++ "\" \x7d")

/-- The `for` loop of `Vertex::to_JSON` of graph.cpp over `edge_ids_`, from the
first identity not rendered yet. -/
def Vertex.edge_ids_loop : List Nat → String → String
  | [], json_string => json_string
  | edge_id :: rest, json_string =>
    let json_string := json_string ++ to_string edge_id
    Vertex.edge_ids_loop rest (if rest.isEmpty then json_string else json_string ++ ", ")

/-- `Vertex::to_JSON` of graph.cpp. -/
def Vertex.to_JSON (v : Vertex) : String :=
  let json_string := ""
  let json_string := json_string ++ ("\t\x7b \"id\": " ++ to_string v.id ++ ", \"edge_ids\": [")
  let json_string := Vertex.edge_ids_loop v.edge_ids json_string
  json_string ++ ("], \"depth\": " ++ to_string v.depth ++ "\x7d")

/-! ### Specification vocabulary for graph.cpp -/

/-- The vertex `v` after `add_edge_id(id)`. -/
def Vertex.push (v : Vertex) (id : Nat) : Vertex :=
  { v with edge_ids := v.edge_ids ++ [id] }

/-- The depth index after the Gray branch of `insert_edge` has filed `id`
under `depth`. -/
def file_in_depth (depth_map : List (List Nat)) (depth id : Nat) : List (List Nat) :=
  let dm := if depth_map.length = depth then depth_map ++ [[]] else depth_map
  dm.set depth (dm[depth]?.getD [] ++ [id])

/-- A well-formed graph state: identities double as positions, the counters
hold the next free identities, vertices list stored edges only, and the depth
of every vertex has a non-empty bucket in the depth index, as has depth 0
once there is a vertex. -/
structure WellFormed (g : Graph) : Prop where
  ids : ∀ (i : Nat) (v : Vertex), g.vertices[i]? = some v → v.id = i
  vertex_counter : g.vertex_id_counter = g.vertices.length
  edge_counter : g.edge_id_counter = g.edges.length
  listed : ∀ (i : Nat) (v : Vertex), g.vertices[i]? = some v →
    ∀ k ∈ v.edge_ids, k < g.edges.length
  buckets : ∀ (i : Nat) (v : Vertex), g.vertices[i]? = some v →
    ∃ b, g.depth_map[v.depth]? = some b ∧ b ≠ []
  root_bucket : g.vertices ≠ [] → ∃ b, g.depth_map[0]? = some b ∧ b ≠ []

/-- The states reachable from the empty graph by `insert_vertex` calls and
successful `insert_edge` calls. -/
inductive Reachable : Graph → Prop where
  | empty : Reachable Graph.empty
  | vertex {g g' : Graph} {id : Nat} :
      Reachable g → g.insert_vertex = .ok (id, g') → Reachable g'
  | edge {g g' : Graph} (a b : Nat) :
      Reachable g → g.insert_edge a b = .ok g' → Reachable g'

/-- What a successful `insert_edge(a, b)` call does to the graph. -/
structure InsertEdgePost (g g' : Graph) (a b : Nat) (sv dv : Vertex) (color : Color) :
    Prop where
  source : g.vertices[a]? = some sv
  destination : g.vertices[b]? = some dv
  color_eq : g.calculate_color_for_edge sv dv = .ok color
  not_connected : g.are_vertices_connected a b = .ok false
  edges : g'.edges = g.edges ++ [⟨a, b, g.edge_id_counter, color⟩]
  vertex_counter : g'.vertex_id_counter = g.vertex_id_counter
  edge_counter : g'.edge_id_counter = g.edge_id_counter + 1
  distinct : color ≠ Color.Green → a ≠ b
  fresh_source : g.edge_id_counter ∉ sv.edge_ids
  fresh_destination : color ≠ Color.Green → g.edge_id_counter ∉ dv.edge_ids
  vertices : ∀ i : Nat, g'.vertices[i]? =
    (g.vertices[i]?).map (fun v =>
      let v1 := if i = a ∨ (color ≠ Color.Green ∧ i = b) then v.push g.edge_id_counter else v
      if color = Color.Gray ∧ i = b then { v1 with depth := sv.depth + 1 } else v1)
  below : color = Color.Gray → sv.depth + 1 ≤ g.depth_map.length
  depth_map : g'.depth_map =
    if color = Color.Gray then file_in_depth g.depth_map (sv.depth + 1) b else g.depth_map

/-- The depth index lists, under each depth, exactly the vertices whose depth
field has that value, each once, and bucket 0 is the root alone. -/
def DepthIndexExact (g : Graph) : Prop :=
  ∀ (d : Nat) (bucket : List Nat), g.depth_map[d]? = some bucket →
    bucket.Nodup ∧
    (∀ v : Nat, v ∈ bucket ↔ ∃ vx, g.vertices[v]? = some vx ∧ vx.depth = d) ∧
    (d = 0 → bucket = [0])

/-- The vertex at position `v` is the root or has an incident edge. -/
def Attached (g : Graph) (v : Nat) : Prop :=
  ∃ vx, g.vertices[v]? = some vx ∧ (v = 0 ∨ vx.edge_ids ≠ [])

/-- The depth index lists, under each depth, exactly the attached vertices
whose depth field has that value, each once; bucket 0 is the root alone; a
vertex that is not attached has the initial depth and is in no bucket; and
every attached vertex is in the bucket of its depth. -/
def AttachedIndex (g : Graph) : Prop :=
  (∀ (d : Nat) (bucket : List Nat), g.depth_map[d]? = some bucket →
    bucket.Nodup ∧
    (∀ v : Nat, v ∈ bucket ↔
      ∃ vx, g.vertices[v]? = some vx ∧ vx.depth = d ∧ (v = 0 ∨ vx.edge_ids ≠ [])) ∧
    (d = 0 → bucket = [0])) ∧
  (∀ (v : Nat) (vx : Vertex), g.vertices[v]? = some vx → (v = 0 ∨ vx.edge_ids ≠ []) →
    ∃ bucket, g.depth_map[vx.depth]? = some bucket ∧ v ∈ bucket) ∧
  (∀ (v : Nat) (vx : Vertex), g.vertices[v]? = some vx → ¬ (v = 0 ∨ vx.edge_ids ≠ []) →
    vx.depth = Vertex.initial_depth)

/-- The facts about the depth index kept by forward-attaching insertions, one
by one. -/
structure IndexInv (g : Graph) : Prop where
  nodup : ∀ (d : Nat) (bucket : List Nat), g.depth_map[d]? = some bucket → bucket.Nodup
  sound : ∀ (d : Nat) (bucket : List Nat) (v : Nat), g.depth_map[d]? = some bucket →
    v ∈ bucket → ∃ vx, g.vertices[v]? = some vx ∧ vx.depth = d ∧ (v = 0 ∨ vx.edge_ids ≠ [])
  complete : ∀ (v : Nat) (vx : Vertex), g.vertices[v]? = some vx →
    (v = 0 ∨ vx.edge_ids ≠ []) → ∃ bucket, g.depth_map[vx.depth]? = some bucket ∧ v ∈ bucket
  root : ∀ bucket : List Nat, g.depth_map[0]? = some bucket → bucket = [0]
  fresh : ∀ (v : Nat) (vx : Vertex), g.vertices[v]? = some vx →
    ¬ (v = 0 ∨ vx.edge_ids ≠ []) → vx.depth = Vertex.initial_depth
  no_vertex : g.vertices = [] → g.depth_map = []

/-- The call `insert_edge(a, b)` attaches a new vertex the way a generator
does: when one of the two vertices has no incident edge yet, it is the
destination `b` that has none, `b` is not the root, and the source `a` is the
root or has an incident edge. -/
def AttachesForward (g : Graph) (a b : Nat) : Prop :=
  ∀ sv dv, g.vertices[a]? = some sv → g.vertices[b]? = some dv →
    (sv.edge_ids = [] ∨ dv.edge_ids = []) →
    b ≠ 0 ∧ dv.edge_ids = [] ∧ (a = 0 ∨ sv.edge_ids ≠ [])

/-- The states reachable from the empty graph by `insert_vertex` calls and
successful `insert_edge` calls that attach forward. -/
inductive ForwardReachable : Graph → Prop where
  | empty : ForwardReachable Graph.empty
  | vertex {g g' : Graph} {id : Nat} :
      ForwardReachable g → g.insert_vertex = .ok (id, g') → ForwardReachable g'
  | edge {g g' : Graph} (a b : Nat) :
      ForwardReachable g → AttachesForward g a b → g.insert_edge a b = .ok g' →
      ForwardReachable g'

/-- The state after two `insert_vertex` calls followed by `insert_edge(1, 0)`. -/
def backwardState : Graph :=
  { vertices := [⟨0, 1, [0]⟩, ⟨1, 0, [0]⟩], edges := [⟨1, 0, 0, Color.Gray⟩],
    depth_map := [[0], [0]], vertex_id_counter := 2, edge_id_counter := 1 }

/-- The state after one `insert_vertex` call on the empty graph: the root alone. -/
def oneVertex : Graph :=
  { vertices := [⟨0, 0, []⟩], edges := [], depth_map := [[0]],
    vertex_id_counter := 1, edge_id_counter := 0 }

/-- The state after two `insert_vertex` calls on the empty graph. -/
def twoVertices : Graph :=
  { vertices := [⟨0, 0, []⟩, ⟨1, 0, []⟩], edges := [], depth_map := [[0]],
    vertex_id_counter := 2, edge_id_counter := 0 }

/-- The state after three `insert_vertex` calls followed by `insert_edge(0, 1)`,
`insert_edge(0, 2)`, `insert_edge(2, 1)` and `insert_edge(0, 0)`. -/
def sampleState : Graph :=
  { vertices := [⟨0, 0, [0, 1, 3]⟩, ⟨1, 1, [0, 2]⟩, ⟨2, 1, [1, 2]⟩],
    edges := [⟨0, 1, 0, Color.Gray⟩, ⟨0, 2, 1, Color.Gray⟩, ⟨2, 1, 2, Color.Blue⟩,
              ⟨0, 0, 3, Color.Green⟩],
    depth_map := [[0], [1, 2]],
    vertex_id_counter := 3, edge_id_counter := 4 }

end GraphCpp

/-! ## Proofs -/

theorem iterate_inv {σ : Type} (I : σ → Prop) (cond : σ → Bool) (body : σ → Except Fault σ)
    (hbody : ∀ s s1, I s → cond s = true → body s = .ok s1 → I s1) :
    ∀ (fuel : Nat) (s s1 : σ), I s → iterate fuel cond body s = .ok s1 →
      I s1 ∧ cond s1 = false := by
  intro fuel
  induction fuel with
  | zero =>
    intro s s1 hI h
    unfold iterate at h
    by_cases hc : cond s = true
    · simp [hc] at h
    · simp [hc] at h
      subst h
      exact ⟨hI, by simpa using hc⟩
  | succ n ih =>
    intro s s1 hI h
    unfold iterate at h
    by_cases hc : cond s = true
    · simp only [hc, if_true] at h
      cases hb : body s with
      | error e => simp [hb] at h
      | ok s2 =>
        simp only [hb] at h
        exact ih s2 s1 (hbody s s2 hI hc hb) h
    · simp [hc] at h
      subst h
      exact ⟨hI, by simpa using hc⟩

theorem safe_ok {α : Type} (a : α) : Safe (Except.ok a : Except Fault α) := by
  intro e h; cases h

theorem safe_out_of_fuel {α : Type} : Safe (Except.error Fault.out_of_fuel : Except Fault α) := by
  intro e h; cases h; rfl

theorem iterate_safe {σ : Type} (I : σ → Prop) (cond : σ → Bool) (body : σ → Except Fault σ)
    (hbody : ∀ s s1, I s → cond s = true → body s = .ok s1 → I s1)
    (hsafe : ∀ s, I s → cond s = true → Safe (body s)) :
    ∀ (fuel : Nat) (s : σ), I s → Safe (iterate fuel cond body s) := by
  intro fuel
  induction fuel with
  | zero =>
    intro s _
    unfold iterate
    split
    · exact safe_out_of_fuel
    · exact safe_ok s
  | succ n ih =>
    intro s hI
    unfold iterate
    by_cases hc : cond s = true
    · simp only [hc, if_true]
      cases hb : body s with
      | error e =>
        simp only
        have := hsafe s hI hc
        rw [hb] at this
        exact this
      | ok s2 =>
        simp only
        exact ih s2 (hbody s s2 hI hc hb)
    · simp only [hc]
      exact safe_ok s

theorem safe_error_iff {α : Type} {e : Fault} :
    Safe (Except.error e : Except Fault α) ↔ e = Fault.out_of_fuel := by
  constructor
  · intro h; exact h e rfl
  · intro h; subst h; exact safe_out_of_fuel

theorem iterate_total {σ : Type} (I : σ → Prop) (μ : σ → Nat) (cond : σ → Bool)
    (body : σ → Except Fault σ)
    (hstep : ∀ s, I s → cond s = true → ∃ s1, body s = .ok s1 ∧ I s1 ∧ μ s1 < μ s) :
    ∀ (fuel : Nat) (s : σ), I s → μ s ≤ fuel → ∃ s1, iterate fuel cond body s = .ok s1 := by
  intro fuel
  induction fuel with
  | zero =>
    intro s hI hμ
    unfold iterate
    by_cases hc : cond s = true
    · obtain ⟨s1, _, _, hlt⟩ := hstep s hI hc
      omega
    · simp only [hc]
      exact ⟨s, rfl⟩
  | succ n ih =>
    intro s hI hμ
    unfold iterate
    by_cases hc : cond s = true
    · obtain ⟨s1, hb, hI1, hlt⟩ := hstep s hI hc
      simp only [hc, if_true, hb]
      exact ih s1 hI1 (by omega)
    · simp only [hc]
      exact ⟨s, rfl⟩

theorem intercalate_go_eq (sep : String) :
    ∀ (l : List String) (acc : String),
      String.intercalate.go acc sep l = acc ++ String.intercalate.go "" sep l := by
  intro l
  induction l with
  | nil => intro acc; simp [String.intercalate.go]
  | cons a as ih =>
    intro acc
    simp only [String.intercalate.go]
    rw [ih (acc ++ sep ++ a), ih ("" ++ sep ++ a)]
    simp [String.append_assoc]

theorem intercalate_cons_cons (sep a b : String) (l : List String) :
    sep.intercalate (a :: b :: l) = a ++ sep ++ sep.intercalate (b :: l) := by
  simp only [String.intercalate, String.intercalate.go]
  rw [intercalate_go_eq sep l (a ++ sep ++ b), intercalate_go_eq sep l b]
  simp [String.append_assoc]

/-- A loop whose condition is false on entry returns the state unchanged. -/
theorem iterate_done {σ : Type} (fuel : Nat) (cond : σ → Bool) (body : σ → Except Fault σ)
    (s : σ) (h : cond s = false) : iterate fuel cond body s = .ok s := by
  cases fuel <;> simp [iterate, h]

/-- A loop whose condition is false after one iteration runs its body once. -/
theorem iterate_once {σ : Type} (fuel : Nat) (cond : σ → Bool) (body : σ → Except Fault σ)
    (s s1 : σ) (hc : cond s = true) (hb : body s = .ok s1) (hc1 : cond s1 = false) :
    iterate (fuel + 1) cond body s = .ok s1 := by
  rw [iterate]
  simp only [hc, if_true, hb]
  exact iterate_done fuel cond body s1 hc1

namespace MainCpp

theorem vertex_add_edge_ok {g g' : Graph} {k id : Nat}
    (h : g.vertex_add_edge k id = .ok g') :
    ∃ v, g.vertices[k]? = some v ∧ id ∉ v.edge_ids ∧
      g' = { g with vertices := g.vertices.set k (v.push id) } := by
  unfold Graph.vertex_add_edge at h
  cases hv : g.vertices[k]? with
  | none => simp [hv] at h
  | some v =>
    simp only [hv] at h
    unfold Vertex.add_edge at h
    by_cases hex : edge_id_exists_in_vertex id v.edge_ids = true
    · simp [hex] at h
    · simp only [hex] at h
      simp at h
      refine ⟨v, rfl, ?_, ?_⟩
      · intro hmem
        apply hex
        unfold edge_id_exists_in_vertex
        simp
        exact hmem
      · rw [← h]; rfl

theorem insert_edge_ok {g g' : Graph} {s t id : Nat} {col : Color}
    (h : g.insert_edge s t id col = .ok g') : InsertEdgePost g g' s t id col := by
  unfold Graph.insert_edge at h
  have hvalid : is_edge_id_valid (id : Int) = true := by
    unfold is_edge_id_valid
    have : ¬ ((id : Int) < 0) := by omega
    simp [this]
  simp only [hvalid, Bool.not_true, Bool.false_eq_true, if_false] at h
  by_cases hex : edge_exists_in_graph id g.edges = true
  · simp [hex] at h
  simp only [hex, if_false] at h
  have hfresh : ∀ e ∈ g.edges, e.id ≠ id := by
    intro e he heq
    apply hex
    unfold edge_exists_in_graph
    simp
    exact ⟨e, he, heq⟩
  by_cases hcol : col = Color.GREEN
  · subst hcol
    simp only [ne_eq, not_true_eq_false, if_false] at h
    obtain ⟨v, hv, hnot, hg⟩ := vertex_add_edge_ok h
    simp only at hv
    have hs : s < g.vertices.length := by
      rcases List.getElem?_eq_some_iff.mp hv with ⟨hlt, _⟩
      exact hlt
    subst hg
    refine ⟨rfl, rfl, rfl, by simp, hs, hfresh, by simp, ?_⟩
    · intro i
      simp only [List.getElem?_set]
      by_cases his : s = i
      · subst his
        simp [hs, hv]
      · have his2 : ¬ i = s := fun hh => his hh.symm
        simp [his, his2]
  · simp only [ne_eq, hcol, not_false_eq_true, if_true] at h
    cases hconn : Graph.are_vertices_connected
        { g with edges := g.edges ++ [⟨id, col, s, t⟩] } s t with
    | error e => simp [hconn] at h
    | ok b =>
      simp only [hconn] at h
      cases b with
      | true => simp at h
      | false =>
        simp only at h
        unfold Graph.are_vertices_connected at hconn
        simp only at hconn
        cases hvs : g.vertices[s]? with
        | none => simp [hvs] at hconn
        | some vs =>
          cases hvt : g.vertices[t]? with
          | none => simp [hvs, hvt] at hconn
          | some vt =>
            simp only [hvs, hvt] at hconn
            have hs : s < g.vertices.length := (List.getElem?_eq_some_iff.mp hvs).1
            have ht : t < g.vertices.length := (List.getElem?_eq_some_iff.mp hvt).1
            have hdisj : ∀ k ∈ vs.edge_ids, k ∉ vt.edge_ids := by
              intro k hk hk2
              have : (vs.edge_ids.any fun source =>
                  vt.edge_ids.any fun destination => source == destination) = true := by
                simp only [List.any_eq_true]
                exact ⟨k, hk, k, hk2, by simp⟩
              rw [this] at hconn
              cases hconn
            cases h2 : Graph.vertex_add_edge
                { g with edges := g.edges ++ [⟨id, col, s, t⟩] } s id with
            | error e => simp [h2] at h
            | ok g2 =>
              simp only [h2] at h
              obtain ⟨v, hv, hnot, hg2⟩ := vertex_add_edge_ok h2
              simp only at hv
              rw [hvs] at hv
              cases hv
              obtain ⟨v3, hv3, hnot3, hg⟩ := vertex_add_edge_ok h
              subst hg2
              simp only at hv3
              have hst : s ≠ t := by
                intro hst
                subst hst
                simp only [List.getElem?_set, hs, if_true] at hv3
                cases hv3
                apply hnot3
                simp [Vertex.push]
              simp only [List.getElem?_set, hst, if_false] at hv3
              rw [hvt] at hv3
              cases hv3
              subst hg
              refine ⟨rfl, rfl, rfl, by simp, hs, hfresh, ?_, ?_⟩
              · intro _
                refine ⟨ht, hst, ?_⟩
                intro vs2 vt2 h1 h2
                rw [hvs] at h1
                rw [hvt] at h2
                cases h1
                cases h2
                exact hdisj
              · intro i
                simp only [List.getElem?_set, List.length_set]
                by_cases hit : t = i
                · subst hit
                  simp [ht, hvt, hcol]
                · have hit2 : ¬ i = t := fun hh => hit hh.symm
                  by_cases his : s = i
                  · subst his
                    simp [hit, hs, hvs]
                  · have his2 : ¬ i = s := fun hh => his hh.symm
                    simp [hit, hit2, his, his2]

theorem insert_vertex_ok {g g' : Graph} {c id d : Nat}
    (h : g.insert_vertex c id d = .ok g') :
    g' = { g with vertices := g.vertices ++ [⟨[], c, id, d⟩] } ∧
      ∀ v ∈ g.vertices, v.id ≠ id := by
  unfold Graph.insert_vertex at h
  have hvalid : is_vertex_id_valid (id : Int) = true := by
    unfold is_vertex_id_valid
    have : ¬ ((id : Int) < 0) := by omega
    simp [this]
  simp only [hvalid, Bool.not_true, Bool.false_eq_true, if_false] at h
  by_cases hex : vertex_exists_in_graph id g.vertices = true
  · simp [hex] at h
  simp only [hex, if_false] at h
  refine ⟨by cases h; rfl, ?_⟩
  intro v hv heq
  apply hex
  unfold vertex_exists_in_graph
  simp
  exact ⟨v, hv, heq⟩

theorem wellFormed_empty (md bf : Int) : WellFormed (emptyGraph md bf) := by
  refine ⟨⟨?_, ?_⟩, ?_, ?_, ?_⟩
  · intro i v h; simp [emptyGraph] at h
  · intro k e h; simp [emptyGraph] at h
  · intro i v h; simp [emptyGraph] at h
  · intro k e h; simp [emptyGraph] at h
  · intro e1 h1; simp [emptyGraph] at h1

theorem wellFormed_set_max_depth {g : Graph} (d : Int) (h : WellFormed g) :
    WellFormed (g.set_max_depth d) := by
  obtain ⟨h1, h2, h3, h4⟩ := h
  exact ⟨h1, h2, h3, h4⟩

theorem wellFormed_vertexStep {g g' : Graph} (hw : WellFormed g) (h : VertexStep g g') :
    WellFormed g' := by
  obtain ⟨c, d, h⟩ := h
  obtain ⟨hg, _⟩ := insert_vertex_ok h
  subst hg
  obtain ⟨⟨hv, he⟩, hl, hi, hp⟩ := hw
  refine ⟨⟨?_, he⟩, ?_, ?_, hp⟩
  · intro i v hiv
    simp only [List.getElem?_append] at hiv
    by_cases hlt : i < g.vertices.length
    · simp only [hlt, if_true] at hiv
      exact hv i v hiv
    · simp only [hlt, if_false] at hiv
      have : i - g.vertices.length = 0 := by
        by_contra hne
        have : 1 ≤ i - g.vertices.length := by omega
        simp [List.getElem?_eq_none, this] at hiv
      rw [this] at hiv
      simp at hiv
      subst hiv
      simp
      omega
  · intro i v hiv k hk
    simp only [List.getElem?_append] at hiv
    by_cases hlt : i < g.vertices.length
    · simp only [hlt, if_true] at hiv
      exact hl i v hiv k hk
    · simp only [hlt, if_false] at hiv
      have hv2 : v ∈ [(⟨[], c, g.vertices.length, d⟩ : Vertex)] := List.getElem?_mem hiv
      simp at hv2
      subst hv2
      simp at hk
  · intro k e hke
    obtain ⟨hs, ht, hc, hcount⟩ := hi k e hke
    refine ⟨by simp; omega, by simp; omega, hc, ?_⟩
    intro i v hiv
    simp only [List.getElem?_append] at hiv
    by_cases hlt : i < g.vertices.length
    · simp only [hlt, if_true] at hiv
      exact hcount i v hiv
    · simp only [hlt, if_false] at hiv
      have hv2 : v ∈ [(⟨[], c, g.vertices.length, d⟩ : Vertex)] := List.getElem?_mem hiv
      simp at hv2
      subst hv2
      have h1 : ¬ i = e.source := by omega
      have h2 : ¬ i = e.destination := by omega
      simp [h1, h2]


theorem InsertEdgePost.vertex_of {g g' : Graph} {s t id : Nat} {col : Color}
    (post : InsertEdgePost g g' s t id col) {i : Nat} {v' : Vertex}
    (h : g'.vertices[i]? = some v') :
    ∃ v, g.vertices[i]? = some v ∧
      v' = if i = s ∨ (col ≠ Color.GREEN ∧ i = t) then v.push id else v := by
  rw [post.vertices i] at h
  cases hv : g.vertices[i]? with
  | none => simp [hv] at h
  | some v =>
    simp only [hv, Option.map_some', Option.some.injEq] at h
    exact ⟨v, rfl, h.symm⟩

theorem InsertEdgePost.edge_of {g g' : Graph} {s t id : Nat} {col : Color}
    (post : InsertEdgePost g g' s t id col) {k : Nat} {e : Edge}
    (h : g'.edges[k]? = some e) :
    (k < g.edges.length ∧ g.edges[k]? = some e) ∨
      (k = g.edges.length ∧ e = ⟨id, col, s, t⟩) := by
  rw [post.edges, List.getElem?_append] at h
  by_cases hlt : k < g.edges.length
  · simp only [hlt, if_true] at h
    exact Or.inl ⟨hlt, h⟩
  · simp only [hlt, if_false] at h
    right
    have hk : k - g.edges.length = 0 := by
      by_contra hne
      have : 1 ≤ k - g.edges.length := by omega
      simp [List.getElem?_eq_none, this] at h
    rw [hk] at h
    simp at h
    exact ⟨by omega, h.symm⟩

theorem wellFormed_edgeStep {g g' : Graph} (hw : WellFormed g) (h : EdgeStep g g') :
    WellFormed g' := by
  obtain ⟨s, t, col, hgreen, h⟩ := h
  have post := insert_edge_ok h
  obtain ⟨⟨hv, he⟩, hl, hi, hp⟩ := hw
  have hlen : g'.edges.length = g.edges.length + 1 := by rw [post.edges]; simp
  refine ⟨⟨?_, ?_⟩, ?_, ?_, ?_⟩
  · intro i v' hiv
    obtain ⟨v, hv0, hv1⟩ := post.vertex_of hiv
    have := hv i v hv0
    subst hv1
    split <;> simpa [Vertex.push] using this
  · intro k e hke
    rcases post.edge_of hke with ⟨_, h0⟩ | ⟨hk, h0⟩
    · exact he k e h0
    · subst h0; exact hk.symm
  · intro i v' hiv k hk
    obtain ⟨v, hv0, hv1⟩ := post.vertex_of hiv
    have hold := hl i v hv0
    subst hv1
    rw [hlen]
    split at hk
    · simp only [Vertex.push, List.mem_append, List.mem_singleton] at hk
      rcases hk with hk | hk
      · have := hold k hk; omega
      · omega
    · have := hold k hk; omega
  · intro k e hke
    rcases post.edge_of hke with ⟨hklt, h0⟩ | ⟨hk, h0⟩
    · obtain ⟨hs, ht, hc, hcount⟩ := hi k e h0
      refine ⟨by rw [post.length]; exact hs, by rw [post.length]; exact ht, hc, ?_⟩
      intro i v' hiv
      obtain ⟨v, hv0, hv1⟩ := post.vertex_of hiv
      have hold := hcount i v hv0
      subst hv1
      have hne : ¬ g.edges.length = k := by omega
      split
      · simp only [Vertex.push, List.count_append, List.count_singleton, beq_iff_eq, hne, if_false]
        simpa using hold
      · exact hold
    · subst h0
      subst hk
      have hs := post.source_lt
      have ht : t < g.vertices.length := by
        by_cases hc : col = Color.GREEN
        · rw [← hgreen hc]; exact hs
        · exact (post.not_green hc).1
      refine ⟨by rw [post.length]; exact hs, by rw [post.length]; exact ht, ?_, ?_⟩
      · constructor
        · exact hgreen
        · intro hst
          by_contra hc
          exact (post.not_green hc).2.1 hst
      · intro i v' hiv
        obtain ⟨v, hv0, hv1⟩ := post.vertex_of hiv
        have hzero : v.edge_ids.count g.edges.length = 0 := by
          rw [List.count_eq_zero]
          intro hmem
          have := hl i v hv0 _ hmem
          omega
        subst hv1
        by_cases hcond : i = s ∨ (col ≠ Color.GREEN ∧ i = t)
        · have hcond2 : i = s ∨ i = t := by
            rcases hcond with h1 | ⟨_, h1⟩
            · exact Or.inl h1
            · exact Or.inr h1
          simp only [hcond, hcond2, if_true, Vertex.push, List.count_append, hzero]
          simp
        · have hcond2 : ¬ (i = s ∨ i = t) := by
            intro hh
            apply hcond
            rcases hh with h1 | h1
            · exact Or.inl h1
            · by_cases hc : col = Color.GREEN
              · left; rw [hgreen hc]; exact h1
              · exact Or.inr ⟨hc, h1⟩
          simp only [hcond, hcond2, if_false, hzero]
  · intro e1 h1 e2 h2 hc1 hc2 hpair
    rw [post.edges] at h1 h2
    simp only [List.mem_append, List.mem_singleton] at h1 h2
    have key : ∀ e ∈ g.edges, e.color ≠ Color.GREEN → col ≠ Color.GREEN →
        ¬ (e.source = s ∧ e.destination = t ∨ e.source = t ∧ e.destination = s) := by
      intro e hmem hce hcc hjoin
      obtain ⟨k, hk⟩ := List.getElem?_of_mem hmem
      obtain ⟨hs, ht, _, hcount⟩ := hi k e hk
      obtain ⟨htl, hst, hdisj⟩ := post.not_green hcc
      have hsl := post.source_lt
      obtain ⟨vs, hvs⟩ : ∃ vs, g.vertices[s]? = some vs :=
        ⟨_, List.getElem?_eq_getElem hsl⟩
      obtain ⟨vt, hvt⟩ : ∃ vt, g.vertices[t]? = some vt :=
        ⟨_, List.getElem?_eq_getElem htl⟩
      have c1 := hcount s vs hvs
      have c2 := hcount t vt hvt
      have hin : s = e.source ∨ s = e.destination := by
        rcases hjoin with ⟨a, _⟩ | ⟨_, b⟩
        · exact Or.inl a.symm
        · exact Or.inr b.symm
      have hin2 : t = e.source ∨ t = e.destination := by
        rcases hjoin with ⟨_, b⟩ | ⟨a, _⟩
        · exact Or.inr b.symm
        · exact Or.inl a.symm
      simp only [hin, hin2, if_true] at c1 c2
      have m1 : k ∈ vs.edge_ids := List.count_pos_iff.mp (by omega)
      have m2 : k ∈ vt.edge_ids := List.count_pos_iff.mp (by omega)
      exact hdisj vs vt hvs hvt k m1 m2
    rcases h1 with h1 | h1 <;> rcases h2 with h2 | h2
    · exact hp e1 h1 e2 h2 hc1 hc2 hpair
    · subst h2
      exfalso
      exact key e1 h1 hc1 hc2 hpair
    · subst h1
      exfalso
      apply key e2 h2 hc2 hc1
      rcases hpair with ⟨a, b⟩ | ⟨a, b⟩
      · exact Or.inl ⟨a.symm, b.symm⟩
      · exact Or.inr ⟨b.symm, a.symm⟩
    · rw [h1, h2]

theorem wellFormed_step {g g' : Graph} (hw : WellFormed g) (h : Step g g') :
    WellFormed g' := by
  cases h with
  | vertex hv => exact wellFormed_vertexStep hw hv
  | edge he => exact wellFormed_edgeStep hw he
  | depth d => exact wellFormed_set_max_depth d hw

theorem wellFormed_steps {g g' : Graph} (hw : WellFormed g) (h : Steps g g') :
    WellFormed g' := by
  induction h with
  | refl => exact hw
  | tail _ hstep ih => exact wellFormed_step ih hstep

theorem EdgeSteps.steps {g g' : Graph} (h : EdgeSteps g g') : Steps g g' := by
  induction h with
  | refl => exact Relation.ReflTransGen.refl
  | tail _ hstep ih => exact Relation.ReflTransGen.tail ih (Step.edge hstep)

theorem insert_edge_length {g g' : Graph} {s t id : Nat} {col : Color}
    (h : g.insert_edge s t id col = .ok g') : g'.vertices.length = g.vertices.length :=
  (insert_edge_ok h).length

theorem tree_j_body_reach {rng : Rng} {g0 : Graph} {s s1 : TreeVars}
    (hI : TreeReach g0 s) (h : tree_j_body rng s = .ok s1) : TreeReach g0 s1 := by
  unfold tree_j_body at h
  simp only at h
  split at h
  · cases h1 : s.gen.graph.insert_vertex s.source_vertex s.vertex (s.depth + 1) with
    | error e => simp [h1] at h
    | ok g1 =>
      simp only [h1] at h
      cases h2 : g1.insert_edge s.source_vertex s.vertex g1.edges.length Color.GRAY with
      | error e => simp [h2] at h
      | ok g2 =>
        simp only [h2, Except.ok.injEq] at h
        subst h
        obtain ⟨hsteps, hvertex⟩ := hI
        rw [hvertex] at h1
        have hlen1 : g1.vertices.length = s.gen.graph.vertices.length + 1 := by
          rw [(insert_vertex_ok h1).1]; simp
        refine ⟨?_, ?_⟩
        · refine Relation.ReflTransGen.tail (Relation.ReflTransGen.tail hsteps
            (Step.vertex ⟨_, _, h1⟩)) (Step.edge ⟨_, _, _, ?_, h2⟩)
          intro hc; cases hc
        · simp only
          rw [insert_edge_length h2, hlen1, hvertex]
  · simp only [Except.ok.injEq] at h
    subst h
    exact hI

theorem tree_i_body_reach {rng : Rng} {fuel : Nat} {g0 : Graph} {s s1 : TreeVars}
    (hI : TreeReach g0 s) (h : tree_i_body rng fuel s = .ok s1) : TreeReach g0 s1 := by
  unfold tree_i_body at h
  split at h
  · cases h
  · rename_i s2 h2
    simp only [Except.ok.injEq] at h
    subst h
    have hI0 : TreeReach g0 { s with j := 0 } := hI
    exact (iterate_inv (TreeReach g0) _ (tree_j_body rng)
      (fun a b ha _ hb => tree_j_body_reach ha hb) fuel _ s2 hI0 h2).1

theorem tree_depth_body_reach {fl : FloatOps} {rng : Rng} {fuel : Nat} {g0 : Graph}
    {s s1 : TreeVars}
    (hI : TreeReach g0 s) (h : tree_depth_body fl rng fuel s = .ok s1) : TreeReach g0 s1 := by
  unfold tree_depth_body at h
  split at h
  · cases h
  · rename_i s2 h2
    simp only [Except.ok.injEq] at h
    subst h
    have hI0 : TreeReach g0 { s with i := 0 } := hI
    exact (iterate_inv (TreeReach g0) _ (tree_i_body rng fuel)
      (fun a b ha _ hb => tree_i_body_reach ha hb) fuel _ s2 hI0 h2).1

theorem tree_steps {fl : FloatOps} {rng : Rng} {fuel : Nat} {gen gen1 : Gen}
    (hempty : gen.graph.vertices = [])
    (h : generate_vertices_and_gray_edges fl rng fuel gen = .ok gen1) :
    Steps gen.graph gen1.graph := by
  unfold generate_vertices_and_gray_edges at h
  cases h0 : gen.graph.insert_vertex 0 0 0 with
  | error e => simp [h0] at h
  | ok g0 =>
    simp only [h0] at h
    have hlen0 : g0.vertices.length = 1 := by
      rw [(insert_vertex_ok h0).1]; simp [hempty]
    have hstart : TreeReach gen.graph ⟨{ gen with graph := g0 }, 0, 0, 1, 0, 0, 0⟩ := by
      refine ⟨Relation.ReflTransGen.single (Step.vertex ⟨0, 0, ?_⟩), by simp [hlen0]⟩
      rw [hempty]; exact h0
    split at h
    · cases h
    · rename_i s hs
      have hI := (iterate_inv (TreeReach gen.graph) _ (tree_depth_body fl rng fuel)
        (fun a b ha _ hb => tree_depth_body_reach ha hb) fuel _ s hstart hs).1
      split at h
      · cases h
      · split at h
        · simp only [Except.ok.injEq] at h
          subst h
          exact Relation.ReflTransGen.tail hI.1 (Step.depth _)
        · simp only [Except.ok.injEq] at h
          subst h
          exact hI.1

theorem green_loop_steps {rng : Rng} (l : List Vertex) :
    ∀ (gen gen1 : Gen), green_loop rng l gen = .ok gen1 → EdgeSteps gen.graph gen1.graph := by
  induction l with
  | nil =>
    intro gen gen1 h
    simp only [green_loop, Except.ok.injEq] at h
    subst h
    exact Relation.ReflTransGen.refl
  | cons v rest ih =>
    intro gen gen1 h
    simp only [green_loop] at h
    split at h
    · split at h
      · cases h
      · rename_i g1 h1
        have hrest := ih _ _ h
        exact Relation.ReflTransGen.head ⟨_, _, _, fun _ => rfl, h1⟩ hrest
    · have hrest := ih _ _ h
      exact hrest

theorem green_steps {rng : Rng} {gen gen1 : Gen}
    (h : generate_green_edges rng gen = .ok gen1) : EdgeSteps gen.graph gen1.graph :=
  green_loop_steps _ _ _ h

theorem blue_body_steps {rng : Rng} {g0 : Graph} {s s1 : BlueVars}
    (hI : EdgeSteps g0 s.gen.graph) (h : blue_body rng s = .ok s1) :
    EdgeSteps g0 s1.gen.graph := by
  unfold blue_body at h
  split at h
  · split at h
    · simp only at h
      split at h
      · split at h
        · cases h
        · rename_i g1 h1
          simp only [Except.ok.injEq] at h
          subst h
          refine Relation.ReflTransGen.tail hI ⟨_, _, _, ?_, h1⟩
          intro hc; cases hc
      · simp only [Except.ok.injEq] at h
        subst h
        exact hI
    · simp only [Except.ok.injEq] at h
      subst h
      exact hI
  · cases h

theorem blue_steps {rng : Rng} {fuel : Nat} {gen gen1 : Gen}
    (h : generate_blue_edges rng fuel gen = .ok gen1) : EdgeSteps gen.graph gen1.graph := by
  unfold generate_blue_edges at h
  split at h
  · cases h
  · rename_i s hs
    simp only [Except.ok.injEq] at h
    subst h
    exact (iterate_inv (fun t : BlueVars => EdgeSteps gen.graph t.gen.graph) _ (blue_body rng)
      (fun a b ha _ hb => blue_body_steps ha hb) fuel ⟨gen, 0⟩ s Relation.ReflTransGen.refl hs).1

theorem yellow_n_body_steps {rng : Rng} {fuel : Nat} {condition : Rat} {g0 : Graph}
    {s s1 : SkipVars}
    (hI : EdgeSteps g0 s.gen.graph) (h : yellow_n_body rng fuel condition s = .ok s1) :
    EdgeSteps g0 s1.gen.graph := by
  unfold yellow_n_body at h
  simp only at h
  split at h
  · split at h
    · cases h
    · split at h
      · cases h
      · simp only [Except.ok.injEq] at h
        subst h
        exact hI
      · split at h
        · cases h
        · rename_i g1 h1
          simp only [Except.ok.injEq] at h
          subst h
          refine Relation.ReflTransGen.tail hI ⟨_, _, _, ?_, h1⟩
          intro hc; cases hc
  · simp only [Except.ok.injEq] at h
    subst h
    exact hI

theorem yellow_m_body_steps {rng : Rng} {fuel : Nat} {condition : Rat} {g0 : Graph}
    {s s1 : SkipVars}
    (hI : EdgeSteps g0 s.gen.graph) (h : yellow_m_body rng fuel condition s = .ok s1) :
    EdgeSteps g0 s1.gen.graph := by
  unfold yellow_m_body at h
  split at h
  · cases h
  · rename_i s2 h2
    simp only [Except.ok.injEq] at h
    subst h
    have hI0 : EdgeSteps g0 ({ s with stop := false } : SkipVars).gen.graph := hI
    exact (iterate_inv (fun t : SkipVars => EdgeSteps g0 t.gen.graph) _
      (yellow_n_body rng fuel condition)
      (fun a b ha _ hb => yellow_n_body_steps ha hb) fuel _ s2 hI0 h2).1

theorem yellow_i_body_steps {fl : FloatOps} {rng : Rng} {fuel : Nat} {g0 : Graph}
    {s s1 : SkipVars}
    (hI : EdgeSteps g0 s.gen.graph) (h : yellow_i_body fl rng fuel s = .ok s1) :
    EdgeSteps g0 s1.gen.graph := by
  unfold yellow_i_body at h
  simp only at h
  split at h
  · cases h
  · rename_i s2 h2
    simp only [Except.ok.injEq] at h
    subst h
    exact (iterate_inv (fun t : SkipVars => EdgeSteps g0 t.gen.graph) _
      (yellow_m_body rng fuel _)
      (fun a b ha _ hb => yellow_m_body_steps ha hb) fuel _ s2 hI h2).1

theorem yellow_steps {fl : FloatOps} {rng : Rng} {fuel : Nat} {gen gen1 : Gen}
    (h : generate_yellow_edges fl rng fuel gen = .ok gen1) :
    EdgeSteps gen.graph gen1.graph := by
  unfold generate_yellow_edges at h
  split at h
  · cases h
  · rename_i s hs
    simp only [Except.ok.injEq] at h
    subst h
    exact (iterate_inv (fun t : SkipVars => EdgeSteps gen.graph t.gen.graph) _
      (yellow_i_body fl rng fuel)
      (fun a b ha _ hb => yellow_i_body_steps ha hb) fuel ⟨gen, 1, 0, 0, false⟩ s
      Relation.ReflTransGen.refl hs).1

theorem red_n_body_steps {rng : Rng} {g0 : Graph} {s s1 : SkipVars}
    (hI : EdgeSteps g0 s.gen.graph) (h : red_n_body rng s = .ok s1) :
    EdgeSteps g0 s1.gen.graph := by
  unfold red_n_body at h
  simp only at h
  split at h
  · split at h
    · cases h
    · split at h
      · cases h
      · split at h
        · cases h
        · split at h
          · cases h
          · rename_i g1 h1
            simp only [Except.ok.injEq] at h
            subst h
            refine Relation.ReflTransGen.tail hI ⟨_, _, _, ?_, h1⟩
            intro hc; cases hc
  · simp only [Except.ok.injEq] at h
    subst h
    exact hI

theorem red_m_body_steps {rng : Rng} {fuel : Nat} {g0 : Graph} {s s1 : SkipVars}
    (hI : EdgeSteps g0 s.gen.graph) (h : red_m_body rng fuel s = .ok s1) :
    EdgeSteps g0 s1.gen.graph := by
  unfold red_m_body at h
  split at h
  · cases h
  · rename_i s2 h2
    simp only [Except.ok.injEq] at h
    subst h
    have hI0 : EdgeSteps g0 ({ s with stop := false } : SkipVars).gen.graph := hI
    exact (iterate_inv (fun t : SkipVars => EdgeSteps g0 t.gen.graph) _ (red_n_body rng)
      (fun a b ha _ hb => red_n_body_steps ha hb) fuel _ s2 hI0 h2).1

theorem red_i_body_steps {rng : Rng} {fuel : Nat} {g0 : Graph} {s s1 : SkipVars}
    (hI : EdgeSteps g0 s.gen.graph) (h : red_i_body rng fuel s = .ok s1) :
    EdgeSteps g0 s1.gen.graph := by
  unfold red_i_body at h
  split at h
  · cases h
  · rename_i s2 h2
    simp only [Except.ok.injEq] at h
    subst h
    exact (iterate_inv (fun t : SkipVars => EdgeSteps g0 t.gen.graph) _ (red_m_body rng fuel)
      (fun a b ha _ hb => red_m_body_steps ha hb) fuel _ s2 hI h2).1

theorem red_steps {rng : Rng} {fuel : Nat} {gen gen1 : Gen}
    (h : generate_red_edges rng fuel gen = .ok gen1) :
    EdgeSteps gen.graph gen1.graph := by
  unfold generate_red_edges at h
  split at h
  · cases h
  · rename_i s hs
    simp only [Except.ok.injEq] at h
    subst h
    exact (iterate_inv (fun t : SkipVars => EdgeSteps gen.graph t.gen.graph) _
      (red_i_body rng fuel)
      (fun a b ha _ hb => red_i_body_steps ha hb) fuel ⟨gen, 0, 0, 0, false⟩ s
      Relation.ReflTransGen.refl hs).1

/-- The passes of `generateGen` one after the other. -/
theorem generateGen_passes {fl : FloatOps} {rng : Rng} {fuel : Nat} {md bf : Int} {gen : Gen}
    (h : generateGen fl rng fuel md bf = .ok gen) :
    ∃ s1 s2 s3 s4,
      generate_vertices_and_gray_edges fl rng fuel ⟨emptyGraph md bf, 0, 0⟩ = .ok s1 ∧
      generate_green_edges rng s1 = .ok s2 ∧
      generate_blue_edges rng fuel s2 = .ok s3 ∧
      generate_yellow_edges fl rng fuel s3 = .ok s4 ∧
      generate_red_edges rng fuel s4 = .ok gen := by
  unfold generateGen at h
  simp only at h
  split at h
  · cases h
  · rename_i s1 h1
    split at h
    · cases h
    · rename_i s2 h2
      split at h
      · cases h
      · rename_i s3 h3
        split at h
        · cases h
        · rename_i s4 h4
          exact ⟨s1, s2, s3, s4, h1, h2, h3, h4, h⟩

theorem generateGraph_gen {fl : FloatOps} {rng : Rng} {fuel : Nat} {md bf : Int} {g : Graph}
    (h : generateGraph fl rng fuel md bf = .ok g) :
    ∃ gen, generateGen fl rng fuel md bf = .ok gen ∧ gen.graph = g := by
  unfold generateGraph at h
  split at h
  · cases h
  · rename_i s hs
    simp only [Except.ok.injEq] at h
    exact ⟨s, hs, h⟩

theorem generateGen_steps {fl : FloatOps} {rng : Rng} {fuel : Nat} {md bf : Int} {gen : Gen}
    (h : generateGen fl rng fuel md bf = .ok gen) : Steps (emptyGraph md bf) gen.graph := by
  obtain ⟨s1, s2, s3, s4, h1, h2, h3, h4, h5⟩ := generateGen_passes h
  have t1 : Steps (emptyGraph md bf) s1.graph := tree_steps rfl h1
  have t2 := (green_steps h2).steps
  have t3 := (blue_steps h3).steps
  have t4 := (yellow_steps h4).steps
  have t5 := (red_steps h5).steps
  exact Relation.ReflTransGen.trans (Relation.ReflTransGen.trans (Relation.ReflTransGen.trans
    (Relation.ReflTransGen.trans t1 t2) t3) t4) t5

theorem generateGraph_wellFormed {fl : FloatOps} {rng : Rng} {fuel : Nat} {md bf : Int}
    {g : Graph} (h : generateGraph fl rng fuel md bf = .ok g) : WellFormed g := by
  obtain ⟨gen, hgen, rfl⟩ := generateGraph_gen h
  exact wellFormed_steps (wellFormed_empty md bf) (generateGen_steps hgen)

theorem map_eq_range_of_getElem? {α : Type} (l : List α) (f : α → Nat)
    (h : ∀ (i : Nat) (a : α), l[i]? = some a → f a = i) : l.map f = List.range l.length := by
  apply List.ext_getElem?
  intro i
  by_cases hi : i < l.length
  · rw [List.getElem?_map, List.getElem?_eq_getElem hi, List.getElem?_range hi]
    simp only [Option.map_some', Option.some.injEq]
    exact h i _ (List.getElem?_eq_getElem hi)
  · have h1 : (List.map f l)[i]? = none := by
      rw [List.getElem?_eq_none]; simp; omega
    have h2 : (List.range l.length)[i]? = none := by
      rw [List.getElem?_eq_none]; simp; omega
    rw [h1, h2]

theorem sorted_index (D : List Nat) (d : Nat) (hs : D.Pairwise (fun x y => x ≤ y)) :
    ∀ i : Nat, i < D.count d → D[D.countP (fun x => decide (x < d)) + i]? = some d := by
  induction D with
  | nil => intro i hi; simp at hi
  | cons x xs ih =>
    intro i hi
    rw [List.pairwise_cons] at hs
    obtain ⟨hx, hxs⟩ := hs
    rcases Nat.lt_trichotomy x d with hlt | heq | hgt
    · have hne : x ≠ d := by omega
      rw [List.count_cons_of_ne (Ne.symm hne)] at hi
      rw [List.countP_cons_of_pos _ _ (by simpa using hlt)]
      have : xs.countP (fun x => decide (x < d)) + 1 + i =
          (xs.countP (fun x => decide (x < d)) + i) + 1 := by omega
      rw [this, List.getElem?_cons_succ]
      exact ih hxs i hi
    · subst heq
      have hz : xs.countP (fun y => decide (y < x)) = 0 := by
        rw [List.countP_eq_zero]
        intro y hy
        have := hx y hy
        simp only [decide_eq_true_eq]
        omega
      rw [List.countP_cons_of_neg _ _ (by simp), hz]
      rw [List.count_cons_self] at hi
      cases i with
      | zero => simp
      | succ n =>
        have h1 := ih hxs n (by omega)
        rw [hz] at h1
        simpa using h1
    · exfalso
      have hne : x ≠ d := by omega
      rw [List.count_cons_of_ne (Ne.symm hne)] at hi
      have : xs.count d = 0 := by
        rw [List.count_eq_zero]
        intro hmem
        have := hx d hmem
        omega
      omega

theorem countP_lt_succ (D : List Nat) (d : Nat) :
    D.countP (fun x => decide (x < d + 1)) =
      D.countP (fun x => decide (x < d)) + D.count d := by
  induction D with
  | nil => simp
  | cons x xs ih =>
    rcases Nat.lt_trichotomy x d with hlt | heq | hgt
    · have hne : x ≠ d := by omega
      rw [List.countP_cons_of_pos _ _ (by simp; omega),
        List.countP_cons_of_pos _ _ (by simpa using hlt), List.count_cons_of_ne (Ne.symm hne), ih]
      omega
    · subst heq
      rw [List.countP_cons_of_pos _ _ (by simp), List.countP_cons_of_neg _ _ (by simp),
        List.count_cons_self, ih]
      omega
    · have hne : x ≠ d := by omega
      rw [List.countP_cons_of_neg _ _ (by simp; omega),
        List.countP_cons_of_neg _ _ (by simp; omega), List.count_cons_of_ne (Ne.symm hne), ih]

theorem vertices_count_in_depth_eq (g : Graph) (h0 : g.depths.count 0 = 1) (d : Nat) :
    g.vertices_count_in_depth d = g.depths.count d := by
  unfold Graph.vertices_count_in_depth
  by_cases hd : d = 0
  · subst hd; simp [h0]
  · simp only [hd, if_false]
    unfold Graph.depths
    rw [List.count, List.countP_map, List.countP_eq_length_filter]
    congr 1
    apply List.filter_congr
    intro v _
    simp only [Function.comp]
    by_cases h : d = v.depth
    · simp [h]
    · have h2 : ¬ v.depth = d := fun hh => h hh.symm
      simp [h, h2]


theorem insert_edge_depths {g g' : Graph} {s t id : Nat} {col : Color}
    (h : g.insert_edge s t id col = .ok g') :
    g'.depths = g.depths ∧ g'.creators = g.creators := by
  have post := insert_edge_ok h
  constructor
  · apply List.ext_getElem?
    intro i
    unfold Graph.depths
    rw [List.getElem?_map, List.getElem?_map, post.vertices i]
    cases g.vertices[i]? with
    | none => rfl
    | some v =>
      simp only [Option.map_some', Option.some.injEq]
      split <;> rfl
  · apply List.ext_getElem?
    intro i
    unfold Graph.creators
    rw [List.getElem?_map, List.getElem?_map, post.vertices i]
    cases g.vertices[i]? with
    | none => rfl
    | some v =>
      simp only [Option.map_some', Option.some.injEq]
      split <;> rfl

theorem insert_vertex_depths {g g' : Graph} {c id d : Nat}
    (h : g.insert_vertex c id d = .ok g') :
    g'.depths = g.depths ++ [d] ∧ g'.creators = g.creators ++ [c] ∧ g'.edges = g.edges ∧
      g'.max_depth = g.max_depth ∧ g'.new_vertices_num = g.new_vertices_num := by
  obtain ⟨hg, _⟩ := insert_vertex_ok h
  subst hg
  simp [Graph.depths, Graph.creators]

theorem depths_length (g : Graph) : g.depths.length = g.vertices.length := by
  simp [Graph.depths]

theorem creators_length (g : Graph) : g.creators.length = g.vertices.length := by
  simp [Graph.creators]

/-- What one trial of the Tree pass does. -/
theorem tree_j_body_effect {rng : Rng} {s s1 : TreeVars} (h : tree_j_body rng s = .ok s1) :
    s1.depth = s.depth ∧ s1.i = s.i ∧ s1.source_vertex = s.source_vertex ∧
    s1.condition = s.condition ∧ s1.j = s.j + 1 ∧ s1.gen.probs = s.gen.probs + 1 ∧
    s1.gen.picks = s.gen.picks ∧
    s1.gen.graph.max_depth = s.gen.graph.max_depth ∧
    s1.gen.graph.new_vertices_num = s.gen.graph.new_vertices_num ∧
    ((rng.prob s.gen.probs < s.condition ∧ s1.gen.graph = s.gen.graph ∧ s1.vertex = s.vertex) ∨
     (rng.prob s.gen.probs ≥ s.condition ∧ s1.vertex = s.vertex + 1 ∧
      s1.gen.graph.depths = s.gen.graph.depths ++ [s.depth + 1] ∧
      s1.gen.graph.creators = s.gen.graph.creators ++ [s.source_vertex] ∧
      s1.gen.graph.edges = s.gen.graph.edges ++
        [⟨s.gen.graph.edges.length, Color.GRAY, s.source_vertex, s.vertex⟩])) := by
  unfold tree_j_body at h
  simp only at h
  split at h
  · rename_i hp
    cases h1 : s.gen.graph.insert_vertex s.source_vertex s.vertex (s.depth + 1) with
    | error e => simp [h1] at h
    | ok g1 =>
      simp only [h1] at h
      cases h2 : g1.insert_edge s.source_vertex s.vertex g1.edges.length Color.GRAY with
      | error e => simp [h2] at h
      | ok g2 =>
        simp only [h2, Except.ok.injEq] at h
        subst h
        obtain ⟨d1, c1, e1, m1, n1⟩ := insert_vertex_depths h1
        obtain ⟨d2, c2⟩ := insert_edge_depths h2
        have post := insert_edge_ok h2
        refine ⟨rfl, rfl, rfl, rfl, rfl, rfl, rfl, ?_, ?_, Or.inr ⟨hp, rfl, ?_, ?_, ?_⟩⟩
        · simp only; rw [post.max_depth, m1]
        · simp only; rw [post.new_vertices_num, n1]
        · simp only; rw [d2, d1]
        · simp only; rw [c2, c1]
        · simp only; rw [post.edges, e1]
  · rename_i hp
    simp only [Except.ok.injEq] at h
    subst h
    exact ⟨rfl, rfl, rfl, rfl, rfl, rfl, rfl, rfl, rfl, Or.inl ⟨lt_of_not_ge hp, rfl, rfl⟩⟩

theorem treeCore_grow {g g1 : Graph} {d sv : Nat} (hc : TreeCore g)
    (hbound : ∀ x ∈ g.depths, x ≤ d + 1) (hpar : g.depths[sv]? = some d)
    (hd : g1.depths = g.depths ++ [d + 1]) (hcr : g1.creators = g.creators ++ [sv])
    (he : g1.edges = g.edges ++ [⟨g.edges.length, Color.GRAY, sv, g.vertices.length⟩]) :
    TreeCore g1 := by
  have hlenD := depths_length g
  have hlenC := creators_length g
  have hpos : 0 < g.depths.length := (List.getElem?_eq_some_iff.mp hc.root).1
  have hsvlt : sv < g.depths.length := (List.getElem?_eq_some_iff.mp hpar).1
  refine ⟨?_, ?_, ?_, ?_, ?_⟩
  · rw [hd, List.getElem?_append_left hpos]
    exact hc.root
  · rw [hcr, List.getElem?_append_left (by omega)]
    exact hc.root_creator
  · intro i c hic hi0
    rw [hcr, List.getElem?_append] at hic
    by_cases hlt : i < g.creators.length
    · simp only [hlt, if_true] at hic
      obtain ⟨dp, h1, h2, e, hmem, h3⟩ := hc.parent i c hic hi0
      refine ⟨dp, ?_, ?_, e, ?_, h3⟩
      · rw [hd, List.getElem?_append_left (List.getElem?_eq_some_iff.mp h1).1]; exact h1
      · rw [hd, List.getElem?_append_left (List.getElem?_eq_some_iff.mp h2).1]; exact h2
      · rw [he]; simp [hmem]
    · simp only [hlt, if_false] at hic
      have hk : i - g.creators.length = 0 := by
        by_contra hne
        have : 1 ≤ i - g.creators.length := by omega
        simp [List.getElem?_eq_none, this] at hic
      rw [hk] at hic
      simp at hic
      subst hic
      have hi : i = g.vertices.length := by omega
      refine ⟨d, ?_, ?_, ⟨g.edges.length, Color.GRAY, sv, g.vertices.length⟩, ?_, rfl, rfl, hi.symm⟩
      · rw [hd, List.getElem?_append_left hsvlt]; exact hpar
      · rw [hd, hi, ← hlenD]; simp
      · rw [he]; simp
  · rw [hd, List.pairwise_append]
    refine ⟨hc.sorted, by simp, ?_⟩
    intro a ha b hb
    simp only [List.mem_singleton] at hb
    subst hb
    exact hbound a ha
  · rw [hd, List.count_append, hc.zero_once]
    simp

theorem geometry_mono {g g1 : Graph} (hg : Geometry g)
    (hd : ∀ (i x : Nat), g.depths[i]? = some x → g1.depths[i]? = some x)
    (hc : ∀ (i x : Nat), g.creators[i]? = some x → g1.creators[i]? = some x)
    (he : ∀ e ∈ g1.edges, e ∈ g.edges ∨ ∃ dp dc cc, g1.depths[e.source]? = some dp ∧
      g1.depths[e.destination]? = some dc ∧ g1.creators[e.destination]? = some cc ∧
      colorFits e dp dc cc) : Geometry g1 := by
  intro e hmem
  rcases he e hmem with hold | hnew
  · obtain ⟨dp, dc, cc, h1, h2, h3, h4⟩ := hg e hold
    exact ⟨dp, dc, cc, hd _ _ h1, hd _ _ h2, hc _ _ h3, h4⟩
  · exact hnew

theorem getElem?_append_some {α : Type} {l : List α} {i : Nat} {x : α} (y : List α)
    (h : l[i]? = some x) : (l ++ y)[i]? = some x := by
  rw [List.getElem?_append_left (List.getElem?_eq_some_iff.mp h).1]
  exact h

theorem tree_j_body_inv {rng : Rng} {g0 : Graph} {s s1 : TreeVars}
    (hI : TreeReach g0 s ∧ TreeTrialInv s) (h : tree_j_body rng s = .ok s1) :
    TreeReach g0 s1 ∧ TreeTrialInv s1 := by
  refine ⟨tree_j_body_reach hI.1 h, ?_⟩
  obtain ⟨hreach, hJ⟩ := hI
  obtain ⟨e1, e2, e3, _, _, _, _, _, _, hcase⟩ := tree_j_body_effect h
  rcases hcase with ⟨_, hg, _⟩ | ⟨_, _, hd, hcr, he⟩
  · refine ⟨?_, ?_, ?_, ?_, ?_, ?_⟩
    · rw [hg]; exact hJ.core
    · rw [hg]; exact hJ.geometry
    · rw [hg]; exact hJ.colors
    · rw [hg, e1]; exact hJ.bound
    · rw [hg, e1, e2, e3]; exact hJ.source
    · rw [hg, e1, e2]; exact hJ.index
  · have hpar : s.gen.graph.depths[s.source_vertex]? = some s.depth := by
      rw [hJ.source]
      exact sorted_index _ _ hJ.core.sorted _ hJ.index
    have hlenD := depths_length s.gen.graph
    have hlenC := creators_length s.gen.graph
    refine ⟨?_, ?_, ?_, ?_, ?_, ?_⟩
    · rw [hreach.2] at he
      exact treeCore_grow hJ.core hJ.bound hpar hd hcr he
    · apply geometry_mono hJ.geometry
      · intro i x hx; rw [hd]; exact getElem?_append_some _ hx
      · intro i x hx; rw [hcr]; exact getElem?_append_some _ hx
      · intro e hmem
        rw [he] at hmem
        simp only [List.mem_append, List.mem_singleton] at hmem
        rcases hmem with hmem | hmem
        · exact Or.inl hmem
        · right
          subst hmem
          refine ⟨s.depth, s.depth + 1, s.source_vertex, ?_, ?_, ?_, ?_⟩
          · rw [hd]; exact getElem?_append_some _ hpar
          · simp only; rw [hd, hreach.2, ← hlenD]; simp
          · simp only; rw [hcr, hreach.2, ← hlenC]; simp
          · simp [colorFits]
    · intro e hmem
      rw [he] at hmem
      simp only [List.mem_append, List.mem_singleton] at hmem
      rcases hmem with hmem | hmem
      · exact hJ.colors e hmem
      · subst hmem; simp
    · intro x hx
      rw [hd] at hx
      simp only [List.mem_append, List.mem_singleton] at hx
      rw [e1]
      rcases hx with hx | hx
      · exact hJ.bound x hx
      · omega
    · rw [hd, e1, e2, e3, List.countP_append, hJ.source]
      simp
    · rw [hd, e1, e2, List.count_append]
      have := hJ.index
      simp
      omega

theorem tree_i_body_inv {rng : Rng} {fuel : Nat} {g0 : Graph} {s s1 : TreeVars}
    (hI : TreeReach g0 s ∧ TreeParentInv s)
    (hc : decide (s.i < s.gen.graph.vertices_count_in_depth s.depth) = true)
    (h : tree_i_body rng fuel s = .ok s1) :
    TreeReach g0 s1 ∧ TreeParentInv s1 := by
  obtain ⟨hreach, hP⟩ := hI
  unfold tree_i_body at h
  split at h
  · cases h
  · rename_i s2 h2
    simp only [Except.ok.injEq] at h
    subst h
    have hlt : s.i < s.gen.graph.depths.count s.depth := by
      rw [← vertices_count_in_depth_eq _ hP.core.zero_once]
      simpa using hc
    have hstart : TreeReach g0 { s with j := 0 } ∧ TreeTrialInv { s with j := 0 } :=
      ⟨hreach, ⟨hP.core, hP.geometry, hP.colors, hP.bound, hP.source, hlt⟩⟩
    obtain ⟨⟨hr2, hJ2⟩, _⟩ := iterate_inv (fun t => TreeReach g0 t ∧ TreeTrialInv t) _
      (tree_j_body rng) (fun a b ha _ hb => tree_j_body_inv ha hb) fuel _ s2 hstart h2
    refine ⟨hr2, ⟨hJ2.core, hJ2.geometry, hJ2.colors, hJ2.bound, ?_, ?_⟩⟩
    · simp only
      rw [hJ2.source]
      omega
    · have := hJ2.index
      simp only
      omega

theorem tree_depth_body_inv {fl : FloatOps} {rng : Rng} {fuel : Nat} {g0 : Graph}
    {s s1 : TreeVars}
    (hI : TreeReach g0 s ∧ TreeDepthInv s) (h : tree_depth_body fl rng fuel s = .ok s1) :
    TreeReach g0 s1 ∧ TreeDepthInv s1 := by
  obtain ⟨hreach, hD⟩ := hI
  unfold tree_depth_body at h
  split at h
  · cases h
  · rename_i s2 h2
    simp only [Except.ok.injEq] at h
    subst h
    have hstart : TreeReach g0 { s with i := 0 } ∧ TreeParentInv { s with i := 0 } := by
      refine ⟨hreach, ⟨hD.core, hD.geometry, hD.colors, ?_, ?_, by simp⟩⟩
      · intro x hx
        have := hD.bound x hx
        simp only
        omega
      · simp only
        rw [hD.source]
        rfl
    obtain ⟨⟨hr2, hP2⟩, hcond⟩ := iterate_inv (fun t => TreeReach g0 t ∧ TreeParentInv t)
      (fun t => decide (t.i < t.gen.graph.vertices_count_in_depth t.depth))
      (tree_i_body rng fuel) (fun a b ha hc hb => tree_i_body_inv ha hc hb) fuel _ s2 hstart h2
    have heq : s2.i = s2.gen.graph.depths.count s2.depth := by
      have h1 := hP2.index
      have h3 : ¬ s2.i < s2.gen.graph.depths.count s2.depth := by
        rw [← vertices_count_in_depth_eq _ hP2.core.zero_once]
        simpa using hcond
      omega
    refine ⟨hr2, ⟨hP2.core, hP2.geometry, hP2.colors, hP2.bound, ?_⟩⟩
    simp only
    rw [countP_lt_succ, hP2.source, heq]

theorem treeCore_root (md bf : Int) {g0 : Graph}
    (h0 : (emptyGraph md bf).insert_vertex 0 0 0 = .ok g0) :
    TreeCore g0 ∧ Geometry g0 ∧ OnlyColors g0 [Color.GRAY] := by
  obtain ⟨hg, _⟩ := insert_vertex_ok h0
  subst hg
  refine ⟨⟨by simp [Graph.depths, emptyGraph], by simp [Graph.creators, emptyGraph], ?_,
    by simp [Graph.depths, emptyGraph], by simp [Graph.depths, emptyGraph]⟩, ?_, ?_⟩
  · intro i c hic hi0
    simp only [Graph.creators, emptyGraph, List.nil_append, List.map_cons, List.map_nil] at hic
    cases i with
    | zero => exact absurd rfl hi0
    | succ n => simp at hic
  · intro e he; simp [emptyGraph] at he
  · intro e he; simp [emptyGraph] at he

/-- The Tree pass, run on the empty graph, leaves a graph of tree shape whose
edges are all GRAY and fit the depths of their endpoints. -/
theorem tree_pass_core {fl : FloatOps} {rng : Rng} {fuel : Nat} {md bf : Int} {gen1 : Gen}
    (h : generate_vertices_and_gray_edges fl rng fuel ⟨emptyGraph md bf, 0, 0⟩ = .ok gen1) :
    TreeCore gen1.graph ∧ Geometry gen1.graph ∧ OnlyColors gen1.graph [Color.GRAY] := by
  unfold generate_vertices_and_gray_edges at h
  cases h0 : (emptyGraph md bf).insert_vertex 0 0 0 with
  | error e => simp [h0] at h
  | ok g0 =>
    simp only [h0] at h
    obtain ⟨hcore, hgeo, hcol⟩ := treeCore_root md bf h0
    have hlen0 : g0.vertices.length = 1 := by
      rw [(insert_vertex_ok h0).1]; simp [emptyGraph]
    have hd0 : g0.depths = [0] := by
      rw [(insert_vertex_ok h0).1]; simp [emptyGraph, Graph.depths]
    have hstart : TreeReach (emptyGraph md bf) ⟨⟨g0, 0, 0⟩, 0, 0, 1, 0, 0, 0⟩ ∧
        TreeDepthInv ⟨⟨g0, 0, 0⟩, 0, 0, 1, 0, 0, 0⟩ := by
      refine ⟨⟨Relation.ReflTransGen.single (Step.vertex ⟨0, 0, h0⟩), by simp [hlen0]⟩,
        ⟨hcore, hgeo, hcol, ?_, ?_⟩⟩
      · intro x hx
        simp only [hd0, List.mem_singleton] at hx
        simp [hx]
      · simp [hd0]
    split at h
    · cases h
    · rename_i s hs
      obtain ⟨⟨_, hD⟩, _⟩ := iterate_inv (fun t => TreeReach (emptyGraph md bf) t ∧ TreeDepthInv t)
        _ (tree_depth_body fl rng fuel) (fun a b ha _ hb => tree_depth_body_inv ha hb)
        fuel _ s hstart hs
      split at h
      · cases h
      · split at h
        · simp only [Except.ok.injEq] at h
          subst h
          exact ⟨⟨hD.core.root, hD.core.root_creator, hD.core.parent, hD.core.sorted,
            hD.core.zero_once⟩, hD.geometry, hD.colors⟩
        · simp only [Except.ok.injEq] at h
          subst h
          exact ⟨hD.core, hD.geometry, hD.colors⟩


theorem tree_pass_wellFormed {fl : FloatOps} {rng : Rng} {fuel : Nat} {md bf : Int} {gen1 : Gen}
    (h : generate_vertices_and_gray_edges fl rng fuel ⟨emptyGraph md bf, 0, 0⟩ = .ok gen1) :
    WellFormed gen1.graph :=
  wellFormed_steps (wellFormed_empty md bf) (tree_steps rfl h)

theorem depths_get {g : Graph} {i : Nat} {v : Vertex} (h : g.vertices[i]? = some v) :
    g.depths[i]? = some v.depth := by
  simp [Graph.depths, h]

theorem creators_get {g : Graph} {i : Nat} {v : Vertex} (h : g.vertices[i]? = some v) :
    g.creators[i]? = some v.source_id := by
  simp [Graph.creators, h]

theorem vertex_of_depths {g : Graph} {i d : Nat} (h : g.depths[i]? = some d) :
    ∃ v, g.vertices[i]? = some v ∧ v.depth = d := by
  unfold Graph.depths at h
  rw [List.getElem?_map] at h
  cases hv : g.vertices[i]? with
  | none => simp [hv] at h
  | some v =>
    simp only [hv, Option.map_some', Option.some.injEq] at h
    exact ⟨v, rfl, h⟩

theorem edge_exists_false_of_wf {g : Graph} (hw : WellFormed g) :
    edge_exists_in_graph g.edges.length g.edges = false := by
  unfold edge_exists_in_graph
  rw [Bool.eq_false_iff]
  intro hany
  simp only [List.any_eq_true, beq_iff_eq] at hany
  obtain ⟨e, hmem, heq⟩ := hany
  obtain ⟨k, hk⟩ := List.getElem?_of_mem hmem
  have := hw.ids.2 k e hk
  have := (List.getElem?_eq_some_iff.mp hk).1
  omega

theorem vertex_exists_false_of_wf {g : Graph} (hw : WellFormed g) :
    vertex_exists_in_graph g.vertices.length g.vertices = false := by
  unfold vertex_exists_in_graph
  rw [Bool.eq_false_iff]
  intro hany
  simp only [List.any_eq_true, beq_iff_eq] at hany
  obtain ⟨v, hmem, heq⟩ := hany
  obtain ⟨k, hk⟩ := List.getElem?_of_mem hmem
  have := hw.ids.1 k v hk
  have := (List.getElem?_eq_some_iff.mp hk).1
  omega

theorem is_edge_id_valid_nat (id : Nat) : is_edge_id_valid (id : Int) = true := by
  unfold is_edge_id_valid
  have : ¬ ((id : Int) < 0) := by omega
  simp [this]

theorem is_vertex_id_valid_nat (id : Nat) : is_vertex_id_valid (id : Int) = true := by
  unfold is_vertex_id_valid
  have : ¬ ((id : Int) < 0) := by omega
  simp [this]

theorem insert_vertex_total {g : Graph} (hw : WellFormed g) (c d : Nat) :
    ∃ g', g.insert_vertex c g.vertices.length d = .ok g' := by
  unfold Graph.insert_vertex
  simp [is_vertex_id_valid_nat, vertex_exists_false_of_wf hw]

theorem edge_id_fresh_of_wf {g : Graph} (hw : WellFormed g) {i : Nat} {v : Vertex}
    (hv : g.vertices[i]? = some v) :
    edge_id_exists_in_vertex g.edges.length v.edge_ids = false := by
  unfold edge_id_exists_in_vertex
  rw [Bool.eq_false_iff]
  intro hany
  simp only [List.any_eq_true, beq_iff_eq] at hany
  obtain ⟨k, hk, heq⟩ := hany
  have := hw.listed i v hv k hk
  omega

theorem insert_edge_total_green {g : Graph} (hw : WellFormed g) {s : Nat}
    (hs : s < g.vertices.length) :
    ∃ g', g.insert_edge s s g.edges.length Color.GREEN = .ok g' := by
  have hv : g.vertices[s]? = some g.vertices[s] := List.getElem?_eq_getElem hs
  unfold Graph.insert_edge
  simp [is_edge_id_valid_nat, edge_exists_false_of_wf hw, Graph.vertex_add_edge, hv,
    Vertex.add_edge, edge_id_fresh_of_wf hw hv]

theorem not_connected_of_not_joined {g : Graph} (hw : WellFormed g) {s t : Nat} {vs vt : Vertex}
    (hst : s ≠ t) (hvs : g.vertices[s]? = some vs) (hvt : g.vertices[t]? = some vt)
    (hno : ∀ e ∈ g.edges, ¬ Joins e s t) :
    (vs.edge_ids.any fun source => vt.edge_ids.any fun destination => source == destination)
      = false := by
  rw [Bool.eq_false_iff]
  intro hany
  simp only [List.any_eq_true, beq_iff_eq] at hany
  obtain ⟨k, hk1, k2, hk2, heq⟩ := hany
  subst heq
  have hklt := hw.listed s vs hvs k hk1
  have hke : g.edges[k]? = some g.edges[k] := List.getElem?_eq_getElem hklt
  obtain ⟨_, _, _, hcount⟩ := hw.incidence k _ hke
  have c1 := hcount s vs hvs
  have c2 := hcount t vt hvt
  have p1 : 0 < vs.edge_ids.count k := List.count_pos_iff.mpr hk1
  have p2 : 0 < vt.edge_ids.count k := List.count_pos_iff.mpr hk2
  have m1 : s = g.edges[k].source ∨ s = g.edges[k].destination := by
    by_contra hh
    simp only [hh, if_false] at c1
    omega
  have m2 : t = g.edges[k].source ∨ t = g.edges[k].destination := by
    by_contra hh
    simp only [hh, if_false] at c2
    omega
  apply hno g.edges[k] (List.getElem_mem hklt)
  unfold Joins
  rcases m1 with a | a <;> rcases m2 with b | b
  · exact absurd (a.trans b.symm) hst
  · exact Or.inl ⟨a.symm, b.symm⟩
  · exact Or.inr ⟨b.symm, a.symm⟩
  · exact absurd (a.trans b.symm) hst

theorem insert_edge_total {g : Graph} (hw : WellFormed g) (s t : Nat) (col : Color)
    (hs : s < g.vertices.length) (ht : t < g.vertices.length) (hst : s ≠ t)
    (hcol : col ≠ Color.GREEN) (hno : ∀ e ∈ g.edges, ¬ Joins e s t) :
    ∃ g', g.insert_edge s t g.edges.length col = .ok g' := by
  have hvs : g.vertices[s]? = some g.vertices[s] := List.getElem?_eq_getElem hs
  have hvt : g.vertices[t]? = some g.vertices[t] := List.getElem?_eq_getElem ht
  have hnc := not_connected_of_not_joined hw hst hvs hvt hno
  have hst2 : ¬ s = t := hst
  unfold Graph.insert_edge
  simp only [is_edge_id_valid_nat, edge_exists_false_of_wf hw, Bool.not_true,
    Bool.false_eq_true, if_false, ne_eq, hcol, not_false_eq_true, if_true,
    Graph.are_vertices_connected, hvs, hvt, hnc, Graph.vertex_add_edge, Vertex.add_edge,
    edge_id_fresh_of_wf hw hvs, List.getElem?_set, hst2, edge_id_fresh_of_wf hw hvt]
  exact ⟨_, rfl⟩


theorem wellFormed_of_treeReach {md bf : Int} {s : TreeVars}
    (h : TreeReach (emptyGraph md bf) s) : WellFormed s.gen.graph :=
  wellFormed_steps (wellFormed_empty md bf) h.1

theorem tree_j_body_safe {rng : Rng} {md bf : Int} {s : TreeVars}
    (hI : TreeReach (emptyGraph md bf) s ∧ TreeTrialInv s) : Safe (tree_j_body rng s) := by
  obtain ⟨hreach, hJ⟩ := hI
  have hw := wellFormed_of_treeReach hreach
  have hpar : s.gen.graph.depths[s.source_vertex]? = some s.depth := by
    rw [hJ.source]
    exact sorted_index _ _ hJ.core.sorted _ hJ.index
  have hsv : s.source_vertex < s.gen.graph.vertices.length := by
    rw [← depths_length]
    exact (List.getElem?_eq_some_iff.mp hpar).1
  unfold tree_j_body
  simp only
  split
  · rw [hreach.2]
    obtain ⟨g1, h1⟩ := insert_vertex_total hw s.source_vertex (s.depth + 1)
    rw [h1]
    simp only
    have hw1 : WellFormed g1 := wellFormed_vertexStep hw ⟨_, _, h1⟩
    have hg1 := (insert_vertex_ok h1).1
    have hlen1 : g1.vertices.length = s.gen.graph.vertices.length + 1 := by
      rw [hg1]; simp
    have he1 : g1.edges = s.gen.graph.edges := by rw [hg1]
    obtain ⟨g2, h2⟩ := insert_edge_total hw1 s.source_vertex
      s.gen.graph.vertices.length Color.GRAY (by omega) (by omega) (by omega)
      (by simp) (by
        intro e hmem hj
        rw [he1] at hmem
        obtain ⟨k, hk⟩ := List.getElem?_of_mem hmem
        obtain ⟨h3, h4, _, _⟩ := hw.incidence k e hk
        unfold Joins at hj
        omega)
    rw [h2]
    exact safe_ok _
  · exact safe_ok _

theorem tree_i_body_safe {rng : Rng} {fuel : Nat} {md bf : Int} {s : TreeVars}
    (hI : TreeReach (emptyGraph md bf) s ∧ TreeParentInv s)
    (hc : decide (s.i < s.gen.graph.vertices_count_in_depth s.depth) = true) :
    Safe (tree_i_body rng fuel s) := by
  obtain ⟨hreach, hP⟩ := hI
  have hlt : s.i < s.gen.graph.depths.count s.depth := by
    rw [← vertices_count_in_depth_eq _ hP.core.zero_once]
    simpa using hc
  have hstart : TreeReach (emptyGraph md bf) { s with j := 0 } ∧ TreeTrialInv { s with j := 0 } :=
    ⟨hreach, ⟨hP.core, hP.geometry, hP.colors, hP.bound, hP.source, hlt⟩⟩
  have hs := iterate_safe (fun t => TreeReach (emptyGraph md bf) t ∧ TreeTrialInv t)
    (fun t => decide ((t.j : Int) < t.gen.graph.get_new_vertices_num))
    (tree_j_body rng) (fun a b ha _ hb => tree_j_body_inv ha hb)
    (fun a ha _ => tree_j_body_safe ha) fuel _ hstart
  unfold tree_i_body
  split
  · rename_i e he
    rw [he] at hs
    exact hs
  · exact safe_ok _

theorem tree_depth_body_safe {fl : FloatOps} {rng : Rng} {fuel : Nat} {md bf : Int}
    {s : TreeVars} (hI : TreeReach (emptyGraph md bf) s ∧ TreeDepthInv s) :
    Safe (tree_depth_body fl rng fuel s) := by
  obtain ⟨hreach, hD⟩ := hI
  have hstart : TreeReach (emptyGraph md bf) { s with i := 0 } ∧
      TreeParentInv { s with i := 0 } := by
    refine ⟨hreach, ⟨hD.core, hD.geometry, hD.colors, ?_, ?_, by simp⟩⟩
    · intro x hx
      have := hD.bound x hx
      simp only
      omega
    · simp only
      rw [hD.source]
      rfl
  have hs := iterate_safe (fun t => TreeReach (emptyGraph md bf) t ∧ TreeParentInv t)
    (fun t => decide (t.i < t.gen.graph.vertices_count_in_depth t.depth))
    (tree_i_body rng fuel) (fun a b ha hc hb => tree_i_body_inv ha hc hb)
    (fun a ha hc => tree_i_body_safe ha hc) fuel _ hstart
  unfold tree_depth_body
  split
  · rename_i e he
    rw [he] at hs
    exact hs
  · exact safe_ok _

theorem tree_pass_safe (fl : FloatOps) (rng : Rng) (fuel : Nat) (md bf : Int) :
    Safe (generate_vertices_and_gray_edges fl rng fuel ⟨emptyGraph md bf, 0, 0⟩) := by
  unfold generate_vertices_and_gray_edges
  obtain ⟨g0, h0⟩ := insert_vertex_total (wellFormed_empty md bf) 0 0
  have h0' : (emptyGraph md bf).insert_vertex 0 0 0 = .ok g0 := h0
  simp only [h0']
  obtain ⟨hcore, hgeo, hcol⟩ := treeCore_root md bf h0'
  have hlen0 : g0.vertices.length = 1 := by
    rw [(insert_vertex_ok h0').1]; simp [emptyGraph]
  have hd0 : g0.depths = [0] := by
    rw [(insert_vertex_ok h0').1]; simp [emptyGraph, Graph.depths]
  have hstart : TreeReach (emptyGraph md bf) ⟨⟨g0, 0, 0⟩, 0, 0, 1, 0, 0, 0⟩ ∧
      TreeDepthInv ⟨⟨g0, 0, 0⟩, 0, 0, 1, 0, 0, 0⟩ := by
    refine ⟨⟨Relation.ReflTransGen.single (Step.vertex ⟨0, 0, h0'⟩), by simp [hlen0]⟩,
      ⟨hcore, hgeo, hcol, ?_, ?_⟩⟩
    · intro x hx
      simp only [hd0, List.mem_singleton] at hx
      simp [hx]
    · simp [hd0]
  have hs := iterate_safe (fun t => TreeReach (emptyGraph md bf) t ∧ TreeDepthInv t)
    (fun t => decide ((t.depth : Int) < t.gen.graph.get_max_depth))
    (tree_depth_body fl rng fuel) (fun a b ha _ hb => tree_depth_body_inv ha hb)
    (fun a ha _ => tree_depth_body_safe ha) fuel _ hstart
  split
  · rename_i e he
    rw [he] at hs
    exact safe_error_iff.mpr (safe_error_iff.mp hs)
  · rename_i s hs2
    obtain ⟨⟨hr, hD⟩, _⟩ := iterate_inv (fun t => TreeReach (emptyGraph md bf) t ∧ TreeDepthInv t)
      _ (tree_depth_body fl rng fuel) (fun a b ha _ hb => tree_depth_body_inv ha hb)
      fuel _ s hstart hs2
    have hpos : 0 < s.gen.graph.vertices.length := by
      rw [← depths_length]
      exact (List.getElem?_eq_some_iff.mp hD.core.root).1
    obtain ⟨v, hv⟩ : ∃ v, s.gen.graph.vertices[s.vertex - 1]? = some v :=
      ⟨_, List.getElem?_eq_getElem (by rw [hr.2]; omega)⟩
    unfold Graph.depth_of
    rw [hv]
    simp only
    split
    · exact safe_ok _
    · exact safe_ok _


theorem depths_eq_profile (g : Graph) : g.depths = g.profile.map (fun p => p.2.2) := by
  simp [Graph.depths, Graph.profile, Function.comp]

theorem creators_eq_profile (g : Graph) : g.creators = g.profile.map (fun p => p.1) := by
  simp [Graph.creators, Graph.profile, Function.comp]

theorem filter_map_profile {β : Type} (l : List Vertex) (p : Nat × Nat × Nat → Bool)
    (f : Nat × Nat × Nat → β) :
    (l.filter (fun v => p (v.source_id, v.id, v.depth))).map
        (fun v => f (v.source_id, v.id, v.depth)) =
      ((l.map (fun v => (v.source_id, v.id, v.depth))).filter p).map f := by
  induction l with
  | nil => rfl
  | cons v vs ih =>
    by_cases hp : p (v.source_id, v.id, v.depth) = true
    · simp [List.filter_cons, hp, ih]
    · simp [List.filter_cons, hp, ih]

theorem vertices_in_depth_eq_profile (g : Graph) (d : Nat) :
    g.vertices_in_depth d =
      (g.profile.filter (fun p => p.2.2 == d)).map (fun p => p.2.1) := by
  unfold Graph.vertices_in_depth Graph.profile
  exact filter_map_profile g.vertices (fun p => p.2.2 == d) (fun p => p.2.1)

theorem vertices_count_in_depth_eq_profile (g : Graph) (d : Nat) :
    g.vertices_count_in_depth d =
      if d = 0 then 1 else (g.profile.filter (fun p => d == p.2.2)).length := by
  unfold Graph.vertices_count_in_depth Graph.profile
  split
  · rfl
  · have := filter_map_profile g.vertices (fun p => d == p.2.2) (fun _ => ())
    have h2 := congrArg List.length this
    simpa using h2

theorem created_by_vertex_eq_profile (g : Graph) (id : Nat) :
    g.created_by_vertex id =
      if id = 0 then g.new_vertices_num
      else ((g.profile.filter (fun p => p.1 == id)).length : Int) := by
  unfold Graph.created_by_vertex Graph.profile
  split
  · rfl
  · have := filter_map_profile g.vertices (fun p => p.1 == id) (fun _ => ())
    have h2 := congrArg List.length this
    simp only [List.length_map] at h2
    rw [h2]

theorem insert_edge_profile {g g' : Graph} {s t id : Nat} {col : Color}
    (h : g.insert_edge s t id col = .ok g') : g'.profile = g.profile := by
  have post := insert_edge_ok h
  apply List.ext_getElem?
  intro i
  unfold Graph.profile
  rw [List.getElem?_map, List.getElem?_map, post.vertices i]
  cases g.vertices[i]? with
  | none => rfl
  | some v =>
    simp only [Option.map_some', Option.some.injEq]
    split <;> rfl

theorem frozen_refl (g : Graph) : Frozen g g := ⟨rfl, rfl, rfl⟩

theorem frozen_edgeStep {g g' : Graph} (h : EdgeStep g g') : Frozen g g' := by
  obtain ⟨s, t, col, _, h⟩ := h
  have post := insert_edge_ok h
  exact ⟨insert_edge_profile h, post.max_depth, post.new_vertices_num⟩

theorem frozen_edgeSteps {g g' : Graph} (h : EdgeSteps g g') : Frozen g g' := by
  induction h with
  | refl => exact frozen_refl g
  | tail _ hstep ih =>
    have h2 := frozen_edgeStep hstep
    exact ⟨h2.profile.trans ih.profile, h2.max_depth.trans ih.max_depth,
      h2.new_vertices_num.trans ih.new_vertices_num⟩

theorem Frozen.depths {g0 g : Graph} (h : Frozen g0 g) : g.depths = g0.depths := by
  rw [depths_eq_profile, depths_eq_profile, h.profile]

theorem Frozen.creators {g0 g : Graph} (h : Frozen g0 g) : g.creators = g0.creators := by
  rw [creators_eq_profile, creators_eq_profile, h.profile]

theorem Frozen.vertices_length {g0 g : Graph} (h : Frozen g0 g) :
    g.vertices.length = g0.vertices.length := by
  rw [← depths_length, ← depths_length, h.depths]

theorem Frozen.vertices_in_depth {g0 g : Graph} (h : Frozen g0 g) (d : Nat) :
    g.vertices_in_depth d = g0.vertices_in_depth d := by
  rw [vertices_in_depth_eq_profile, vertices_in_depth_eq_profile, h.profile]

theorem Frozen.vertices_count_in_depth {g0 g : Graph} (h : Frozen g0 g) (d : Nat) :
    g.vertices_count_in_depth d = g0.vertices_count_in_depth d := by
  rw [vertices_count_in_depth_eq_profile, vertices_count_in_depth_eq_profile, h.profile]

theorem Frozen.created_by_vertex {g0 g : Graph} (h : Frozen g0 g) (id : Nat) :
    g.created_by_vertex id = g0.created_by_vertex id := by
  rw [created_by_vertex_eq_profile, created_by_vertex_eq_profile, h.profile,
    h.new_vertices_num]

theorem edgeSteps_edges_mono {g g' : Graph} (h : EdgeSteps g g') :
    ∀ e ∈ g.edges, e ∈ g'.edges := by
  induction h with
  | refl => intro e he; exact he
  | tail _ hstep ih =>
    obtain ⟨s, t, col, _, h⟩ := hstep
    intro e he
    rw [(insert_edge_ok h).edges]
    simp [ih e he]

theorem PassInv.wellFormed {gt g : Graph} {cs : List Color} (h : PassInv gt g cs) :
    WellFormed g :=
  wellFormed_steps h.base h.steps.steps

theorem PassInv.frozen {gt g : Graph} {cs : List Color} (h : PassInv gt g cs) : Frozen gt g :=
  frozen_edgeSteps h.steps

theorem PassInv.treeCore {gt g : Graph} {cs : List Color} (h : PassInv gt g cs) :
    TreeCore g := by
  have hf := h.frozen
  refine ⟨?_, ?_, ?_, ?_, ?_⟩
  · rw [hf.depths]; exact h.tree.root
  · rw [hf.creators]; exact h.tree.root_creator
  · intro i c hic hi0
    rw [hf.creators] at hic
    obtain ⟨dp, h1, h2, e, hmem, h3⟩ := h.tree.parent i c hic hi0
    rw [hf.depths]
    exact ⟨dp, h1, h2, e, edgeSteps_edges_mono h.steps e hmem, h3⟩
  · rw [hf.depths]; exact h.tree.sorted
  · rw [hf.depths]; exact h.tree.zero_once

theorem PassInv.weaken {gt g : Graph} {cs cs' : List Color} (h : PassInv gt g cs)
    (hsub : ∀ c ∈ cs, c ∈ cs') : PassInv gt g cs' :=
  ⟨h.tree, h.base, h.steps, h.geometry, fun e he => hsub _ (h.colors e he)⟩

/-- Adding one edge that fits keeps the pass invariant. -/
theorem PassInv.insert {gt g g' : Graph} {cs : List Color} (h : PassInv gt g cs)
    {s t : Nat} {col : Color} (hgreen : col = Color.GREEN → s = t)
    (hins : g.insert_edge s t g.edges.length col = .ok g') (hcol : col ∈ cs)
    (hfit : ∃ dp dc cc, g.depths[s]? = some dp ∧ g.depths[t]? = some dc ∧
      g.creators[t]? = some cc ∧
      colorFits ⟨g.edges.length, col, s, t⟩ dp dc cc) : PassInv gt g' cs := by
  have hstep : EdgeStep g g' := ⟨s, t, col, hgreen, hins⟩
  have hf := frozen_edgeStep hstep
  have post := insert_edge_ok hins
  refine ⟨h.tree, h.base, Relation.ReflTransGen.tail h.steps hstep, ?_, ?_⟩
  · apply geometry_mono h.geometry
    · intro i x hx; rw [hf.depths]; exact hx
    · intro i x hx; rw [hf.creators]; exact hx
    · intro e hmem
      rw [post.edges] at hmem
      simp only [List.mem_append, List.mem_singleton] at hmem
      rcases hmem with hmem | hmem
      · exact Or.inl hmem
      · right
        subst hmem
        rw [hf.depths, hf.creators]
        exact hfit
  · intro e hmem
    rw [post.edges] at hmem
    simp only [List.mem_append, List.mem_singleton] at hmem
    rcases hmem with hmem | hmem
    · exact h.colors e hmem
    · subst hmem; exact hcol


theorem creator_lt {g : Graph} (hc : TreeCore g) :
    ∀ v ∈ g.vertices, v.source_id < g.vertices.length := by
  intro v hv
  obtain ⟨i, hi⟩ := List.getElem?_of_mem hv
  have hcr := creators_get hi
  by_cases h0 : i = 0
  · subst h0
    rw [hc.root_creator] at hcr
    simp only [Option.some.injEq] at hcr
    rw [← hcr]
    exact (List.getElem?_eq_some_iff.mp hi).1
  · obtain ⟨dp, h1, _⟩ := hc.parent i v.source_id hcr h0
    rw [← depths_length]
    exact (List.getElem?_eq_some_iff.mp h1).1

theorem exists_depth_creator {g : Graph} {c : Nat} (h : c < g.vertices.length) :
    ∃ dp cc, g.depths[c]? = some dp ∧ g.creators[c]? = some cc := by
  have hv : g.vertices[c]? = some g.vertices[c] := List.getElem?_eq_getElem h
  exact ⟨_, _, depths_get hv, creators_get hv⟩

theorem green_loop_inv {rng : Rng} {gt : Graph} {cs : List Color} (hg : Color.GREEN ∈ cs)
    (l : List Vertex) :
    ∀ (gen gen1 : Gen), PassInv gt gen.graph cs →
      green_loop rng l gen = .ok gen1 → PassInv gt gen1.graph cs := by
  induction l with
  | nil =>
    intro gen gen1 hI h
    simp only [green_loop, Except.ok.injEq] at h
    subst h
    exact hI
  | cons v rest ih =>
    intro gen gen1 hI h
    simp only [green_loop] at h
    split at h
    · split at h
      · cases h
      · rename_i g1 h1
        have post := insert_edge_ok h1
        obtain ⟨dp, cc, hd, hc⟩ := exists_depth_creator (g := gen.graph) post.source_lt
        have hI1 : PassInv gt g1 cs := hI.insert (fun _ => rfl) h1 hg
          ⟨dp, dp, cc, hd, hd, hc, by simp [colorFits]⟩
        exact ih _ _ hI1 h
    · exact ih { gen with probs := gen.probs + 1 } _ hI h

theorem green_loop_safe {rng : Rng} {gt : Graph} {cs : List Color} (hg : Color.GREEN ∈ cs)
    (l : List Vertex) :
    ∀ (gen : Gen), PassInv gt gen.graph cs →
      (∀ v ∈ l, v.source_id < gen.graph.vertices.length) → Safe (green_loop rng l gen) := by
  induction l with
  | nil =>
    intro gen _ _
    simp only [green_loop]
    exact safe_ok _
  | cons v rest ih =>
    intro gen hI hl
    simp only [green_loop]
    split
    · obtain ⟨g1, h1⟩ := insert_edge_total_green hI.wellFormed (hl v (by simp))
      rw [h1]
      simp only
      have post := insert_edge_ok h1
      obtain ⟨dp, cc, hd, hc⟩ := exists_depth_creator (g := gen.graph) post.source_lt
      have hI1 : PassInv gt g1 cs := hI.insert (fun _ => rfl) h1 hg
        ⟨dp, dp, cc, hd, hd, hc, by simp [colorFits]⟩
      apply ih _ hI1
      intro w hw
      simp only
      rw [post.length]
      exact hl w (by simp [hw])
    · apply ih { gen with probs := gen.probs + 1 } hI
      intro w hw
      exact hl w (by simp [hw])

theorem green_pass_inv {rng : Rng} {gt : Graph} {cs : List Color} {gen gen1 : Gen}
    (hg : Color.GREEN ∈ cs) (hI : PassInv gt gen.graph cs)
    (h : generate_green_edges rng gen = .ok gen1) : PassInv gt gen1.graph cs :=
  green_loop_inv hg _ _ _ hI h

theorem green_pass_safe {rng : Rng} {gt : Graph} {cs : List Color} {gen : Gen}
    (hg : Color.GREEN ∈ cs) (hI : PassInv gt gen.graph cs) :
    Safe (generate_green_edges rng gen) :=
  green_loop_safe hg _ _ hI (creator_lt hI.treeCore)


theorem depth_of_ok {g : Graph} {i : Nat} (h : i < g.vertices.length) :
    ∃ d, g.depth_of i = .ok d ∧ g.depths[i]? = some d := by
  have hv : g.vertices[i]? = some g.vertices[i] := List.getElem?_eq_getElem h
  exact ⟨_, by simp [Graph.depth_of, hv], depths_get hv⟩

theorem depth_of_eq {g : Graph} {i d : Nat} (h : g.depth_of i = .ok d) :
    g.depths[i]? = some d := by
  unfold Graph.depth_of at h
  split at h
  · cases h
  · rename_i v hv
    simp only [Except.ok.injEq] at h
    rw [← h]
    exact depths_get hv

theorem blue_not_joined {gt : Graph} {s : BlueVars} (hI : BlueInv gt s) {d : Nat}
    (h1 : s.gen.graph.depths[s.i]? = some d) (h2 : s.gen.graph.depths[s.i + 1]? = some d) :
    ∀ e ∈ s.gen.graph.edges, ¬ Joins e s.i (s.i + 1) := by
  intro e hmem hj
  obtain ⟨dp, dc, cc, hdp, hdc, _, hfit⟩ := hI.pass.geometry e hmem
  have hcol := hI.pass.colors e hmem
  have hdone := hI.done e hmem
  have hdd : dp = dc := by
    rcases hj with ⟨a, b⟩ | ⟨a, b⟩
    · rw [a, h1] at hdp; rw [b, h2] at hdc
      simp only [Option.some.injEq] at hdp hdc
      omega
    · rw [a, h2] at hdp; rw [b, h1] at hdc
      simp only [Option.some.injEq] at hdp hdc
      omega
  unfold colorFits at hfit
  simp only [List.mem_cons, List.mem_singleton, List.not_mem_nil, or_false] at hcol
  rcases hcol with hc | hc | hc
  · simp only [hc] at hfit
    omega
  · simp only [hc] at hfit
    unfold Joins at hj
    omega
  · simp only [hc] at hfit
    have := hdone hc
    unfold Joins at hj
    omega

theorem blue_body_inv {rng : Rng} {gt : Graph} {s s1 : BlueVars} (hI : BlueInv gt s)
    (h : blue_body rng s = .ok s1) : BlueInv gt s1 := by
  unfold blue_body at h
  split at h
  · rename_i d1 d2 hd1 hd2
    split at h
    · rename_i hdd
      simp only at h
      split at h
      · split at h
        · cases h
        · rename_i g1 h1
          simp only [Except.ok.injEq] at h
          subst h
          have post := insert_edge_ok h1
          have e1 := depth_of_eq hd1
          have e2 := depth_of_eq hd2
          obtain ⟨_, cc, _, hcc⟩ := exists_depth_creator (g := s.gen.graph)
            (c := s.i + 1) (by
              rw [← depths_length]; exact (List.getElem?_eq_some_iff.mp e2).1)
          refine ⟨hI.pass.insert (by intro hc; cases hc) h1 (by simp)
            ⟨d1, d2, cc, e1, e2, hcc, by simp [colorFits, hdd]⟩, ?_⟩
          intro e hmem hc
          simp only at hmem ⊢
          rw [post.edges] at hmem
          simp only [List.mem_append, List.mem_singleton] at hmem
          rcases hmem with hmem | hmem
          · have := hI.done e hmem hc
            omega
          · subst hmem
            simp
      · simp only [Except.ok.injEq] at h
        subst h
        refine ⟨hI.pass, ?_⟩
        intro e hmem hc
        have := hI.done e hmem hc
        simp only
        omega
    · simp only [Except.ok.injEq] at h
      subst h
      refine ⟨hI.pass, ?_⟩
      intro e hmem hc
      have := hI.done e hmem hc
      simp only
      omega
  · cases h

theorem blue_body_safe {rng : Rng} {gt : Graph} {s : BlueVars} (hI : BlueInv gt s)
    (hc : decide (s.i < s.gen.graph.vertices.length - 1) = true) :
    Safe (blue_body rng s) := by
  have hlt : s.i < s.gen.graph.vertices.length - 1 := by simpa using hc
  obtain ⟨d1, hd1, e1⟩ := depth_of_ok (g := s.gen.graph) (i := s.i) (by omega)
  obtain ⟨d2, hd2, e2⟩ := depth_of_ok (g := s.gen.graph) (i := s.i + 1) (by omega)
  unfold blue_body
  rw [hd1, hd2]
  simp only
  split
  · rename_i hdd
    subst hdd
    split
    · obtain ⟨g1, h1⟩ := insert_edge_total hI.pass.wellFormed s.i (s.i + 1)
        Color.BLUE (by omega) (by omega) (by omega) (by simp)
        (blue_not_joined hI e1 e2)
      rw [h1]
      exact safe_ok _
    · exact safe_ok _
  · exact safe_ok _

theorem blue_pass_inv {rng : Rng} {fuel : Nat} {gt : Graph} {gen gen1 : Gen}
    (hI : PassInv gt gen.graph [Color.GRAY, Color.GREEN])
    (h : generate_blue_edges rng fuel gen = .ok gen1) :
    PassInv gt gen1.graph [Color.GRAY, Color.GREEN, Color.BLUE] := by
  have hstart : BlueInv gt ⟨gen, 0⟩ := by
    refine ⟨hI.weaken (by intro c hc; simp at hc ⊢; tauto), ?_⟩
    intro e hmem hc
    have := hI.colors e hmem
    rw [hc] at this
    simp at this
  unfold generate_blue_edges at h
  split at h
  · cases h
  · rename_i s hs
    simp only [Except.ok.injEq] at h
    subst h
    exact (iterate_inv (BlueInv gt) _ (blue_body rng) (fun a b ha _ hb => blue_body_inv ha hb)
      fuel _ s hstart hs).1.pass

theorem blue_pass_safe {rng : Rng} {fuel : Nat} {gt : Graph} {gen : Gen}
    (hI : PassInv gt gen.graph [Color.GRAY, Color.GREEN]) :
    Safe (generate_blue_edges rng fuel gen) := by
  have hstart : BlueInv gt ⟨gen, 0⟩ := by
    refine ⟨hI.weaken (by intro c hc; simp at hc ⊢; tauto), ?_⟩
    intro e hmem hc
    have := hI.colors e hmem
    rw [hc] at this
    simp at this
  have hs := iterate_safe (BlueInv gt)
    (fun t => decide (t.i < t.gen.graph.vertices.length - 1)) (blue_body rng)
    (fun a b ha _ hb => blue_body_inv ha hb) (fun a ha hc => blue_body_safe ha hc)
    fuel _ hstart
  unfold generate_blue_edges
  split
  · rename_i e he
    rw [he] at hs
    exact safe_error_iff.mpr (safe_error_iff.mp hs)
  · exact safe_ok _


theorem mem_vertices_in_depth {g : Graph} (hw : WellFormed g) {x d : Nat} :
    x ∈ g.vertices_in_depth d ↔ g.depths[x]? = some d := by
  unfold Graph.vertices_in_depth
  simp only [List.mem_map, List.mem_filter, beq_iff_eq]
  constructor
  · rintro ⟨v, ⟨hv, hd⟩, hid⟩
    obtain ⟨i, hi⟩ := List.getElem?_of_mem hv
    have := hw.ids.1 i v hi
    have hix : i = x := by omega
    subst hix
    rw [depths_get hi, hd]
  · intro h
    obtain ⟨v, hv, hd⟩ := vertex_of_depths h
    exact ⟨v, ⟨List.getElem?_mem hv, hd⟩, hw.ids.1 x v hv⟩

theorem nodup_vertices_in_depth {g : Graph} (hw : WellFormed g) (d : Nat) :
    (g.vertices_in_depth d).Nodup := by
  unfold Graph.vertices_in_depth
  have hids : (g.vertices.map (fun v => v.id)).Nodup := by
    rw [map_eq_range_of_getElem? g.vertices (fun v => v.id) hw.ids.1]
    exact List.nodup_range _
  exact List.Nodup.sublist (List.Sublist.map _ (List.filter_sublist _)) hids

theorem vertices_count_eq_length (g : Graph) {d : Nat} (hd : d ≠ 0) :
    g.vertices_count_in_depth d = (g.vertices_in_depth d).length := by
  unfold Graph.vertices_count_in_depth Graph.vertices_in_depth
  simp only [hd, if_false, List.length_map]
  congr 1
  apply List.filter_congr
  intro v _
  by_cases h : d = v.depth
  · simp [h]
  · have h2 : ¬ v.depth = d := fun hh => h hh.symm
    simp [h, h2]

theorem source_of_vertex_ok {g : Graph} {i : Nat} (h : i < g.vertices.length) :
    ∃ c, g.source_of_vertex i = .ok c ∧ g.creators[i]? = some c := by
  have hv : g.vertices[i]? = some g.vertices[i] := List.getElem?_eq_getElem h
  exact ⟨_, by simp [Graph.source_of_vertex, hv], creators_get hv⟩

theorem source_of_vertex_eq {g : Graph} {i c : Nat} (h : g.source_of_vertex i = .ok c) :
    g.creators[i]? = some c := by
  unfold Graph.source_of_vertex at h
  split at h
  · cases h
  · rename_i v hv
    simp only [Except.ok.injEq] at h
    rw [← h]
    exact creators_get hv

/-- What the `do ... while` loop of the Forward-Skip-1 pass returns, and that it
never leaves the bucket it samples. -/
theorem yellow_pick_spec (rng : Rng) {g : Graph} (hw : WellFormed g) (i source : Nat)
    (hne : g.vertices_in_depth (i + 1) ≠ []) :
    ∀ (fuel picks : Nat),
      Safe (yellow_pick rng g i source fuel picks) ∧
      ∀ (r : Option Nat) (picks1 : Nat), yellow_pick rng g i source fuel picks = .ok (r, picks1) →
        match r with
        | none => g.created_by_vertex source = (g.vertices_count_in_depth (i + 1) : Int)
        | some destination =>
          g.depths[destination]? = some (i + 1) ∧
            ∃ cc, g.creators[destination]? = some cc ∧ cc ≠ source := by
  intro fuel
  induction fuel with
  | zero =>
    intro picks
    simp only [yellow_pick]
    exact ⟨safe_out_of_fuel, by intro r p h; cases h⟩
  | succ n ih =>
    intro picks
    have hcount := vertices_count_eq_length g (d := i + 1) (by omega)
    have hpos : 0 < (g.vertices_in_depth (i + 1)).length := List.length_pos.mpr hne
    simp only [yellow_pick]
    split
    · rename_i hbreak
      refine ⟨safe_ok _, ?_⟩
      intro r p h
      simp only [Except.ok.injEq, Prod.mk.injEq] at h
      obtain ⟨hr, _⟩ := h
      subst hr
      exact hbreak
    · have hhi : ¬ ((g.vertices_count_in_depth (i + 1) : Int) - 1 < 0) := by
        rw [hcount]; omega
      have htn : ((g.vertices_count_in_depth (i + 1) : Int) - 1).toNat + 1 =
          (g.vertices_in_depth (i + 1)).length := by
        rw [hcount]; omega
      simp only [uniform_int_distribution, hhi, if_false, htn]
      have hidx : rng.pick picks % (g.vertices_in_depth (i + 1)).length <
          (g.vertices_in_depth (i + 1)).length := Nat.mod_lt _ hpos
      obtain ⟨dest, hdest⟩ : ∃ dest, (g.vertices_in_depth (i + 1))[rng.pick picks %
          (g.vertices_in_depth (i + 1)).length]? = some dest :=
        ⟨_, List.getElem?_eq_getElem hidx⟩
      rw [hdest]
      simp only
      have hmem : dest ∈ g.vertices_in_depth (i + 1) := List.getElem?_mem hdest
      have hdd := (mem_vertices_in_depth hw).mp hmem
      have hlt : dest < g.vertices.length := by
        rw [← depths_length]; exact (List.getElem?_eq_some_iff.mp hdd).1
      obtain ⟨c, hc, hcc⟩ := source_of_vertex_ok hlt
      rw [hc]
      simp only
      split
      · exact ih (picks + 1)
      · rename_i hsc
        refine ⟨safe_ok _, ?_⟩
        intro r p h
        simp only [Except.ok.injEq, Prod.mk.injEq] at h
        obtain ⟨hr, _⟩ := h
        subst hr
        exact ⟨hdd, c, hcc, fun hh => hsc hh.symm⟩


theorem nodup_index_eq {l : List Nat} (hn : l.Nodup) {a b x : Nat}
    (ha : l[a]? = some x) (hb : l[b]? = some x) : a = b :=
  List.getElem?_inj (List.getElem?_eq_some_iff.mp ha).1 hn (ha.trans hb.symm)

theorem yellow_not_joined {gt g : Graph}
    (hI : PassInv gt g [Color.GRAY, Color.GREEN, Color.BLUE, Color.YELLOW])
    {i m source dest cc : Nat} (hdone : Processed g Color.YELLOW i m)
    (hsrc : (g.vertices_in_depth i)[m]? = some source)
    (hdst : g.depths[dest]? = some (i + 1)) (hcc : g.creators[dest]? = some cc)
    (hne : cc ≠ source) : ∀ e ∈ g.edges, ¬ Joins e source dest := by
  intro e hmem hj
  have hw := hI.wellFormed
  have hsd : g.depths[source]? = some i :=
    (mem_vertices_in_depth hw).mp (List.getElem?_mem hsrc)
  obtain ⟨dp, dc, cc', hdp, hdc, hcc', hfit⟩ := hI.geometry e hmem
  have hcol := hI.colors e hmem
  simp only [List.mem_cons, List.mem_singleton, List.not_mem_nil, or_false] at hcol
  unfold colorFits at hfit
  rcases hj with ⟨a, b⟩ | ⟨a, b⟩
  · rw [a, hsd] at hdp
    rw [b, hdst] at hdc
    rw [b, hcc] at hcc'
    simp only [Option.some.injEq] at hdp hdc hcc'
    rcases hcol with hc | hc | hc | hc
    · simp only [hc] at hfit
      omega
    · simp only [hc] at hfit
      rw [a, b] at hfit
      subst hfit
      rw [hdst] at hsd
      simp only [Option.some.injEq] at hsd
      omega
    · simp only [hc] at hfit
      omega
    · obtain ⟨d, hd, hcase⟩ := hdone e hmem hc
      rw [a, hsd] at hd
      simp only [Option.some.injEq] at hd
      rcases hcase with hlt | ⟨_, k, hk, hkk⟩
      · omega
      · rw [a] at hkk
        have := nodup_index_eq (nodup_vertices_in_depth hw i) hkk hsrc
        omega
  · rw [a, hdst] at hdp
    rw [b, hsd] at hdc
    simp only [Option.some.injEq] at hdp hdc
    rcases hcol with hc | hc | hc | hc
    · simp only [hc] at hfit
      omega
    · simp only [hc] at hfit
      rw [a, b] at hfit
      subst hfit
      rw [hdst] at hsd
      simp only [Option.some.injEq] at hsd
      omega
    · simp only [hc] at hfit
      omega
    · simp only [hc] at hfit
      omega

theorem red_not_joined {gt g : Graph}
    (hI : PassInv gt g [Color.GRAY, Color.GREEN, Color.BLUE, Color.YELLOW, Color.RED])
    {i m source dest : Nat} (hdone : Processed g Color.RED i m)
    (hsrc : (g.vertices_in_depth i)[m]? = some source)
    (hdst : g.depths[dest]? = some (i + 2)) : ∀ e ∈ g.edges, ¬ Joins e source dest := by
  intro e hmem hj
  have hw := hI.wellFormed
  have hsd : g.depths[source]? = some i :=
    (mem_vertices_in_depth hw).mp (List.getElem?_mem hsrc)
  obtain ⟨dp, dc, cc', hdp, hdc, hcc', hfit⟩ := hI.geometry e hmem
  have hcol := hI.colors e hmem
  simp only [List.mem_cons, List.mem_singleton, List.not_mem_nil, or_false] at hcol
  unfold colorFits at hfit
  rcases hj with ⟨a, b⟩ | ⟨a, b⟩
  · rw [a, hsd] at hdp
    rw [b, hdst] at hdc
    simp only [Option.some.injEq] at hdp hdc
    rcases hcol with hc | hc | hc | hc | hc
    · simp only [hc] at hfit
      omega
    · simp only [hc] at hfit
      rw [a, b] at hfit
      subst hfit
      rw [hdst] at hsd
      simp only [Option.some.injEq] at hsd
      omega
    · simp only [hc] at hfit
      omega
    · simp only [hc] at hfit
      omega
    · obtain ⟨d, hd, hcase⟩ := hdone e hmem hc
      rw [a, hsd] at hd
      simp only [Option.some.injEq] at hd
      rcases hcase with hlt | ⟨_, k, hk, hkk⟩
      · omega
      · rw [a] at hkk
        have := nodup_index_eq (nodup_vertices_in_depth hw i) hkk hsrc
        omega
  · rw [a, hdst] at hdp
    rw [b, hsd] at hdc
    simp only [Option.some.injEq] at hdp hdc
    rcases hcol with hc | hc | hc | hc | hc
    · simp only [hc] at hfit
      omega
    · simp only [hc] at hfit
      rw [a, b] at hfit
      subst hfit
      rw [hdst] at hsd
      simp only [Option.some.injEq] at hsd
      omega
    · simp only [hc] at hfit
      omega
    · simp only [hc] at hfit
      omega
    · simp only [hc] at hfit
      omega

theorem processed_mono {g : Graph} {col : Color} {i m m1 : Nat} (h : Processed g col i m)
    (hm : m ≤ m1) : Processed g col i m1 := by
  intro e hmem hc
  obtain ⟨d, hd, hcase⟩ := h e hmem hc
  refine ⟨d, hd, ?_⟩
  rcases hcase with hlt | ⟨heq, k, hk, hkk⟩
  · exact Or.inl hlt
  · exact Or.inr ⟨heq, k, by omega, hkk⟩

theorem processed_next {g : Graph} {col : Color} {i m : Nat} (h : Processed g col i m) :
    Processed g col (i + 1) 0 := by
  intro e hmem hc
  obtain ⟨d, hd, hcase⟩ := h e hmem hc
  refine ⟨d, hd, Or.inl ?_⟩
  rcases hcase with hlt | ⟨heq, _⟩ <;> omega

/-- After inserting an edge of colour `col` from the `m`-th vertex of depth `i`,
the first `m + 1` vertices of that depth are handled. -/
theorem processed_insert {g g' : Graph} {col : Color} {i m source dest : Nat}
    (hw : WellFormed g) (h : Processed g col i m)
    (hsrc : (g.vertices_in_depth i)[m]? = some source)
    (hins : g.insert_edge source dest g.edges.length col = .ok g')
    (hgreen : col = Color.GREEN → source = dest) :
    Processed g' col i (m + 1) := by
  have post := insert_edge_ok hins
  have hf := frozen_edgeStep ⟨source, dest, col, hgreen, hins⟩
  have hsd : g.depths[source]? = some i :=
    (mem_vertices_in_depth hw).mp (List.getElem?_mem hsrc)
  intro e hmem hc
  rw [post.edges] at hmem
  simp only [List.mem_append, List.mem_singleton] at hmem
  rw [hf.depths, hf.vertices_in_depth]
  rcases hmem with hmem | hmem
  · exact processed_mono h (Nat.le_succ m) e hmem hc
  · subst hmem
    exact ⟨i, hsd, Or.inr ⟨rfl, m, by omega, hsrc⟩⟩


theorem yellow_n_body_inv {rng : Rng} {fuel : Nat} {condition : Rat} {gt : Graph}
    {s s1 : SkipVars} (hI : YellowTrialInv gt s)
    (hc : (!s.stop && decide (s.n < (s.gen.graph.vertices_in_depth (s.i + 1)).length)) = true)
    (h : yellow_n_body rng fuel condition s = .ok s1) : YellowTrialInv gt s1 := by
  simp only [Bool.and_eq_true, Bool.not_eq_true', decide_eq_true_eq] at hc
  obtain ⟨hstop, hn⟩ := hc
  have hw := hI.pass.wellFormed
  have hdone : Processed s.gen.graph Color.YELLOW s.i s.m := by
    have := hI.done
    rw [hstop] at this
    simpa using this
  have hne : s.gen.graph.vertices_in_depth (s.i + 1) ≠ [] := by
    intro hh
    rw [hh] at hn
    simp at hn
  unfold yellow_n_body at h
  simp only at h
  split at h
  · split at h
    · cases h
    · rename_i source hsrc
      have hspec := (yellow_pick_spec rng hw s.i source hne fuel s.gen.picks).2
      split at h
      · cases h
      · rename_i picks hpick
        simp only [Except.ok.injEq] at h
        subst h
        refine ⟨hI.pass, hI.source, ?_⟩
        simp only [if_true]
        exact processed_mono hdone (Nat.le_succ _)
      · rename_i dest picks hpick
        obtain ⟨hdd, cc, hcc, hcne⟩ := hspec _ _ hpick
        split at h
        · cases h
        · rename_i g1 h1
          simp only [Except.ok.injEq] at h
          subst h
          have hsd : s.gen.graph.depths[source]? = some s.i :=
            (mem_vertices_in_depth hw).mp (List.getElem?_mem hsrc)
          have hf := frozen_edgeStep ⟨source, dest, Color.YELLOW,
            (by intro hh; cases hh), h1⟩
          refine ⟨hI.pass.insert (by intro hh; cases hh) h1 (by simp)
            ⟨s.i, s.i + 1, cc, hsd, hdd, hcc, by simp [colorFits, hcne]⟩, ?_, ?_⟩
          · simp only
            rw [hf.vertices_in_depth]
            exact hI.source
          · simp only [if_true]
            exact processed_insert hw hdone hsrc h1 (by intro hh; cases hh)
  · simp only [Except.ok.injEq] at h
    subst h
    exact ⟨hI.pass, hI.source, hI.done⟩

theorem yellow_n_body_safe {rng : Rng} {fuel : Nat} {condition : Rat} {gt : Graph}
    {s : SkipVars} (hI : YellowTrialInv gt s)
    (hc : (!s.stop && decide (s.n < (s.gen.graph.vertices_in_depth (s.i + 1)).length)) = true) :
    Safe (yellow_n_body rng fuel condition s) := by
  simp only [Bool.and_eq_true, Bool.not_eq_true', decide_eq_true_eq] at hc
  obtain ⟨hstop, hn⟩ := hc
  have hw := hI.pass.wellFormed
  have hdone : Processed s.gen.graph Color.YELLOW s.i s.m := by
    have := hI.done
    rw [hstop] at this
    simpa using this
  have hne : s.gen.graph.vertices_in_depth (s.i + 1) ≠ [] := by
    intro hh
    rw [hh] at hn
    simp at hn
  obtain ⟨source, hsrc⟩ : ∃ source, (s.gen.graph.vertices_in_depth s.i)[s.m]? = some source :=
    ⟨_, List.getElem?_eq_getElem hI.source⟩
  have hsd : s.gen.graph.depths[source]? = some s.i :=
    (mem_vertices_in_depth hw).mp (List.getElem?_mem hsrc)
  obtain ⟨hsafe, hspec⟩ := yellow_pick_spec rng hw s.i source hne fuel s.gen.picks
  unfold yellow_n_body
  simp only
  split
  · rw [hsrc]
    simp only
    split
    · rename_i e he
      rw [he] at hsafe
      exact safe_error_iff.mpr (safe_error_iff.mp hsafe)
    · exact safe_ok _
    · rename_i dest picks hpick
      obtain ⟨hdd, cc, hcc, hcne⟩ := hspec _ _ hpick
      have hs : source < s.gen.graph.vertices.length := by
        rw [← depths_length]; exact (List.getElem?_eq_some_iff.mp hsd).1
      have hd : dest < s.gen.graph.vertices.length := by
        rw [← depths_length]; exact (List.getElem?_eq_some_iff.mp hdd).1
      have hsdne : source ≠ dest := by
        intro hh
        subst hh
        rw [hsd] at hdd
        simp only [Option.some.injEq] at hdd
        omega
      obtain ⟨g1, h1⟩ := insert_edge_total hw source dest Color.YELLOW hs hd hsdne (by simp)
        (yellow_not_joined hI.pass hdone hsrc hdd hcc hcne)
      rw [h1]
      exact safe_ok _
  · exact safe_ok _

theorem yellow_m_body_inv {rng : Rng} {fuel : Nat} {condition : Rat} {gt : Graph}
    {s s1 : SkipVars} (hI : YellowInv gt s)
    (hc : decide (s.m < (s.gen.graph.vertices_in_depth s.i).length) = true)
    (h : yellow_m_body rng fuel condition s = .ok s1) : YellowInv gt s1 := by
  have hm : s.m < (s.gen.graph.vertices_in_depth s.i).length := by simpa using hc
  have hstart : YellowTrialInv gt { s with stop := false } := ⟨hI.pass, hm, hI.done⟩
  unfold yellow_m_body at h
  split at h
  · cases h
  · rename_i s2 h2
    simp only [Except.ok.injEq] at h
    subst h
    have hT := (iterate_inv (YellowTrialInv gt) _ (yellow_n_body rng fuel condition)
      (fun a b ha hc hb => yellow_n_body_inv ha hc hb) fuel _ s2 hstart h2).1
    refine ⟨hT.pass, ?_⟩
    simp only
    apply processed_mono hT.done
    split <;> omega

theorem yellow_m_body_safe {rng : Rng} {fuel : Nat} {condition : Rat} {gt : Graph}
    {s : SkipVars} (hI : YellowInv gt s)
    (hc : decide (s.m < (s.gen.graph.vertices_in_depth s.i).length) = true) :
    Safe (yellow_m_body rng fuel condition s) := by
  have hm : s.m < (s.gen.graph.vertices_in_depth s.i).length := by simpa using hc
  have hstart : YellowTrialInv gt { s with stop := false } := ⟨hI.pass, hm, hI.done⟩
  have hs := iterate_safe (YellowTrialInv gt)
    (fun t => !t.stop && decide (t.n < (t.gen.graph.vertices_in_depth (t.i + 1)).length))
    (yellow_n_body rng fuel condition)
    (fun a b ha hc hb => yellow_n_body_inv ha hc hb)
    (fun a ha hc => yellow_n_body_safe ha hc) fuel _ hstart
  unfold yellow_m_body
  split
  · rename_i e he
    rw [he] at hs
    exact hs
  · exact safe_ok _

theorem yellow_i_body_inv {fl : FloatOps} {rng : Rng} {fuel : Nat} {gt : Graph}
    {s s1 : SkipVars} (hI : YellowInv gt s)
    (h : yellow_i_body fl rng fuel s = .ok s1) : YellowInv gt s1 := by
  unfold yellow_i_body at h
  simp only at h
  split at h
  · cases h
  · rename_i s2 h2
    simp only [Except.ok.injEq] at h
    subst h
    have hT := (iterate_inv (YellowInv gt) _ (yellow_m_body rng fuel _)
      (fun a b ha hc hb => yellow_m_body_inv ha hc hb) fuel _ s2 hI h2).1
    exact ⟨hT.pass, processed_next hT.done⟩

theorem yellow_i_body_safe {fl : FloatOps} {rng : Rng} {fuel : Nat} {gt : Graph}
    {s : SkipVars} (hI : YellowInv gt s) : Safe (yellow_i_body fl rng fuel s) := by
  unfold yellow_i_body
  simp only
  have hs := iterate_safe (YellowInv gt)
    (fun t => decide (t.m < (t.gen.graph.vertices_in_depth t.i).length))
    (yellow_m_body rng fuel
      (fl.sub 100 (fl.mul (fl.ofInt s.i) (fl.div 100 (fl.ofInt (s.gen.graph.get_max_depth - 1))))))
    (fun a b ha hc hb => yellow_m_body_inv ha hc hb)
    (fun a ha hc => yellow_m_body_safe ha hc) fuel _ hI
  split
  · rename_i e he
    rw [he] at hs
    exact hs
  · exact safe_ok _

theorem yellow_start {gt : Graph} {gen : Gen}
    (hI : PassInv gt gen.graph [Color.GRAY, Color.GREEN, Color.BLUE]) :
    YellowInv gt ⟨gen, 1, 0, 0, false⟩ := by
  refine ⟨hI.weaken (by intro c hc; simp at hc ⊢; tauto), ?_⟩
  intro e hmem hc
  have := hI.colors e hmem
  rw [hc] at this
  simp at this

theorem yellow_pass_inv {fl : FloatOps} {rng : Rng} {fuel : Nat} {gt : Graph} {gen gen1 : Gen}
    (hI : PassInv gt gen.graph [Color.GRAY, Color.GREEN, Color.BLUE])
    (h : generate_yellow_edges fl rng fuel gen = .ok gen1) :
    PassInv gt gen1.graph [Color.GRAY, Color.GREEN, Color.BLUE, Color.YELLOW] := by
  unfold generate_yellow_edges at h
  split at h
  · cases h
  · rename_i s hs
    simp only [Except.ok.injEq] at h
    subst h
    exact (iterate_inv (YellowInv gt) _ (yellow_i_body fl rng fuel)
      (fun a b ha _ hb => yellow_i_body_inv ha hb) fuel _ s (yellow_start hI) hs).1.pass

theorem yellow_pass_safe {fl : FloatOps} {rng : Rng} {fuel : Nat} {gt : Graph} {gen : Gen}
    (hI : PassInv gt gen.graph [Color.GRAY, Color.GREEN, Color.BLUE]) :
    Safe (generate_yellow_edges fl rng fuel gen) := by
  have hs := iterate_safe (YellowInv gt)
    (fun t => decide ((t.i : Int) < t.gen.graph.get_max_depth)) (yellow_i_body fl rng fuel)
    (fun a b ha _ hb => yellow_i_body_inv ha hb) (fun a ha _ => yellow_i_body_safe ha)
    fuel _ (yellow_start hI)
  unfold generate_yellow_edges
  split
  · rename_i e he
    rw [he] at hs
    exact safe_error_iff.mpr (safe_error_iff.mp hs)
  · exact safe_ok _


theorem red_draw (rng : Rng) (g : Graph) (i picks : Nat)
    (hpos : 0 < (g.vertices_in_depth (i + 2)).length) :
    ∃ rv dest, uniform_int_distribution ((g.vertices_count_in_depth (i + 2) : Int) - 1)
        (rng.pick picks) = .ok rv ∧ (g.vertices_in_depth (i + 2))[rv]? = some dest := by
  have hcount := vertices_count_eq_length g (d := i + 2) (by omega)
  have hhi : ¬ ((g.vertices_count_in_depth (i + 2) : Int) - 1 < 0) := by
    rw [hcount]; omega
  have htn : ((g.vertices_count_in_depth (i + 2) : Int) - 1).toNat + 1 =
      (g.vertices_in_depth (i + 2)).length := by
    rw [hcount]; omega
  have hidx : rng.pick picks % (g.vertices_in_depth (i + 2)).length <
      (g.vertices_in_depth (i + 2)).length := Nat.mod_lt _ hpos
  refine ⟨rng.pick picks % (g.vertices_in_depth (i + 2)).length, _, ?_,
    List.getElem?_eq_getElem hidx⟩
  simp only [uniform_int_distribution, hhi, if_false, htn]

theorem red_n_body_inv {rng : Rng} {gt : Graph} {s s1 : SkipVars} (hI : RedTrialInv gt s)
    (hc : (!s.stop && decide (s.n ≠ (s.gen.graph.vertices_in_depth (s.i + 2)).length)) = true)
    (h : red_n_body rng s = .ok s1) : RedTrialInv gt s1 := by
  simp only [Bool.and_eq_true, Bool.not_eq_true', decide_eq_true_eq] at hc
  obtain ⟨hstop, hn⟩ := hc
  have hw := hI.pass.wellFormed
  have hdone : Processed s.gen.graph Color.RED s.i s.m := by
    have := hI.done
    rw [hstop] at this
    simpa using this
  unfold red_n_body at h
  simp only at h
  split at h
  · split at h
    · cases h
    · split at h
      · cases h
      · rename_i source hsrc
        split at h
        · cases h
        · rename_i dest hdest
          split at h
          · cases h
          · rename_i g1 h1
            simp only [Except.ok.injEq] at h
            subst h
            have hsd : s.gen.graph.depths[source]? = some s.i :=
              (mem_vertices_in_depth hw).mp (List.getElem?_mem hsrc)
            have hdd : s.gen.graph.depths[dest]? = some (s.i + 2) :=
              (mem_vertices_in_depth hw).mp (List.getElem?_mem hdest)
            obtain ⟨_, cc, _, hcc⟩ := exists_depth_creator (g := s.gen.graph) (c := dest)
              (by rw [← depths_length]; exact (List.getElem?_eq_some_iff.mp hdd).1)
            have hf := frozen_edgeStep ⟨source, dest, Color.RED,
              (by intro hh; cases hh), h1⟩
            refine ⟨hI.pass.insert (by intro hh; cases hh) h1 (by simp)
              ⟨s.i, s.i + 2, cc, hsd, hdd, hcc, by simp [colorFits]⟩, ?_, ?_, ?_⟩
            · simp only
              rw [hf.vertices_in_depth]
              exact hI.source
            · simp only [if_true]
              exact processed_insert hw hdone hsrc h1 (by intro hh; cases hh)
            · simp only
              rw [hf.vertices_in_depth]
              exact hI.index
  · simp only [Except.ok.injEq] at h
    subst h
    refine ⟨hI.pass, hI.source, hI.done, ?_⟩
    have := hI.index
    simp only
    omega

theorem red_n_body_safe {rng : Rng} {gt : Graph} {s : SkipVars} (hI : RedTrialInv gt s)
    (hc : (!s.stop && decide (s.n ≠ (s.gen.graph.vertices_in_depth (s.i + 2)).length)) = true) :
    Safe (red_n_body rng s) := by
  simp only [Bool.and_eq_true, Bool.not_eq_true', decide_eq_true_eq] at hc
  obtain ⟨hstop, hn⟩ := hc
  have hw := hI.pass.wellFormed
  have hdone : Processed s.gen.graph Color.RED s.i s.m := by
    have := hI.done
    rw [hstop] at this
    simpa using this
  have hpos : 0 < (s.gen.graph.vertices_in_depth (s.i + 2)).length := by
    have := hI.index
    omega
  obtain ⟨source, hsrc⟩ : ∃ source, (s.gen.graph.vertices_in_depth s.i)[s.m]? = some source :=
    ⟨_, List.getElem?_eq_getElem hI.source⟩
  obtain ⟨rv, dest, hrv, hdest⟩ := red_draw rng s.gen.graph s.i s.gen.picks hpos
  have hsd : s.gen.graph.depths[source]? = some s.i :=
    (mem_vertices_in_depth hw).mp (List.getElem?_mem hsrc)
  have hdd : s.gen.graph.depths[dest]? = some (s.i + 2) :=
    (mem_vertices_in_depth hw).mp (List.getElem?_mem hdest)
  have hs : source < s.gen.graph.vertices.length := by
    rw [← depths_length]; exact (List.getElem?_eq_some_iff.mp hsd).1
  have hd : dest < s.gen.graph.vertices.length := by
    rw [← depths_length]; exact (List.getElem?_eq_some_iff.mp hdd).1
  have hsdne : source ≠ dest := by
    intro hh
    subst hh
    rw [hsd] at hdd
    simp only [Option.some.injEq] at hdd
    omega
  obtain ⟨g1, h1⟩ := insert_edge_total hw source dest Color.RED hs hd hsdne (by simp)
    (red_not_joined hI.pass hdone hsrc hdd)
  unfold red_n_body
  simp only
  split
  · rw [hrv]
    simp only
    rw [hsrc]
    simp only
    rw [hdest]
    simp only
    rw [h1]
    exact safe_ok _
  · exact safe_ok _

theorem red_m_body_inv {rng : Rng} {fuel : Nat} {gt : Graph} {s s1 : SkipVars}
    (hI : RedInv gt s)
    (hc : decide (s.m ≠ (s.gen.graph.vertices_in_depth s.i).length) = true)
    (hle : s.m ≤ (s.gen.graph.vertices_in_depth s.i).length)
    (h : red_m_body rng fuel s = .ok s1) :
    RedInv gt s1 ∧ s1.m ≤ (s1.gen.graph.vertices_in_depth s1.i).length := by
  have hm : s.m < (s.gen.graph.vertices_in_depth s.i).length := by
    have : s.m ≠ (s.gen.graph.vertices_in_depth s.i).length := by simpa using hc
    omega
  have hstart : RedTrialInv gt { s with stop := false } :=
    ⟨hI.pass, hm, hI.done, by simp [hI.reset]⟩
  unfold red_m_body at h
  split at h
  · cases h
  · rename_i s2 h2
    simp only [Except.ok.injEq] at h
    subst h
    have hT := (iterate_inv (RedTrialInv gt) _ (red_n_body rng)
      (fun a b ha hc hb => red_n_body_inv ha hc hb) fuel _ s2 hstart h2).1
    refine ⟨⟨hT.pass, ?_, rfl⟩, ?_⟩
    · simp only
      apply processed_mono hT.done
      split <;> omega
    · have := hT.source
      simp only
      omega

theorem red_m_body_safe {rng : Rng} {fuel : Nat} {gt : Graph} {s : SkipVars}
    (hI : RedInv gt s)
    (hc : decide (s.m ≠ (s.gen.graph.vertices_in_depth s.i).length) = true)
    (hle : s.m ≤ (s.gen.graph.vertices_in_depth s.i).length) :
    Safe (red_m_body rng fuel s) := by
  have hm : s.m < (s.gen.graph.vertices_in_depth s.i).length := by
    have : s.m ≠ (s.gen.graph.vertices_in_depth s.i).length := by simpa using hc
    omega
  have hstart : RedTrialInv gt { s with stop := false } :=
    ⟨hI.pass, hm, hI.done, by simp [hI.reset]⟩
  have hs := iterate_safe (RedTrialInv gt)
    (fun t => !t.stop && decide (t.n ≠ (t.gen.graph.vertices_in_depth (t.i + 2)).length))
    (red_n_body rng)
    (fun a b ha hc hb => red_n_body_inv ha hc hb)
    (fun a ha hc => red_n_body_safe ha hc) fuel _ hstart
  unfold red_m_body
  split
  · rename_i e he
    rw [he] at hs
    exact hs
  · exact safe_ok _

theorem red_i_body_inv {rng : Rng} {fuel : Nat} {gt : Graph} {s s1 : SkipVars}
    (hI : RedInv gt s ∧ s.m = 0) (h : red_i_body rng fuel s = .ok s1) :
    RedInv gt s1 ∧ s1.m = 0 := by
  unfold red_i_body at h
  split at h
  · cases h
  · rename_i s2 h2
    simp only [Except.ok.injEq] at h
    subst h
    have hstart : RedInv gt s ∧ s.m ≤ (s.gen.graph.vertices_in_depth s.i).length :=
      ⟨hI.1, by rw [hI.2]; exact Nat.zero_le _⟩
    have hT := (iterate_inv
      (fun t => RedInv gt t ∧ t.m ≤ (t.gen.graph.vertices_in_depth t.i).length) _
      (red_m_body rng fuel)
      (fun a b ha hc hb => red_m_body_inv ha.1 hc ha.2 hb) fuel _ s2 hstart h2).1
    exact ⟨⟨hT.1.pass, processed_next hT.1.done, hT.1.reset⟩, rfl⟩

theorem red_i_body_safe {rng : Rng} {fuel : Nat} {gt : Graph} {s : SkipVars}
    (hI : RedInv gt s ∧ s.m = 0) : Safe (red_i_body rng fuel s) := by
  have hstart : RedInv gt s ∧ s.m ≤ (s.gen.graph.vertices_in_depth s.i).length :=
    ⟨hI.1, by rw [hI.2]; exact Nat.zero_le _⟩
  have hs := iterate_safe
    (fun t => RedInv gt t ∧ t.m ≤ (t.gen.graph.vertices_in_depth t.i).length)
    (fun t => decide (t.m ≠ (t.gen.graph.vertices_in_depth t.i).length))
    (red_m_body rng fuel)
    (fun a b ha hc hb => red_m_body_inv ha.1 hc ha.2 hb)
    (fun a ha hc => red_m_body_safe ha.1 hc ha.2) fuel _ hstart
  unfold red_i_body
  split
  · rename_i e he
    rw [he] at hs
    exact hs
  · exact safe_ok _

theorem red_start {gt : Graph} {gen : Gen}
    (hI : PassInv gt gen.graph [Color.GRAY, Color.GREEN, Color.BLUE, Color.YELLOW]) :
    RedInv gt ⟨gen, 0, 0, 0, false⟩ ∧ (⟨gen, 0, 0, 0, false⟩ : SkipVars).m = 0 := by
  refine ⟨⟨hI.weaken (by intro c hc; simp at hc ⊢; tauto), ?_, rfl⟩, rfl⟩
  intro e hmem hc
  have := hI.colors e hmem
  rw [hc] at this
  simp at this

theorem red_pass_inv {rng : Rng} {fuel : Nat} {gt : Graph} {gen gen1 : Gen}
    (hI : PassInv gt gen.graph [Color.GRAY, Color.GREEN, Color.BLUE, Color.YELLOW])
    (h : generate_red_edges rng fuel gen = .ok gen1) :
    PassInv gt gen1.graph
      [Color.GRAY, Color.GREEN, Color.BLUE, Color.YELLOW, Color.RED] := by
  unfold generate_red_edges at h
  split at h
  · cases h
  · rename_i s hs
    simp only [Except.ok.injEq] at h
    subst h
    exact (iterate_inv (fun t => RedInv gt t ∧ t.m = 0) _ (red_i_body rng fuel)
      (fun a b ha _ hb => red_i_body_inv ha hb) fuel _ s (red_start hI) hs).1.1.pass

theorem red_pass_safe {rng : Rng} {fuel : Nat} {gt : Graph} {gen : Gen}
    (hI : PassInv gt gen.graph [Color.GRAY, Color.GREEN, Color.BLUE, Color.YELLOW]) :
    Safe (generate_red_edges rng fuel gen) := by
  have hs := iterate_safe (fun t => RedInv gt t ∧ t.m = 0)
    (fun t => decide ((t.i : Int) < t.gen.graph.get_max_depth)) (red_i_body rng fuel)
    (fun a b ha _ hb => red_i_body_inv ha hb) (fun a ha _ => red_i_body_safe ha)
    fuel _ (red_start hI)
  unfold generate_red_edges
  split
  · rename_i e he
    rw [he] at hs
    exact safe_error_iff.mpr (safe_error_iff.mp hs)
  · exact safe_ok _

/-- The invariant of the later passes holds of the graph the Tree pass leaves. -/
theorem passInv_after_tree {fl : FloatOps} {rng : Rng} {fuel : Nat} {md bf : Int} {gen1 : Gen}
    (h : generate_vertices_and_gray_edges fl rng fuel ⟨emptyGraph md bf, 0, 0⟩ = .ok gen1) :
    PassInv gen1.graph gen1.graph [Color.GRAY, Color.GREEN] := by
  obtain ⟨hcore, hgeo, hcol⟩ := tree_pass_core h
  refine ⟨hcore, tree_pass_wellFormed h, Relation.ReflTransGen.refl, hgeo, ?_⟩
  intro e he
  have := hcol e he
  simp only [List.mem_singleton] at this
  simp [this]

/-- `generateGen` never trips an assertion and never indexes out of range. -/
theorem generateGen_safe (fl : FloatOps) (rng : Rng) (fuel : Nat) (md bf : Int) :
    Safe (generateGen fl rng fuel md bf) := by
  unfold generateGen
  simp only
  have h1s := tree_pass_safe fl rng fuel md bf
  split
  · rename_i e he
    rw [show generate_vertices_and_gray_edges fl rng fuel ⟨emptyGraph md bf, 0, 0⟩ =
      .error e from he] at h1s
    exact h1s
  · rename_i s1 h1
    have hI1 := passInv_after_tree h1
    have h2s : Safe (generate_green_edges rng s1) := green_pass_safe (by simp) hI1
    split
    · rename_i e he
      rw [he] at h2s
      exact h2s
    · rename_i s2 h2
      have hI2 := green_pass_inv (by simp) hI1 h2
      have h3s : Safe (generate_blue_edges rng fuel s2) := blue_pass_safe hI2
      split
      · rename_i e he
        rw [he] at h3s
        exact h3s
      · rename_i s3 h3
        have hI3 := blue_pass_inv hI2 h3
        have h4s : Safe (generate_yellow_edges fl rng fuel s3) := yellow_pass_safe hI3
        split
        · rename_i e he
          rw [he] at h4s
          exact h4s
        · rename_i s4 h4
          have hI4 := yellow_pass_inv hI3 h4
          exact red_pass_safe hI4

/-- The invariant of the later passes holds of the graph `generateGen` returns;
`gt` is the graph its Tree pass left. -/
theorem generateGen_passInv {fl : FloatOps} {rng : Rng} {fuel : Nat} {md bf : Int} {gen : Gen}
    (h : generateGen fl rng fuel md bf = .ok gen) :
    ∃ gt, PassInv gt gen.graph
      [Color.GRAY, Color.GREEN, Color.BLUE, Color.YELLOW, Color.RED] := by
  obtain ⟨s1, s2, s3, s4, h1, h2, h3, h4, h5⟩ := generateGen_passes h
  have hI1 := passInv_after_tree h1
  have hI2 := green_pass_inv (by simp) hI1 h2
  have hI3 := blue_pass_inv hI2 h3
  have hI4 := yellow_pass_inv hI3 h4
  exact ⟨s1.graph, red_pass_inv hI4 h5⟩


theorem generateGraph_safe (fl : FloatOps) (rng : Rng) (fuel : Nat) (md bf : Int) :
    Safe (generateGraph fl rng fuel md bf) := by
  have hs := generateGen_safe fl rng fuel md bf
  unfold generateGraph
  split
  · rename_i e he
    rw [he] at hs
    exact safe_error_iff.mpr (safe_error_iff.mp hs)
  · exact safe_ok _

theorem insert_vertex_ne_fuel (g : Graph) (c id d : Nat) :
    g.insert_vertex c id d ≠ .error .out_of_fuel := by
  unfold Graph.insert_vertex
  intro h
  split at h
  · cases h
  · split at h
    · cases h
    · cases h

theorem vertex_add_edge_ne_fuel (g : Graph) (k id : Nat) :
    g.vertex_add_edge k id ≠ .error .out_of_fuel := by
  unfold Graph.vertex_add_edge
  intro h
  split at h
  · cases h
  · split at h
    · rename_i e4 h4
      cases h
      unfold Vertex.add_edge at h4
      split at h4
      · cases h4
      · cases h4
    · cases h

theorem insert_edge_ne_fuel (g : Graph) (s t id : Nat) (col : Color) :
    g.insert_edge s t id col ≠ .error .out_of_fuel := by
  unfold Graph.insert_edge
  intro h
  split at h
  · cases h
  · split at h
    · cases h
    · simp only at h
      split at h
      · split at h
        · rename_i e3 h3
          cases h
          unfold Graph.are_vertices_connected at h3
          split at h3
          · cases h3
          · cases h3
        · cases h
        · split at h
          · rename_i e3 h3
            cases h
            exact vertex_add_edge_ne_fuel _ _ _ h3
          · exact vertex_add_edge_ne_fuel _ _ _ h
      · exact vertex_add_edge_ne_fuel _ _ _ h

theorem tree_j_body_total {rng : Rng} {md bf : Int} {s : TreeVars}
    (hI : TreeReach (emptyGraph md bf) s ∧ TreeTrialInv s) :
    ∃ s1, tree_j_body rng s = .ok s1 := by
  have hs : Safe (tree_j_body rng s) := tree_j_body_safe hI
  cases hb : tree_j_body rng s with
  | ok s1 => exact ⟨s1, rfl⟩
  | error e =>
    exfalso
    have he := hs e hb
    subst he
    unfold tree_j_body at hb
    simp only at hb
    split at hb
    · split at hb
      · rename_i e1 h1
        cases hb
        exact insert_vertex_ne_fuel _ _ _ _ h1
      · split at hb
        · rename_i e2 h2
          cases hb
          exact insert_edge_ne_fuel _ _ _ _ _ h2
        · cases hb
    · cases hb

theorem count_append_singleton (D : List Nat) (x d : Nat) :
    (D ++ [x]).count d = D.count d + (if x = d then 1 else 0) := by
  rw [List.count_append, List.count_singleton]
  simp

/-- One trial of the Tree pass returns, keeps every invariant of the `j` loop
and uses up one trial. -/
theorem tree_j_body_step {rng : Rng} {md bf : Int} {s : TreeVars}
    (hI : (TreeReach (emptyGraph md bf) s ∧ TreeTrialInv s) ∧ TreeTrialBound md bf s)
    (hc : decide ((s.j : Int) < s.gen.graph.get_new_vertices_num) = true) :
    ∃ s1, tree_j_body rng s = .ok s1 ∧
      ((TreeReach (emptyGraph md bf) s1 ∧ TreeTrialInv s1) ∧ TreeTrialBound md bf s1) ∧
      s1.depth = s.depth ∧ s1.i = s.i ∧ s1.j = s.j + 1 ∧
      s1.gen.graph.depths.count s.depth = s.gen.graph.depths.count s.depth := by
  obtain ⟨hRI, hB⟩ := hI
  obtain ⟨s1, h1⟩ : ∃ s1, tree_j_body rng s = .ok s1 := tree_j_body_total hRI
  have hinv := tree_j_body_inv hRI h1
  obtain ⟨e1, e2, e3, _, e5, _, _, e8, e9, hcase⟩ := tree_j_body_effect h1
  have hjlt : (s.j : Int) < bf := by
    have : (s.j : Int) < s.gen.graph.new_vertices_num := by
      simpa [Graph.get_new_vertices_num] using hc
    rw [hB.new_vertices_num] at this
    exact this
  have hcount : s1.gen.graph.depths.count s.depth = s.gen.graph.depths.count s.depth ∧
      s1.gen.graph.depths.count (s.depth + 1) ≤
        s.gen.graph.depths.count (s.depth + 1) + 1 := by
    rcases hcase with ⟨_, hg, _⟩ | ⟨_, _, hd, _, _⟩
    · rw [hg]; exact ⟨rfl, Nat.le_succ _⟩
    · rw [hd, count_append_singleton, count_append_singleton]
      simp
  refine ⟨s1, h1, ⟨hinv, ⟨?_, ?_, ?_, ?_, ?_, ?_⟩⟩, e1, e2, e5, hcount.1⟩
  · rw [e8]; exact hB.max_depth
  · rw [e9]; exact hB.new_vertices_num
  · rw [e1, hcount.1]; exact hB.level
  · rw [e1]; exact hB.within
  · rw [e1, e2, e5]
    have := hB.next
    have := hcount.2
    omega
  · rw [e5]
    omega


theorem treeFuel_bounds (md bf : Int) {fuel : Nat} (h : treeFuel md bf ≤ fuel) :
    md.toNat ≤ fuel ∧ bf.toNat ≤ fuel ∧
      ∀ d : Nat, (d : Int) < md → bf.toNat ^ d ≤ fuel := by
  unfold treeFuel at h
  have h1 : md.toNat ≤ fuel := le_trans (le_max_left _ _) h
  have h2 : bf.toNat ≤ fuel := le_trans (le_trans (le_max_left _ _) (le_max_right _ _)) h
  have h3 : (max 1 bf.toNat) ^ md.toNat ≤ fuel :=
    le_trans (le_trans (le_max_right _ _) (le_max_right _ _)) h
  refine ⟨h1, h2, ?_⟩
  intro d hd
  have hdm : d ≤ md.toNat := by omega
  calc bf.toNat ^ d ≤ (max 1 bf.toNat) ^ d := Nat.pow_le_pow_left (le_max_right _ _) d
    _ ≤ (max 1 bf.toNat) ^ md.toNat := Nat.pow_le_pow_right (le_max_left _ _) hdm
    _ ≤ fuel := h3

/-- The trials of one parent return when the fuel covers `branchFactor`. -/
theorem tree_i_body_step {rng : Rng} {fuel : Nat} {md bf : Int} {s : TreeVars}
    (hfuel : bf.toNat ≤ fuel)
    (hI : (TreeReach (emptyGraph md bf) s ∧ TreeParentInv s) ∧ TreeParentBound md bf s)
    (hc : decide (s.i < s.gen.graph.vertices_count_in_depth s.depth) = true) :
    ∃ s1, tree_i_body rng fuel s = .ok s1 ∧
      ((TreeReach (emptyGraph md bf) s1 ∧ TreeParentInv s1) ∧ TreeParentBound md bf s1) ∧
      s1.depth = s.depth ∧ s1.i = s.i + 1 ∧
      s1.gen.graph.depths.count s.depth = s.gen.graph.depths.count s.depth := by
  obtain ⟨⟨hreach, hP⟩, hB⟩ := hI
  have hlt : s.i < s.gen.graph.depths.count s.depth := by
    rw [← vertices_count_in_depth_eq _ hP.core.zero_once]
    simpa using hc
  let J : TreeVars → Prop := fun t =>
    ((TreeReach (emptyGraph md bf) t ∧ TreeTrialInv t) ∧ TreeTrialBound md bf t) ∧
      t.depth = s.depth ∧ t.i = s.i ∧
      t.gen.graph.depths.count s.depth = s.gen.graph.depths.count s.depth
  have hstart : J { s with j := 0 } :=
    ⟨⟨⟨hreach, ⟨hP.core, hP.geometry, hP.colors, hP.bound, hP.source, hlt⟩⟩,
      ⟨hB.max_depth, hB.new_vertices_num, hB.level, hB.within, by simpa using hB.next,
        Nat.zero_le _⟩⟩, rfl, rfl, rfl⟩
  have hstep : ∀ t, J t → decide ((t.j : Int) < t.gen.graph.get_new_vertices_num) = true →
      ∃ t1, tree_j_body rng t = .ok t1 ∧ J t1 ∧
        (bf - (t1.j : Int)).toNat < (bf - (t.j : Int)).toNat := by
    intro t ht htc
    obtain ⟨t1, hb, hinv, e1, e2, e3, e4⟩ : ∃ s1, tree_j_body rng t = .ok s1 ∧
        ((TreeReach (emptyGraph md bf) s1 ∧ TreeTrialInv s1) ∧ TreeTrialBound md bf s1) ∧
        s1.depth = t.depth ∧ s1.i = t.i ∧ s1.j = t.j + 1 ∧
        s1.gen.graph.depths.count t.depth = t.gen.graph.depths.count t.depth :=
      tree_j_body_step ht.1 htc
    have hjlt : (t.j : Int) < bf := by
      have : (t.j : Int) < t.gen.graph.new_vertices_num := by
        simpa [Graph.get_new_vertices_num] using htc
      rw [ht.1.2.new_vertices_num] at this
      exact this
    refine ⟨t1, hb, ⟨hinv, by rw [e1, ht.2.1], by rw [e2, ht.2.2.1], ?_⟩, ?_⟩
    · rw [← ht.2.2.2, ← ht.2.1]
      rw [ht.2.1] at e4 ⊢
      rw [← ht.2.1] at e4 ⊢
      exact e4
    · rw [e3]
      omega
  obtain ⟨s2, h2⟩ := iterate_total J (fun t => (bf - (t.j : Int)).toNat)
    (fun t => decide ((t.j : Int) < t.gen.graph.get_new_vertices_num)) (tree_j_body rng)
    hstep fuel { s with j := 0 } hstart (by simpa using hfuel)
  obtain ⟨hJ2, _⟩ := iterate_inv J
    (fun t => decide ((t.j : Int) < t.gen.graph.get_new_vertices_num)) (tree_j_body rng)
    (fun a b ha hca hb => by
      obtain ⟨t1, hb1, hJ1, _⟩ := hstep a ha hca
      rw [hb] at hb1
      cases hb1
      exact hJ1) fuel _ s2 hstart h2
  have hbody : tree_i_body rng fuel s =
      .ok { s2 with source_vertex := s2.source_vertex + 1, i := s2.i + 1 } := by
    unfold tree_i_body
    rw [h2]
  obtain ⟨⟨⟨hr2, hT2⟩, hB2⟩, hd2, hi2, hc2⟩ := hJ2
  refine ⟨_, hbody, ⟨tree_i_body_inv ⟨hreach, hP⟩ hc hbody, ?_⟩, hd2, by simp [hi2], hc2⟩
  refine ⟨hB2.max_depth, hB2.new_vertices_num, hB2.level, hB2.within, ?_⟩
  have h1 := hB2.next
  have h3 := hB2.trial
  simp only
  calc s2.gen.graph.depths.count (s2.depth + 1) ≤ s2.i * bf.toNat + s2.j := h1
    _ ≤ s2.i * bf.toNat + bf.toNat := by omega
    _ = (s2.i + 1) * bf.toNat := by ring


/-- One level of the Tree pass returns when the fuel covers `treeFuel`. -/
theorem tree_depth_body_step {fl : FloatOps} {rng : Rng} {fuel : Nat} {md bf : Int}
    {s : TreeVars} (hfuel : treeFuel md bf ≤ fuel)
    (hI : (TreeReach (emptyGraph md bf) s ∧ TreeDepthInv s) ∧ TreeLevelBound md bf s)
    (hc : decide ((s.depth : Int) < s.gen.graph.get_max_depth) = true) :
    ∃ s1, tree_depth_body fl rng fuel s = .ok s1 ∧
      ((TreeReach (emptyGraph md bf) s1 ∧ TreeDepthInv s1) ∧ TreeLevelBound md bf s1) ∧
      s1.depth = s.depth + 1 := by
  obtain ⟨⟨hreach, hD⟩, hB⟩ := hI
  obtain ⟨_, hbf, hpow⟩ := treeFuel_bounds md bf hfuel
  have hlt : (s.depth : Int) < md := by
    have : (s.depth : Int) < s.gen.graph.max_depth := by
      simpa [Graph.get_max_depth] using hc
    rw [hB.max_depth] at this
    exact this
  let P : TreeVars → Prop := fun t =>
    ((TreeReach (emptyGraph md bf) t ∧ TreeParentInv t) ∧ TreeParentBound md bf t) ∧
      t.depth = s.depth ∧
      t.gen.graph.depths.count s.depth = s.gen.graph.depths.count s.depth
  have hnext0 : s.gen.graph.depths.count (s.depth + 1) = 0 := by
    apply List.count_eq_zero_of_not_mem
    intro hmem
    have := hD.bound _ hmem
    omega
  have hstart : P { s with i := 0 } := by
    refine ⟨⟨⟨hreach, ⟨hD.core, hD.geometry, hD.colors, ?_, ?_, by simp⟩⟩,
      ⟨hB.max_depth, hB.new_vertices_num, hB.level, hlt, by simp [hnext0]⟩⟩, rfl, rfl⟩
    · intro x hx
      have := hD.bound x hx
      simp only
      omega
    · simp only
      rw [hD.source]
      rfl
  have hstep : ∀ t, P t → decide (t.i < t.gen.graph.vertices_count_in_depth t.depth) = true →
      ∃ t1, tree_i_body rng fuel t = .ok t1 ∧ P t1 ∧
        t1.gen.graph.depths.count t1.depth - t1.i <
          t.gen.graph.depths.count t.depth - t.i := by
    intro t ht htc
    obtain ⟨t1, hb, hinv, e1, e2, e3⟩ := tree_i_body_step hbf ht.1 htc
    have hti : t.i < t.gen.graph.depths.count t.depth := by
      rw [← vertices_count_in_depth_eq _ ht.1.1.2.core.zero_once]
      simpa using htc
    refine ⟨t1, hb, ⟨hinv, by rw [e1, ht.2.1], ?_⟩, ?_⟩
    · rw [← ht.2.2, ← ht.2.1]
      exact e3
    · rw [e1, e2, e3]
      omega
  obtain ⟨s2, h2⟩ := iterate_total P
    (fun t => t.gen.graph.depths.count t.depth - t.i)
    (fun t => decide (t.i < t.gen.graph.vertices_count_in_depth t.depth)) (tree_i_body rng fuel)
    hstep fuel { s with i := 0 } hstart
    (by
      simp only [Nat.sub_zero]
      exact le_trans hB.level (hpow s.depth hlt))
  obtain ⟨hP2, _⟩ := iterate_inv P
    (fun t => decide (t.i < t.gen.graph.vertices_count_in_depth t.depth)) (tree_i_body rng fuel)
    (fun a b ha hca hb => by
      obtain ⟨t1, hb1, hP1, _⟩ := hstep a ha hca
      rw [hb] at hb1
      cases hb1
      exact hP1) fuel _ s2 hstart h2
  have hbody : tree_depth_body fl rng fuel s =
      .ok { s2 with
            condition := fl.add s2.condition (fl.div 100 (fl.ofInt s2.gen.graph.get_max_depth)),
            depth := s2.depth + 1 } := by
    unfold tree_depth_body
    rw [h2]
  obtain ⟨⟨⟨hr2, hT2⟩, hB2⟩, hd2, hc2⟩ := hP2
  refine ⟨_, hbody, ⟨tree_depth_body_inv ⟨hreach, hD⟩ hbody, ?_⟩, by simp [hd2]⟩
  refine ⟨hB2.max_depth, hB2.new_vertices_num, ?_, ?_⟩
  · simp only
    calc s2.gen.graph.depths.count (s2.depth + 1) ≤ s2.i * bf.toNat := hB2.next
      _ ≤ s2.gen.graph.depths.count s2.depth * bf.toNat :=
        Nat.mul_le_mul_right _ hT2.index
      _ ≤ bf.toNat ^ s2.depth * bf.toNat := Nat.mul_le_mul_right _ hB2.level
      _ = bf.toNat ^ (s2.depth + 1) := (pow_succ _ _).symm
  · simp only
    have := hB2.within
    push_cast
    omega

/-- The Tree pass returns a graph for every depth, branch factor and sequence of
draws once the fuel reaches `treeFuel`. -/
theorem tree_pass_total (fl : FloatOps) (rng : Rng) (fuel : Nat) (md bf : Int)
    (hfuel : treeFuel md bf ≤ fuel) :
    ∃ gen1, generate_vertices_and_gray_edges fl rng fuel ⟨emptyGraph md bf, 0, 0⟩ = .ok gen1 := by
  obtain ⟨hmd, _, _⟩ := treeFuel_bounds md bf hfuel
  unfold generate_vertices_and_gray_edges
  obtain ⟨g0, h0⟩ := insert_vertex_total (wellFormed_empty md bf) 0 0
  have h0' : (emptyGraph md bf).insert_vertex 0 0 0 = .ok g0 := h0
  simp only [h0']
  obtain ⟨hcore, hgeo, hcol⟩ := treeCore_root md bf h0'
  have hg0 := (insert_vertex_ok h0').1
  have hlen0 : g0.vertices.length = 1 := by
    rw [hg0]; simp [emptyGraph]
  have hd0 : g0.depths = [0] := by
    rw [hg0]; simp [emptyGraph, Graph.depths]
  let D : TreeVars → Prop := fun t =>
    (TreeReach (emptyGraph md bf) t ∧ TreeDepthInv t) ∧ TreeLevelBound md bf t
  have hstart : D ⟨⟨g0, 0, 0⟩, 0, 0, 1, 0, 0, 0⟩ := by
    refine ⟨⟨⟨Relation.ReflTransGen.single (Step.vertex ⟨0, 0, h0'⟩), by simp [hlen0]⟩,
      ⟨hcore, hgeo, hcol, ?_, ?_⟩⟩, ⟨?_, ?_, ?_, ?_⟩⟩
    · intro x hx
      simp only [hd0, List.mem_singleton] at hx
      simp [hx]
    · simp [hd0]
    · rw [hg0]; rfl
    · rw [hg0]; rfl
    · simp [hd0]
    · simp
  have hstep : ∀ t, D t → decide ((t.depth : Int) < t.gen.graph.get_max_depth) = true →
      ∃ t1, tree_depth_body fl rng fuel t = .ok t1 ∧ D t1 ∧
        (md - (t1.depth : Int)).toNat < (md - (t.depth : Int)).toNat := by
    intro t ht htc
    obtain ⟨t1, hb, hinv, e1⟩ := tree_depth_body_step hfuel ht htc
    have hlt : (t.depth : Int) < md := by
      have : (t.depth : Int) < t.gen.graph.max_depth := by
        simpa [Graph.get_max_depth] using htc
      rw [ht.2.max_depth] at this
      exact this
    refine ⟨t1, hb, hinv, ?_⟩
    rw [e1]
    push_cast
    omega
  obtain ⟨s2, h2⟩ := iterate_total D (fun t => (md - (t.depth : Int)).toNat)
    (fun t => decide ((t.depth : Int) < t.gen.graph.get_max_depth))
    (tree_depth_body fl rng fuel) hstep fuel _ hstart (by simpa using hmd)
  obtain ⟨hD2, _⟩ := iterate_inv D
    (fun t => decide ((t.depth : Int) < t.gen.graph.get_max_depth))
    (tree_depth_body fl rng fuel)
    (fun a b ha hca hb => by
      obtain ⟨t1, hb1, hD1, _⟩ := hstep a ha hca
      rw [hb] at hb1
      cases hb1
      exact hD1) fuel _ s2 hstart h2
  simp only [h2]
  have hpos : 0 < s2.gen.graph.vertices.length := by
    have hst := hD2.1.1.1
    have hz := hD2.1.2.core.root
    by_contra hn
    have hl : s2.gen.graph.depths.length = 0 := by
      rw [depths_length]; omega
    rw [List.length_eq_zero] at hl
    rw [hl] at hz
    simp at hz
  obtain ⟨d, hd, _⟩ := depth_of_ok (g := s2.gen.graph) (i := s2.vertex - 1)
    (by rw [hD2.1.1.2]; omega)
  simp only [hd]
  split
  · exact ⟨_, rfl⟩
  · exact ⟨_, rfl⟩


/-- In a graph the Tree pass returns, every vertex other than the root has its
creator in the graph one level up and hangs from it by a GRAY edge. -/
theorem tree_parent_of_ok {fl : FloatOps} {rng : Rng} {fuel : Nat} {md bf : Int} {gen1 : Gen}
    (h : generate_vertices_and_gray_edges fl rng fuel ⟨emptyGraph md bf, 0, 0⟩ = .ok gen1) :
    ∀ (i : Nat) (v : Vertex), gen1.graph.vertices[i]? = some v → i ≠ 0 →
      v.id = i ∧
      ∃ p, gen1.graph.vertices[v.source_id]? = some p ∧ v.depth = p.depth + 1 ∧
        ∃ e ∈ gen1.graph.edges,
          e.color = Color.GRAY ∧ e.source = v.source_id ∧ e.destination = v.id := by
  intro i v hv hi
  have hw := tree_pass_wellFormed h
  obtain ⟨hcore, _, _⟩ := tree_pass_core h
  have hid := hw.ids.1 i v hv
  obtain ⟨dp, h1, h2, e, hmem, hc, hs, hd⟩ := hcore.parent i v.source_id (creators_get hv) hi
  obtain ⟨p, hp, hpd⟩ := vertex_of_depths h1
  rw [depths_get hv] at h2
  simp only [Option.some.injEq] at h2
  refine ⟨hid, p, hp, by rw [h2, hpd], e, hmem, hc, hs, by rw [hd, hid]⟩

theorem edge_ids_loop_cons (a : Nat) (rest : List Nat) (acc : String) :
    Vertex.edge_ids_loop (a :: rest) acc =
      Vertex.edge_ids_loop rest
        (if rest.isEmpty then acc ++ to_string a else acc ++ to_string a ++ ", ") := rfl

theorem edge_ids_loop_eq : ∀ (l : List Nat) (acc : String),
    Vertex.edge_ids_loop l acc = acc ++ ", ".intercalate (l.map to_string) := by
  intro l
  induction l with
  | nil => intro acc; simp [Vertex.edge_ids_loop, String.intercalate]
  | cons a as ih =>
    intro acc
    cases as with
    | nil => simp [Vertex.edge_ids_loop, String.intercalate, String.intercalate.go]
    | cons b bs =>
      rw [edge_ids_loop_cons, ih]
      simp only [List.map_cons, List.isEmpty_cons, Bool.false_eq_true, if_false]
      rw [intercalate_cons_cons ", " (to_string a)]
      simp [String.append_assoc]

theorem vertices_loop_cons (a : Vertex) (rest : List Vertex) (acc : String) :
    Graph.vertices_loop (a :: rest) acc =
      Graph.vertices_loop rest
        (if rest.isEmpty then acc ++ a.to_JSON ++ "\n  ],\n" else acc ++ a.to_JSON ++ ",\n") :=
  rfl

theorem vertices_loop_eq : ∀ (l : List Vertex) (acc : String), l ≠ [] →
    Graph.vertices_loop l acc =
      acc ++ ",\n".intercalate (l.map Vertex.to_JSON) ++ "\n  ],\n" := by
  intro l
  induction l with
  | nil => intro acc h; exact absurd rfl h
  | cons a as ih =>
    intro acc _
    cases as with
    | nil => simp [Graph.vertices_loop, String.intercalate, String.intercalate.go]
    | cons b bs =>
      rw [vertices_loop_cons, ih _ (by simp)]
      simp only [List.map_cons, List.isEmpty_cons, Bool.false_eq_true, if_false]
      rw [intercalate_cons_cons ",\n" a.to_JSON]
      simp [String.append_assoc]

theorem edges_loop_cons (a : Edge) (rest : List Edge) (acc : String) :
    Graph.edges_loop (a :: rest) acc =
      Graph.edges_loop rest
        (if rest.isEmpty then acc ++ a.to_JSON ++ "\n" else acc ++ a.to_JSON ++ ",\n") :=
  rfl

theorem edges_loop_eq : ∀ (l : List Edge) (acc : String),
    Graph.edges_loop l acc =
      acc ++ ",\n".intercalate (l.map Edge.to_JSON) ++ (if l.isEmpty then "" else "\n") := by
  intro l
  induction l with
  | nil => intro acc; simp [Graph.edges_loop, String.intercalate]
  | cons a as ih =>
    intro acc
    cases as with
    | nil => simp [Graph.edges_loop, String.intercalate, String.intercalate.go]
    | cons b bs =>
      rw [edges_loop_cons, ih]
      simp only [List.map_cons, List.isEmpty_cons, Bool.false_eq_true, if_false]
      rw [intercalate_cons_cons ",\n" a.to_JSON]
      simp [String.append_assoc]

theorem vertex_to_JSON_eq (v : Vertex) :
    v.to_JSON = "\t\x7b \"id\": " ++ to_string v.id ++ ", \"edge_ids\": [" ++
      ", ".intercalate (v.edge_ids.map to_string) ++ "], \"depth\": " ++ to_string v.depth ++
      "\x7d" := by
  unfold Vertex.to_JSON
  simp only
  rw [edge_ids_loop_eq]
  simp [String.append_assoc]

theorem edge_to_JSON_eq (e : Edge) :
    e.to_JSON = "\t\x7b \"id\": " ++ to_string e.id ++ ", \"vertex_ids\": [" ++
      to_string e.source ++ ", " ++ to_string e.destination ++ "], \"color\": \"" ++
      Edge.color_to_string e.color ++ "\" \x7d" := by
  unfold Edge.to_JSON
  simp [String.append_assoc]

theorem color_to_string_injective : Function.Injective Edge.color_to_string := by
  intro a b h
  cases a <;> cases b <;> first | rfl | exact absurd h (by decide)

/-- The last element of a sorted list bounds every element. -/
theorem sorted_le_last {D : List Nat} (hs : D.Pairwise (fun x y => x ≤ y)) {d : Nat}
    (hd : D[D.length - 1]? = some d) : ∀ x ∈ D, x ≤ d := by
  intro x hx
  obtain ⟨i, hi, rfl⟩ := List.getElem_of_mem hx
  have hlen : D.length - 1 < D.length := by omega
  have hd2 : D[D.length - 1] = d := by
    rw [List.getElem?_eq_getElem hlen] at hd
    exact Option.some.inj hd
  by_cases hlt : i < D.length - 1
  · have := List.pairwise_iff_getElem.mp hs i (D.length - 1) hi hlen hlt
    rw [hd2] at this
    exact this
  · have : i = D.length - 1 := by omega
    subst this
    rw [hd2]

/-- What a returning run of the Tree pass went through: the root was inserted,
the `depth` loop ended in a state `s` satisfying the loop invariant, and the
result is the graph of `s` with `max_depth` set to the depth `d` of the vertex
created last. -/
theorem tree_pass_final_state {fl : FloatOps} {rng : Rng} {fuel : Nat} {md bf : Int}
    {gen1 : Gen}
    (h : generate_vertices_and_gray_edges fl rng fuel ⟨emptyGraph md bf, 0, 0⟩ = .ok gen1) :
    ∃ g0 s d, (emptyGraph md bf).insert_vertex 0 0 0 = .ok g0 ∧
      iterate fuel (fun t => decide ((t.depth : Int) < t.gen.graph.get_max_depth))
        (tree_depth_body fl rng fuel) ⟨⟨g0, 0, 0⟩, 0, 0, 1, 0, 0, 0⟩ = .ok s ∧
      (TreeReach (emptyGraph md bf) s ∧ TreeDepthInv s) ∧
      s.gen.graph.depths[s.gen.graph.vertices.length - 1]? = some d ∧
      gen1 = { s.gen with graph := s.gen.graph.set_max_depth (d : Int) } := by
  unfold generate_vertices_and_gray_edges at h
  cases h0 : (emptyGraph md bf).insert_vertex 0 0 0 with
  | error e => simp [h0] at h
  | ok g0 =>
    simp only [h0] at h
    obtain ⟨hcore, hgeo, hcol⟩ := treeCore_root md bf h0
    have hlen0 : g0.vertices.length = 1 := by
      rw [(insert_vertex_ok h0).1]; simp [emptyGraph]
    have hd0 : g0.depths = [0] := by
      rw [(insert_vertex_ok h0).1]; simp [emptyGraph, Graph.depths]
    have hstart : TreeReach (emptyGraph md bf) ⟨⟨g0, 0, 0⟩, 0, 0, 1, 0, 0, 0⟩ ∧
        TreeDepthInv ⟨⟨g0, 0, 0⟩, 0, 0, 1, 0, 0, 0⟩ := by
      refine ⟨⟨Relation.ReflTransGen.single (Step.vertex ⟨0, 0, h0⟩), by simp [hlen0]⟩,
        ⟨hcore, hgeo, hcol, ?_, ?_⟩⟩
      · intro x hx
        simp only [hd0, List.mem_singleton] at hx
        simp [hx]
      · simp [hd0]
    split at h
    · cases h
    · rename_i s hs
      obtain ⟨hRD, _⟩ := iterate_inv (fun t => TreeReach (emptyGraph md bf) t ∧ TreeDepthInv t)
        _ (tree_depth_body fl rng fuel) (fun a b ha _ hb => tree_depth_body_inv ha hb)
        fuel _ s hstart hs
      split at h
      · cases h
      · rename_i d hd
        have hd1 := depth_of_eq hd
        rw [hRD.1.2] at hd1
        refine ⟨g0, s, d, rfl, hs, hRD, hd1, ?_⟩
        split at h
        · simp only [Except.ok.injEq] at h
          exact h.symm
        · rename_i hne
          simp only [Except.ok.injEq] at h
          have heq : s.gen.graph.max_depth = (d : Int) := by
            simpa [Graph.get_max_depth] using hne
          rw [← h]
          cases hsg : s.gen with
          | mk graph probs picks =>
            cases graph with
            | mk edges vertices max_depth new_vertices_num =>
              rw [hsg] at heq
              simp only at heq
              simp [Graph.set_max_depth, heq]

/-- After the Tree pass `max_depth` is the depth of some vertex and bounds the
depth of every vertex. -/
theorem tree_pass_depth_attained {fl : FloatOps} {rng : Rng} {fuel : Nat} {md bf : Int}
    {gen1 : Gen}
    (h : generate_vertices_and_gray_edges fl rng fuel ⟨emptyGraph md bf, 0, 0⟩ = .ok gen1) :
    (∃ v ∈ gen1.graph.vertices, (v.depth : Int) = gen1.graph.max_depth) ∧
    ∀ v ∈ gen1.graph.vertices, (v.depth : Int) ≤ gen1.graph.max_depth := by
  obtain ⟨g0, s, d, _, _, hRD, hd, rfl⟩ := tree_pass_final_state h
  obtain ⟨v, hv, hvd⟩ := vertex_of_depths hd
  refine ⟨⟨v, List.getElem?_mem hv, by
    show (v.depth : Int) = (d : Int)
    rw [hvd]⟩, ?_⟩
  intro w hw
  have hw2 : w.depth ∈ s.gen.graph.depths := List.mem_map_of_mem _ hw
  have hd2 : s.gen.graph.depths[s.gen.graph.depths.length - 1]? = some d := by
    rw [depths_length]; exact hd
  have := sorted_le_last hRD.2.core.sorted hd2 _ hw2
  show (w.depth : Int) ≤ (d : Int)
  exact_mod_cast this

/-- With fuel `treeFuel`, the state in which the `depth` loop of the Tree pass
ends satisfies the size bounds of the loop. -/
theorem tree_depth_loop_bound {fl : FloatOps} {rng : Rng} {fuel : Nat} {md bf : Int}
    {g0 : Graph} {s : TreeVars} (hfuel : treeFuel md bf ≤ fuel)
    (h0 : (emptyGraph md bf).insert_vertex 0 0 0 = .ok g0)
    (hs : iterate fuel (fun t => decide ((t.depth : Int) < t.gen.graph.get_max_depth))
      (tree_depth_body fl rng fuel) ⟨⟨g0, 0, 0⟩, 0, 0, 1, 0, 0, 0⟩ = .ok s) :
    TreeLevelBound md bf s := by
  obtain ⟨hcore, hgeo, hcol⟩ := treeCore_root md bf h0
  have hg0 := (insert_vertex_ok h0).1
  have hlen0 : g0.vertices.length = 1 := by
    rw [hg0]; simp [emptyGraph]
  have hd0 : g0.depths = [0] := by
    rw [hg0]; simp [emptyGraph, Graph.depths]
  let D : TreeVars → Prop := fun t =>
    (TreeReach (emptyGraph md bf) t ∧ TreeDepthInv t) ∧ TreeLevelBound md bf t
  have hstart : D ⟨⟨g0, 0, 0⟩, 0, 0, 1, 0, 0, 0⟩ := by
    refine ⟨⟨⟨Relation.ReflTransGen.single (Step.vertex ⟨0, 0, h0⟩), by simp [hlen0]⟩,
      ⟨hcore, hgeo, hcol, ?_, ?_⟩⟩, ⟨?_, ?_, ?_, ?_⟩⟩
    · intro x hx
      simp only [hd0, List.mem_singleton] at hx
      simp [hx]
    · simp [hd0]
    · rw [hg0]; rfl
    · rw [hg0]; rfl
    · simp [hd0]
    · simp
  exact (iterate_inv D
    (fun t => decide ((t.depth : Int) < t.gen.graph.get_max_depth))
    (tree_depth_body fl rng fuel)
    (fun a b ha hca hb => by
      obtain ⟨t1, hb1, hD1, _⟩ := tree_depth_body_step hfuel ha hca
      rw [hb] at hb1
      cases hb1
      exact hD1) fuel _ s hstart hs).1.2

theorem tree_i_body_no_branching (rng : Rng) (fuel : Nat) (s : TreeVars)
    (h : s.gen.graph.new_vertices_num = 0) :
    tree_i_body rng fuel s =
      .ok { s with j := 0, source_vertex := s.source_vertex + 1, i := s.i + 1 } := by
  unfold tree_i_body
  rw [iterate_done]
  simp [Graph.get_new_vertices_num, h]

theorem tree_depth_body_no_branching (fl : FloatOps) (rng : Rng) (fuel : Nat) (md : Int)
    (hfuel : 1 ≤ fuel) (s : TreeVars)
    (h : s.gen = ⟨⟨[], [⟨[], 0, 0, 0⟩], md, 0⟩, 0, 0⟩) :
    ∃ s1, tree_depth_body fl rng fuel s = .ok s1 ∧
      s1.gen = ⟨⟨[], [⟨[], 0, 0, 0⟩], md, 0⟩, 0, 0⟩ ∧ s1.vertex = s.vertex ∧
      s1.depth = s.depth + 1 := by
  let P : TreeVars → Prop := fun t =>
    t.gen = ⟨⟨[], [⟨[], 0, 0, 0⟩], md, 0⟩, 0, 0⟩ ∧ t.vertex = s.vertex ∧ t.depth = s.depth
  have hcount : ∀ d : Nat,
      (⟨[], [⟨[], 0, 0, 0⟩], md, 0⟩ : Graph).vertices_count_in_depth d ≤ 1 := by
    intro d
    unfold Graph.vertices_count_in_depth
    split
    · exact le_refl 1
    · simp only [List.filter]
      split <;> simp
  have hstep : ∀ t, P t → decide (t.i < t.gen.graph.vertices_count_in_depth t.depth) = true →
      ∃ t1, tree_i_body rng fuel t = .ok t1 ∧ P t1 ∧
        (⟨[], [⟨[], 0, 0, 0⟩], md, 0⟩ : Graph).vertices_count_in_depth s.depth - t1.i <
          (⟨[], [⟨[], 0, 0, 0⟩], md, 0⟩ : Graph).vertices_count_in_depth s.depth - t.i := by
    intro t ht htc
    have hnum : t.gen.graph.new_vertices_num = 0 := by rw [ht.1]
    refine ⟨_, tree_i_body_no_branching rng fuel t hnum, ⟨ht.1, ht.2.1, ht.2.2⟩, ?_⟩
    have hlt : t.i < t.gen.graph.vertices_count_in_depth t.depth := by simpa using htc
    rw [ht.1, ht.2.2] at hlt
    have hlt2 : t.i < (⟨[], [⟨[], 0, 0, 0⟩], md, 0⟩ : Graph).vertices_count_in_depth s.depth :=
      hlt
    show _ - (t.i + 1) < _ - t.i
    omega
  have hstart : P { s with i := 0 } := ⟨h, rfl, rfl⟩
  obtain ⟨s2, h2⟩ := iterate_total P
    (fun t => (⟨[], [⟨[], 0, 0, 0⟩], md, 0⟩ : Graph).vertices_count_in_depth s.depth - t.i)
    (fun t => decide (t.i < t.gen.graph.vertices_count_in_depth t.depth)) (tree_i_body rng fuel)
    hstep fuel { s with i := 0 } hstart
    (by
      have := hcount s.depth
      show _ - 0 ≤ fuel
      omega)
  obtain ⟨hP2, _⟩ := iterate_inv P
    (fun t => decide (t.i < t.gen.graph.vertices_count_in_depth t.depth)) (tree_i_body rng fuel)
    (fun a b ha hca hb => by
      obtain ⟨t1, hb1, hP1, _⟩ := hstep a ha hca
      rw [hb] at hb1
      cases hb1
      exact hP1) fuel _ s2 hstart h2
  have hbody : tree_depth_body fl rng fuel s =
      .ok { s2 with
            condition := fl.add s2.condition (fl.div 100 (fl.ofInt s2.gen.graph.get_max_depth)),
            depth := s2.depth + 1 } := by
    unfold tree_depth_body
    rw [h2]
  refine ⟨_, hbody, hP2.1, hP2.2.1, ?_⟩
  simp [hP2.2.2]

/-- With `branchFactor = 0` the Tree pass leaves the root alone, consumes no
draw and sets `max_depth` to 0. -/
theorem tree_pass_no_branching (fl : FloatOps) (rng : Rng) (fuel : Nat) (md : Int)
    (hmd : 1 ≤ md) (hfuel : treeFuel md 0 ≤ fuel) :
    generate_vertices_and_gray_edges fl rng fuel ⟨emptyGraph md 0, 0, 0⟩ =
      .ok ⟨⟨[], [⟨[], 0, 0, 0⟩], 0, 0⟩, 0, 0⟩ := by
  obtain ⟨hfmd, _, hpow⟩ := treeFuel_bounds md 0 hfuel
  have hf1 : 1 ≤ fuel := by
    have := hpow 0 (by omega)
    simpa using this
  have h0 : (emptyGraph md 0).insert_vertex 0 0 0 = .ok ⟨[], [⟨[], 0, 0, 0⟩], md, 0⟩ := by
    simp [Graph.insert_vertex, emptyGraph, is_vertex_id_valid, vertex_exists_in_graph]
  let D : TreeVars → Prop := fun t =>
    t.gen = ⟨⟨[], [⟨[], 0, 0, 0⟩], md, 0⟩, 0, 0⟩ ∧ t.vertex = 1
  have hstep : ∀ t, D t → decide ((t.depth : Int) < t.gen.graph.get_max_depth) = true →
      ∃ t1, tree_depth_body fl rng fuel t = .ok t1 ∧ D t1 ∧
        (md - (t1.depth : Int)).toNat < (md - (t.depth : Int)).toNat := by
    intro t ht htc
    obtain ⟨t1, hb, hg, hv, hd⟩ := tree_depth_body_no_branching fl rng fuel md hf1 t ht.1
    have hlt : (t.depth : Int) < md := by
      have : (t.depth : Int) < t.gen.graph.max_depth := by
        simpa [Graph.get_max_depth] using htc
      rw [ht.1] at this
      exact this
    refine ⟨t1, hb, ⟨hg, by rw [hv, ht.2]⟩, ?_⟩
    rw [hd]
    push_cast
    omega
  have hstart : D ⟨⟨⟨[], [⟨[], 0, 0, 0⟩], md, 0⟩, 0, 0⟩, 0, 0, 1, 0, 0, 0⟩ := ⟨rfl, rfl⟩
  obtain ⟨s2, h2⟩ := iterate_total D (fun t => (md - (t.depth : Int)).toNat)
    (fun t => decide ((t.depth : Int) < t.gen.graph.get_max_depth))
    (tree_depth_body fl rng fuel) hstep fuel _ hstart (by simpa using hfmd)
  obtain ⟨hD2, _⟩ := iterate_inv D
    (fun t => decide ((t.depth : Int) < t.gen.graph.get_max_depth))
    (tree_depth_body fl rng fuel)
    (fun a b ha hca hb => by
      obtain ⟨t1, hb1, hD1, _⟩ := hstep a ha hca
      rw [hb] at hb1
      cases hb1
      exact hD1) fuel _ s2 hstart h2
  unfold generate_vertices_and_gray_edges
  simp only [h0, h2]
  rw [hD2.1, hD2.2]
  have hne : md ≠ 0 := by omega
  simp [Graph.depth_of, Graph.get_max_depth, Graph.set_max_depth, hne]

/-- The Tree pass of `generateGraph(1, 1)` creates the root and one child when
the first draw meets the depth-0 threshold 0. -/
theorem tree_pass_one_one (fl : FloatOps) (rng : Rng) (k : Nat) (h0 : 0 ≤ rng.prob 0) :
    generate_vertices_and_gray_edges fl rng (k + 1) ⟨emptyGraph 1 1, 0, 0⟩ =
      .ok rootAndChild := by
  have hj : tree_j_body rng ⟨⟨⟨[], [⟨[], 0, 0, 0⟩], 1, 1⟩, 0, 0⟩, 0, 0, 1, 0, 0, 0⟩ =
      .ok ⟨rootAndChild, 0, 0, 2, 0, 0, 1⟩ := by
    have hp : rng.prob 0 ≥ 0 := h0
    simp only [tree_j_body, hp, if_true]
    rfl
  have hi : tree_i_body rng (k + 1) ⟨⟨⟨[], [⟨[], 0, 0, 0⟩], 1, 1⟩, 0, 0⟩, 0, 0, 1, 0, 0, 0⟩ =
      .ok ⟨rootAndChild, 0, 1, 2, 0, 1, 1⟩ := by
    unfold tree_i_body
    rw [iterate_once k _ _ _ _ (by decide) hj (by decide)]
  have hd : tree_depth_body fl rng (k + 1)
      ⟨⟨⟨[], [⟨[], 0, 0, 0⟩], 1, 1⟩, 0, 0⟩, 0, 0, 1, 0, 0, 0⟩ =
      .ok ⟨rootAndChild, fl.add 0 (fl.div 100 (fl.ofInt 1)), 1, 2, 1, 1, 1⟩ := by
    unfold tree_depth_body
    rw [iterate_once k _ _ _ _ (by decide) hi (by decide)]
    rfl
  unfold generate_vertices_and_gray_edges
  have hv : (emptyGraph 1 1).insert_vertex 0 0 0 = .ok ⟨[], [⟨[], 0, 0, 0⟩], 1, 1⟩ := by decide
  simp only [hv]
  rw [iterate_once k _ _ _ _ (by decide) hd (by rfl)]
  rfl

/-- On the root and its child the Lateral, Forward-Skip-1 and Forward-Skip-2
passes make no draw and add no edge, whatever Loop edges the root carries. -/
theorem skip_passes_one_one (fl : FloatOps) (rng : Rng) (k : Nat) (gen : Gen)
    (hv : gen.graph.vertices.map (fun v => (v.id, v.depth)) = [(0, 0), (1, 1)])
    (hm : gen.graph.max_depth = 1) :
    generate_blue_edges rng (k + 1) gen = .ok gen ∧
    generate_yellow_edges fl rng (k + 1) gen = .ok gen ∧
    generate_red_edges rng (k + 1) gen = .ok gen := by
  obtain ⟨⟨edges, vertices, max_depth, bf⟩, probs, picks⟩ := gen
  simp only at hv hm
  subst hm
  rcases vertices with _ | ⟨v0, _ | ⟨v1, _ | ⟨v2, rest⟩⟩⟩
  · simp at hv
  · simp at hv
  · simp only [List.map_cons, List.map_nil, List.cons.injEq, Prod.mk.injEq, and_true] at hv
    obtain ⟨⟨hi0, hd0⟩, hi1, hd1⟩ := hv
    refine ⟨?_, ?_, ?_⟩
    · unfold generate_blue_edges
      have hb : blue_body rng ⟨⟨⟨edges, [v0, v1], 1, bf⟩, probs, picks⟩, 0⟩ =
          .ok ⟨⟨⟨edges, [v0, v1], 1, bf⟩, probs, picks⟩, 1⟩ := by
        simp [blue_body, Graph.depth_of, hd0, hd1]
      rw [iterate_once k _ _ _ _ (by simp) hb (by simp)]
    · unfold generate_yellow_edges
      rw [iterate_done _ _ _ _ (by simp [Graph.get_max_depth])]
    · unfold generate_red_edges
      have hn : red_m_body rng (k + 1) ⟨⟨⟨edges, [v0, v1], 1, bf⟩, probs, picks⟩, 0, 0, 0, false⟩ =
          .ok ⟨⟨⟨edges, [v0, v1], 1, bf⟩, probs, picks⟩, 0, 1, 0, false⟩ := by
        unfold red_m_body
        rw [iterate_done _ _ _ _ (by simp [Graph.vertices_in_depth, hd0, hd1])]
      have hmm : red_i_body rng (k + 1) ⟨⟨⟨edges, [v0, v1], 1, bf⟩, probs, picks⟩, 0, 0, 0, false⟩ =
          .ok ⟨⟨⟨edges, [v0, v1], 1, bf⟩, probs, picks⟩, 1, 0, 0, false⟩ := by
        unfold red_i_body
        rw [iterate_once k _ _ _ _ (by simp [Graph.vertices_in_depth, hd0, hd1]) hn
          (by simp [Graph.vertices_in_depth, hd0, hd1])]
      rw [iterate_once k _ _ _ _ (by simp [Graph.get_max_depth]) hmm
        (by simp [Graph.get_max_depth])]
  · simp at hv

theorem green_loop_hit (rng : Rng) (vertex : Vertex) (rest : List Vertex) (gen : Gen)
    (g1 : Graph) (hp : rng.prob gen.probs ≥ 90)
    (hins : gen.graph.insert_edge vertex.source_id vertex.source_id gen.graph.edges.length
      Color.GREEN = .ok g1) :
    green_loop rng (vertex :: rest) gen = green_loop rng rest ⟨g1, gen.probs + 1, gen.picks⟩ := by
  rw [green_loop]
  simp only [hp, if_true, hins]

theorem green_loop_miss (rng : Rng) (vertex : Vertex) (rest : List Vertex) (gen : Gen)
    (hp : ¬ rng.prob gen.probs ≥ 90) :
    green_loop rng (vertex :: rest) gen =
      green_loop rng rest { gen with probs := gen.probs + 1 } := by
  rw [green_loop]
  simp only [hp, if_false]

/-- The Loop pass on the root and its child keeps the two vertices and the
Tree edge and adds only Loop edges. -/
theorem green_pass_one_one (rng : Rng) :
    ∃ gen2, generate_green_edges rng rootAndChild = .ok gen2 ∧
      gen2.graph.vertices.map (fun v => (v.id, v.depth)) = [(0, 0), (1, 1)] ∧
      gen2.graph.max_depth = 1 ∧
      gen2.graph.edges.filter (fun e => decide (e.color = Color.GRAY)) =
        [⟨0, Color.GRAY, 0, 1⟩] ∧
      gen2.graph.edges.filter (fun e => decide (e.color = Color.BLUE)) = [] ∧
      gen2.graph.edges.filter (fun e => decide (e.color = Color.YELLOW)) = [] ∧
      gen2.graph.edges.filter (fun e => decide (e.color = Color.RED)) = [] := by
  unfold generate_green_edges
  have hvs : rootAndChild.graph.vertices = [⟨[0], 0, 0, 0⟩, ⟨[0], 0, 1, 1⟩] := rfl
  rw [hvs]
  by_cases h1 : rng.prob 1 ≥ 90 <;> by_cases h2 : rng.prob 2 ≥ 90
  · refine ⟨⟨⟨[⟨0, Color.GRAY, 0, 1⟩, ⟨1, Color.GREEN, 0, 0⟩, ⟨2, Color.GREEN, 0, 0⟩],
      [⟨[0, 1, 2], 0, 0, 0⟩, ⟨[0], 0, 1, 1⟩], 1, 1⟩, 3, 0⟩, ?_, by decide, by decide, by decide,
      by decide, by decide, by decide⟩
    rw [green_loop_hit rng _ _ rootAndChild
      ⟨[⟨0, Color.GRAY, 0, 1⟩, ⟨1, Color.GREEN, 0, 0⟩],
        [⟨[0, 1], 0, 0, 0⟩, ⟨[0], 0, 1, 1⟩], 1, 1⟩ h1 (by decide)]
    rw [green_loop_hit rng _ _ _
      ⟨[⟨0, Color.GRAY, 0, 1⟩, ⟨1, Color.GREEN, 0, 0⟩, ⟨2, Color.GREEN, 0, 0⟩],
        [⟨[0, 1, 2], 0, 0, 0⟩, ⟨[0], 0, 1, 1⟩], 1, 1⟩ h2 (by decide)]
    rfl
  · refine ⟨⟨⟨[⟨0, Color.GRAY, 0, 1⟩, ⟨1, Color.GREEN, 0, 0⟩],
      [⟨[0, 1], 0, 0, 0⟩, ⟨[0], 0, 1, 1⟩], 1, 1⟩, 3, 0⟩, ?_, by decide, by decide, by decide,
      by decide, by decide, by decide⟩
    rw [green_loop_hit rng _ _ rootAndChild
      ⟨[⟨0, Color.GRAY, 0, 1⟩, ⟨1, Color.GREEN, 0, 0⟩],
        [⟨[0, 1], 0, 0, 0⟩, ⟨[0], 0, 1, 1⟩], 1, 1⟩ h1 (by decide)]
    rw [green_loop_miss rng _ _ _ h2]
    rfl
  · refine ⟨⟨⟨[⟨0, Color.GRAY, 0, 1⟩, ⟨1, Color.GREEN, 0, 0⟩],
      [⟨[0, 1], 0, 0, 0⟩, ⟨[0], 0, 1, 1⟩], 1, 1⟩, 3, 0⟩, ?_, by decide, by decide, by decide,
      by decide, by decide, by decide⟩
    rw [green_loop_miss rng _ _ rootAndChild h1]
    rw [green_loop_hit rng _ _ _
      ⟨[⟨0, Color.GRAY, 0, 1⟩, ⟨1, Color.GREEN, 0, 0⟩],
        [⟨[0, 1], 0, 0, 0⟩, ⟨[0], 0, 1, 1⟩], 1, 1⟩ h2 (by decide)]
    rfl
  · refine ⟨⟨rootAndChild.graph, 3, 0⟩, ?_, by decide, by decide, by decide, by decide,
      by decide, by decide⟩
    rw [green_loop_miss rng _ _ rootAndChild h1]
    rw [green_loop_miss rng _ _ _ h2]
    rfl

theorem lateralPairsBelow_succ (g : Graph) (i : Nat) :
    g.lateralPairsBelow (i + 1) = g.lateralPairsBelow i + (if g.sameDepth i then 1 else 0) := by
  unfold Graph.lateralPairsBelow
  rw [List.range_succ, List.filter_append, List.length_append]
  by_cases h : g.sameDepth i = true <;> simp [List.filter, h]

theorem sameDepth_iff {g : Graph} {i d1 d2 : Nat} (h1 : g.depths[i]? = some d1)
    (h2 : g.depths[i + 1]? = some d2) : g.sameDepth i = true ↔ d1 = d2 := by
  simp [Graph.sameDepth, h1, h2]

/-- One iteration of the loop of the Lateral pass keeps the bookkeeping
invariant. -/
theorem blue_body_draws {rng : Rng} {gen0 : Gen} {s s1 : BlueVars}
    (hI : BlueDraws rng gen0 s)
    (hc : decide (s.i < s.gen.graph.vertices.length - 1) = true)
    (h : blue_body rng s = .ok s1) : BlueDraws rng gen0 s1 := by
  have hlen : s.gen.graph.vertices.length = gen0.graph.vertices.length := by
    rw [← depths_length, hI.depths, depths_length]
  have hlt : s.i < gen0.graph.vertices.length - 1 := by
    rw [← hlen]; simpa using hc
  unfold blue_body at h
  split at h
  · rename_i d1 d2 hd1 hd2
    have e1 := depth_of_eq hd1
    have e2 := depth_of_eq hd2
    rw [hI.depths] at e1 e2
    have hsame := sameDepth_iff e1 e2
    split at h
    · rename_i hdd
      have hs : gen0.graph.sameDepth s.i = true := hsame.mpr hdd
      simp only at h
      split at h
      · rename_i hp
        split at h
        · cases h
        · rename_i g1 h1
          simp only [Except.ok.injEq] at h
          subst h
          have post := insert_edge_ok h1
          refine ⟨?_, by simp only; omega, ?_, hI.picks, ?_⟩
          · simp only
            rw [(insert_edge_depths h1).1]
            exact hI.depths
          · simp only
            rw [lateralPairsBelow_succ, hs, hI.probs]
            simp
            omega
          · intro j
            simp only
            rw [post.edges]
            constructor
            · rintro ⟨e, hmem, hcol, hsrc, hdst⟩
              simp only [List.mem_append, List.mem_singleton] at hmem
              rcases hmem with hmem | hmem
              · obtain ⟨hj, hsj, hpj⟩ := (hI.blue j).mp ⟨e, hmem, hcol, hsrc, hdst⟩
                exact ⟨by omega, hsj, hpj⟩
              · subst hmem
                simp only at hsrc
                subst hsrc
                refine ⟨by omega, hs, ?_⟩
                rw [← hI.probs]
                exact hp
            · rintro ⟨hj, hsj, hpj⟩
              by_cases hji : j = s.i
              · subst hji
                exact ⟨⟨s.gen.graph.edges.length, Color.BLUE, s.i, s.i + 1⟩, by simp, rfl, rfl,
                  rfl⟩
              · obtain ⟨e, hmem, hrest⟩ := (hI.blue j).mpr ⟨by omega, hsj, hpj⟩
                exact ⟨e, by simp [hmem], hrest⟩
      · rename_i hp
        simp only [Except.ok.injEq] at h
        subst h
        refine ⟨hI.depths, by simp only; omega, ?_, hI.picks, ?_⟩
        · simp only
          rw [lateralPairsBelow_succ, hs, hI.probs]
          simp
          omega
        · intro j
          simp only
          rw [hI.blue j]
          constructor
          · rintro ⟨hj, hsj, hpj⟩
            exact ⟨by omega, hsj, hpj⟩
          · rintro ⟨hj, hsj, hpj⟩
            by_cases hji : j = s.i
            · subst hji
              rw [← hI.probs] at hpj
              exact absurd hpj hp
            · exact ⟨by omega, hsj, hpj⟩
    · rename_i hdd
      have hs : gen0.graph.sameDepth s.i = false := by
        rw [← Bool.not_eq_true, hsame]
        exact hdd
      simp only [Except.ok.injEq] at h
      subst h
      refine ⟨hI.depths, by simp only; omega, ?_, hI.picks, ?_⟩
      · simp only
        rw [lateralPairsBelow_succ, hs, hI.probs]
        simp
      · intro j
        simp only
        rw [hI.blue j]
        constructor
        · rintro ⟨hj, hsj, hpj⟩
          exact ⟨by omega, hsj, hpj⟩
        · rintro ⟨hj, hsj, hpj⟩
          by_cases hji : j = s.i
          · subst hji
            rw [hs] at hsj
            cases hsj
          · exact ⟨by omega, hsj, hpj⟩
  · cases h

/-- One iteration of the loop of the Lateral pass returns and moves to the next
position. -/
theorem blue_body_total {rng : Rng} {gt : Graph} {s : BlueVars} (hI : BlueInv gt s)
    (hc : decide (s.i < s.gen.graph.vertices.length - 1) = true) :
    ∃ s1, blue_body rng s = .ok s1 ∧ s1.i = s.i + 1 ∧
      s1.gen.graph.vertices.length = s.gen.graph.vertices.length := by
  have hlt : s.i < s.gen.graph.vertices.length - 1 := by simpa using hc
  obtain ⟨d1, hd1, e1⟩ := depth_of_ok (g := s.gen.graph) (i := s.i) (by omega)
  obtain ⟨d2, hd2, e2⟩ := depth_of_ok (g := s.gen.graph) (i := s.i + 1) (by omega)
  unfold blue_body
  rw [hd1, hd2]
  simp only
  split
  · rename_i hdd
    subst hdd
    split
    · obtain ⟨g1, h1⟩ := insert_edge_total hI.pass.wellFormed s.i (s.i + 1)
        Color.BLUE (by omega) (by omega) (by omega) (by simp)
        (blue_not_joined hI e1 e2)
      rw [h1]
      exact ⟨_, rfl, rfl, (insert_edge_ok h1).length⟩
    · exact ⟨_, rfl, rfl, rfl⟩
  · exact ⟨_, rfl, rfl, rfl⟩

/-- The Lateral pass returns when the fuel covers the number of consecutive
pairs. -/
theorem blue_pass_total {rng : Rng} {fuel : Nat} {gt : Graph} {gen : Gen}
    (hI : PassInv gt gen.graph [Color.GRAY, Color.GREEN])
    (hfuel : gen.graph.vertices.length - 1 ≤ fuel) :
    ∃ gen1, generate_blue_edges rng fuel gen = .ok gen1 := by
  have hstart : BlueInv gt ⟨gen, 0⟩ := by
    refine ⟨hI.weaken (by intro c hc; simp at hc ⊢; tauto), ?_⟩
    intro e hmem hc
    have := hI.colors e hmem
    rw [hc] at this
    simp at this
  let P : BlueVars → Prop := fun t =>
    BlueInv gt t ∧ t.gen.graph.vertices.length = gen.graph.vertices.length
  obtain ⟨s, hs⟩ := iterate_total P (fun t => gen.graph.vertices.length - 1 - t.i)
    (fun t => decide (t.i < t.gen.graph.vertices.length - 1)) (blue_body rng)
    (fun t ht htc => by
      obtain ⟨t1, hb, hi, hl⟩ : ∃ s1, blue_body rng t = .ok s1 ∧ s1.i = t.i + 1 ∧
          s1.gen.graph.vertices.length = t.gen.graph.vertices.length :=
        blue_body_total ht.1 htc
      have hlt : t.i < t.gen.graph.vertices.length - 1 := by simpa using htc
      rw [ht.2] at hlt
      refine ⟨t1, hb, ⟨blue_body_inv ht.1 hb, by rw [hl, ht.2]⟩, ?_⟩
      show _ - t1.i < _ - t.i
      rw [hi]
      omega)
    fuel ⟨gen, 0⟩ ⟨hstart, rfl⟩ (by simpa using hfuel)
  unfold generate_blue_edges
  rw [hs]
  exact ⟨_, rfl⟩

/-- The bookkeeping invariant holds of the state the Lateral pass returns. -/
theorem blue_pass_draws {rng : Rng} {fuel : Nat} {gen gen1 : Gen}
    (hno : ∀ e ∈ gen.graph.edges, e.color ≠ Color.BLUE)
    (h : generate_blue_edges rng fuel gen = .ok gen1) :
    BlueDraws rng gen ⟨gen1, gen.graph.vertices.length - 1⟩ := by
  have hstart : BlueDraws rng gen ⟨gen, 0⟩ := by
    refine ⟨rfl, Nat.zero_le _, by simp [Graph.lateralPairsBelow], rfl, ?_⟩
    intro j
    constructor
    · rintro ⟨e, hmem, hcol, _⟩
      exact absurd hcol (hno e hmem)
    · rintro ⟨hj, _⟩
      exact absurd hj (Nat.not_lt_zero _)
  unfold generate_blue_edges at h
  split at h
  · cases h
  · rename_i s hs
    simp only [Except.ok.injEq] at h
    subst h
    obtain ⟨hD, hc⟩ := iterate_inv (BlueDraws rng gen) _ (blue_body rng)
      (fun a b ha hca hb => blue_body_draws ha hca hb) fuel _ s hstart hs
    have hlen : s.gen.graph.vertices.length = gen.graph.vertices.length := by
      rw [← depths_length, hD.depths, depths_length]
    have hge : ¬ s.i < s.gen.graph.vertices.length - 1 := by simpa using hc
    have hidx := hD.index
    have hi : s.i = gen.graph.vertices.length - 1 := by omega
    have hs2 : (⟨s.gen, gen.graph.vertices.length - 1⟩ : BlueVars) = s := by
      rw [← hi]
    rw [hs2]
    exact hD

/-- No edge of colour `col` leaves the vertex whose turn it is. -/
theorem processed_source_fresh {g : Graph} {col : Color} {i m source : Nat}
    (hw : WellFormed g) (h : Processed g col i m)
    (hsrc : (g.vertices_in_depth i)[m]? = some source) :
    ∀ e ∈ g.edges, e.color = col → e.source ≠ source := by
  intro e hmem hc heq
  have hsd : g.depths[source]? = some i :=
    (mem_vertices_in_depth hw).mp (List.getElem?_mem hsrc)
  obtain ⟨d, hd, hcase⟩ := h e hmem hc
  rw [heq, hsd] at hd
  simp only [Option.some.injEq] at hd
  rcases hcase with hlt | ⟨_, k, hk, hkk⟩
  · omega
  · rw [heq] at hkk
    have := nodup_index_eq (nodup_vertices_in_depth hw i) hkk hsrc
    omega

theorem skipOnce_insert {g0 g g' : Graph} {col : Color} {i m source dest : Nat}
    (hw : WellFormed g) (h : Processed g col i m)
    (hsrc : (g.vertices_in_depth i)[m]? = some source)
    (hins : g.insert_edge source dest g.edges.length col = .ok g')
    (hS : SkipOnce col g0 g) : SkipOnce col g0 g' := by
  have post := insert_edge_ok hins
  have hfresh := processed_source_fresh hw h hsrc
  obtain ⟨new, hnew, hcol⟩ := hS.added
  refine ⟨⟨new ++ [⟨g.edges.length, col, source, dest⟩], ?_, ?_⟩, ?_⟩
  · rw [post.edges, hnew, List.append_assoc]
  · intro e he
    simp only [List.mem_append, List.mem_singleton] at he
    rcases he with he | he
    · exact hcol e he
    · rw [he]
  · intro e1 he1 e2 he2 hc1 hc2 hs
    rw [post.edges] at he1 he2
    simp only [List.mem_append, List.mem_singleton] at he1 he2
    rcases he1 with he1 | he1 <;> rcases he2 with he2 | he2
    · exact hS.once e1 he1 e2 he2 hc1 hc2 hs
    · exfalso
      rw [he2] at hs
      exact hfresh e1 he1 hc1 hs
    · exfalso
      rw [he1] at hs
      exact hfresh e2 he2 hc2 hs.symm
    · rw [he1, he2]

theorem yellow_n_body_once {rng : Rng} {fuel : Nat} {condition : Rat} {gt g0 : Graph}
    {s s1 : SkipVars} (hI : YellowTrialInv gt s)
    (hc : (!s.stop && decide (s.n < (s.gen.graph.vertices_in_depth (s.i + 1)).length)) = true)
    (h : yellow_n_body rng fuel condition s = .ok s1)
    (hS : SkipOnce Color.YELLOW g0 s.gen.graph) : SkipOnce Color.YELLOW g0 s1.gen.graph := by
  simp only [Bool.and_eq_true, Bool.not_eq_true', decide_eq_true_eq] at hc
  obtain ⟨hstop, hn⟩ := hc
  have hw := hI.pass.wellFormed
  have hdone : Processed s.gen.graph Color.YELLOW s.i s.m := by
    have := hI.done
    rw [hstop] at this
    simpa using this
  unfold yellow_n_body at h
  simp only at h
  split at h
  · split at h
    · cases h
    · rename_i source hsrc
      split at h
      · cases h
      · simp only [Except.ok.injEq] at h
        subst h
        exact hS
      · split at h
        · cases h
        · rename_i g1 h1
          simp only [Except.ok.injEq] at h
          subst h
          exact skipOnce_insert hw hdone hsrc h1 hS
  · simp only [Except.ok.injEq] at h
    subst h
    exact hS

theorem yellow_m_body_once {rng : Rng} {fuel : Nat} {condition : Rat} {gt g0 : Graph}
    {s s1 : SkipVars} (hI : YellowInv gt s)
    (hc : decide (s.m < (s.gen.graph.vertices_in_depth s.i).length) = true)
    (h : yellow_m_body rng fuel condition s = .ok s1)
    (hS : SkipOnce Color.YELLOW g0 s.gen.graph) : SkipOnce Color.YELLOW g0 s1.gen.graph := by
  have hm : s.m < (s.gen.graph.vertices_in_depth s.i).length := by simpa using hc
  have hstart : YellowTrialInv gt { s with stop := false } ∧
      SkipOnce Color.YELLOW g0 ({ s with stop := false } : SkipVars).gen.graph :=
    ⟨⟨hI.pass, hm, hI.done⟩, hS⟩
  unfold yellow_m_body at h
  split at h
  · cases h
  · rename_i s2 h2
    simp only [Except.ok.injEq] at h
    subst h
    exact (iterate_inv
      (fun t => YellowTrialInv gt t ∧ SkipOnce Color.YELLOW g0 t.gen.graph) _
      (yellow_n_body rng fuel condition)
      (fun a b ha hc hb => ⟨yellow_n_body_inv ha.1 hc hb, yellow_n_body_once ha.1 hc hb ha.2⟩)
      fuel _ s2 hstart h2).1.2

theorem yellow_i_body_once {fl : FloatOps} {rng : Rng} {fuel : Nat} {gt g0 : Graph}
    {s s1 : SkipVars} (hI : YellowInv gt s)
    (h : yellow_i_body fl rng fuel s = .ok s1)
    (hS : SkipOnce Color.YELLOW g0 s.gen.graph) : SkipOnce Color.YELLOW g0 s1.gen.graph := by
  unfold yellow_i_body at h
  simp only at h
  split at h
  · cases h
  · rename_i s2 h2
    simp only [Except.ok.injEq] at h
    subst h
    exact (iterate_inv
      (fun t => YellowInv gt t ∧ SkipOnce Color.YELLOW g0 t.gen.graph) _
      (yellow_m_body rng fuel _)
      (fun a b ha hc hb => ⟨yellow_m_body_inv ha.1 hc hb, yellow_m_body_once ha.1 hc hb ha.2⟩)
      fuel _ s2 ⟨hI, hS⟩ h2).1.2

/-- The Forward-Skip-1 pass appends YELLOW edges only, at most one per source. -/
theorem yellow_pass_once {fl : FloatOps} {rng : Rng} {fuel : Nat} {gt : Graph} {gen gen1 : Gen}
    (hI : PassInv gt gen.graph [Color.GRAY, Color.GREEN, Color.BLUE])
    (h : generate_yellow_edges fl rng fuel gen = .ok gen1) :
    SkipOnce Color.YELLOW gen.graph gen1.graph := by
  have hS0 : SkipOnce Color.YELLOW gen.graph gen.graph := by
    refine ⟨⟨[], by simp, by simp⟩, ?_⟩
    intro e1 he1 _ _ hc1 _ _
    have := hI.colors e1 he1
    rw [hc1] at this
    simp at this
  unfold generate_yellow_edges at h
  split at h
  · cases h
  · rename_i s hs
    simp only [Except.ok.injEq] at h
    subst h
    exact (iterate_inv
      (fun t => YellowInv gt t ∧ SkipOnce Color.YELLOW gen.graph t.gen.graph) _
      (yellow_i_body fl rng fuel)
      (fun a b ha _ hb => ⟨yellow_i_body_inv ha.1 hb, yellow_i_body_once ha.1 hb ha.2⟩)
      fuel _ s ⟨yellow_start hI, hS0⟩ hs).1.2

/-- Only the root has depth 0. -/
theorem depth_zero_root {g : Graph} (hc : TreeCore g) {k : Nat}
    (h : g.depths[k]? = some 0) : k = 0 := by
  by_contra hk
  have hlt : k < g.vertices.length := by
    rw [← depths_length]; exact (List.getElem?_eq_some_iff.mp h).1
  obtain ⟨_, cc, _, hcc⟩ := exists_depth_creator hlt
  obtain ⟨dp, _, h2, _⟩ := hc.parent k cc hcc hk
  rw [h] at h2
  simp at h2

/-- A vertex one level below the root was created by the root. -/
theorem creator_of_depth_one {g : Graph} (hc : TreeCore g) {t cc : Nat}
    (ht : g.depths[t]? = some 1) (hcc : g.creators[t]? = some cc) : cc = 0 := by
  have ht0 : t ≠ 0 := by
    intro h0
    rw [h0, hc.root] at ht
    simp at ht
  obtain ⟨dp, h1, h2, _⟩ := hc.parent t cc hcc ht0
  rw [ht] at h2
  simp only [Option.some.injEq] at h2
  have : dp = 0 := by omega
  subst this
  exact depth_zero_root hc h1

/-- When a vertex `i` of depth `d` created as many vertices as depth `d + 1`
holds, every vertex of depth `d + 1` was created by `i`. -/
theorem created_all_of_count {g : Graph} (hc : TreeCore g) {i d : Nat} (hi : i ≠ 0)
    (hd : g.depths[i]? = some d)
    (hcount : g.created_by_vertex i = (g.vertices_count_in_depth (d + 1) : Int)) :
    ∀ w ∈ g.vertices, w.depth = d + 1 → w.source_id = i := by
  unfold Graph.created_by_vertex Graph.vertices_count_in_depth at hcount
  rw [if_neg hi, if_neg (Nat.succ_ne_zero d)] at hcount
  have hlen : (g.vertices.filter (fun vertex => vertex.source_id == i)).length =
      (g.vertices.filter (fun vertex => d + 1 == vertex.depth)).length := by
    exact_mod_cast hcount
  have himp : ∀ w ∈ g.vertices, (w.source_id == i) = true → (d + 1 == w.depth) = true := by
    intro w hw hwi
    simp only [beq_iff_eq] at hwi ⊢
    obtain ⟨k, hk, hkw⟩ := List.getElem_of_mem hw
    have hkv : g.vertices[k]? = some w := by
      rw [List.getElem?_eq_getElem hk, hkw]
    have hk0 : k ≠ 0 := by
      intro h0
      subst h0
      have := creators_get hkv
      rw [hc.root_creator] at this
      simp only [Option.some.injEq] at this
      omega
    have hcr := creators_get hkv
    rw [hwi] at hcr
    obtain ⟨dp, h1, h2, _⟩ := hc.parent k i hcr hk0
    rw [hd] at h1
    simp only [Option.some.injEq] at h1
    subst h1
    rw [depths_get hkv] at h2
    simp only [Option.some.injEq] at h2
    omega
  have hfil : g.vertices.filter (fun vertex => vertex.source_id == i) =
      g.vertices.filter (fun vertex => (vertex.source_id == i) && (d + 1 == vertex.depth)) := by
    apply List.filter_congr
    intro w hw
    by_cases hwi : (w.source_id == i) = true
    · rw [hwi, himp w hw hwi]; rfl
    · simp only [Bool.not_eq_true] at hwi
      rw [hwi]; rfl
  have hsub : (g.vertices.filter (fun vertex =>
      (vertex.source_id == i) && (d + 1 == vertex.depth))).Sublist
      (g.vertices.filter (fun vertex => d + 1 == vertex.depth)) := by
    apply List.monotone_filter_right
    intro a ha
    simp only [Bool.and_eq_true] at ha
    exact ha.2
  rw [← hfil] at hsub
  have heq := hsub.eq_of_length hlen
  intro w hw hwd
  have hmem : w ∈ g.vertices.filter (fun vertex => d + 1 == vertex.depth) := by
    rw [List.mem_filter]
    exact ⟨hw, by simp [hwd]⟩
  rw [← heq, List.mem_filter] at hmem
  simpa using hmem.2

/-- The pick of the Forward-Skip-2 pass is the raw value reduced modulo the size
of the bucket two levels down. -/
theorem red_draw_exact (rng : Rng) (g : Graph) (i picks : Nat)
    (hpos : 0 < (g.vertices_in_depth (i + 2)).length) :
    uniform_int_distribution ((g.vertices_count_in_depth (i + 2) : Int) - 1)
        (rng.pick picks) = .ok (rng.pick picks % (g.vertices_in_depth (i + 2)).length) := by
  have hcount := vertices_count_eq_length g (d := i + 2) (by omega)
  have hhi : ¬ ((g.vertices_count_in_depth (i + 2) : Int) - 1 < 0) := by
    rw [hcount]; omega
  have htn : ((g.vertices_count_in_depth (i + 2) : Int) - 1).toNat + 1 =
      (g.vertices_in_depth (i + 2)).length := by
    rw [hcount]; omega
  simp only [uniform_int_distribution, hhi, if_false, htn]

/-- A trial of the Forward-Skip-2 pass whose draw reaches 67 inserts a RED edge
from the source to a vertex of the bucket two levels down and ends the turn. -/
theorem red_n_body_hit {rng : Rng} {gt : Graph} {s : SkipVars} (hI : RedTrialInv gt s)
    (hc : (!s.stop && decide (s.n ≠ (s.gen.graph.vertices_in_depth (s.i + 2)).length)) = true)
    (hp : rng.prob s.gen.probs ≥ 67) :
    ∃ source dest g1, (s.gen.graph.vertices_in_depth s.i)[s.m]? = some source ∧
      (s.gen.graph.vertices_in_depth (s.i + 2))[rng.pick s.gen.picks %
        (s.gen.graph.vertices_in_depth (s.i + 2)).length]? = some dest ∧
      s.gen.graph.insert_edge source dest s.gen.graph.edges.length Color.RED = .ok g1 ∧
      red_n_body rng s =
        .ok ⟨⟨g1, s.gen.probs + 1, s.gen.picks + 1⟩, s.i, s.m, s.n, true⟩ := by
  simp only [Bool.and_eq_true, Bool.not_eq_true', decide_eq_true_eq] at hc
  obtain ⟨hstop, hn⟩ := hc
  have hw := hI.pass.wellFormed
  have hdone : Processed s.gen.graph Color.RED s.i s.m := by
    have := hI.done
    rw [hstop] at this
    simpa using this
  have hpos : 0 < (s.gen.graph.vertices_in_depth (s.i + 2)).length := by
    have := hI.index
    omega
  obtain ⟨source, hsrc⟩ : ∃ source, (s.gen.graph.vertices_in_depth s.i)[s.m]? = some source :=
    ⟨_, List.getElem?_eq_getElem hI.source⟩
  have hrv := red_draw_exact rng s.gen.graph s.i s.gen.picks hpos
  obtain ⟨dest, hdest⟩ : ∃ dest, (s.gen.graph.vertices_in_depth (s.i + 2))[rng.pick s.gen.picks %
      (s.gen.graph.vertices_in_depth (s.i + 2)).length]? = some dest :=
    ⟨_, List.getElem?_eq_getElem (Nat.mod_lt _ hpos)⟩
  have hsd : s.gen.graph.depths[source]? = some s.i :=
    (mem_vertices_in_depth hw).mp (List.getElem?_mem hsrc)
  have hdd : s.gen.graph.depths[dest]? = some (s.i + 2) :=
    (mem_vertices_in_depth hw).mp (List.getElem?_mem hdest)
  have hs : source < s.gen.graph.vertices.length := by
    rw [← depths_length]; exact (List.getElem?_eq_some_iff.mp hsd).1
  have hd : dest < s.gen.graph.vertices.length := by
    rw [← depths_length]; exact (List.getElem?_eq_some_iff.mp hdd).1
  have hsdne : source ≠ dest := by
    intro hh
    subst hh
    rw [hsd] at hdd
    simp only [Option.some.injEq] at hdd
    omega
  obtain ⟨g1, h1⟩ := insert_edge_total hw source dest Color.RED hs hd hsdne (by simp)
    (red_not_joined hI.pass hdone hsrc hdd)
  refine ⟨source, dest, g1, hsrc, hdest, h1, ?_⟩
  unfold red_n_body
  simp only [hp, if_true]
  rw [hrv]
  simp only
  rw [hsrc]
  simp only
  rw [hdest]
  simp only
  rw [h1]

/-- A trial of the Forward-Skip-2 pass whose draw is below 67 consumes the draw
and counts one more trial. -/
theorem red_n_body_miss {rng : Rng} {s : SkipVars} (hp : rng.prob s.gen.probs < 67) :
    red_n_body rng s =
      .ok { s with gen := { s.gen with probs := s.gen.probs + 1 }, n := s.n + 1 } := by
  have hnp : ¬ rng.prob s.gen.probs ≥ 67 := not_le.mpr hp
  unfold red_n_body
  simp only [hnp, if_false]

/-- The trials of one source of the Forward-Skip-2 pass, `r` of them left: they
all fail when the next `r` draws are below 67, and otherwise the first draw
reaching 67 inserts the edge of the source. -/
theorem red_n_loop_turn (rng : Rng) (gt : Graph) :
    ∀ (r fuel : Nat) (t : SkipVars), RedTrialInv gt t → t.stop = false →
      t.n + r = (t.gen.graph.vertices_in_depth (t.i + 2)).length → r ≤ fuel →
      ((∀ j < r, rng.prob (t.gen.probs + j) < 67) →
        iterate fuel
          (fun u => !u.stop && decide (u.n ≠ (u.gen.graph.vertices_in_depth (u.i + 2)).length))
          (red_n_body rng) t =
          .ok { t with gen := { t.gen with probs := t.gen.probs + r }, n := t.n + r }) ∧
      (∀ k < r, (∀ j < k, rng.prob (t.gen.probs + j) < 67) →
        rng.prob (t.gen.probs + k) ≥ 67 →
        ∃ source dest g1, (t.gen.graph.vertices_in_depth t.i)[t.m]? = some source ∧
          (t.gen.graph.vertices_in_depth (t.i + 2))[rng.pick t.gen.picks %
            (t.gen.graph.vertices_in_depth (t.i + 2)).length]? = some dest ∧
          t.gen.graph.insert_edge source dest t.gen.graph.edges.length Color.RED = .ok g1 ∧
          iterate fuel
            (fun u => !u.stop &&
              decide (u.n ≠ (u.gen.graph.vertices_in_depth (u.i + 2)).length))
            (red_n_body rng) t =
            .ok ⟨⟨g1, t.gen.probs + k + 1, t.gen.picks + 1⟩, t.i, t.m, t.n + k, true⟩) := by
  intro r
  induction r with
  | zero =>
    intro fuel t _ hstop hn _
    refine ⟨?_, ?_⟩
    · intro _
      rw [iterate_done]
      · rfl
      · simp only [Nat.add_zero] at hn
        simp [hstop, hn]
    · intro k hk
      exact absurd hk (Nat.not_lt_zero k)
  | succ r ih =>
    intro fuel t hI hstop hn hfuel
    obtain ⟨f, rfl⟩ : ∃ f, fuel = f + 1 := ⟨fuel - 1, by omega⟩
    have hcond : (!t.stop &&
        decide (t.n ≠ (t.gen.graph.vertices_in_depth (t.i + 2)).length)) = true := by
      simp only [hstop, Bool.not_false, Bool.true_and, decide_eq_true_eq]
      omega
    by_cases hp : rng.prob t.gen.probs ≥ 67
    · refine ⟨?_, ?_⟩
      · intro hall
        have := hall 0 (Nat.succ_pos r)
        rw [Nat.add_zero] at this
        exact absurd hp (not_le.mpr this)
      · intro k _ hbefore hk
        rcases Nat.eq_zero_or_pos k with hk0 | hkpos
        · subst hk0
          obtain ⟨source, dest, g1, hsrc, hdest, hins, hbody⟩ := red_n_body_hit hI hcond hp
          refine ⟨source, dest, g1, hsrc, hdest, hins, ?_⟩
          rw [iterate]
          simp only [hcond, if_true, hbody]
          rw [iterate_done]
          · rfl
          · rfl
        · have := hbefore 0 hkpos
          rw [Nat.add_zero] at this
          exact absurd hp (not_le.mpr this)
    · have hlt : rng.prob t.gen.probs < 67 := not_le.mp hp
      have hbody := red_n_body_miss hlt
      have hI1 := red_n_body_inv hI hcond hbody
      obtain ⟨ih1, ih2⟩ := ih f
        { t with gen := { t.gen with probs := t.gen.probs + 1 }, n := t.n + 1 } hI1 hstop
        (by
          show t.n + 1 + r = (t.gen.graph.vertices_in_depth (t.i + 2)).length
          omega) (by omega)
      refine ⟨?_, ?_⟩
      · intro hall
        rw [iterate]
        simp only [hcond, if_true, hbody]
        rw [ih1 (by
          intro j hj
          have := hall (j + 1) (by omega)
          simp only
          rw [Nat.add_assoc, Nat.add_comm 1 j]
          exact this)]
        have e1 : t.gen.probs + 1 + r = t.gen.probs + (r + 1) := by omega
        have e2 : t.n + 1 + r = t.n + (r + 1) := by omega
        show (Except.ok (⟨⟨t.gen.graph, t.gen.probs + 1 + r, t.gen.picks⟩, t.i, t.m,
          t.n + 1 + r, t.stop⟩ : SkipVars) : Except Fault SkipVars) =
          .ok ⟨⟨t.gen.graph, t.gen.probs + (r + 1), t.gen.picks⟩, t.i, t.m, t.n + (r + 1),
            t.stop⟩
        rw [e1, e2]
      · intro k hk hbefore hhit
        rcases Nat.eq_zero_or_pos k with hk0 | hkpos
        · subst hk0
          rw [Nat.add_zero] at hhit
          exact absurd hhit hp
        · obtain ⟨k1, rfl⟩ : ∃ k1, k = k1 + 1 := ⟨k - 1, by omega⟩
          obtain ⟨source, dest, g1, hsrc, hdest, hins, hrun⟩ := ih2 k1 (by omega)
            (by
              intro j hj
              have := hbefore (j + 1) (by omega)
              simp only
              rw [Nat.add_assoc, Nat.add_comm 1 j]
              exact this)
            (by
              simp only
              rw [Nat.add_assoc, Nat.add_comm 1 k1]
              exact hhit)
          refine ⟨source, dest, g1, hsrc, hdest, hins, ?_⟩
          rw [iterate]
          simp only [hcond, if_true, hbody]
          rw [hrun]
          have e1 : t.gen.probs + 1 + k1 + 1 = t.gen.probs + (k1 + 1) + 1 := by omega
          have e2 : t.n + 1 + k1 = t.n + (k1 + 1) := by omega
          show (Except.ok (⟨⟨g1, t.gen.probs + 1 + k1 + 1, t.gen.picks + 1⟩, t.i, t.m,
            t.n + 1 + k1, true⟩ : SkipVars) : Except Fault SkipVars) =
            .ok ⟨⟨g1, t.gen.probs + (k1 + 1) + 1, t.gen.picks + 1⟩, t.i, t.m, t.n + (k1 + 1),
              true⟩
          rw [e1, e2]

theorem onlyAddsEdges_refl (g : Graph) : OnlyAddsEdges g g :=
  ⟨rfl, fun _ v hv => ⟨v, hv, rfl, rfl, rfl, List.prefix_refl _⟩, List.prefix_refl _, rfl, rfl⟩

theorem onlyAddsEdges_trans {g1 g2 g3 : Graph} (h12 : OnlyAddsEdges g1 g2)
    (h23 : OnlyAddsEdges g2 g3) : OnlyAddsEdges g1 g3 := by
  refine ⟨h23.length.trans h12.length, ?_, h12.edges.trans h23.edges,
    h23.max_depth.trans h12.max_depth, h23.new_vertices_num.trans h12.new_vertices_num⟩
  intro i v hv
  obtain ⟨v2, hv2, a1, a2, a3, a4⟩ := h12.vertices i v hv
  obtain ⟨v3, hv3, b1, b2, b3, b4⟩ := h23.vertices i v2 hv2
  exact ⟨v3, hv3, b1.trans a1, b2.trans a2, b3.trans a3, a4.trans b4⟩

/-- One successful `insert_edge` call only adds an edge. -/
theorem onlyAddsEdges_edgeStep {g g' : Graph} (h : EdgeStep g g') : OnlyAddsEdges g g' := by
  obtain ⟨s, t, col, _, h⟩ := h
  have post := insert_edge_ok h
  refine ⟨post.length, ?_, ?_, post.max_depth, post.new_vertices_num⟩
  · intro i v hv
    have hv' := post.vertices i
    rw [hv] at hv'
    simp only [Option.map_some'] at hv'
    refine ⟨_, hv', ?_⟩
    split
    · exact ⟨rfl, rfl, rfl, List.prefix_append _ _⟩
    · exact ⟨rfl, rfl, rfl, List.prefix_refl _⟩
  · rw [post.edges]
    exact List.prefix_append _ _

theorem onlyAddsEdges_edgeSteps {g g' : Graph} (h : EdgeSteps g g') : OnlyAddsEdges g g' := by
  induction h with
  | refl => exact onlyAddsEdges_refl g
  | tail _ hstep ih => exact onlyAddsEdges_trans ih (onlyAddsEdges_edgeStep hstep)

/-- In a graph of tree shape every depth below the depth of some vertex is the
depth of some vertex. -/
theorem depth_populated {g : Graph} (hc : TreeCore g) :
    ∀ (D : Nat), (∃ k : Nat, g.depths[k]? = some D) → ∀ d ≤ D, ∃ k : Nat, g.depths[k]? = some d := by
  intro D
  induction D with
  | zero =>
    intro hk d hd
    have : d = 0 := by omega
    subst this
    exact hk
  | succ D ih =>
    rintro ⟨k, hk⟩ d hd
    rcases Nat.eq_or_lt_of_le hd with heq | hlt
    · subst heq
      exact ⟨k, hk⟩
    · have hk0 : k ≠ 0 := by
        intro h0
        rw [h0, hc.root] at hk
        simp at hk
      have hlen : k < g.vertices.length := by
        rw [← depths_length]; exact (List.getElem?_eq_some_iff.mp hk).1
      obtain ⟨_, cc, _, hcc⟩ := exists_depth_creator hlen
      obtain ⟨dp, h1, h2, _⟩ := hc.parent k cc hcc hk0
      rw [hk] at h2
      simp only [Option.some.injEq] at h2
      have hdp : dp = D := by omega
      subst hdp
      exact ih ⟨cc, h1⟩ d (by omega)

theorem sorted_depths_le {g : Graph} (hc : TreeCore g) {i j : Nat} {vi vj : Vertex}
    (hi : g.vertices[i]? = some vi) (hj : g.vertices[j]? = some vj) (hij : i ≤ j) :
    vi.depth ≤ vj.depth := by
  have hdi := depths_get hi
  have hdj := depths_get hj
  rcases Nat.eq_or_lt_of_le hij with heq | hlt
  · subst heq
    rw [hi] at hj
    cases hj
    exact le_refl _
  · have hil := (List.getElem?_eq_some_iff.mp hdi).1
    have hjl := (List.getElem?_eq_some_iff.mp hdj).1
    have := List.pairwise_iff_getElem.mp hc.sorted i j hil hjl hlt
    have e1 : g.depths[i] = vi.depth := by
      have := List.getElem?_eq_getElem hil
      rw [hdi] at this
      exact (Option.some.inj this).symm
    have e2 : g.depths[j] = vj.depth := by
      have := List.getElem?_eq_getElem hjl
      rw [hdj] at this
      exact (Option.some.inj this).symm
    rw [e1, e2] at this
    exact this

/-- The turn of a source of the Forward-Skip-2 pass (the `m`-th vertex of the
depth `i` being handled): when all draws, as many as the bucket of depth
`i + 2` holds vertices, are below 67, the turn ends with these draws consumed
and the graph unchanged; otherwise it ends at the first draw that is at least
67, with one pick consumed and one RED edge from the source to the picked
vertex of that bucket appended. -/
theorem red_m_body_turn (rng : Rng) (fuel : Nat) (gt : Graph) (s : SkipVars)
    (hI : RedInv gt s) (hm : s.m < (s.gen.graph.vertices_in_depth s.i).length)
    (hfuel : (s.gen.graph.vertices_in_depth (s.i + 2)).length ≤ fuel) :
    ((∀ j < (s.gen.graph.vertices_in_depth (s.i + 2)).length,
        rng.prob (s.gen.probs + j) < 67) →
      red_m_body rng fuel s =
        .ok ⟨⟨s.gen.graph,
              s.gen.probs + (s.gen.graph.vertices_in_depth (s.i + 2)).length, s.gen.picks⟩,
            s.i, s.m + 1, 0, false⟩) ∧
    (∀ k < (s.gen.graph.vertices_in_depth (s.i + 2)).length,
      (∀ j < k, rng.prob (s.gen.probs + j) < 67) → rng.prob (s.gen.probs + k) ≥ 67 →
      ∃ source dest g1, (s.gen.graph.vertices_in_depth s.i)[s.m]? = some source ∧
        (s.gen.graph.vertices_in_depth (s.i + 2))[rng.pick s.gen.picks %
          (s.gen.graph.vertices_in_depth (s.i + 2)).length]? = some dest ∧
        s.gen.graph.insert_edge source dest s.gen.graph.edges.length Color.RED = .ok g1 ∧
        g1.edges = s.gen.graph.edges ++ [⟨s.gen.graph.edges.length, Color.RED, source, dest⟩] ∧
        red_m_body rng fuel s =
          .ok ⟨⟨g1, s.gen.probs + k + 1, s.gen.picks + 1⟩, s.i, s.m + 1, 0, true⟩) := by
  have hstart : RedTrialInv gt { s with stop := false } :=
    ⟨hI.pass, hm, hI.done, by simp [hI.reset]⟩
  obtain ⟨hmiss, hhit⟩ := red_n_loop_turn rng gt
    (s.gen.graph.vertices_in_depth (s.i + 2)).length fuel { s with stop := false } hstart rfl
    (by
      show s.n + _ = _
      rw [hI.reset, Nat.zero_add]) hfuel
  refine ⟨?_, ?_⟩
  · intro hall
    unfold red_m_body
    rw [hmiss hall]
  · intro k hk hbefore hp
    obtain ⟨source, dest, g1, hsrc, hdest, hins, hrun⟩ := hhit k hk hbefore hp
    refine ⟨source, dest, g1, hsrc, hdest, hins, (insert_edge_ok hins).edges, ?_⟩
    unfold red_m_body
    rw [hrun]

theorem redTurns_append {rng : Rng} {l1 l2 : List (Nat × Nat)} {a b c : Gen}
    (h1 : RedTurns rng l1 a b) (h2 : RedTurns rng l2 b c) : RedTurns rng (l1 ++ l2) a c := by
  induction h1 with
  | done a => exact h2
  | turn ht _ ih => exact RedTurns.turn ht (ih h2)

/-- Among the next `B` draws either all are below 67 or there is a first one
that is at least 67. -/
theorem first_hit_or_all_miss (rng : Rng) (p : Nat) :
    ∀ B : Nat, (∀ j < B, rng.prob (p + j) < 67) ∨
      ∃ k < B, (∀ j < k, rng.prob (p + j) < 67) ∧ rng.prob (p + k) ≥ 67 := by
  intro B
  induction B with
  | zero => exact Or.inl (fun j hj => absurd hj (Nat.not_lt_zero j))
  | succ B ih =>
    rcases ih with hall | ⟨k, hk, hbefore, hhit⟩
    · by_cases hp : rng.prob (p + B) ≥ 67
      · exact Or.inr ⟨B, Nat.lt_succ_self B, hall, hp⟩
      · refine Or.inl ?_
        intro j hj
        rcases Nat.eq_or_lt_of_le (Nat.le_of_lt_succ hj) with heq | hlt
        · rw [heq]; exact not_le.mp hp
        · exact hall j hlt
    · exact Or.inr ⟨k, Nat.lt_succ_of_lt hk, hbefore, hhit⟩

theorem vertices_in_depth_length_le (g : Graph) (d : Nat) :
    (g.vertices_in_depth d).length ≤ g.vertices.length := by
  unfold Graph.vertices_in_depth
  rw [List.length_map]
  exact List.length_filter_le _ _

/-- The turn of a source of the Forward-Skip-2 pass returns, and it is a turn
in the sense of `RedTurn`. -/
theorem red_m_body_redTurn (rng : Rng) (fuel : Nat) (gt : Graph) (s : SkipVars)
    (hI : RedInv gt s) (hm : s.m < (s.gen.graph.vertices_in_depth s.i).length)
    (hfuel : (s.gen.graph.vertices_in_depth (s.i + 2)).length ≤ fuel) :
    ∃ source s1, (s.gen.graph.vertices_in_depth s.i)[s.m]? = some source ∧
      red_m_body rng fuel s = .ok s1 ∧ s1.i = s.i ∧ s1.m = s.m + 1 ∧
      RedTurn rng s.i source s.gen s1.gen := by
  obtain ⟨hmiss, hhit⟩ := red_m_body_turn rng fuel gt s hI hm hfuel
  obtain ⟨source, hsrc⟩ : ∃ source, (s.gen.graph.vertices_in_depth s.i)[s.m]? = some source :=
    ⟨_, List.getElem?_eq_getElem hm⟩
  have hturn : ∀ s1, red_m_body rng fuel s = .ok s1 → RedTurn rng s.i source s.gen s1.gen := by
    intro s1 h1
    refine ⟨?_, ?_⟩
    · intro hall
      have := hmiss hall
      rw [h1] at this
      simp only [Except.ok.injEq] at this
      rw [this]
    · intro k hk hbefore hp
      obtain ⟨source', dest, g1, hsrc', hdest, hins, hedges, hrun⟩ := hhit k hk hbefore hp
      rw [hsrc] at hsrc'
      simp only [Option.some.injEq] at hsrc'
      subst hsrc'
      rw [h1] at hrun
      simp only [Except.ok.injEq] at hrun
      rw [hrun]
      exact ⟨dest, hdest, hins, hedges, rfl, rfl⟩
  rcases first_hit_or_all_miss rng s.gen.probs (s.gen.graph.vertices_in_depth (s.i + 2)).length
    with hall | ⟨k, hk, hbefore, hp⟩
  · have h1 := hmiss hall
    exact ⟨source, _, hsrc, h1, rfl, rfl, hturn _ h1⟩
  · obtain ⟨_, _, g1, _, _, _, _, hrun⟩ := hhit k hk hbefore hp
    exact ⟨source, _, hsrc, hrun, rfl, rfl, hturn _ hrun⟩

/-- The loop of the Forward-Skip-2 pass over the sources of one depth returns,
having given one turn to each source not handled yet, in bucket order. -/
theorem red_m_loop_turns (rng : Rng) (gt : Graph) (F : Nat) (hF : gt.vertices.length ≤ F) :
    ∀ (r f : Nat) (s : SkipVars), RedInv gt s →
      s.m + r = (gt.vertices_in_depth s.i).length → r ≤ f →
      ∃ s1, iterate f (fun t => decide (t.m ≠ (t.gen.graph.vertices_in_depth t.i).length))
          (red_m_body rng F) s = .ok s1 ∧
        RedInv gt s1 ∧ s1.i = s.i ∧ s1.m = (gt.vertices_in_depth s.i).length ∧
        RedTurns rng (((gt.vertices_in_depth s.i).drop s.m).map (fun source => (s.i, source)))
          s.gen s1.gen := by
  intro r
  induction r with
  | zero =>
    intro f s hI hr _
    have hfr := hI.pass.frozen
    have hm : s.m = (gt.vertices_in_depth s.i).length := by omega
    refine ⟨s, ?_, hI, rfl, hm, ?_⟩
    · apply iterate_done
      simp only [decide_eq_false_iff_not, not_not]
      rw [hfr.vertices_in_depth, hm]
    · rw [hm, List.drop_length]
      exact RedTurns.done _
  | succ r ih =>
    intro f s hI hr hf
    have hfr := hI.pass.frozen
    obtain ⟨f1, rfl⟩ : ∃ f1, f = f1 + 1 := ⟨f - 1, by omega⟩
    have hmlt : s.m < (gt.vertices_in_depth s.i).length := by omega
    have hmlt2 : s.m < (s.gen.graph.vertices_in_depth s.i).length := by
      rw [hfr.vertices_in_depth]; exact hmlt
    have hcond : decide (s.m ≠ (s.gen.graph.vertices_in_depth s.i).length) = true := by
      simp only [decide_eq_true_eq]
      omega
    have hB : (s.gen.graph.vertices_in_depth (s.i + 2)).length ≤ F := by
      rw [hfr.vertices_in_depth]
      exact le_trans (vertices_in_depth_length_le gt _) hF
    obtain ⟨source, s1, hsrc, hbody, hi1, hm1, hturn⟩ :=
      red_m_body_redTurn rng F gt s hI hmlt2 hB
    obtain ⟨hI1, _⟩ := red_m_body_inv hI hcond (Nat.le_of_lt hmlt2) hbody
    obtain ⟨s2, hrun, hI2, hi2, hm2, hturns⟩ := ih f1 s1 hI1
      (by rw [hm1, hi1]; omega) (by omega)
    refine ⟨s2, ?_, hI2, by rw [hi2, hi1], by rw [hm2, hi1], ?_⟩
    · rw [iterate]
      simp only [hcond, if_true, hbody]
      exact hrun
    · rw [hfr.vertices_in_depth] at hsrc
      have hsrc2 : (gt.vertices_in_depth s.i)[s.m] = source := by
        rw [List.getElem?_eq_getElem hmlt] at hsrc
        exact Option.some.inj hsrc
      rw [List.drop_eq_getElem_cons hmlt, List.map_cons, hsrc2]
      rw [hi1, hm1] at hturns
      exact RedTurns.turn hturn hturns

/-- The loop of the Forward-Skip-2 pass over the depths returns, having given
one turn to each source of each depth not handled yet. -/
theorem red_i_loop_turns (rng : Rng) (gt : Graph) (F : Nat) (hF : gt.vertices.length ≤ F) :
    ∀ (r f : Nat) (s : SkipVars), RedInv gt s → s.m = 0 →
      (gt.max_depth - (s.i : Int)).toNat = r → r ≤ f →
      ∃ s1, iterate f (fun t => decide ((t.i : Int) < t.gen.graph.get_max_depth))
          (red_i_body rng F) s = .ok s1 ∧
        RedTurns rng ((List.range' s.i r).flatMap
            (fun d => (gt.vertices_in_depth d).map (fun source => (d, source))))
          s.gen s1.gen := by
  intro r
  induction r with
  | zero =>
    intro f s hI _ hr _
    have hfr := hI.pass.frozen
    refine ⟨s, ?_, ?_⟩
    · apply iterate_done
      simp only [decide_eq_false_iff_not, Graph.get_max_depth]
      rw [hfr.max_depth]
      omega
    · simp only [List.range'_zero, List.flatMap_nil]
      exact RedTurns.done _
  | succ r ih =>
    intro f s hI hm0 hr hf
    have hfr := hI.pass.frozen
    obtain ⟨f1, rfl⟩ : ∃ f1, f = f1 + 1 := ⟨f - 1, by omega⟩
    have hcond : decide ((s.i : Int) < s.gen.graph.get_max_depth) = true := by
      simp only [decide_eq_true_eq, Graph.get_max_depth]
      rw [hfr.max_depth]
      omega
    obtain ⟨s2, hrun2, hI2, hi2, hm2, hturns2⟩ := red_m_loop_turns rng gt F hF
      (gt.vertices_in_depth s.i).length F s hI (by rw [hm0, Nat.zero_add])
      (le_trans (vertices_in_depth_length_le gt _) hF)
    have hbody : red_i_body rng F s = .ok { s2 with m := 0, i := s2.i + 1 } := by
      unfold red_i_body
      rw [hrun2]
    obtain ⟨hI3, hm3⟩ := red_i_body_inv ⟨hI, hm0⟩ hbody
    obtain ⟨s3, hrun3, hturns3⟩ := ih f1 { s2 with m := 0, i := s2.i + 1 } hI3 hm3
      (by
        show (gt.max_depth - ((s2.i + 1 : Nat) : Int)).toNat = r
        rw [hi2]
        push_cast
        omega) (by omega)
    refine ⟨s3, ?_, ?_⟩
    · rw [iterate]
      simp only [hcond, if_true, hbody]
      exact hrun3
    · rw [List.range'_succ, List.flatMap_cons]
      rw [hm0, List.drop_zero] at hturns2
      have hturns3b : RedTurns rng ((List.range' (s.i + 1) r).flatMap
          (fun d => (gt.vertices_in_depth d).map (fun source => (d, source))))
          s2.gen s3.gen := by
        have := hturns3
        simp only at this
        rw [hi2] at this
        exact this
      exact redTurns_append hturns2 hturns3b

/-- The sources of the Forward-Skip-2 pass are the vertices of a depth below
`max_depth`, each listed once. -/
theorem red_sources_spec {g : Graph} (hw : WellFormed g) :
    g.red_sources.Nodup ∧
    ∀ d source : Nat, (d, source) ∈ g.red_sources ↔
      ((d : Int) < g.get_max_depth ∧ ∃ v, g.vertices[source]? = some v ∧ v.depth = d) := by
  constructor
  · unfold Graph.red_sources
    rw [List.nodup_flatMap]
    constructor
    · intro d _
      exact (nodup_vertices_in_depth hw d).map (fun a b hab => by cases hab; rfl)
    · refine (List.nodup_range g.max_depth.toNat).imp ?_
      intro a b hab x hxa hxb
      simp only [List.mem_map] at hxa hxb
      obtain ⟨_, _, rfl⟩ := hxa
      obtain ⟨_, _, hb⟩ := hxb
      simp only [Prod.mk.injEq] at hb
      exact hab hb.1.symm
  · intro d source
    unfold Graph.red_sources
    simp only [List.mem_flatMap, List.mem_range, List.mem_map, Prod.mk.injEq,
      Graph.get_max_depth]
    constructor
    · rintro ⟨a, ha, x, hx, rfl, rfl⟩
      have hd := (mem_vertices_in_depth hw).mp hx
      obtain ⟨v, hv, hvd⟩ := vertex_of_depths hd
      exact ⟨by omega, v, hv, hvd⟩
    · rintro ⟨hd, v, hv, hvd⟩
      refine ⟨d, by omega, source, ?_, rfl, rfl⟩
      apply (mem_vertices_in_depth hw).mpr
      rw [← hvd]
      exact depths_get hv

end MainCpp

namespace GraphCpp

theorem vertex_add_edge_id_ok {g g' : Graph} {k id : Nat}
    (h : g.vertex_add_edge_id k id = .ok g') :
    ∃ v, g.vertices[k]? = some v ∧ id ∉ v.edge_ids ∧
      g' = { g with vertices := g.vertices.set k (v.push id) } := by
  unfold Graph.vertex_add_edge_id at h
  cases hv : g.vertices[k]? with
  | none => simp [hv] at h
  | some v =>
    simp only [hv] at h
    unfold Vertex.add_edge_id at h
    by_cases hex : has_edge_id id v.edge_ids = true
    · simp [hex] at h
    · simp only [hex] at h
      simp at h
      refine ⟨v, rfl, ?_, ?_⟩
      · intro hmem
        apply hex
        unfold has_edge_id
        simp
        exact hmem
      · rw [← h]; rfl

theorem place_destination_ok {g g' : Graph} {a b : Nat}
    (h : g.place_destination a b = .ok g') :
    ∃ sv dv, g.vertices[a]? = some sv ∧ g.vertices[b]? = some dv ∧
      sv.depth + 1 ≤ g.depth_map.length ∧
      g' = { g with
        vertices := g.vertices.set b { dv with depth := sv.depth + 1 },
        depth_map := file_in_depth g.depth_map (sv.depth + 1) b } := by
  unfold Graph.place_destination at h
  cases hsv : g.vertices[a]? with
  | none => simp [hsv] at h
  | some sv =>
    simp only [hsv] at h
    unfold Graph.vertex_set_depth at h
    cases hdv : g.vertices[b]? with
    | none => simp [hdv] at h
    | some dv =>
      simp only [hdv] at h
      unfold Graph.depth_map_push at h
      by_cases hl : g.depth_map.length = sv.depth + 1
      · simp only [hl, if_true] at h
        split at h
        · cases h
        · rename_i bucket hb
          simp only [Except.ok.injEq] at h
          refine ⟨sv, dv, rfl, rfl, by omega, ?_⟩
          rw [← h]
          unfold file_in_depth
          simp only [hl, if_true]
          rw [← hl] at hb ⊢
          simp [hb]
      · simp only [hl, if_false] at h
        split at h
        · cases h
        · rename_i bucket hb
          simp only [Except.ok.injEq] at h
          have hlt := (List.getElem?_eq_some_iff.mp hb).1
          simp only at hlt
          refine ⟨sv, dv, rfl, rfl, by omega, ?_⟩
          rw [← h]
          unfold file_in_depth
          simp only [hl, if_false]
          simp [hb]


theorem graph_insert_edge_ok {g g' : Graph} {a b : Nat} (h : g.insert_edge a b = .ok g') :
    ∃ sv dv color, InsertEdgePost g g' a b sv dv color := by
  unfold Graph.insert_edge at h
  cases hconn : g.are_vertices_connected a b with
  | error e => simp [hconn] at h
  | ok c =>
    cases c with
    | true => simp [hconn] at h
    | false =>
      simp only [hconn] at h
      cases hsv : g.vertices[a]? with
      | none => simp [hsv] at h
      | some sv =>
        cases hdv : g.vertices[b]? with
        | none => simp [hsv, hdv] at h
        | some dv =>
          simp only [hsv, hdv] at h
          cases hcol : g.calculate_color_for_edge sv dv with
          | error e => simp [hcol] at h
          | ok color =>
            simp only [hcol, Graph.get_new_edge_id_] at h
            have ha : a < g.vertices.length := (List.getElem?_eq_some_iff.mp hsv).1
            have hb : b < g.vertices.length := (List.getElem?_eq_some_iff.mp hdv).1
            split at h
            · cases h
            · rename_i g2 h2
              obtain ⟨v, hv, hnot, hg2⟩ := vertex_add_edge_id_ok h2
              simp only at hv
              rw [hsv] at hv
              cases hv
              by_cases hgreen : color = Color.Green
              · simp only [hgreen, ne_eq, not_true_eq_false, if_false, Except.ok.injEq] at h
                subst h
                subst hg2
                subst hgreen
                refine ⟨sv, dv, Color.Green, hsv, hdv, hcol, hconn, rfl, rfl, rfl, by simp,
                  hnot, by simp, ?_, by simp, by simp⟩
                intro i
                simp only [List.getElem?_set]
                by_cases hia : a = i
                · subst hia
                  simp [ha, hsv]
                · have hia2 : ¬ i = a := fun hh => hia hh.symm
                  simp [hia, hia2]
              · simp only [ne_eq, hgreen, not_false_eq_true, if_true] at h
                split at h
                · cases h
                · rename_i g3 h3
                  obtain ⟨v3, hv3, hnot3, hg3⟩ := vertex_add_edge_id_ok h3
                  subst hg2
                  simp only at hv3
                  have hab : a ≠ b := by
                    intro hab
                    subst hab
                    simp only [List.getElem?_set, ha, if_true] at hv3
                    cases hv3
                    apply hnot3
                    simp [Vertex.push]
                  simp only [List.getElem?_set, hab, if_false] at hv3
                  rw [hdv] at hv3
                  cases hv3
                  by_cases hgray : color = Color.Gray
                  · simp only [hgray, if_true] at h
                    obtain ⟨sv3, dv3, hsv3, hdv3, hbelow, hg'⟩ := place_destination_ok h
                    subst hg3
                    simp only at hsv3 hdv3 hbelow hg'
                    have hba : ¬ b = a := fun hh => hab hh.symm
                    simp only [List.getElem?_set, hba, hab, if_false, if_true, ha,
                      List.length_set, hb] at hsv3 hdv3
                    cases hsv3
                    cases hdv3
                    subst hg'
                    subst hgray
                    refine ⟨sv, dv, Color.Gray, hsv, hdv, hcol, hconn, rfl, rfl, rfl,
                      fun _ => hab, hnot, fun _ => hnot3, ?_, fun _ => hbelow, by simp [Vertex.push]⟩
                    intro i
                    simp only [List.getElem?_set, List.length_set]
                    by_cases hib : b = i
                    · subst hib
                      simp [hb, hdv, hba, Vertex.push]
                    · have hib2 : ¬ i = b := fun hh => hib hh.symm
                      by_cases hia : a = i
                      · subst hia
                        simp [hib, ha, hsv, hab]
                      · have hia2 : ¬ i = a := fun hh => hia hh.symm
                        simp [hib, hib2, hia, hia2]
                  · simp only [hgray, if_false, Except.ok.injEq] at h
                    subst h
                    subst hg3
                    refine ⟨sv, dv, color, hsv, hdv, hcol, hconn, rfl, rfl, rfl,
                      fun _ => hab, hnot, fun _ => hnot3, ?_, fun hh => absurd hh hgray,
                      by simp [hgray]⟩
                    intro i
                    simp only [List.getElem?_set, List.length_set]
                    by_cases hib : b = i
                    · subst hib
                      simp [hb, hdv, hgreen, hgray]
                    · have hib2 : ¬ i = b := fun hh => hib hh.symm
                      by_cases hia : a = i
                      · subst hia
                        simp [hib, ha, hsv, hgray]
                      · have hia2 : ¬ i = a := fun hh => hia hh.symm
                        simp [hib, hib2, hia, hia2, hgray]

theorem does_vertex_exist_of_wf {g : Graph} (hw : WellFormed g) {a : Nat} {va : Vertex}
    (ha : g.vertices[a]? = some va) : does_vertex_exist a g.vertices = true := by
  unfold does_vertex_exist
  simp only [List.any_eq_true, beq_iff_eq]
  exact ⟨va, List.getElem?_mem ha, hw.ids a va ha⟩

theorem connected_loop_ne (edges : List Edge) {s d : Nat} (hsd : s ≠ d) (dl : List Nat) :
    ∀ l : List Nat, ∃ r, connected_loop edges s d dl l = .ok r ∧
      (r = true ↔ ∃ k, k ∈ l ∧ k ∈ dl) := by
  intro l
  induction l with
  | nil => exact ⟨false, by simp [connected_loop], by simp⟩
  | cons e rest ih =>
    obtain ⟨r, hr, hiff⟩ := ih
    simp only [connected_loop, hsd, if_false]
    by_cases hany : (dl.any fun e2 => e == e2) = true
    · simp only [hany, if_true]
      refine ⟨true, rfl, ?_⟩
      simp only [true_iff]
      simp only [List.any_eq_true, beq_iff_eq] at hany
      obtain ⟨x, hx, hex⟩ := hany
      subst hex
      exact ⟨e, by simp, hx⟩
    · simp only [hany]
      refine ⟨r, by simpa using hr, ?_⟩
      rw [hiff]
      constructor
      · rintro ⟨k, hk, hk2⟩
        exact ⟨k, by simp [hk], hk2⟩
      · rintro ⟨k, hk, hk2⟩
        simp only [List.mem_cons] at hk
        rcases hk with hk | hk
        · subst hk
          exfalso
          apply hany
          simp only [List.any_eq_true, beq_iff_eq]
          exact ⟨k, hk2, rfl⟩
        · exact ⟨k, hk, hk2⟩

theorem connected_loop_self (edges : List Edge) (s : Nat) (dl : List Nat) :
    ∀ l : List Nat, (∀ k ∈ l, k < edges.length) →
      ∃ r, connected_loop edges s s dl l = .ok r ∧
        (r = true ↔ ∃ k e, k ∈ l ∧ edges[k]? = some e ∧ e.source = e.destination) := by
  intro l
  induction l with
  | nil => intro _; exact ⟨false, by simp [connected_loop], by simp⟩
  | cons x rest ih =>
    intro hall
    obtain ⟨r, hr, hiff⟩ := ih (fun k hk => hall k (by simp [hk]))
    have hx : x < edges.length := hall x (by simp)
    have hxe : edges[x]? = some edges[x] := List.getElem?_eq_getElem hx
    simp only [connected_loop, if_true, hxe]
    by_cases hloop : edges[x].source = edges[x].destination
    · simp only [hloop, if_true]
      refine ⟨true, rfl, ?_⟩
      simp only [true_iff]
      exact ⟨x, edges[x], by simp, hxe, hloop⟩
    · simp only [hloop, if_false]
      refine ⟨r, hr, ?_⟩
      rw [hiff]
      constructor
      · rintro ⟨k, e, hk, hke, hl⟩
        exact ⟨k, e, by simp [hk], hke, hl⟩
      · rintro ⟨k, e, hk, hke, hl⟩
        simp only [List.mem_cons] at hk
        rcases hk with hk | hk
        · subst hk
          rw [hxe] at hke
          cases hke
          exact absurd hl hloop
        · exact ⟨k, e, hk, hke, hl⟩

theorem are_vertices_connected_eq {g : Graph} (hw : WellFormed g) {a b : Nat}
    {va vb : Vertex} (ha : g.vertices[a]? = some va) (hb : g.vertices[b]? = some vb) :
    g.are_vertices_connected a b = connected_loop g.edges a b vb.edge_ids va.edge_ids := by
  unfold Graph.are_vertices_connected
  simp [does_vertex_exist_of_wf hw ha, does_vertex_exist_of_wf hw hb, ha, hb,
    Vertex.get_edge_ids]

theorem length_eq_of_getElem?_map {α : Type} {l1 l2 : List α} (f : Nat → α → α)
    (h : ∀ i : Nat, l2[i]? = (l1[i]?).map (f i)) : l2.length = l1.length := by
  by_contra hne
  rcases Nat.lt_or_gt_of_ne hne with hlt | hgt
  · have h1 := h l2.length
    rw [List.getElem?_eq_none (le_refl _), List.getElem?_eq_getElem hlt] at h1
    simp at h1
  · have h1 := h l1.length
    rw [List.getElem?_eq_none (l := l1) (le_refl _), List.getElem?_eq_getElem hgt] at h1
    simp at h1

theorem file_in_depth_length (dm : List (List Nat)) (d id : Nat) :
    dm.length ≤ (file_in_depth dm d id).length := by
  unfold file_in_depth
  simp only
  split <;> simp

theorem file_in_depth_get_ne (dm : List (List Nat)) (d id x : Nat) (bk : List Nat)
    (hx : dm[x]? = some bk) (hne : x ≠ d) : (file_in_depth dm d id)[x]? = some bk := by
  unfold file_in_depth
  simp only
  have hlt := (List.getElem?_eq_some_iff.mp hx).1
  have hne2 : ¬ d = x := fun hh => hne hh.symm
  split
  · rw [List.getElem?_set]
    simp only [hne2, if_false]
    rw [List.getElem?_append_left hlt]
    exact hx
  · rw [List.getElem?_set]
    simp only [hne2, if_false]
    exact hx

theorem file_in_depth_get_eq (dm : List (List Nat)) (d id : Nat) (hd : d ≤ dm.length) :
    (file_in_depth dm d id)[d]? = some (dm[d]?.getD [] ++ [id]) := by
  unfold file_in_depth
  simp only
  by_cases hl : dm.length = d
  · simp only [hl, if_true]
    subst hl
    rw [List.getElem?_set]
    simp
  · simp only [hl, if_false]
    have hlt : d < dm.length := by omega
    rw [List.getElem?_set]
    simp [hlt]

theorem InsertEdgePost.same_length {g g' : Graph} {a b : Nat} {sv dv : Vertex} {color : Color}
    (post : InsertEdgePost g g' a b sv dv color) : g'.vertices.length = g.vertices.length :=
  length_eq_of_getElem?_map _ post.vertices

theorem InsertEdgePost.graph_vertex_of {g g' : Graph} {a b : Nat} {sv dv : Vertex} {color : Color}
    (post : InsertEdgePost g g' a b sv dv color) {i : Nat} {v' : Vertex}
    (h : g'.vertices[i]? = some v') :
    ∃ v, g.vertices[i]? = some v ∧ v'.id = v.id ∧
      v'.edge_ids = (if i = a ∨ (color ≠ Color.Green ∧ i = b)
        then v.edge_ids ++ [g.edge_id_counter] else v.edge_ids) ∧
      v'.depth = (if color = Color.Gray ∧ i = b then sv.depth + 1 else v.depth) := by
  rw [post.vertices i] at h
  cases hv : g.vertices[i]? with
  | none => simp [hv] at h
  | some v =>
    simp only [hv, Option.map_some', Option.some.injEq] at h
    subst h
    refine ⟨v, rfl, ?_, ?_, ?_⟩
    · split <;> split <;> rfl
    · by_cases h1 : i = a ∨ (color ≠ Color.Green ∧ i = b) <;>
        by_cases h2 : color = Color.Gray ∧ i = b <;> simp [h1, h2, Vertex.push]
    · by_cases h1 : i = a ∨ (color ≠ Color.Green ∧ i = b) <;>
        by_cases h2 : color = Color.Gray ∧ i = b <;> simp [h1, h2, Vertex.push]

theorem graph_wellFormed_empty : WellFormed Graph.empty := by
  refine ⟨?_, rfl, rfl, ?_, ?_, ?_⟩
  · intro i v h; simp [Graph.empty] at h
  · intro i v h; simp [Graph.empty] at h
  · intro i v h; simp [Graph.empty] at h
  · intro h; simp [Graph.empty] at h

theorem wellFormed_insert_edge {g g' : Graph} {a b : Nat} (hw : WellFormed g)
    (h : g.insert_edge a b = .ok g') : WellFormed g' := by
  obtain ⟨sv, dv, color, post⟩ := graph_insert_edge_ok h
  have hlen := post.same_length
  refine ⟨?_, ?_, ?_, ?_, ?_, ?_⟩
  · intro i v' hv'
    obtain ⟨v, hv, hid, _, _⟩ := post.graph_vertex_of hv'
    rw [hid]; exact hw.ids i v hv
  · rw [post.vertex_counter, hlen]; exact hw.vertex_counter
  · rw [post.edge_counter, post.edges, hw.edge_counter]; simp
  · intro i v' hv' k hk
    obtain ⟨v, hv, _, hedges, _⟩ := post.graph_vertex_of hv'
    have hold := hw.listed i v hv
    rw [post.edges]
    simp only [List.length_append, List.length_singleton]
    rw [hedges] at hk
    split at hk
    · simp only [List.mem_append, List.mem_singleton] at hk
      rcases hk with hk | hk
      · have := hold k hk; omega
      · have := hw.edge_counter; omega
    · have := hold k hk; omega
  · intro i v' hv'
    obtain ⟨v, hv, _, _, hdepth⟩ := post.graph_vertex_of hv'
    obtain ⟨bk, hbk, hne⟩ := hw.buckets i v hv
    rw [post.depth_map]
    by_cases hgray : color = Color.Gray
    · simp only [hgray, if_true]
      by_cases hx : v'.depth = sv.depth + 1
      · rw [hx, file_in_depth_get_eq _ _ _ (post.below hgray)]
        exact ⟨_, rfl, by simp⟩
      · have hvd : v'.depth = v.depth := by
          rw [hdepth]
          split
          · rename_i hc
            rw [hdepth] at hx
            simp [hc] at hx
          · rfl
        rw [hvd] at hx ⊢
        exact ⟨bk, file_in_depth_get_ne _ _ _ _ _ hbk hx, hne⟩
    · simp only [hgray, if_false]
      have hvd : v'.depth = v.depth := by
        rw [hdepth]; simp [hgray]
      rw [hvd]
      exact ⟨bk, hbk, hne⟩
  · intro hne
    have hne0 : g.vertices ≠ [] := by
      intro h0
      apply hne
      apply List.eq_nil_of_length_eq_zero
      rw [hlen, h0]; rfl
    obtain ⟨bk, hbk, hbne⟩ := hw.root_bucket hne0
    rw [post.depth_map]
    split
    · exact ⟨bk, file_in_depth_get_ne _ _ _ _ _ hbk (by omega), hbne⟩
    · exact ⟨bk, hbk, hbne⟩

theorem graph_insert_vertex_ok {g g' : Graph} {id : Nat} (h : g.insert_vertex = .ok (id, g')) :
    id = g.vertex_id_counter ∧
    g'.vertices = g.vertices ++ [⟨id, Vertex.initial_depth, []⟩] ∧
    g'.edges = g.edges ∧
    g'.vertex_id_counter = g.vertex_id_counter + 1 ∧
    g'.edge_id_counter = g.edge_id_counter ∧
    g'.depth_map = (if id = 0 then
      (g.depth_map ++ [[]]).set 0 ((g.depth_map ++ [[]])[0]?.getD [] ++ [0])
      else g.depth_map) := by
  unfold Graph.insert_vertex at h
  simp only [Graph.get_new_vertex_id_] at h
  by_cases h0 : g.vertex_id_counter = 0
  · simp only [h0, if_true] at h
    unfold Graph.depth_map_push at h
    obtain ⟨bk, hbk⟩ : ∃ bk, (g.depth_map ++ [[]])[0]? = some bk := by
      cases g.depth_map <;> simp
    simp only [hbk, Except.ok.injEq, Prod.mk.injEq] at h
    obtain ⟨hid, hg⟩ := h
    subst hid
    subst hg
    simp [h0, hbk]
  · simp only [h0, if_false, Except.ok.injEq, Prod.mk.injEq] at h
    obtain ⟨hid, hg⟩ := h
    subst hid
    subst hg
    simp [h0]

theorem wellFormed_insert_vertex {g g' : Graph} {id : Nat} (hw : WellFormed g)
    (h : g.insert_vertex = .ok (id, g')) : WellFormed g' := by
  obtain ⟨hid, hv, he, hvc, hec, hdm⟩ := graph_insert_vertex_ok h
  have hidlen : id = g.vertices.length := by rw [hid, hw.vertex_counter]
  have hroot : ∃ b, g'.depth_map[0]? = some b ∧ b ≠ [] := by
    rw [hdm]
    by_cases h0 : id = 0
    · simp only [h0, if_true]
      rw [List.getElem?_set]
      simp
    · simp only [h0, if_false]
      apply hw.root_bucket
      intro hnil
      apply h0
      rw [hidlen, hnil]; rfl
  have hkeep : ∀ (d : Nat) (bk : List Nat), g.depth_map[d]? = some bk → bk ≠ [] →
      ∃ b, g'.depth_map[d]? = some b ∧ b ≠ [] := by
    intro d bk hbk hne
    by_cases hd : d = 0
    · subst hd; exact hroot
    · rw [hdm]
      split
      · rw [List.getElem?_set]
        have : ¬ 0 = d := fun hh => hd hh.symm
        simp only [this, if_false]
        rw [List.getElem?_append_left (List.getElem?_eq_some_iff.mp hbk).1]
        exact ⟨bk, hbk, hne⟩
      · exact ⟨bk, hbk, hne⟩
  have hget : ∀ (i : Nat) (v : Vertex), g'.vertices[i]? = some v →
      g.vertices[i]? = some v ∨ (i = g.vertices.length ∧ v = ⟨id, Vertex.initial_depth, []⟩) := by
    intro i v hiv
    rw [hv, List.getElem?_append] at hiv
    by_cases hlt : i < g.vertices.length
    · simp only [hlt, if_true] at hiv
      exact Or.inl hiv
    · simp only [hlt, if_false] at hiv
      right
      have hk : i - g.vertices.length = 0 := by
        by_contra hne
        have : 1 ≤ i - g.vertices.length := by omega
        simp [List.getElem?_eq_none, this] at hiv
      rw [hk] at hiv
      simp at hiv
      exact ⟨by omega, hiv.symm⟩
  refine ⟨?_, ?_, ?_, ?_, ?_, fun _ => hroot⟩
  · intro i v hiv
    rcases hget i v hiv with h1 | ⟨h1, h2⟩
    · exact hw.ids i v h1
    · subst h2; simp only; omega
  · rw [hvc, hv, hw.vertex_counter]; simp
  · rw [hec, he]; exact hw.edge_counter
  · intro i v hiv k hk
    rw [he]
    rcases hget i v hiv with h1 | ⟨h1, h2⟩
    · exact hw.listed i v h1 k hk
    · subst h2; simp at hk
  · intro i v hiv
    rcases hget i v hiv with h1 | ⟨h1, h2⟩
    · obtain ⟨bk, hbk, hne⟩ := hw.buckets i v h1
      exact hkeep _ bk hbk hne
    · subst h2
      exact hroot

theorem wellFormed_of_reachable {g : Graph} (h : Reachable g) : WellFormed g := by
  induction h with
  | empty => exact graph_wellFormed_empty
  | vertex _ hstep ih => exact wellFormed_insert_vertex ih hstep
  | edge a b _ hstep ih => exact wellFormed_insert_edge ih hstep

theorem calculate_color_total {g : Graph} (sv dv : Vertex)
    (hb : ∃ bk, g.depth_map[sv.depth]? = some bk ∧ bk ≠ []) :
    ∃ color, g.calculate_color_for_edge sv dv = .ok color ∧
      (sv.id ≠ dv.id → color ≠ Color.Green) := by
  obtain ⟨bk, hbk, hne⟩ := hb
  unfold Graph.calculate_color_for_edge
  by_cases h1 : (sv.get_edge_ids.isEmpty || dv.get_edge_ids.isEmpty) = true
  · simp only [h1, if_true]
    exact ⟨Color.Gray, rfl, fun _ => by simp⟩
  · simp only [h1]
    by_cases h2 : sv.id = dv.id
    · simp only [h2, if_true]
      exact ⟨Color.Green, by simp, fun hh => absurd rfl hh⟩
    · simp only [h2, if_false]
      have htail : ∃ color,
          (if (sv.depth : Int) = (dv.depth : Int) - 1 then Except.ok Color.Yellow
            else if (sv.depth : Int) = (dv.depth : Int) - 2 then Except.ok Color.Red
            else (Except.ok Color.Unknown : Except Fault Color)) = .ok color ∧
          (sv.id ≠ dv.id → color ≠ Color.Green) := by
        split
        · exact ⟨Color.Yellow, rfl, fun _ => by simp⟩
        · split
          · exact ⟨Color.Red, rfl, fun _ => by simp⟩
          · exact ⟨Color.Unknown, rfl, fun _ => by simp⟩
      simp only [Bool.false_eq_true, if_false]
      by_cases hd : sv.depth = dv.depth
      · rw [if_pos hd, hbk]
        cases bk with
        | nil => exact absurd rfl hne
        | cons x xs =>
          simp only
          cases adjacent_in_bucket sv.id dv.id (x :: xs) with
          | true => exact ⟨Color.Blue, rfl, fun _ => by simp⟩
          | false => exact htail
      · rw [if_neg hd]
        exact htail

theorem has_edge_id_false_of_not_mem {id : Nat} {l : List Nat} (h : id ∉ l) :
    has_edge_id id l = false := by
  unfold has_edge_id
  rw [Bool.eq_false_iff]
  intro hany
  simp only [List.any_eq_true, beq_iff_eq] at hany
  obtain ⟨x, hx, hxe⟩ := hany
  subst hxe
  exact h hx

theorem insert_edge_succeeds {g : Graph} (hw : WellFormed g) {a b : Nat} {sv dv : Vertex}
    (hab : a ≠ b) (hsv : g.vertices[a]? = some sv) (hdv : g.vertices[b]? = some dv)
    (hconn : g.are_vertices_connected a b = .ok false) :
    ∃ g', g.insert_edge a b = .ok g' := by
  have ha : a < g.vertices.length := (List.getElem?_eq_some_iff.mp hsv).1
  have hb : b < g.vertices.length := (List.getElem?_eq_some_iff.mp hdv).1
  have hba : ¬ b = a := fun hh => hab hh.symm
  obtain ⟨color, hcol, hng⟩ := calculate_color_total sv dv (hw.buckets a sv hsv)
  have hids : sv.id ≠ dv.id := by
    rw [hw.ids a sv hsv, hw.ids b dv hdv]; exact hab
  have hgreen := hng hids
  have hfs : has_edge_id g.edge_id_counter sv.edge_ids = false := by
    apply has_edge_id_false_of_not_mem
    intro hmem
    have := hw.listed a sv hsv _ hmem
    have := hw.edge_counter
    omega
  have hfd : has_edge_id g.edge_id_counter dv.edge_ids = false := by
    apply has_edge_id_false_of_not_mem
    intro hmem
    have := hw.listed b dv hdv _ hmem
    have := hw.edge_counter
    omega
  obtain ⟨bk, hbk, _⟩ := hw.buckets a sv hsv
  have hdepth : sv.depth < g.depth_map.length := (List.getElem?_eq_some_iff.mp hbk).1
  unfold Graph.insert_edge
  simp only [hconn, hsv, hdv, hcol, Graph.get_new_edge_id_, Graph.vertex_add_edge_id,
    Vertex.add_edge_id, hfs, Bool.false_eq_true, if_false, ne_eq, hgreen, not_false_eq_true,
    if_true, List.getElem?_set, hab, hfd]
  by_cases hgray : color = Color.Gray
  · simp only [hgray, if_true, Graph.place_destination, List.getElem?_set, hba, if_false,
      hab, ha, hb, List.length_set, hsv, Graph.vertex_set_depth, Graph.depth_map_push]
    by_cases hl : g.depth_map.length = sv.depth + 1
    · simp only [hl, if_true]
      have : (g.depth_map ++ [[]])[sv.depth + 1]? = some [] := by
        rw [← hl]; simp
      simp only [this]
      exact ⟨_, rfl⟩
    · simp only [hl, if_false]
      have hlt : sv.depth + 1 < g.depth_map.length := by omega
      rw [List.getElem?_eq_getElem hlt]
      exact ⟨_, rfl⟩
  · simp only [hgray, if_false]
    exact ⟨_, rfl⟩

theorem reachable_twoVertices : Reachable twoVertices := by
  have h1 : Reachable (⟨[⟨0, 0, []⟩], [], [[0]], 1, 0⟩ : Graph) :=
    @Reachable.vertex Graph.empty _ 0 Reachable.empty (by decide)
  exact @Reachable.vertex _ twoVertices 1 h1 (by decide)

theorem reachable_sampleState : Reachable sampleState := by
  have h3 : Reachable (⟨[⟨0, 0, []⟩, ⟨1, 0, []⟩, ⟨2, 0, []⟩], [], [[0]], 3, 0⟩ : Graph) :=
    @Reachable.vertex twoVertices _ 2 reachable_twoVertices (by decide)
  have h4 : Reachable (⟨[⟨0, 0, [0]⟩, ⟨1, 1, [0]⟩, ⟨2, 0, []⟩], [⟨0, 1, 0, Color.Gray⟩],
      [[0], [1]], 3, 1⟩ : Graph) :=
    @Reachable.edge _ _ 0 1 h3 (by decide)
  have h5 : Reachable (⟨[⟨0, 0, [0, 1]⟩, ⟨1, 1, [0]⟩, ⟨2, 1, [1]⟩],
      [⟨0, 1, 0, Color.Gray⟩, ⟨0, 2, 1, Color.Gray⟩], [[0], [1, 2]], 3, 2⟩ : Graph) :=
    @Reachable.edge _ _ 0 2 h4 (by decide)
  have h6 : Reachable (⟨[⟨0, 0, [0, 1]⟩, ⟨1, 1, [0, 2]⟩, ⟨2, 1, [1, 2]⟩],
      [⟨0, 1, 0, Color.Gray⟩, ⟨0, 2, 1, Color.Gray⟩, ⟨2, 1, 2, Color.Blue⟩],
      [[0], [1, 2]], 3, 3⟩ : Graph) :=
    @Reachable.edge _ _ 2 1 h5 (by decide)
  exact @Reachable.edge _ sampleState 0 0 h6 (by decide)

theorem reachable_backwardState : Reachable backwardState :=
  @Reachable.edge twoVertices backwardState 1 0 reachable_twoVertices (by decide)

theorem file_in_depth_get_other (dm : List (List Nat)) (D id d : Nat)
    (hne : d ≠ D) : (file_in_depth dm D id)[d]? = dm[d]? := by
  unfold file_in_depth
  simp only
  have hne2 : ¬ D = d := fun hh => hne hh.symm
  by_cases hl : dm.length = D
  · simp only [hl, if_true]
    rw [List.getElem?_set]
    simp only [hne2, if_false]
    by_cases hlt : d < dm.length
    · exact List.getElem?_append_left hlt
    · rw [List.getElem?_eq_none (by simp; omega), List.getElem?_eq_none (by omega)]
  · simp only [hl, if_false]
    rw [List.getElem?_set]
    simp only [hne2, if_false]

theorem calculate_color_gray_iff {g : Graph} {sv dv : Vertex} {c : Color}
    (h : g.calculate_color_for_edge sv dv = .ok c) :
    c = Color.Gray ↔ (sv.edge_ids = [] ∨ dv.edge_ids = []) := by
  unfold Graph.calculate_color_for_edge at h
  by_cases h1 : (sv.get_edge_ids.isEmpty || dv.get_edge_ids.isEmpty) = true
  · simp only [h1, if_true, Except.ok.injEq] at h
    subst h
    simp only [true_iff]
    simp only [Vertex.get_edge_ids, Bool.or_eq_true, List.isEmpty_iff] at h1
    exact h1
  · have hne : ¬ (sv.edge_ids = [] ∨ dv.edge_ids = []) := by
      intro hh
      apply h1
      simp only [Vertex.get_edge_ids, Bool.or_eq_true, List.isEmpty_iff]
      exact hh
    simp only [hne, iff_false]
    simp only [h1, Bool.false_eq_true, if_false] at h
    intro hc
    subst hc
    split at h
    · cases h
    · split at h
      · cases h
      · cases h
      · split at h
        · cases h
        · split at h
          · cases h
          · cases h

theorem InsertEdgePost.vertex_to {g g' : Graph} {a b : Nat} {sv dv : Vertex} {color : Color}
    (post : InsertEdgePost g g' a b sv dv color) {i : Nat} {v : Vertex}
    (h : g.vertices[i]? = some v) :
    ∃ v', g'.vertices[i]? = some v' ∧ v'.id = v.id ∧
      v'.edge_ids = (if i = a ∨ (color ≠ Color.Green ∧ i = b)
        then v.edge_ids ++ [g.edge_id_counter] else v.edge_ids) ∧
      v'.depth = (if color = Color.Gray ∧ i = b then sv.depth + 1 else v.depth) := by
  have hi : i < g.vertices.length := (List.getElem?_eq_some_iff.mp h).1
  have hi' : i < g'.vertices.length := by rw [post.same_length]; exact hi
  have h' : g'.vertices[i]? = some g'.vertices[i] := List.getElem?_eq_getElem hi'
  obtain ⟨v0, hv0, h1, h2, h3⟩ := post.graph_vertex_of h'
  rw [h] at hv0
  cases hv0
  exact ⟨_, h', h1, h2, h3⟩

theorem IndexInv.attachedIndex {g : Graph} (h : IndexInv g) : AttachedIndex g := by
  refine ⟨?_, h.complete, h.fresh⟩
  intro d bucket hb
  refine ⟨h.nodup d bucket hb, ?_, ?_⟩
  · intro v
    constructor
    · exact h.sound d bucket v hb
    · rintro ⟨vx, hvx, hd, hatt⟩
      obtain ⟨bk, hbk, hmem⟩ := h.complete v vx hvx hatt
      rw [hd, hb] at hbk
      cases hbk
      exact hmem
  · intro hd
    subst hd
    exact h.root bucket hb

theorem indexInv_empty : IndexInv Graph.empty := by
  refine ⟨?_, ?_, ?_, ?_, ?_, fun _ => rfl⟩
  · intro d bk h; simp [Graph.empty] at h
  · intro d bk v h; simp [Graph.empty] at h
  · intro v vx h; simp [Graph.empty] at h
  · intro bk h; simp [Graph.empty] at h
  · intro v vx h; simp [Graph.empty] at h

theorem indexInv_insert_vertex {g g' : Graph} {id : Nat} (hw : WellFormed g)
    (hi : IndexInv g) (h : g.insert_vertex = .ok (id, g')) : IndexInv g' := by
  obtain ⟨hid, hv, he, hvc, hec, hdm⟩ := graph_insert_vertex_ok h
  have hidlen : id = g.vertices.length := by rw [hid, hw.vertex_counter]
  by_cases h0 : id = 0
  · have hnil : g.vertices = [] := List.eq_nil_of_length_eq_zero (by omega)
    have hdnil := hi.no_vertex hnil
    have hdm' : g'.depth_map = [[0]] := by
      rw [hdm, hdnil]; simp [h0]
    have hv' : g'.vertices = [⟨0, Vertex.initial_depth, []⟩] := by
      rw [hv, hnil, h0]; rfl
    have hget : ∀ (d : Nat) (bk : List Nat), g'.depth_map[d]? = some bk → d = 0 ∧ bk = [0] := by
      intro d bk hb
      rw [hdm'] at hb
      cases d with
      | zero => simp at hb; exact ⟨rfl, hb.symm⟩
      | succ n => simp at hb
    have hgv : ∀ (v : Nat) (vx : Vertex), g'.vertices[v]? = some vx →
        v = 0 ∧ vx = ⟨0, Vertex.initial_depth, []⟩ := by
      intro v vx hvx
      rw [hv'] at hvx
      cases v with
      | zero => simp at hvx; exact ⟨rfl, hvx.symm⟩
      | succ n => simp at hvx
    refine ⟨?_, ?_, ?_, ?_, ?_, ?_⟩
    · intro d bk hb
      rw [(hget d bk hb).2]; simp
    · intro d bk v hb hmem
      obtain ⟨hd, hbk⟩ := hget d bk hb
      subst hd; subst hbk
      simp only [List.mem_singleton] at hmem
      subst hmem
      exact ⟨⟨0, Vertex.initial_depth, []⟩, by rw [hv']; rfl, rfl, Or.inl rfl⟩
    · intro v vx hvx _
      obtain ⟨hv0, hvx0⟩ := hgv v vx hvx
      subst hv0; subst hvx0
      exact ⟨[0], by rw [hdm']; rfl, by simp⟩
    · intro bk hb
      exact (hget 0 bk hb).2
    · intro v vx hvx _
      rw [(hgv v vx hvx).2]
    · intro hh
      rw [hv'] at hh
      cases hh
  · have hdm' : g'.depth_map = g.depth_map := by rw [hdm]; simp [h0]
    have hold : ∀ (v : Nat) (vx : Vertex), g.vertices[v]? = some vx →
        g'.vertices[v]? = some vx := by
      intro v vx hvx
      rw [hv, List.getElem?_append_left (List.getElem?_eq_some_iff.mp hvx).1]
      exact hvx
    have hget : ∀ (i : Nat) (v : Vertex), g'.vertices[i]? = some v →
        g.vertices[i]? = some v ∨
          (i = g.vertices.length ∧ v = ⟨id, Vertex.initial_depth, []⟩) := by
      intro i v hiv
      rw [hv, List.getElem?_append] at hiv
      by_cases hlt : i < g.vertices.length
      · simp only [hlt, if_true] at hiv
        exact Or.inl hiv
      · simp only [hlt, if_false] at hiv
        right
        have hk : i - g.vertices.length = 0 := by
          by_contra hne
          have : 1 ≤ i - g.vertices.length := by omega
          simp [List.getElem?_eq_none, this] at hiv
        rw [hk] at hiv
        simp at hiv
        exact ⟨by omega, hiv.symm⟩
    refine ⟨?_, ?_, ?_, ?_, ?_, ?_⟩
    · intro d bk hb
      rw [hdm'] at hb
      exact hi.nodup d bk hb
    · intro d bk v hb hmem
      rw [hdm'] at hb
      obtain ⟨vx, hvx, hd, hatt⟩ := hi.sound d bk v hb hmem
      exact ⟨vx, hold v vx hvx, hd, hatt⟩
    · intro v vx hvx hatt
      rw [hdm']
      rcases hget v vx hvx with h1 | ⟨h1, h2⟩
      · exact hi.complete v vx h1 hatt
      · subst h2
        exfalso
        rcases hatt with hh | hh
        · omega
        · exact hh rfl
    · intro bk hb
      rw [hdm'] at hb
      exact hi.root bk hb
    · intro v vx hvx hna
      rcases hget v vx hvx with h1 | ⟨h1, h2⟩
      · exact hi.fresh v vx h1 hna
      · subst h2; rfl
    · intro hh
      rw [hv] at hh
      simp at hh

theorem indexInv_insert_edge_gray {g g' : Graph} {a b : Nat} {sv dv : Vertex}
    (hi : IndexInv g) (post : InsertEdgePost g g' a b sv dv Color.Gray)
    (hb0 : b ≠ 0) (hdv : dv.edge_ids = []) (hatta : a = 0 ∨ sv.edge_ids ≠ []) :
    IndexInv g' := by
  have hab : a ≠ b := post.distinct (by simp)
  have hdm : g'.depth_map = file_in_depth g.depth_map (sv.depth + 1) b := by
    rw [post.depth_map]; simp
  have hbelow := post.below rfl
  have hgetD : g'.depth_map[sv.depth + 1]? =
      some (g.depth_map[sv.depth + 1]?.getD [] ++ [b]) := by
    rw [hdm]; exact file_in_depth_get_eq _ _ _ hbelow
  have hgetO : ∀ d : Nat, d ≠ sv.depth + 1 → g'.depth_map[d]? = g.depth_map[d]? := by
    intro d hd
    rw [hdm]; exact file_in_depth_get_other _ _ _ _ hd
  have hbnot : ∀ (d : Nat) (bk : List Nat), g.depth_map[d]? = some bk → b ∉ bk := by
    intro d bk hbk hmem
    obtain ⟨vx, hvx, _, hatt⟩ := hi.sound d bk b hbk hmem
    rw [post.destination] at hvx
    cases hvx
    rcases hatt with hh | hh
    · exact hb0 hh
    · exact hh hdv
  have keep : ∀ (v : Nat) (vx : Vertex), g.vertices[v]? = some vx →
      (v = 0 ∨ vx.edge_ids ≠ []) → v ≠ b →
      ∃ v', g'.vertices[v]? = some v' ∧ v'.depth = vx.depth ∧ (v = 0 ∨ v'.edge_ids ≠ []) := by
    intro v vx hvx hatt hvb
    obtain ⟨v', hv', _, hedges, hdepth⟩ := post.vertex_to hvx
    refine ⟨v', hv', ?_, ?_⟩
    · rw [hdepth]; simp [hvb]
    · rcases hatt with hh | hh
      · exact Or.inl hh
      · right
        rw [hedges]
        split
        · simp
        · exact hh
  refine ⟨?_, ?_, ?_, ?_, ?_, ?_⟩
  · intro d bk hbk
    by_cases hd : d = sv.depth + 1
    · subst hd
      rw [hgetD] at hbk
      cases hbk
      cases hold : g.depth_map[sv.depth + 1]? with
      | none => simp
      | some old =>
        simp only [Option.getD_some]
        have h1 := hi.nodup _ old hold
        have h2 := hbnot _ old hold
        rw [List.nodup_append]
        refine ⟨h1, by simp, ?_⟩
        intro x hx1 hx2
        simp only [List.mem_singleton] at hx2
        subst hx2
        exact h2 hx1
    · rw [hgetO d hd] at hbk
      exact hi.nodup d bk hbk
  · intro d bk v hbk hmem
    have fromOld : ∀ old : List Nat, g.depth_map[d]? = some old → v ∈ old →
        ∃ vx, g'.vertices[v]? = some vx ∧ vx.depth = d ∧ (v = 0 ∨ vx.edge_ids ≠ []) := by
      intro old hold hmo
      obtain ⟨vx, hvx, hdx, hatt⟩ := hi.sound d old v hold hmo
      have hvb : v ≠ b := by
        intro hh; subst hh; exact hbnot d old hold hmo
      obtain ⟨v', hv', hd', hatt'⟩ := keep v vx hvx hatt hvb
      exact ⟨v', hv', by rw [hd', hdx], hatt'⟩
    by_cases hd : d = sv.depth + 1
    · subst hd
      rw [hgetD] at hbk
      cases hbk
      simp only [List.mem_append, List.mem_singleton] at hmem
      rcases hmem with hmem | hmem
      · cases hold : g.depth_map[sv.depth + 1]? with
        | none => simp [hold] at hmem
        | some old =>
          simp only [hold, Option.getD_some] at hmem
          exact fromOld old hold hmem
      · subst hmem
        obtain ⟨v', hv', _, hedges, hdepth⟩ := post.vertex_to post.destination
        refine ⟨v', hv', ?_, Or.inr ?_⟩
        · rw [hdepth]; simp
        · rw [hedges]; simp
    · rw [hgetO d hd] at hbk
      exact fromOld bk hbk hmem
  · intro v vx' hvx' hatt'
    obtain ⟨vx, hvx, _, hedges, hdepth⟩ := post.graph_vertex_of hvx'
    by_cases hvb : v = b
    · subst hvb
      have hd : vx'.depth = sv.depth + 1 := by rw [hdepth]; simp
      rw [hd, hgetD]
      exact ⟨_, rfl, by simp⟩
    · have hd : vx'.depth = vx.depth := by rw [hdepth]; simp [hvb]
      have hatt : v = 0 ∨ vx.edge_ids ≠ [] := by
        rcases hatt' with hh | hh
        · exact Or.inl hh
        · by_cases hva : v = a
          · subst hva
            rw [post.source] at hvx
            cases hvx
            exact hatta
          · right
            rw [hedges] at hh
            simpa [hva, hvb] using hh
      obtain ⟨bk, hbk, hmem⟩ := hi.complete v vx hvx hatt
      rw [hd]
      by_cases hD : vx.depth = sv.depth + 1
      · rw [hD, hgetD]
        rw [hD] at hbk
        exact ⟨_, rfl, by simp [hbk, hmem]⟩
      · rw [hgetO _ hD]
        exact ⟨bk, hbk, hmem⟩
  · intro bk hbk
    rw [hgetO 0 (by omega)] at hbk
    exact hi.root bk hbk
  · intro v vx' hvx' hna
    obtain ⟨vx, hvx, _, hedges, hdepth⟩ := post.graph_vertex_of hvx'
    have hva : v ≠ a := by
      intro hh
      apply hna
      right
      rw [hedges]
      simp [hh]
    have hvb : v ≠ b := by
      intro hh
      apply hna
      right
      rw [hedges]
      simp [hh]
    have hd : vx'.depth = vx.depth := by rw [hdepth]; simp [hvb]
    have he : vx'.edge_ids = vx.edge_ids := by rw [hedges]; simp [hva, hvb]
    rw [hd]
    apply hi.fresh v vx hvx
    rw [← he]
    exact hna
  · intro hnil
    have h1 : a < g.vertices.length := (List.getElem?_eq_some_iff.mp post.source).1
    have h2 := post.same_length
    rw [hnil] at h2
    simp at h2
    omega

theorem indexInv_insert_edge_other {g g' : Graph} {a b : Nat} {sv dv : Vertex} {color : Color}
    (hi : IndexInv g) (post : InsertEdgePost g g' a b sv dv color)
    (hgray : color ≠ Color.Gray) (hsv : sv.edge_ids ≠ []) (hdv : dv.edge_ids ≠ []) :
    IndexInv g' := by
  have hdm : g'.depth_map = g.depth_map := by
    rw [post.depth_map]; simp [hgray]
  have hto : ∀ (v : Nat) (vx : Vertex), g.vertices[v]? = some vx →
      ∃ v', g'.vertices[v]? = some v' ∧ v'.depth = vx.depth ∧
        (v'.edge_ids ≠ [] ↔ vx.edge_ids ≠ []) := by
    intro v vx hvx
    obtain ⟨v', hv', _, hedges, hdepth⟩ := post.vertex_to hvx
    refine ⟨v', hv', by rw [hdepth]; simp [hgray], ?_⟩
    rw [hedges]
    split
    · rename_i hc
      have hvxne : vx.edge_ids ≠ [] := by
        rcases hc with hc | ⟨_, hc⟩
        · subst hc
          rw [post.source] at hvx
          cases hvx
          exact hsv
        · subst hc
          rw [post.destination] at hvx
          cases hvx
          exact hdv
      simp [hvxne]
    · rfl
  have hfrom : ∀ (v : Nat) (v' : Vertex), g'.vertices[v]? = some v' →
      ∃ vx, g.vertices[v]? = some vx ∧ v'.depth = vx.depth ∧
        (v'.edge_ids ≠ [] ↔ vx.edge_ids ≠ []) := by
    intro v v' hv'
    obtain ⟨vx, hvx, _, _, _⟩ := post.graph_vertex_of hv'
    obtain ⟨v2, hv2, h1, h2⟩ := hto v vx hvx
    rw [hv'] at hv2
    cases hv2
    exact ⟨vx, hvx, h1, h2⟩
  refine ⟨?_, ?_, ?_, ?_, ?_, ?_⟩
  · intro d bk hbk
    rw [hdm] at hbk
    exact hi.nodup d bk hbk
  · intro d bk v hbk hmem
    rw [hdm] at hbk
    obtain ⟨vx, hvx, hd, hatt⟩ := hi.sound d bk v hbk hmem
    obtain ⟨v', hv', hd', hiff⟩ := hto v vx hvx
    refine ⟨v', hv', by rw [hd', hd], ?_⟩
    rcases hatt with hh | hh
    · exact Or.inl hh
    · exact Or.inr (hiff.mpr hh)
  · intro v v' hv' hatt'
    obtain ⟨vx, hvx, hd, hiff⟩ := hfrom v v' hv'
    rw [hdm, hd]
    apply hi.complete v vx hvx
    rcases hatt' with hh | hh
    · exact Or.inl hh
    · exact Or.inr (hiff.mp hh)
  · intro bk hbk
    rw [hdm] at hbk
    exact hi.root bk hbk
  · intro v v' hv' hna
    obtain ⟨vx, hvx, hd, hiff⟩ := hfrom v v' hv'
    rw [hd]
    apply hi.fresh v vx hvx
    intro hatt
    apply hna
    rcases hatt with hh | hh
    · exact Or.inl hh
    · exact Or.inr (hiff.mpr hh)
  · intro hnil
    have h1 : a < g.vertices.length := (List.getElem?_eq_some_iff.mp post.source).1
    have h2 := post.same_length
    rw [hnil] at h2
    simp at h2
    omega

theorem indexInv_insert_edge {g g' : Graph} {a b : Nat} (hi : IndexInv g)
    (hfwd : AttachesForward g a b) (h : g.insert_edge a b = .ok g') : IndexInv g' := by
  obtain ⟨sv, dv, color, post⟩ := graph_insert_edge_ok h
  have hiff := calculate_color_gray_iff post.color_eq
  by_cases hgray : color = Color.Gray
  · subst hgray
    obtain ⟨h1, h2, h3⟩ := hfwd sv dv post.source post.destination (hiff.mp rfl)
    exact indexInv_insert_edge_gray hi post h1 h2 h3
  · have hne : ¬ (sv.edge_ids = [] ∨ dv.edge_ids = []) := fun hh => hgray (hiff.mpr hh)
    exact indexInv_insert_edge_other hi post hgray (fun hh => hne (Or.inl hh))
      (fun hh => hne (Or.inr hh))

theorem forwardReachable_inv {g : Graph} (h : ForwardReachable g) :
    Reachable g ∧ IndexInv g := by
  induction h with
  | empty => exact ⟨Reachable.empty, indexInv_empty⟩
  | vertex _ hstep ih =>
    exact ⟨Reachable.vertex ih.1 hstep,
      indexInv_insert_vertex (wellFormed_of_reachable ih.1) ih.2 hstep⟩
  | edge a b _ hfwd hstep ih =>
    exact ⟨Reachable.edge a b ih.1 hstep, indexInv_insert_edge ih.2 hfwd hstep⟩

theorem attachesForward_of {g : Graph} {a b : Nat} (sv dv : Vertex)
    (hsv : g.vertices[a]? = some sv) (hdv : g.vertices[b]? = some dv)
    (h : (sv.edge_ids = [] ∨ dv.edge_ids = []) →
      b ≠ 0 ∧ dv.edge_ids = [] ∧ (a = 0 ∨ sv.edge_ids ≠ [])) :
    AttachesForward g a b := by
  intro sv2 dv2 h1 h2
  rw [hsv] at h1
  rw [hdv] at h2
  cases h1
  cases h2
  exact h

theorem forwardReachable_sampleState : ForwardReachable sampleState := by
  have h1 : ForwardReachable oneVertex :=
    @ForwardReachable.vertex Graph.empty _ 0 ForwardReachable.empty (by decide)
  have h2 : ForwardReachable twoVertices :=
    @ForwardReachable.vertex _ _ 1 h1 (by decide)
  have h3 : ForwardReachable (⟨[⟨0, 0, []⟩, ⟨1, 0, []⟩, ⟨2, 0, []⟩], [], [[0]], 3, 0⟩ : Graph) :=
    @ForwardReachable.vertex _ _ 2 h2 (by decide)
  have h4 : ForwardReachable (⟨[⟨0, 0, [0]⟩, ⟨1, 1, [0]⟩, ⟨2, 0, []⟩], [⟨0, 1, 0, Color.Gray⟩],
      [[0], [1]], 3, 1⟩ : Graph) :=
    @ForwardReachable.edge _ _ 0 1 h3
      (attachesForward_of ⟨0, 0, []⟩ ⟨1, 0, []⟩ (by decide) (by decide) (by decide)) (by decide)
  have h5 : ForwardReachable (⟨[⟨0, 0, [0, 1]⟩, ⟨1, 1, [0]⟩, ⟨2, 1, [1]⟩],
      [⟨0, 1, 0, Color.Gray⟩, ⟨0, 2, 1, Color.Gray⟩], [[0], [1, 2]], 3, 2⟩ : Graph) :=
    @ForwardReachable.edge _ _ 0 2 h4
      (attachesForward_of ⟨0, 0, [0]⟩ ⟨2, 0, []⟩ (by decide) (by decide) (by decide)) (by decide)
  have h6 : ForwardReachable (⟨[⟨0, 0, [0, 1]⟩, ⟨1, 1, [0, 2]⟩, ⟨2, 1, [1, 2]⟩],
      [⟨0, 1, 0, Color.Gray⟩, ⟨0, 2, 1, Color.Gray⟩, ⟨2, 1, 2, Color.Blue⟩],
      [[0], [1, 2]], 3, 3⟩ : Graph) :=
    @ForwardReachable.edge _ _ 2 1 h5
      (attachesForward_of ⟨2, 1, [1]⟩ ⟨1, 1, [0]⟩ (by decide) (by decide) (by decide)) (by decide)
  exact @ForwardReachable.edge _ sampleState 0 0 h6
    (attachesForward_of ⟨0, 0, [0, 1]⟩ ⟨0, 0, [0, 1]⟩ (by decide) (by decide) (by decide))
    (by decide)

theorem graph_edge_ids_loop_cons (a : Nat) (rest : List Nat) (acc : String) :
    Vertex.edge_ids_loop (a :: rest) acc =
      Vertex.edge_ids_loop rest
        (if rest.isEmpty then acc ++ to_string a else acc ++ to_string a ++ ", ") := rfl

theorem graph_edge_ids_loop_eq : ∀ (l : List Nat) (acc : String),
    Vertex.edge_ids_loop l acc = acc ++ ", ".intercalate (l.map to_string) := by
  intro l
  induction l with
  | nil => intro acc; simp [Vertex.edge_ids_loop, String.intercalate]
  | cons a as ih =>
    intro acc
    cases as with
    | nil => simp [Vertex.edge_ids_loop, String.intercalate, String.intercalate.go]
    | cons b bs =>
      rw [graph_edge_ids_loop_cons, ih]
      simp only [List.map_cons, List.isEmpty_cons, Bool.false_eq_true, if_false]
      rw [intercalate_cons_cons ", " (to_string a)]
      simp [String.append_assoc]

theorem graph_vertex_to_JSON_eq (v : Vertex) :
    v.to_JSON = "\t\x7b \"id\": " ++ to_string v.id ++ ", \"edge_ids\": [" ++
      ", ".intercalate (v.edge_ids.map to_string) ++ "], \"depth\": " ++ to_string v.depth ++
      "\x7d" := by
  unfold Vertex.to_JSON
  simp only
  rw [graph_edge_ids_loop_eq]
  simp [String.append_assoc]

theorem graph_edge_to_JSON_eq (e : Edge) :
    e.to_JSON = "\t\x7b \"id\": " ++ to_string e.id ++ ", \"vertex_ids\": [" ++
      to_string e.source ++ ", " ++ to_string e.destination ++ "], \"color\": \"" ++
      color_to_string e.color ++ "\" \x7d" := by
  unfold Edge.to_JSON
  simp [String.append_assoc]

theorem graph_color_to_string_injective : Function.Injective color_to_string := by
  intro a b h
  cases a <;> cases b <;> first | rfl | exact absurd h (by decide)

end GraphCpp

/-! ## The claims -/

namespace MainCpp

/-- C1: in every graph returned by `generateGraph` the identities of the stored
vertices, read in storage order, are exactly `0, 1, ..., V-1`, and the
identities of the stored edges are exactly `0, 1, ..., E-1`; in particular the
element at position `i` has identity `i` and no identity is skipped or
repeated.  (Holds for all parameter values, not only `maxDepth ≥ 1`,
`branchFactor ≥ 0`.) -/
theorem generateGraph_ids_contiguous (fl : FloatOps) (rng : Rng) (fuel : Nat) (md bf : Int)
    (g : Graph) (h : generateGraph fl rng fuel md bf = .ok g) :
    g.vertices.map (fun v => v.id) = List.range g.vertices.length ∧
    g.edges.map (fun e => e.id) = List.range g.edges.length ∧
    (∀ (i : Nat) (v : Vertex), g.vertices[i]? = some v → v.id = i) ∧
    (∀ (k : Nat) (e : Edge), g.edges[k]? = some e → e.id = k) := by
  have hw := generateGraph_wellFormed h
  exact ⟨map_eq_range_of_getElem? _ _ hw.ids.1, map_eq_range_of_getElem? _ _ hw.ids.2,
    hw.ids.1, hw.ids.2⟩

theorem generateGraph_ids_contiguous_witness :
    generateGraph exactOps sampleRng 5 2 2 = .ok sampleGraph ∧
    sampleGraph.vertices.map (fun v => v.id) = List.range sampleGraph.vertices.length ∧
    sampleGraph.edges.map (fun e => e.id) = List.range sampleGraph.edges.length ∧
    (∀ (i : Nat) (v : Vertex), sampleGraph.vertices[i]? = some v → v.id = i) ∧
    (∀ (k : Nat) (e : Edge), sampleGraph.edges[k]? = some e → e.id = k) :=
  ⟨by decide, generateGraph_ids_contiguous exactOps sampleRng 5 2 2 sampleGraph (by decide)⟩

/-- C2: in every graph returned by `generateGraph`, every stored edge `e` has
existing endpoints, is a Loop (GREEN) edge exactly when its two endpoints
coincide, and for every vertex position `i` the identity of `e` occurs in the
incident-edge list of vertex `i` exactly once when `i` is an endpoint of `e`
and not at all otherwise. -/
theorem generateGraph_incidence (fl : FloatOps) (rng : Rng) (fuel : Nat) (md bf : Int)
    (g : Graph) (h : generateGraph fl rng fuel md bf = .ok g) :
    ∀ e ∈ g.edges,
      e.source < g.vertices.length ∧ e.destination < g.vertices.length ∧
      (e.color = Color.GREEN ↔ e.source = e.destination) ∧
      ∀ (i : Nat) (v : Vertex), g.vertices[i]? = some v →
        v.edge_ids.count e.id = if i = e.source ∨ i = e.destination then 1 else 0 := by
  have hw := generateGraph_wellFormed h
  intro e he
  obtain ⟨k, hk⟩ := List.getElem?_of_mem he
  have hid := hw.ids.2 k e hk
  rw [hid]
  exact hw.incidence k e hk

theorem generateGraph_incidence_witness :
    generateGraph exactOps sampleRng 5 2 2 = .ok sampleGraph ∧
    ∀ e ∈ sampleGraph.edges,
      e.source < sampleGraph.vertices.length ∧ e.destination < sampleGraph.vertices.length ∧
      (e.color = Color.GREEN ↔ e.source = e.destination) ∧
      ∀ (i : Nat) (v : Vertex), sampleGraph.vertices[i]? = some v →
        v.edge_ids.count e.id = if i = e.source ∨ i = e.destination then 1 else 0 :=
  ⟨by decide, generateGraph_incidence exactOps sampleRng 5 2 2 sampleGraph (by decide)⟩

/-- C3: the Tree pass `generate_vertices_and_gray_edges`, run on the empty
graph, returns for every `maxDepth`, `branchFactor` and sequence of draws (the
fuel `treeFuel` covers every loop of the pass), and in the graph it returns
every vertex other than the root (position and identity 0) has its creator in
the graph, has depth one more than its creator, and is the destination of a
GRAY edge whose source is its creator. -/
theorem tree_pass_parent (fl : FloatOps) (rng : Rng) (fuel : Nat) (md bf : Int)
    (hfuel : treeFuel md bf ≤ fuel) :
    ∃ gen1, generate_vertices_and_gray_edges fl rng fuel ⟨emptyGraph md bf, 0, 0⟩ = .ok gen1 ∧
      ∀ (i : Nat) (v : Vertex), gen1.graph.vertices[i]? = some v → i ≠ 0 →
        v.id = i ∧
        ∃ p, gen1.graph.vertices[v.source_id]? = some p ∧ v.depth = p.depth + 1 ∧
          ∃ e ∈ gen1.graph.edges,
            e.color = Color.GRAY ∧ e.source = v.source_id ∧ e.destination = v.id := by
  obtain ⟨gen1, h⟩ := tree_pass_total fl rng fuel md bf hfuel
  exact ⟨gen1, h, tree_parent_of_ok h⟩

theorem tree_pass_parent_witness :
    treeFuel 1 1 ≤ 2 ∧
    ∃ gen1, generate_vertices_and_gray_edges exactOps highRng 2 ⟨emptyGraph 1 1, 0, 0⟩ =
        .ok gen1 ∧
      ∀ (i : Nat) (v : Vertex), gen1.graph.vertices[i]? = some v → i ≠ 0 →
        v.id = i ∧
        ∃ p, gen1.graph.vertices[v.source_id]? = some p ∧ v.depth = p.depth + 1 ∧
          ∃ e ∈ gen1.graph.edges,
            e.color = Color.GRAY ∧ e.source = v.source_id ∧ e.destination = v.id :=
  ⟨by decide, tree_pass_parent exactOps highRng 2 1 1 (by decide)⟩


/-- C4: whatever the parameters, the draws and the fuel, `generateGraph` never
trips an assertion (in particular not "Vertices are already connected!") and
never indexes out of range; and in every graph it returns, two non-Loop
(non-GREEN) edges that join the same unordered pair of vertices are one and the
same edge. -/
theorem generateGraph_no_parallel (fl : FloatOps) (rng : Rng) (fuel : Nat) (md bf : Int) :
    generateGraph fl rng fuel md bf ≠ .error .assertion_failed ∧
    generateGraph fl rng fuel md bf ≠ .error .out_of_range ∧
    ∀ g, generateGraph fl rng fuel md bf = .ok g →
      ∀ e1 ∈ g.edges, ∀ e2 ∈ g.edges, e1.color ≠ Color.GREEN → e2.color ≠ Color.GREEN →
        (e1.source = e2.source ∧ e1.destination = e2.destination ∨
          e1.source = e2.destination ∧ e1.destination = e2.source) → e1 = e2 := by
  have hs := generateGraph_safe fl rng fuel md bf
  refine ⟨?_, ?_, ?_⟩
  · intro h
    have := hs _ h
    cases this
  · intro h
    have := hs _ h
    cases this
  · intro g h
    exact (generateGraph_wellFormed h).noParallel

theorem generateGraph_no_parallel_witness :
    generateGraph exactOps sampleRng 5 2 2 = .ok sampleGraph ∧
    ∀ e1 ∈ sampleGraph.edges, ∀ e2 ∈ sampleGraph.edges,
      e1.color ≠ Color.GREEN → e2.color ≠ Color.GREEN →
        (e1.source = e2.source ∧ e1.destination = e2.destination ∨
          e1.source = e2.destination ∧ e1.destination = e2.source) → e1 = e2 :=
  ⟨by decide, (generateGraph_no_parallel exactOps sampleRng 5 2 2).2.2 sampleGraph (by decide)⟩


end MainCpp

namespace GraphCpp

/-- C5: in a well-formed state of the graph of graph.cpp, for two distinct
existing vertices `a` and `b` that are not connected, `insert_edge(a, b)`
succeeds; in the resulting state `are_vertices_connected` returns true for
`(a, b)` and for `(b, a)`, and a further `insert_edge(a, b)` or
`insert_edge(b, a)` trips the "Vertices are already connected!" assertion
instead of adding an edge. -/
theorem insert_edge_connects (g : Graph) (a b : Nat) (hw : WellFormed g)
    (ha : a < g.vertices.length) (hb : b < g.vertices.length) (hab : a ≠ b)
    (hconn : g.are_vertices_connected a b = .ok false) :
    ∃ g', g.insert_edge a b = .ok g' ∧
      g'.are_vertices_connected a b = .ok true ∧
      g'.are_vertices_connected b a = .ok true ∧
      g'.insert_edge a b = .error .assertion_failed ∧
      g'.insert_edge b a = .error .assertion_failed := by
  have hsv : g.vertices[a]? = some g.vertices[a] := List.getElem?_eq_getElem ha
  have hdv : g.vertices[b]? = some g.vertices[b] := List.getElem?_eq_getElem hb
  obtain ⟨g', hg'⟩ := insert_edge_succeeds hw hab hsv hdv hconn
  obtain ⟨sv, dv, color, post⟩ := graph_insert_edge_ok hg'
  have hw' := wellFormed_insert_edge hw hg'
  have hgreen : color ≠ Color.Green := by
    obtain ⟨c2, hc2, hng⟩ := calculate_color_total sv dv (hw.buckets a sv post.source)
    rw [post.color_eq] at hc2
    cases hc2
    apply hng
    rw [hw.ids a sv post.source, hw.ids b dv post.destination]
    exact hab
  have hlen := post.same_length
  have ha' : g'.vertices[a]? = some g'.vertices[a] := List.getElem?_eq_getElem (by omega)
  have hb' : g'.vertices[b]? = some g'.vertices[b] := List.getElem?_eq_getElem (by omega)
  obtain ⟨va, _, _, hea, _⟩ := post.graph_vertex_of ha'
  obtain ⟨vb, _, _, heb, _⟩ := post.graph_vertex_of hb'
  have hma : g.edge_id_counter ∈ (g'.vertices[a]).edge_ids := by
    rw [hea]; simp
  have hmb : g.edge_id_counter ∈ (g'.vertices[b]).edge_ids := by
    rw [heb]; simp [hgreen]
  have c1 : g'.are_vertices_connected a b = .ok true := by
    rw [are_vertices_connected_eq hw' ha' hb']
    obtain ⟨r, hr, hiff⟩ := connected_loop_ne g'.edges hab (g'.vertices[b]).edge_ids
      (g'.vertices[a]).edge_ids
    rw [hr, hiff.mpr ⟨_, hma, hmb⟩]
  have c2 : g'.are_vertices_connected b a = .ok true := by
    rw [are_vertices_connected_eq hw' hb' ha']
    obtain ⟨r, hr, hiff⟩ := connected_loop_ne g'.edges (Ne.symm hab) (g'.vertices[a]).edge_ids
      (g'.vertices[b]).edge_ids
    rw [hr, hiff.mpr ⟨_, hmb, hma⟩]
  refine ⟨g', hg', c1, c2, ?_, ?_⟩
  · unfold Graph.insert_edge; rw [c1]
  · unfold Graph.insert_edge; rw [c2]

theorem insert_edge_connects_witness :
    ∃ g', twoVertices.insert_edge 0 1 = .ok g' ∧
      g'.are_vertices_connected 0 1 = .ok true ∧
      g'.are_vertices_connected 1 0 = .ok true ∧
      g'.insert_edge 0 1 = .error .assertion_failed ∧
      g'.insert_edge 1 0 = .error .assertion_failed :=
  insert_edge_connects twoVertices 0 1 (wellFormed_of_reachable reachable_twoVertices)
    (by decide) (by decide) (by decide) (by decide)

/-- C6: in a well-formed state of the graph of graph.cpp, for existing vertices
`a` and `b`, `are_vertices_connected(a, b)` returns a value; when `a ≠ b` the
value is true exactly when some edge identity occurs in the incident-edge
lists of both vertices, and when `a = b` it is true exactly when the
incident-edge list of `a` holds the identity of an edge whose source equals its
destination. -/
theorem are_vertices_connected_iff (g : Graph) (a b : Nat) (va vb : Vertex)
    (hw : WellFormed g) (ha : g.vertices[a]? = some va) (hb : g.vertices[b]? = some vb) :
    ∃ r, g.are_vertices_connected a b = .ok r ∧
      (a ≠ b → (r = true ↔ ∃ k, k ∈ va.edge_ids ∧ k ∈ vb.edge_ids)) ∧
      (a = b → (r = true ↔
        ∃ k e, k ∈ va.edge_ids ∧ g.edges[k]? = some e ∧ e.source = e.destination)) := by
  rw [are_vertices_connected_eq hw ha hb]
  by_cases hab : a = b
  · subst hab
    obtain ⟨r, hr, hiff⟩ := connected_loop_self g.edges a vb.edge_ids va.edge_ids
      (hw.listed a va ha)
    exact ⟨r, hr, fun hne => absurd rfl hne, fun _ => hiff⟩
  · obtain ⟨r, hr, hiff⟩ := connected_loop_ne g.edges hab vb.edge_ids va.edge_ids
    exact ⟨r, hr, fun _ => hiff, fun h => absurd h hab⟩

theorem are_vertices_connected_iff_witness :
    ∃ r, sampleState.are_vertices_connected 1 2 = .ok r ∧
      (1 ≠ 2 → (r = true ↔ ∃ k, k ∈ [0, 2] ∧ k ∈ [1, 2])) ∧
      (1 = 2 → (r = true ↔
        ∃ k e, k ∈ [0, 2] ∧ sampleState.edges[k]? = some e ∧ e.source = e.destination)) :=
  are_vertices_connected_iff sampleState 1 2 ⟨1, 1, [0, 2]⟩ ⟨2, 1, [1, 2]⟩
    (wellFormed_of_reachable reachable_sampleState) (by decide) (by decide)

/-- C10 as stated fails: after two `insert_vertex` calls vertex 1 has depth
field 0 but bucket 0 is the root alone; and after a further `insert_edge(1, 0)`
(an edge towards the root) bucket 0 still lists the root, whose depth field is
now 1. -/
theorem depth_index_not_exact :
    (Reachable twoVertices ∧ ¬ DepthIndexExact twoVertices) ∧
    (Reachable backwardState ∧ ¬ DepthIndexExact backwardState ∧
      ¬ AttachedIndex backwardState) := by
  refine ⟨⟨reachable_twoVertices, ?_⟩, reachable_backwardState, ?_, ?_⟩
  · intro h
    have h1 := (h 0 [0] (by decide)).2.1 1
    have h2 : (1 : Nat) ∈ [0] := h1.mpr ⟨⟨1, 0, []⟩, by decide, rfl⟩
    simp at h2
  · intro h
    have h1 := (h 0 [0] (by decide)).2.1 0
    obtain ⟨vx, hvx, hd⟩ := h1.mp (by simp)
    have : vx = ⟨0, 1, [0]⟩ := by
      have h3 : backwardState.vertices[0]? = some ⟨0, 1, [0]⟩ := by decide
      rw [h3] at hvx
      cases hvx
      rfl
    subst this
    simp at hd
  · intro h
    have h1 := (h.1 0 [0] (by decide)).2.1 0
    obtain ⟨vx, hvx, hd, _⟩ := h1.mp (by simp)
    have : vx = ⟨0, 1, [0]⟩ := by
      have h3 : backwardState.vertices[0]? = some ⟨0, 1, [0]⟩ := by decide
      rw [h3] at hvx
      cases hvx
      rfl
    subst this
    simp at hd

/-- C10 (amended): in every state reached from the empty graph by
`insert_vertex` calls and successful `insert_edge(a, b)` calls that attach
forward (when one of the two vertices has no incident edge yet, that vertex is
the destination `b`, it is not the root, and `a` is the root or has an incident
edge), the bucket of each depth `d` lists exactly the vertices of depth `d` that
are the root or have an incident edge, each once; bucket 0 is the root alone;
each such vertex is in the bucket of its depth; and a vertex without incident
edge other than the root has the initial depth 0 and is in no bucket. -/
theorem forwardReachable_attachedIndex (g : Graph) (h : ForwardReachable g) :
    AttachedIndex g :=
  (forwardReachable_inv h).2.attachedIndex

theorem forwardReachable_attachedIndex_witness : AttachedIndex sampleState :=
  forwardReachable_attachedIndex sampleState forwardReachable_sampleState

/-- C7 (code defect): for every state of the graph of graph.cpp, the query
`get_vertices_in_depth(depth() + 1)` does not fail the validity assertion:
`is_depth_valid` lets `depth == depth_map.size()` pass its bound check and reads
the bucket one past the end of the depth index. -/
theorem get_vertices_in_depth_past_end (g : Graph) :
    is_depth_valid (g.depth + 1) g.depth_map = .error .out_of_range ∧
    g.get_vertices_in_depth (g.depth + 1) = .error .out_of_range := by
  have h1 : is_depth_valid (g.depth + 1) g.depth_map = .error .out_of_range := by
    unfold is_depth_valid Graph.depth
    have hc : ¬ (((g.depth_map.length : Int) - 1 + 1 < 0) ∨
        ((g.depth_map.length : Int) - 1 + 1 > (g.depth_map.length : Int))) := by omega
    simp only [hc, if_false]
    have ht : ((g.depth_map.length : Int) - 1 + 1).toNat = g.depth_map.length := by omega
    rw [ht]
    simp
  refine ⟨h1, ?_⟩
  unfold Graph.get_vertices_in_depth
  rw [h1]

/-- C9 (code defect): on the single-vertex graph (the root, no incident edge
yet) `insert_edge(0, 0)` passes the not-connected check, derives the colour
Gray instead of Green, and then trips the "Edge already exists in vertex!"
assertion when it records the edge identity in the root a second time. -/
theorem insert_edge_loop_on_fresh_root :
    Graph.empty.insert_vertex = .ok (0, oneVertex) ∧
    oneVertex.are_vertices_connected 0 0 = .ok false ∧
    oneVertex.calculate_color_for_edge ⟨0, 0, []⟩ ⟨0, 0, []⟩ = .ok Color.Gray ∧
    oneVertex.insert_edge 0 0 = .error .assertion_failed := by
  decide

end GraphCpp

namespace MainCpp

/-- C8 (code defect): `generate_green_edges` puts the Loop edge on the creator
of the vertex whose draw succeeded, not on that vertex.  On the graph of a root
and its child: when only the child's draw reaches 90 the root gets the Loop edge
and the child none; when both draws reach 90 the root gets two Loop edges. -/
theorem generate_green_edges_loops_on_creator :
    generate_green_edges lowSecondRng rootAndChild =
      .ok { graph := { edges := [⟨0, Color.GRAY, 0, 1⟩, ⟨1, Color.GREEN, 0, 0⟩],
                       vertices := [⟨[0, 1], 0, 0, 0⟩, ⟨[0], 0, 1, 1⟩],
                       max_depth := 1, new_vertices_num := 1 },
            probs := 3, picks := 0 } ∧
    generate_green_edges highRng rootAndChild =
      .ok { graph := { edges := [⟨0, Color.GRAY, 0, 1⟩, ⟨1, Color.GREEN, 0, 0⟩,
                                 ⟨2, Color.GREEN, 0, 0⟩],
                       vertices := [⟨[0, 1, 2], 0, 0, 0⟩, ⟨[0], 0, 1, 1⟩],
                       max_depth := 1, new_vertices_num := 1 },
            probs := 3, picks := 0 } ∧
    generate_vertices_and_gray_edges exactOps highRng 2 ⟨emptyGraph 1 1, 0, 0⟩ =
      .ok rootAndChild := by
  decide

end MainCpp

namespace MainCpp

/-- C12 as stated fails for the root: on the graph holding only the root, built
with `new_vertices_num = 5`, `created_by_vertex(0)` returns 5 while one vertex
(the root itself) has creator 0; and on the graph `generateGraph(2, 2)` returns
for `sampleRng` it returns 2 while three vertices have creator 0. -/
theorem created_by_vertex_root_not_count :
    (emptyGraph 3 5).insert_vertex 0 0 0 = .ok ⟨[], [⟨[], 0, 0, 0⟩], 3, 5⟩ ∧
    (⟨[], [⟨[], 0, 0, 0⟩], 3, 5⟩ : Graph).created_by_vertex 0 = 5 ∧
    (⟨[], [⟨[], 0, 0, 0⟩], 3, 5⟩ : Graph).creators.count 0 = 1 ∧
    generateGraph exactOps sampleRng 5 2 2 = .ok sampleGraph ∧
    sampleGraph.created_by_vertex 0 = 2 ∧ sampleGraph.creators.count 0 = 3 := by
  refine ⟨by decide, by decide, by decide, by decide, by decide, by decide⟩

/-- C12 (amended): for every graph and every vertex identity `id` other than 0,
`created_by_vertex(id)` returns the number of vertices whose creator equals
`id`; for `id = 0` it returns the parameter `new_vertices_num` of the graph
without counting. -/
theorem created_by_vertex_spec (g : Graph) (id : Nat) :
    (id ≠ 0 → g.created_by_vertex id = (g.creators.count id : Int)) ∧
    g.created_by_vertex 0 = g.new_vertices_num := by
  refine ⟨?_, by simp [Graph.created_by_vertex]⟩
  intro hid
  unfold Graph.created_by_vertex Graph.creators
  rw [if_neg hid, List.count, List.countP_map, List.countP_eq_length_filter]
  rfl

/-- C19: for every graph with at least one vertex, `Graph::to_JSON` returns the
opening text, the renderings of the vertices in storage order separated by
`",\n"`, the text closing the vertices array and opening the edges array, the
renderings of the edges in storage order separated by `",\n"` and, when there
is an edge, followed by a line break, and the closing text. -/
theorem to_JSON_layout (g : Graph) (h : g.vertices ≠ []) :
    g.to_JSON =
      "\x7b\n\"vertices\": [\n" ++ ",\n".intercalate (g.vertices.map Vertex.to_JSON) ++
      "\n  ],\n\"edges\": [\n" ++ ",\n".intercalate (g.edges.map Edge.to_JSON) ++
      (if g.edges.isEmpty then "" else "\n") ++ "  ]\n\x7d\n" := by
  unfold Graph.to_JSON
  simp only
  rw [edges_loop_eq, vertices_loop_eq _ _ h]
  have hlit : "\n  ],\n" ++ "\"edges\": [\n" = "\n  ],\n\"edges\": [\n" := by decide
  rw [← hlit]
  simp [String.append_assoc]

theorem to_JSON_layout_witness :
    rootAndChild.graph.vertices ≠ [] ∧
    rootAndChild.graph.to_JSON =
      "\x7b\n\"vertices\": [\n" ++
      ",\n".intercalate (rootAndChild.graph.vertices.map Vertex.to_JSON) ++
      "\n  ],\n\"edges\": [\n" ++ ",\n".intercalate (rootAndChild.graph.edges.map Edge.to_JSON) ++
      (if rootAndChild.graph.edges.isEmpty then "" else "\n") ++ "  ]\n\x7d\n" :=
  ⟨by decide, to_JSON_layout rootAndChild.graph (by decide)⟩

end MainCpp

/-- C20: in main.cpp and in graph.cpp alike, `Vertex::to_JSON` renders the
identity, the incident edge identities in stored (insertion) order separated by
`", "` between square brackets, and the depth; `Edge::to_JSON` renders the
identity, the source and the destination in that order, and the colour name;
the colour names are gray, green, blue, yellow and red (and unknown in
graph.cpp), different colours having different names; and numbers are
rendered by their decimal digits. -/
theorem to_JSON_elements :
    (∀ v : MainCpp.Vertex, v.to_JSON =
      "\t\x7b \"id\": " ++ to_string v.id ++ ", \"edge_ids\": [" ++
        ", ".intercalate (v.edge_ids.map to_string) ++ "], \"depth\": " ++
        to_string v.depth ++ "\x7d") ∧
    (∀ e : MainCpp.Edge, e.to_JSON =
      "\t\x7b \"id\": " ++ to_string e.id ++ ", \"vertex_ids\": [" ++
        to_string e.source ++ ", " ++ to_string e.destination ++ "], \"color\": \"" ++
        MainCpp.Edge.color_to_string e.color ++ "\" \x7d") ∧
    (∀ v : GraphCpp.Vertex, v.to_JSON =
      "\t\x7b \"id\": " ++ to_string v.id ++ ", \"edge_ids\": [" ++
        ", ".intercalate (v.edge_ids.map to_string) ++ "], \"depth\": " ++
        to_string v.depth ++ "\x7d") ∧
    (∀ e : GraphCpp.Edge, e.to_JSON =
      "\t\x7b \"id\": " ++ to_string e.id ++ ", \"vertex_ids\": [" ++
        to_string e.source ++ ", " ++ to_string e.destination ++ "], \"color\": \"" ++
        GraphCpp.color_to_string e.color ++ "\" \x7d") ∧
    (MainCpp.Edge.color_to_string MainCpp.Color.GRAY = "gray" ∧
      MainCpp.Edge.color_to_string MainCpp.Color.GREEN = "green" ∧
      MainCpp.Edge.color_to_string MainCpp.Color.BLUE = "blue" ∧
      MainCpp.Edge.color_to_string MainCpp.Color.YELLOW = "yellow" ∧
      MainCpp.Edge.color_to_string MainCpp.Color.RED = "red" ∧
      Function.Injective MainCpp.Edge.color_to_string) ∧
    (GraphCpp.color_to_string GraphCpp.Color.Gray = "gray" ∧
      GraphCpp.color_to_string GraphCpp.Color.Green = "green" ∧
      GraphCpp.color_to_string GraphCpp.Color.Blue = "blue" ∧
      GraphCpp.color_to_string GraphCpp.Color.Yellow = "yellow" ∧
      GraphCpp.color_to_string GraphCpp.Color.Red = "red" ∧
      GraphCpp.color_to_string GraphCpp.Color.Unknown = "unknown" ∧
      Function.Injective GraphCpp.color_to_string) ∧
    (∀ n : Nat, to_string n = String.mk (Nat.toDigits 10 n)) ∧
    to_string 0 = "0" ∧ to_string 1207 = "1207" :=
  ⟨MainCpp.vertex_to_JSON_eq, MainCpp.edge_to_JSON_eq, GraphCpp.graph_vertex_to_JSON_eq,
    GraphCpp.graph_edge_to_JSON_eq,
    ⟨rfl, rfl, rfl, rfl, rfl, MainCpp.color_to_string_injective⟩,
    ⟨rfl, rfl, rfl, rfl, rfl, rfl, GraphCpp.graph_color_to_string_injective⟩,
    fun _ => rfl, by decide, by decide⟩

namespace MainCpp

/-- C11: for every `maxDepth ≥ 0` (in particular `≥ 1`), every `branchFactor`
and every sequence of draws, `generate_vertices_and_gray_edges` returns, and
then `get_max_depth()` is the depth of some vertex, no vertex is deeper, it
is at most the requested `maxDepth`, and it equals the requested `maxDepth`
exactly when some vertex has that depth. -/
theorem tree_pass_max_depth (fl : FloatOps) (rng : Rng) (fuel : Nat) (md bf : Int)
    (hmd : 0 ≤ md) (hfuel : treeFuel md bf ≤ fuel) :
    ∃ gen1, generate_vertices_and_gray_edges fl rng fuel ⟨emptyGraph md bf, 0, 0⟩ = .ok gen1 ∧
      (∃ v ∈ gen1.graph.vertices, (v.depth : Int) = gen1.graph.get_max_depth) ∧
      (∀ v ∈ gen1.graph.vertices, (v.depth : Int) ≤ gen1.graph.get_max_depth) ∧
      gen1.graph.get_max_depth ≤ md ∧
      (gen1.graph.get_max_depth = md ↔ ∃ v ∈ gen1.graph.vertices, (v.depth : Int) = md) := by
  obtain ⟨gen1, h⟩ := tree_pass_total fl rng fuel md bf hfuel
  obtain ⟨⟨v, hv, hvd⟩, hall⟩ := tree_pass_depth_attained h
  obtain ⟨g0, s, d, h0, hs, hRD, hd, hgen⟩ := tree_pass_final_state h
  have hB := tree_depth_loop_bound hfuel h0 hs
  have hle : ∀ w ∈ gen1.graph.vertices, (w.depth : Int) ≤ md := by
    intro w hw
    have hw1 : w ∈ s.gen.graph.vertices := by
      rw [hgen] at hw
      exact hw
    have h1 := hRD.2.bound _ (List.mem_map_of_mem (fun v => v.depth) hw1)
    have h2 := hB.within
    have h3 : (w.depth : Int) ≤ (s.depth : Int) := by exact_mod_cast h1
    have h4 : max md 0 = md := max_eq_left hmd
    omega
  have hmax : gen1.graph.get_max_depth ≤ md := by
    show gen1.graph.max_depth ≤ md
    rw [← hvd]
    exact hle v hv
  refine ⟨gen1, h, ⟨v, hv, hvd⟩, hall, hmax, ?_, ?_⟩
  · intro heq
    exact ⟨v, hv, by rw [hvd]; exact heq⟩
  · rintro ⟨w, hw, hwd⟩
    have := hall w hw
    show gen1.graph.max_depth = md
    have hmax2 : gen1.graph.max_depth ≤ md := hmax
    omega

theorem tree_pass_max_depth_witness :
    (0 : Int) ≤ 1 ∧ treeFuel 1 1 ≤ 2 ∧
    ∃ gen1, generate_vertices_and_gray_edges exactOps highRng 2 ⟨emptyGraph 1 1, 0, 0⟩ =
        .ok gen1 ∧
      (∃ v ∈ gen1.graph.vertices, (v.depth : Int) = gen1.graph.get_max_depth) ∧
      (∀ v ∈ gen1.graph.vertices, (v.depth : Int) ≤ gen1.graph.get_max_depth) ∧
      gen1.graph.get_max_depth ≤ 1 ∧
      (gen1.graph.get_max_depth = 1 ↔ ∃ v ∈ gen1.graph.vertices, (v.depth : Int) = 1) :=
  ⟨by decide, by decide,
    tree_pass_max_depth exactOps highRng 2 1 1 (by decide) (by decide)⟩

/-- C15: in every graph returned by `generateGraph`, every edge joins two stored
vertices and its colour fits them: GRAY and YELLOW edges go one level down,
GRAY from the creator of the destination and YELLOW from another vertex; RED
edges go two levels down; BLUE edges join a vertex to the next identity on the
same level; GREEN edges are loops.  No other colour fits the same edge. -/
theorem generateGraph_category_fits (fl : FloatOps) (rng : Rng) (fuel : Nat) (md bf : Int)
    (g : Graph) (h : generateGraph fl rng fuel md bf = .ok g) :
    ∀ e ∈ g.edges, ∃ vs vt,
      g.vertices[e.source]? = some vs ∧ g.vertices[e.destination]? = some vt ∧
      colorFits e vs.depth vt.depth vt.source_id ∧
      ∀ c : Color, colorFits { e with color := c } vs.depth vt.depth vt.source_id →
        c = e.color := by
  obtain ⟨gen, hgen, rfl⟩ := generateGraph_gen h
  obtain ⟨gt, hI⟩ := generateGen_passInv hgen
  intro e he
  obtain ⟨dp, dc, cc, hdp, hdc, hcc, hfit⟩ := hI.geometry e he
  obtain ⟨vs, hvs, hvsd⟩ := vertex_of_depths hdp
  obtain ⟨vt, hvt, hvtd⟩ := vertex_of_depths hdc
  have hcc2 := creators_get hvt
  rw [hcc] at hcc2
  simp only [Option.some.injEq] at hcc2
  subst hvsd hvtd hcc2
  refine ⟨vs, vt, hvs, hvt, hfit, ?_⟩
  intro c hc
  have hsame : e.source = e.destination → vs = vt := by
    intro heq
    rw [heq, hvt] at hvs
    exact (Option.some.inj hvs).symm
  cases e with
  | mk id color source destination =>
    simp only at hsame hvs hvt
    cases c <;> cases color <;> simp only [colorFits] at hfit hc <;>
      first
      | rfl
      | (exfalso; omega)
      | (exfalso; have := hsame (by omega); subst this; omega)

theorem generateGraph_category_fits_witness :
    generateGraph exactOps sampleRng 5 2 2 = .ok sampleGraph ∧
    ∀ e ∈ sampleGraph.edges, ∃ vs vt,
      sampleGraph.vertices[e.source]? = some vs ∧
      sampleGraph.vertices[e.destination]? = some vt ∧
      colorFits e vs.depth vt.depth vt.source_id ∧
      ∀ c : Color, colorFits { e with color := c } vs.depth vt.depth vt.source_id →
        c = e.color :=
  ⟨by decide, generateGraph_category_fits exactOps sampleRng 5 2 2 sampleGraph (by decide)⟩

end MainCpp

namespace MainCpp

/-- C13: for every `maxDepth ≥ 1` and every sequence of draws,
`generateGraph(maxDepth, 0)` returns; the graph has the root (identity 0,
depth 0, its own creator) as its only vertex and `max_depth` 0; it has no edge
when the first draw is below 90 and otherwise the single Loop (GREEN) edge 0 on
the root. -/
theorem generateGraph_no_branching (fl : FloatOps) (rng : Rng) (fuel : Nat) (md : Int)
    (hmd : 1 ≤ md) (hfuel : treeFuel md 0 ≤ fuel) :
    generateGraph fl rng fuel md 0 =
      .ok (if rng.prob 0 ≥ 90 then ⟨[⟨0, Color.GREEN, 0, 0⟩], [⟨[0], 0, 0, 0⟩], 0, 0⟩
        else ⟨[], [⟨[], 0, 0, 0⟩], 0, 0⟩) := by
  have h1 := tree_pass_no_branching fl rng fuel md hmd hfuel
  have h1b : generate_vertices_and_gray_edges fl rng fuel ⟨⟨[], [], md, 0⟩, 0, 0⟩ =
      .ok ⟨⟨[], [⟨[], 0, 0, 0⟩], 0, 0⟩, 0, 0⟩ := h1
  unfold generateGraph generateGen
  simp only [h1b]
  by_cases hp : rng.prob 0 ≥ 90
  · have h2 : generate_green_edges rng ⟨⟨[], [⟨[], 0, 0, 0⟩], 0, 0⟩, 0, 0⟩ =
        .ok ⟨⟨[⟨0, Color.GREEN, 0, 0⟩], [⟨[0], 0, 0, 0⟩], 0, 0⟩, 1, 0⟩ := by
      simp only [generate_green_edges, green_loop, hp, if_true]
      rfl
    have h3 : generate_blue_edges rng fuel
        ⟨⟨[⟨0, Color.GREEN, 0, 0⟩], [⟨[0], 0, 0, 0⟩], 0, 0⟩, 1, 0⟩ =
        .ok ⟨⟨[⟨0, Color.GREEN, 0, 0⟩], [⟨[0], 0, 0, 0⟩], 0, 0⟩, 1, 0⟩ := by
      unfold generate_blue_edges
      rw [iterate_done _ _ _ _ (by decide)]
    have h4 : generate_yellow_edges fl rng fuel
        ⟨⟨[⟨0, Color.GREEN, 0, 0⟩], [⟨[0], 0, 0, 0⟩], 0, 0⟩, 1, 0⟩ =
        .ok ⟨⟨[⟨0, Color.GREEN, 0, 0⟩], [⟨[0], 0, 0, 0⟩], 0, 0⟩, 1, 0⟩ := by
      unfold generate_yellow_edges
      rw [iterate_done _ _ _ _ (by decide)]
    have h5 : generate_red_edges rng fuel
        ⟨⟨[⟨0, Color.GREEN, 0, 0⟩], [⟨[0], 0, 0, 0⟩], 0, 0⟩, 1, 0⟩ =
        .ok ⟨⟨[⟨0, Color.GREEN, 0, 0⟩], [⟨[0], 0, 0, 0⟩], 0, 0⟩, 1, 0⟩ := by
      unfold generate_red_edges
      rw [iterate_done _ _ _ _ (by decide)]
    simp only [h2, h3, h4, h5, hp, if_true]
  · have h2 : generate_green_edges rng ⟨⟨[], [⟨[], 0, 0, 0⟩], 0, 0⟩, 0, 0⟩ =
        .ok ⟨⟨[], [⟨[], 0, 0, 0⟩], 0, 0⟩, 1, 0⟩ := by
      simp only [generate_green_edges, green_loop, hp, if_false]
    have h3 : generate_blue_edges rng fuel ⟨⟨[], [⟨[], 0, 0, 0⟩], 0, 0⟩, 1, 0⟩ =
        .ok ⟨⟨[], [⟨[], 0, 0, 0⟩], 0, 0⟩, 1, 0⟩ := by
      unfold generate_blue_edges
      rw [iterate_done _ _ _ _ (by decide)]
    have h4 : generate_yellow_edges fl rng fuel ⟨⟨[], [⟨[], 0, 0, 0⟩], 0, 0⟩, 1, 0⟩ =
        .ok ⟨⟨[], [⟨[], 0, 0, 0⟩], 0, 0⟩, 1, 0⟩ := by
      unfold generate_yellow_edges
      rw [iterate_done _ _ _ _ (by decide)]
    have h5 : generate_red_edges rng fuel ⟨⟨[], [⟨[], 0, 0, 0⟩], 0, 0⟩, 1, 0⟩ =
        .ok ⟨⟨[], [⟨[], 0, 0, 0⟩], 0, 0⟩, 1, 0⟩ := by
      unfold generate_red_edges
      rw [iterate_done _ _ _ _ (by decide)]
    simp only [h2, h3, h4, h5, hp, if_false]

theorem generateGraph_no_branching_witness :
    (1 : Int) ≤ 5 ∧ treeFuel 5 0 ≤ 5 ∧
    generateGraph exactOps sampleRng 5 5 0 =
      .ok (if sampleRng.prob 0 ≥ 90 then ⟨[⟨0, Color.GREEN, 0, 0⟩], [⟨[0], 0, 0, 0⟩], 0, 0⟩
        else ⟨[], [⟨[], 0, 0, 0⟩], 0, 0⟩) :=
  ⟨by decide, by decide,
    generateGraph_no_branching exactOps sampleRng 5 5 (by decide) (by decide)⟩

end MainCpp

namespace MainCpp

/-- C14: for every sequence of draws whose first value is not negative (draws
lie in `[0, 100)`), `generateGraph(1, 1)` returns a graph with exactly two
vertices, the root (identity 0, depth 0) and one child (identity 1, depth 1),
exactly one Tree (GRAY) edge, from the root to the child, and no Lateral
(BLUE), ForwardSkip1 (YELLOW) or ForwardSkip2 (RED) edge. -/
theorem generateGraph_one_one (fl : FloatOps) (rng : Rng) (fuel : Nat)
    (h0 : 0 ≤ rng.prob 0) (hfuel : treeFuel 1 1 ≤ fuel) :
    ∃ g, generateGraph fl rng fuel 1 1 = .ok g ∧
      g.vertices.map (fun v => (v.id, v.depth)) = [(0, 0), (1, 1)] ∧
      g.edges.filter (fun e => decide (e.color = Color.GRAY)) = [⟨0, Color.GRAY, 0, 1⟩] ∧
      g.edges.filter (fun e => decide (e.color = Color.BLUE)) = [] ∧
      g.edges.filter (fun e => decide (e.color = Color.YELLOW)) = [] ∧
      g.edges.filter (fun e => decide (e.color = Color.RED)) = [] := by
  have hf : treeFuel 1 1 = 1 := by decide
  obtain ⟨k, rfl⟩ : ∃ k, fuel = k + 1 := ⟨fuel - 1, by omega⟩
  have h1 := tree_pass_one_one fl rng k h0
  have h1b : generate_vertices_and_gray_edges fl rng (k + 1) ⟨⟨[], [], 1, 1⟩, 0, 0⟩ =
      .ok rootAndChild := h1
  obtain ⟨gen2, h2, hv, hm, hgray, hblue, hyellow, hred⟩ := green_pass_one_one rng
  obtain ⟨h3, h4, h5⟩ := skip_passes_one_one fl rng k gen2 hv hm
  refine ⟨gen2.graph, ?_, hv, hgray, hblue, hyellow, hred⟩
  unfold generateGraph generateGen
  simp only [h1b, h2, h3, h4, h5]

theorem generateGraph_one_one_witness :
    (0 : Rat) ≤ sampleRng.prob 0 ∧ treeFuel 1 1 ≤ 3 ∧
    ∃ g, generateGraph exactOps sampleRng 3 1 1 = .ok g ∧
      g.vertices.map (fun v => (v.id, v.depth)) = [(0, 0), (1, 1)] ∧
      g.edges.filter (fun e => decide (e.color = Color.GRAY)) = [⟨0, Color.GRAY, 0, 1⟩] ∧
      g.edges.filter (fun e => decide (e.color = Color.BLUE)) = [] ∧
      g.edges.filter (fun e => decide (e.color = Color.YELLOW)) = [] ∧
      g.edges.filter (fun e => decide (e.color = Color.RED)) = [] :=
  ⟨by decide, by decide, generateGraph_one_one exactOps sampleRng 3 (by decide) (by decide)⟩

end MainCpp

namespace MainCpp

/-- C18: on the graph left by the Tree and Loop passes, `generate_blue_edges`
returns (given fuel for one iteration per consecutive pair); it consumes one
draw for each consecutive identity pair `(j, j + 1)` of equal depth, in order,
and no pick; a Lateral (BLUE) edge joins `j` and `j + 1` exactly when the pair
has equal depth and its draw is at least 75; every BLUE edge joins such a pair,
and no two BLUE edges join the same pair. -/
theorem generate_blue_edges_draws (fl : FloatOps) (rng : Rng) (fuel : Nat) (md bf : Int)
    (s1 s2 : Gen)
    (h1 : generate_vertices_and_gray_edges fl rng fuel ⟨emptyGraph md bf, 0, 0⟩ = .ok s1)
    (h2 : generate_green_edges rng s1 = .ok s2)
    (hfuel : s2.graph.vertices.length - 1 ≤ fuel) :
    ∃ s3, generate_blue_edges rng fuel s2 = .ok s3 ∧
      s3.probs = s2.probs + s2.graph.lateralPairsBelow (s2.graph.vertices.length - 1) ∧
      s3.picks = s2.picks ∧
      (∀ j : Nat,
        (∃ e ∈ s3.graph.edges, e.color = Color.BLUE ∧ e.source = j ∧ e.destination = j + 1) ↔
          (j + 1 < s2.graph.vertices.length ∧ s2.graph.sameDepth j = true ∧
            rng.prob (s2.probs + s2.graph.lateralPairsBelow j) ≥ 75)) ∧
      (∀ e ∈ s3.graph.edges, e.color = Color.BLUE →
        e.destination = e.source + 1 ∧ s2.graph.sameDepth e.source = true) ∧
      (∀ e1 ∈ s3.graph.edges, ∀ e2 ∈ s3.graph.edges, e1.color = Color.BLUE →
        e2.color = Color.BLUE → e1.source = e2.source → e1 = e2) := by
  have hI2 := green_pass_inv (by simp) (passInv_after_tree h1) h2
  obtain ⟨s3, h3⟩ : ∃ s3, generate_blue_edges rng fuel s2 = .ok s3 := blue_pass_total hI2 hfuel
  have hI3 := blue_pass_inv hI2 h3
  have hno : ∀ e ∈ s2.graph.edges, e.color ≠ Color.BLUE := by
    intro e he hc
    have := hI2.colors e he
    rw [hc] at this
    simp at this
  have hD := blue_pass_draws hno h3
  have hfit : ∀ e ∈ s3.graph.edges, e.color = Color.BLUE →
      e.destination = e.source + 1 ∧ s2.graph.sameDepth e.source = true := by
    intro e he hc
    obtain ⟨dp, dc, cc, hdp, hdc, _, hfit⟩ := hI3.geometry e he
    simp only [colorFits, hc] at hfit
    have hdep : s3.graph.depths = s2.graph.depths := hD.depths
    rw [hdep] at hdp hdc
    rw [hfit.2] at hdc
    exact ⟨hfit.2, (sameDepth_iff hdp hdc).mpr hfit.1⟩
  refine ⟨s3, h3, hD.probs, hD.picks, ?_, hfit, ?_⟩
  · intro j
    rw [hD.blue j]
    constructor
    · rintro ⟨hj, hs, hp⟩
      have hj2 : j < s2.graph.vertices.length - 1 := hj
      exact ⟨by omega, hs, hp⟩
    · rintro ⟨hj, hs, hp⟩
      refine ⟨?_, hs, hp⟩
      show j < s2.graph.vertices.length - 1
      omega
  · intro e1 he1 e2 he2 hc1 hc2 hsrc
    have hd1 := (hfit e1 he1 hc1).1
    have hd2 := (hfit e2 he2 hc2).1
    exact hI3.wellFormed.noParallel e1 he1 e2 he2 (by rw [hc1]; decide) (by rw [hc2]; decide)
      (Or.inl ⟨hsrc, by rw [hd1, hd2, hsrc]⟩)

theorem generate_blue_edges_draws_witness :
    generate_vertices_and_gray_edges exactOps sampleRng 5 ⟨emptyGraph 2 2, 0, 0⟩ =
      .ok sampleTree ∧
    generate_green_edges sampleRng sampleTree = .ok sampleGreen ∧
    sampleGreen.graph.vertices.length - 1 ≤ 5 ∧
    ∃ s3, generate_blue_edges sampleRng 5 sampleGreen = .ok s3 ∧
      s3.probs = sampleGreen.probs +
        sampleGreen.graph.lateralPairsBelow (sampleGreen.graph.vertices.length - 1) ∧
      s3.picks = sampleGreen.picks ∧
      (∀ j : Nat,
        (∃ e ∈ s3.graph.edges, e.color = Color.BLUE ∧ e.source = j ∧ e.destination = j + 1) ↔
          (j + 1 < sampleGreen.graph.vertices.length ∧ sampleGreen.graph.sameDepth j = true ∧
            sampleRng.prob (sampleGreen.probs + sampleGreen.graph.lateralPairsBelow j) ≥ 75)) ∧
      (∀ e ∈ s3.graph.edges, e.color = Color.BLUE →
        e.destination = e.source + 1 ∧ sampleGreen.graph.sameDepth e.source = true) ∧
      (∀ e1 ∈ s3.graph.edges, ∀ e2 ∈ s3.graph.edges, e1.color = Color.BLUE →
        e2.color = Color.BLUE → e1.source = e2.source → e1 = e2) :=
  ⟨by decide, by decide, by decide,
    generate_blue_edges_draws exactOps sampleRng 5 2 2 sampleTree sampleGreen
      (by decide) (by decide) (by decide)⟩

end MainCpp

namespace MainCpp

/-- C16: when `generate_yellow_edges` returns on the graph left by the Tree,
Loop and Lateral passes, it has only appended ForwardSkip1 (YELLOW) edges, the
graph having none before; every YELLOW edge goes from a source of some depth
`d` with `1 ≤ d ≤ max_depth - 1` to a destination in the depth `d + 1` bucket
whose creator is not the source; no two YELLOW edges leave the same vertex; and
a vertex whose `created_by_vertex` count equals `vertices_count_in_depth` of the
next depth is the source of no YELLOW edge. -/
theorem generate_yellow_edges_spec (fl : FloatOps) (rng : Rng) (fuel : Nat) (md bf : Int)
    (s1 s2 s3 s4 : Gen)
    (h1 : generate_vertices_and_gray_edges fl rng fuel ⟨emptyGraph md bf, 0, 0⟩ = .ok s1)
    (h2 : generate_green_edges rng s1 = .ok s2)
    (h3 : generate_blue_edges rng fuel s2 = .ok s3)
    (h4 : generate_yellow_edges fl rng fuel s3 = .ok s4) :
    (∃ new, s4.graph.edges = s3.graph.edges ++ new ∧ ∀ e ∈ new, e.color = Color.YELLOW) ∧
    (∀ e ∈ s3.graph.edges, e.color ≠ Color.YELLOW) ∧
    (∀ e ∈ s4.graph.edges, e.color = Color.YELLOW →
      ∃ vs vt, s4.graph.vertices[e.source]? = some vs ∧
        s4.graph.vertices[e.destination]? = some vt ∧
        1 ≤ vs.depth ∧ (vs.depth : Int) ≤ s4.graph.get_max_depth - 1 ∧
        vt.depth = vs.depth + 1 ∧
        e.destination ∈ s4.graph.vertices_in_depth (vs.depth + 1) ∧
        vt.source_id ≠ e.source) ∧
    (∀ e1 ∈ s4.graph.edges, ∀ e2 ∈ s4.graph.edges, e1.color = Color.YELLOW →
      e2.color = Color.YELLOW → e1.source = e2.source → e1 = e2) ∧
    (∀ (i : Nat) (v : Vertex), s4.graph.vertices[i]? = some v →
      s4.graph.created_by_vertex i = (s4.graph.vertices_count_in_depth (v.depth + 1) : Int) →
      ∀ e ∈ s4.graph.edges, e.color = Color.YELLOW → e.source ≠ i) := by
  have hI3 := blue_pass_inv (green_pass_inv (by simp) (passInv_after_tree h1) h2) h3
  have hI4 := yellow_pass_inv hI3 h4
  have hS := yellow_pass_once hI3 h4
  have hw := hI4.wellFormed
  have hcore := hI4.treeCore
  have hfr := hI4.frozen
  have hno : ∀ e ∈ s3.graph.edges, e.color ≠ Color.YELLOW := by
    intro e he hc
    have := hI3.colors e he
    rw [hc] at this
    simp at this
  have hedge : ∀ e ∈ s4.graph.edges, e.color = Color.YELLOW →
      ∃ vs vt, s4.graph.vertices[e.source]? = some vs ∧
        s4.graph.vertices[e.destination]? = some vt ∧
        1 ≤ vs.depth ∧ (vs.depth : Int) ≤ s4.graph.get_max_depth - 1 ∧
        vt.depth = vs.depth + 1 ∧
        e.destination ∈ s4.graph.vertices_in_depth (vs.depth + 1) ∧
        vt.source_id ≠ e.source := by
    intro e he hc
    obtain ⟨dp, dc, cc, hdp, hdc, hcc, hfit⟩ := hI4.geometry e he
    simp only [colorFits, hc] at hfit
    obtain ⟨hdd, hcne⟩ := hfit
    subst hdd
    obtain ⟨vs, hvs, hvsd⟩ := vertex_of_depths hdp
    obtain ⟨vt, hvt, hvtd⟩ := vertex_of_depths hdc
    have hcc2 := creators_get hvt
    rw [hcc] at hcc2
    simp only [Option.some.injEq] at hcc2
    have hpos : 1 ≤ dp := by
      by_contra hlt
      have hz : dp = 0 := by omega
      subst hz
      have h0 := depth_zero_root hcore hdp
      have hc0 := creator_of_depth_one hcore hdc hcc
      omega
    have hmax : ((dp + 1 : Nat) : Int) ≤ s4.graph.max_depth := by
      have hmem : dp + 1 ∈ s1.graph.depths := by
        rw [← hfr.depths]
        exact List.getElem?_mem hdc
      obtain ⟨w, hw1, hw2⟩ := List.mem_map.mp hmem
      have := (tree_pass_depth_attained h1).2 w hw1
      rw [hfr.max_depth]
      rw [hw2] at this
      exact this
    refine ⟨vs, vt, hvs, hvt, by omega, ?_, by omega, ?_, ?_⟩
    · show (vs.depth : Int) ≤ s4.graph.max_depth - 1
      rw [hvsd]
      push_cast at hmax
      omega
    · rw [hvsd]
      exact (mem_vertices_in_depth hw).mpr hdc
    · rw [← hcc2]
      exact hcne
  refine ⟨hS.added, hno, hedge, hS.once, ?_⟩
  intro i v hv hcount e he hc hsrc
  obtain ⟨vs, vt, hvs, hvt, hpos, _, hvtd, _, hcne⟩ := hedge e he hc
  rw [hsrc, hv] at hvs
  simp only [Option.some.injEq] at hvs
  subst hvs
  have hi0 : i ≠ 0 := by
    intro h0
    subst h0
    have := depths_get hv
    rw [hcore.root] at this
    simp only [Option.some.injEq] at this
    omega
  have hall := created_all_of_count hcore hi0 (depths_get hv) hcount vt
    (List.getElem?_mem hvt) hvtd
  rw [hsrc] at hcne
  exact hcne hall

theorem generate_yellow_edges_spec_witness :
    generate_vertices_and_gray_edges exactOps sampleRng 5 ⟨emptyGraph 2 2, 0, 0⟩ =
      .ok sampleTree ∧
    generate_green_edges sampleRng sampleTree = .ok sampleGreen ∧
    generate_blue_edges sampleRng 5 sampleGreen = .ok sampleBlue ∧
    generate_yellow_edges exactOps sampleRng 5 sampleBlue = .ok sampleYellow ∧
    (∃ new, sampleYellow.graph.edges = sampleBlue.graph.edges ++ new ∧
      ∀ e ∈ new, e.color = Color.YELLOW) ∧
    (∀ e ∈ sampleBlue.graph.edges, e.color ≠ Color.YELLOW) ∧
    (∀ e ∈ sampleYellow.graph.edges, e.color = Color.YELLOW →
      ∃ vs vt, sampleYellow.graph.vertices[e.source]? = some vs ∧
        sampleYellow.graph.vertices[e.destination]? = some vt ∧
        1 ≤ vs.depth ∧ (vs.depth : Int) ≤ sampleYellow.graph.get_max_depth - 1 ∧
        vt.depth = vs.depth + 1 ∧
        e.destination ∈ sampleYellow.graph.vertices_in_depth (vs.depth + 1) ∧
        vt.source_id ≠ e.source) ∧
    (∀ e1 ∈ sampleYellow.graph.edges, ∀ e2 ∈ sampleYellow.graph.edges,
      e1.color = Color.YELLOW → e2.color = Color.YELLOW → e1.source = e2.source → e1 = e2) ∧
    (∀ (i : Nat) (v : Vertex), sampleYellow.graph.vertices[i]? = some v →
      sampleYellow.graph.created_by_vertex i =
        (sampleYellow.graph.vertices_count_in_depth (v.depth + 1) : Int) →
      ∀ e ∈ sampleYellow.graph.edges, e.color = Color.YELLOW → e.source ≠ i) :=
  ⟨by decide, by decide, by decide, by decide,
    generate_yellow_edges_spec exactOps sampleRng 5 2 2 sampleTree sampleGreen sampleBlue
      sampleYellow (by decide) (by decide) (by decide) (by decide)⟩

end MainCpp

namespace MainCpp

/-- C17 as stated fails: in `generateGraph(2, 2)` on `retryRng` the
Forward-Skip-2 pass starts with 15 draws consumed; the root is the only source
with a non-empty bucket two levels down (vertices 3 and 4); its first draw is
10, below 67, its second draw is 95, and the pass returns with two draws
consumed and the ForwardSkip2 (RED) edge from the root to vertex 4 inserted. -/
theorem red_pass_second_draw :
    generate_vertices_and_gray_edges exactOps retryRng 5 ⟨emptyGraph 2 2, 0, 0⟩ =
      .ok retryTree ∧
    generate_green_edges retryRng retryTree = .ok retryGreen ∧
    generate_blue_edges retryRng 5 retryGreen = .ok retryBlue ∧
    generate_yellow_edges exactOps retryRng 5 retryBlue = .ok retryYellow ∧
    retryYellow.graph.vertices_in_depth 0 = [0] ∧
    retryYellow.graph.vertices_in_depth 2 = [3, 4] ∧
    retryYellow.graph.vertices_in_depth 3 = [] ∧
    retryYellow.probs = 15 ∧ retryRng.prob 15 < 67 ∧ retryRng.prob 16 ≥ 67 ∧
    generate_red_edges retryRng 5 retryYellow = .ok retryRed ∧
    retryRed.probs = retryYellow.probs + 2 ∧
    retryRed.graph.edges = retryYellow.graph.edges ++ [⟨5, Color.RED, 0, 4⟩] := by
  refine ⟨by decide, by decide, by decide, by decide, by decide, by decide, by decide,
    by decide, by decide, by decide, by decide, by decide, by decide⟩

/-- C17 (amended): on the graph left by the first four passes,
`generate_red_edges` returns (given fuel for its loops) and the state it
returns is reached by giving exactly one turn to each source, the sources being
the vertices of every depth `d` below `max_depth`, taken depth by depth in
bucket order, each once.  A turn reads threshold draws one after another, at
most as many as the depth `d + 2` bucket holds vertices, and ends at the first
draw that is at least 67: then one pick is consumed and one ForwardSkip2 (RED)
edge from the source to the picked vertex of the depth `d + 2` bucket is
appended; when all these draws are below 67 (none is read when the bucket is
empty) the turn consumes them and changes nothing else. -/
theorem generate_red_edges_turns (fl : FloatOps) (rng : Rng) (fuel : Nat) (md bf : Int)
    (s1 s2 s3 s4 : Gen)
    (h1 : generate_vertices_and_gray_edges fl rng fuel ⟨emptyGraph md bf, 0, 0⟩ = .ok s1)
    (h2 : generate_green_edges rng s1 = .ok s2)
    (h3 : generate_blue_edges rng fuel s2 = .ok s3)
    (h4 : generate_yellow_edges fl rng fuel s3 = .ok s4)
    (hfuel : s4.graph.vertices.length ≤ fuel) (hdepth : s4.graph.max_depth.toNat ≤ fuel) :
    ∃ s5, generate_red_edges rng fuel s4 = .ok s5 ∧
      RedTurns rng s4.graph.red_sources s4 s5 ∧
      s4.graph.red_sources.Nodup ∧
      ∀ d source : Nat, (d, source) ∈ s4.graph.red_sources ↔
        ((d : Int) < s4.graph.get_max_depth ∧
          ∃ v, s4.graph.vertices[source]? = some v ∧ v.depth = d) := by
  have hI4 := yellow_pass_inv
    (blue_pass_inv (green_pass_inv (by simp) (passInv_after_tree h1) h2) h3) h4
  have hfr := hI4.frozen
  obtain ⟨hR, hm0⟩ := red_start hI4
  obtain ⟨hnd, hmem⟩ := red_sources_spec hI4.wellFormed
  obtain ⟨s, hrun, hturns⟩ := red_i_loop_turns rng s1.graph fuel
    (by rw [← hfr.vertices_length]; exact hfuel)
    s1.graph.max_depth.toNat fuel ⟨s4, 0, 0, 0, false⟩ hR hm0
    (by simp) (by rw [← hfr.max_depth]; exact hdepth)
  refine ⟨s.gen, ?_, ?_, hnd, hmem⟩
  · unfold generate_red_edges
    rw [hrun]
  · have hsrc : s4.graph.red_sources = (List.range' 0 s1.graph.max_depth.toNat).flatMap
        (fun d => (s1.graph.vertices_in_depth d).map (fun source => (d, source))) := by
      unfold Graph.red_sources
      rw [hfr.max_depth, List.range_eq_range']
      congr 1
      funext d
      rw [hfr.vertices_in_depth]
    rw [hsrc]
    exact hturns

theorem generate_red_edges_turns_witness :
    generate_vertices_and_gray_edges exactOps retryRng 5 ⟨emptyGraph 2 2, 0, 0⟩ =
      .ok retryTree ∧
    generate_green_edges retryRng retryTree = .ok retryGreen ∧
    generate_blue_edges retryRng 5 retryGreen = .ok retryBlue ∧
    generate_yellow_edges exactOps retryRng 5 retryBlue = .ok retryYellow ∧
    retryYellow.graph.vertices.length ≤ 5 ∧ retryYellow.graph.max_depth.toNat ≤ 5 ∧
    generate_red_edges retryRng 5 retryYellow = .ok retryRed ∧
    retryYellow.graph.red_sources = [(0, 0), (1, 1), (1, 2)] ∧
    RedTurns retryRng retryYellow.graph.red_sources retryYellow retryRed ∧
    retryYellow.graph.red_sources.Nodup ∧
    ∀ d source : Nat, (d, source) ∈ retryYellow.graph.red_sources ↔
      ((d : Int) < retryYellow.graph.get_max_depth ∧
        ∃ v, retryYellow.graph.vertices[source]? = some v ∧ v.depth = d) := by
  obtain ⟨s5, h5, hturns, hnd, hmem⟩ :=
    generate_red_edges_turns exactOps retryRng 5 2 2 retryTree retryGreen retryBlue
      retryYellow (by decide) (by decide) (by decide) (by decide) (by decide) (by decide)
  have hred : generate_red_edges retryRng 5 retryYellow = .ok retryRed := by decide
  rw [hred] at h5
  cases h5
  exact ⟨by decide, by decide, by decide, by decide, by decide, by decide, hred, by decide,
    hturns, hnd, hmem⟩

end MainCpp

namespace MainCpp

/-- C21: whatever graph it is started on (in particular the graph left by the
Tree pass and the passes before it), each of `generate_green_edges`,
`generate_blue_edges`, `generate_yellow_edges` and `generate_red_edges`, when
it returns, has only added edges: the number of vertices is unchanged; every
vertex keeps its identity, depth and creator, and its incident-edge list before
the pass is a prefix of its list after the pass; the edge collection before the
pass is a prefix of the edge collection after it, so every old edge keeps its
position, identity, endpoints and colour. -/
theorem passes_only_add_edges (fl : FloatOps) (rng : Rng) (fuel : Nat) (gen gen1 : Gen) :
    (generate_green_edges rng gen = .ok gen1 → OnlyAddsEdges gen.graph gen1.graph) ∧
    (generate_blue_edges rng fuel gen = .ok gen1 → OnlyAddsEdges gen.graph gen1.graph) ∧
    (generate_yellow_edges fl rng fuel gen = .ok gen1 → OnlyAddsEdges gen.graph gen1.graph) ∧
    (generate_red_edges rng fuel gen = .ok gen1 → OnlyAddsEdges gen.graph gen1.graph) :=
  ⟨fun h => onlyAddsEdges_edgeSteps (green_steps h),
    fun h => onlyAddsEdges_edgeSteps (blue_steps h),
    fun h => onlyAddsEdges_edgeSteps (yellow_steps h),
    fun h => onlyAddsEdges_edgeSteps (red_steps h)⟩

theorem passes_only_add_edges_witness :
    generate_vertices_and_gray_edges exactOps sampleRng 5 ⟨emptyGraph 2 2, 0, 0⟩ =
      .ok sampleTree ∧
    OnlyAddsEdges sampleTree.graph sampleGreen.graph ∧
    OnlyAddsEdges sampleGreen.graph sampleBlue.graph ∧
    OnlyAddsEdges sampleBlue.graph sampleYellow.graph ∧
    OnlyAddsEdges sampleYellow.graph sampleGraph :=
  ⟨by decide,
    (passes_only_add_edges exactOps sampleRng 5 sampleTree sampleGreen).1 (by decide),
    (passes_only_add_edges exactOps sampleRng 5 sampleGreen sampleBlue).2.1 (by decide),
    (passes_only_add_edges exactOps sampleRng 5 sampleBlue sampleYellow).2.2.1 (by decide),
    (passes_only_add_edges exactOps sampleRng 5 sampleYellow
      { sampleYellow with probs := 14 }).2.2.2 (by decide)⟩

/-- C22: for every `maxDepth`, `branchFactor` and sequence of draws,
`generate_vertices_and_gray_edges` returns, and in its graph: identities are
positions and depth never decreases with the identity; the vertices of one
depth form one block of consecutive identities; every depth from 0 up to
`get_max_depth()` is the depth of some vertex; and the vertex created last is a
deepest one, its depth being `get_max_depth()`. -/
theorem tree_pass_depth_sorted (fl : FloatOps) (rng : Rng) (fuel : Nat) (md bf : Int)
    (hfuel : treeFuel md bf ≤ fuel) :
    ∃ gen1, generate_vertices_and_gray_edges fl rng fuel ⟨emptyGraph md bf, 0, 0⟩ = .ok gen1 ∧
      (∀ (i j : Nat) (vi vj : Vertex), gen1.graph.vertices[i]? = some vi →
        gen1.graph.vertices[j]? = some vj → i < j →
        vi.id = i ∧ vj.id = j ∧ vi.depth ≤ vj.depth) ∧
      (∀ (i k j : Nat) (vi vk vj : Vertex), gen1.graph.vertices[i]? = some vi →
        gen1.graph.vertices[k]? = some vk → gen1.graph.vertices[j]? = some vj →
        i ≤ k → k ≤ j → vi.depth = vj.depth → vk.depth = vi.depth) ∧
      (∀ d : Nat, (d : Int) ≤ gen1.graph.get_max_depth →
        ∃ v ∈ gen1.graph.vertices, v.depth = d) ∧
      (∃ v, gen1.graph.vertices[gen1.graph.vertices.length - 1]? = some v ∧
        (v.depth : Int) = gen1.graph.get_max_depth ∧
        ∀ w ∈ gen1.graph.vertices, w.depth ≤ v.depth) := by
  obtain ⟨gen1, h⟩ := tree_pass_total fl rng fuel md bf hfuel
  have hw := tree_pass_wellFormed h
  obtain ⟨hcore, _, _⟩ := tree_pass_core h
  obtain ⟨g0, s, dl, _, _, hRD, hdl, hgen⟩ := tree_pass_final_state h
  have hmaxd : gen1.graph.max_depth = (dl : Int) := by rw [hgen]; rfl
  have hverts : gen1.graph.vertices = s.gen.graph.vertices := by rw [hgen]; rfl
  have hdl1 : gen1.graph.depths[gen1.graph.vertices.length - 1]? = some dl := by
    have : gen1.graph.depths = s.gen.graph.depths := by
      unfold Graph.depths; rw [hverts]
    rw [this, hverts]
    exact hdl
  refine ⟨gen1, h, ?_, ?_, ?_, ?_⟩
  · intro i j vi vj hi hj hij
    exact ⟨hw.ids.1 i vi hi, hw.ids.1 j vj hj, sorted_depths_le hcore hi hj (Nat.le_of_lt hij)⟩
  · intro i k j vi vk vj hi hk hj hik hkj hd
    have h1 := sorted_depths_le hcore hi hk hik
    have h2 := sorted_depths_le hcore hk hj hkj
    omega
  · intro d hd
    have hdle : d ≤ dl := by
      have : (d : Int) ≤ gen1.graph.max_depth := hd
      rw [hmaxd] at this
      exact_mod_cast this
    obtain ⟨k, hk⟩ := depth_populated hcore dl ⟨_, hdl1⟩ d hdle
    obtain ⟨v, hv, hvd⟩ := vertex_of_depths hk
    exact ⟨v, List.getElem?_mem hv, hvd⟩
  · obtain ⟨v, hv, hvd⟩ := vertex_of_depths hdl1
    refine ⟨v, hv, ?_, ?_⟩
    · show (v.depth : Int) = gen1.graph.max_depth
      rw [hmaxd, hvd]
    · intro w hwm
      obtain ⟨k, hk, hkw⟩ := List.getElem_of_mem hwm
      have hkv : gen1.graph.vertices[k]? = some w := by
        rw [List.getElem?_eq_getElem hk, hkw]
      exact sorted_depths_le hcore hkv hv (by omega)

theorem tree_pass_depth_sorted_witness :
    treeFuel 2 2 ≤ 5 ∧
    ∃ gen1, generate_vertices_and_gray_edges exactOps sampleRng 5 ⟨emptyGraph 2 2, 0, 0⟩ =
        .ok gen1 ∧
      (∀ (i j : Nat) (vi vj : Vertex), gen1.graph.vertices[i]? = some vi →
        gen1.graph.vertices[j]? = some vj → i < j →
        vi.id = i ∧ vj.id = j ∧ vi.depth ≤ vj.depth) ∧
      (∀ (i k j : Nat) (vi vk vj : Vertex), gen1.graph.vertices[i]? = some vi →
        gen1.graph.vertices[k]? = some vk → gen1.graph.vertices[j]? = some vj →
        i ≤ k → k ≤ j → vi.depth = vj.depth → vk.depth = vi.depth) ∧
      (∀ d : Nat, (d : Int) ≤ gen1.graph.get_max_depth →
        ∃ v ∈ gen1.graph.vertices, v.depth = d) ∧
      (∃ v, gen1.graph.vertices[gen1.graph.vertices.length - 1]? = some v ∧
        (v.depth : Int) = gen1.graph.get_max_depth ∧
        ∀ w ∈ gen1.graph.vertices, w.depth ≤ v.depth) :=
  ⟨by decide, tree_pass_depth_sorted exactOps sampleRng 5 2 2 (by decide)⟩

end MainCpp
